import Mathlib

/-!
# Adaptive rejection Metropolis sampling (`src/apop_arms.c`)

A shallow embedding of the ARMS core of apophenia.  Every C function of
`apop_arms.c` that the properties below talk about is transcribed as a Lean
function of the same name.

* `double` is an arbitrary linearly ordered field `α` (exact arithmetic); the
  three libm calls `exp`, `log`, `sqrt` are the fields of a `Libm α` record, so
  that the definitions stay executable (for instance over `ℚ`) and the
  analytic statements are made at `α = ℝ` with `Real.exp`, `Real.log`,
  `Real.sqrt`.
* `POINT *` is an index into the arena `env->p` (a map from slots to points);
  `NULL` is `none`.
* A C function that can stop the program (`exit`, `apop_error (0, 's', ...)`,
  `assert`, a `NULL` dereference) returns `Except Fault _`; a pointer walk gets
  a step budget and reports `Fault.fuel` when the budget is used up.
* `gsl_rng_uniform (r)` reads the next element of a stream of draws.
-/

namespace Arms

/-! ## Constants -/

section Constants
variable {α : Type} [LinearOrderedField α]

/-- XEPS, the critical relative x-value difference: `#define XEPS 0.00001`. -/
def XEPS : α := 1 / 100000

/-- YEPS, the critical y-value difference: `#define YEPS 0.1`. -/
def YEPS : α := 1 / 10

/-- EYEPS, the critical relative exp(y) difference: `#define EYEPS 0.001`. -/
def EYEPS : α := 1 / 1000

/-- YCEIL, the maximum y avoiding overflow in exp(y): `#define YCEIL 50.`. -/
def YCEIL : α := 50

end Constants

/-! ## Data model -/

/-- Ways in which the C program stops instead of returning. -/
inductive Fault where
  /-- The call `exit (code)`. -/
  | exit (code : Nat)
  /-- The call `apop_error (0, 's', "error code: ...")` or
  `apop_assert_void (0, 0, 's', ...)`: message printed, program halted. -/
  | error (code : Nat)
  /-- A failed `assert (...)`. -/
  | assert
  /-- A dereference of a `NULL` neighbour pointer. -/
  | null
  /-- A pointer walk that did not end within the step budget. -/
  | fuel
  /-- An `int` computation whose value left the range of `int`, followed by a
  use of the wrapped value that the state type does not represent. -/
  | overflow
  deriving DecidableEq, Repr

/-- The C struct `POINT`: one point of the envelope.  The field `f` is the flag
"is `y` an evaluated value of the log density" (on-curve when non-zero); `pl`
and `pr` are the left and right neighbour pointers. -/
structure POINT (α : Type) where
  x : α
  y : α
  ey : α
  cum : α
  f : Int
  pl : Option Nat
  pr : Option Nat

/-- The C struct `arms_state`.  The field `p` is the arena `env->p`; `convex`
holds the value that the pointer `env->convex` points to. -/
structure arms_state (α : Type) where
  cpoint : Nat
  npoint : Nat
  p : Nat → POINT α
  ymax : α
  convex : α
  metro_xprev : α
  metro_yprev : α

/-- The C struct `apop_arms_settings` (without the `state` pointer, which is
passed alongside).  The field `model` is the log likelihood of the model at a
point, as computed by `apop_log_likelihood`. -/
structure apop_arms_settings (α : Type) where
  xinit : Nat → α
  ninit : Nat
  xl : α
  xr : α
  convex : α
  npoint : Nat
  do_metro : Int
  xprev : α
  neval : Nat
  model : α → α

/-- The three libm functions used by the sampler. -/
structure Libm (α : Type) where
  exp : α → α
  log : α → α
  sqrt : α → α

/-- The random number generator `r`: a stream of uniform draws and the number
of draws made so far. -/
structure Rng (α : Type) where
  draws : Nat → α
  pos : Nat

/-- The call `gsl_rng_uniform (r)`: the next draw, and the advanced generator. -/
def gsl_rng_uniform {α : Type} (r : Rng α) : α × Rng α :=
  (r.draws r.pos, { r with pos := r.pos + 1 })

/-- The value stored in an `int` for the mathematical value `z` on a
two's-complement machine with 32-bit `int`: `z` reduced to `[-2^31, 2^31)`. -/
def int_wrap (z : Int) : Int := (z + 2 ^ 31) % 2 ^ 32 - 2 ^ 31

/-- Dereference of a neighbour pointer. -/
def deref (q : Option Nat) : Except Fault Nat :=
  match q with
  | some i => .ok i
  | none => .error .null

section Code
variable {α : Type} [LinearOrderedField α]

/-! ## `expshift`, `logshift`, `perfunc`, `area` -/

/-- The C function `expshift`: exponentiate shifted y without underflow. -/
def expshift (m : Libm α) (y y0 : α) : α :=
  if y - y0 > -2 * YCEIL then m.exp (y - y0 + YCEIL) else 0

/-- The C function `logshift`: inverse of function expshift. -/
def logshift (m : Libm α) (y y0 : α) : α :=
  m.log y + y0 - YCEIL

/-- The C function `perfunc`: evaluate the log density and increment the count
of evaluations. -/
def perfunc (params : apop_arms_settings α) (x : α) : α × apop_arms_settings α :=
  (params.model x, { params with neval := params.neval + 1 })

/-- The C function `area`: integrate the piece of exponentiated envelope to
the left of point `q`. -/
def area (P : Nat → POINT α) (q : Nat) : Except Fault α :=
  match (P q).pl with
  | none => .error (.exit 1)
  | some l =>
    if (P l).x = (P q).x then .ok 0
    else if |(P q).y - (P l).y| < YEPS then
      .ok (1 / 2 * ((P q).ey + (P l).ey) * ((P q).x - (P l).x))
    else
      .ok ((((P q).ey - (P l).ey) / ((P q).y - (P l).y)) * ((P q).x - (P l).x))

/-! ## `cumulate` -/

/-- The loop `while (q->pl) q = q->pl`. -/
def leftmost (P : Nat → POINT α) : Nat → Nat → Except Fault Nat
  | 0, _ => .error .fuel
  | n + 1, q =>
    match (P q).pl with
    | none => .ok q
    | some l => leftmost P n l

/-- The loop `while (q->pr != NULL) q = q->pr`. -/
def rightmost (P : Nat → POINT α) : Nat → Nat → Except Fault Nat
  | 0, _ => .error .fuel
  | n + 1, q =>
    match (P q).pr with
    | none => .ok q
    | some r => rightmost P n r

/-- First loop of `cumulate`: `for (q = ...; q != NULL; q = q->pr)
if (q->y > env->ymax) env->ymax = q->y`. -/
def cumulate_ymax (P : Nat → POINT α) : Nat → Option Nat → α → Except Fault α
  | _, none, ym => .ok ym
  | 0, some _, _ => .error .fuel
  | n + 1, some q, ym =>
    cumulate_ymax P n (P q).pr (if (P q).y > ym then (P q).y else ym)

/-- Second loop of `cumulate`: `q->ey = expshift (q->y, env->ymax)` along the
chain. -/
def cumulate_ey (m : Libm α) (ymax : α) :
    Nat → Option Nat → (Nat → POINT α) → Except Fault (Nat → POINT α)
  | _, none, P => .ok P
  | 0, some _, _ => .error .fuel
  | n + 1, some q, P =>
    let e := expshift m (P q).y ymax
    let P1 := Function.update P q { P q with ey := e }
    cumulate_ey m ymax n (P1 q).pr P1

/-- Third loop of `cumulate`: `q->cum = q->pl->cum + area (q)` along the chain.
A missing left neighbour stops the program (in `area` or at `q->pl->cum`,
whichever operand is evaluated first). -/
def cumulate_cum : Nat → Option Nat → (Nat → POINT α) → Except Fault (Nat → POINT α)
  | _, none, P => .ok P
  | 0, some _, _ => .error .fuel
  | n + 1, some q, P =>
    match area P q with
    | .error e => .error e
    | .ok a =>
      match (P q).pl with
      | none => .error .null
      | some l =>
        let P1 := Function.update P q { P q with cum := (P l).cum + a }
        cumulate_cum n (P1 q).pr P1

/-- The C function `cumulate`: exponentiate and integrate the envelope.  Each
of its loops may take `fuel` steps. -/
def cumulate (m : Libm α) (fuel : Nat) (env : arms_state α) : Except Fault (arms_state α) :=
  match leftmost env.p fuel 0 with
  | .error e => .error e
  | .ok qlmost =>
    match cumulate_ymax env.p fuel (env.p qlmost).pr (env.p qlmost).y with
    | .error e => .error e
    | .ok ymax =>
      match cumulate_ey m ymax fuel (some qlmost) env.p with
      | .error e => .error e
      | .ok P1 =>
        let P2 := Function.update P1 qlmost { P1 qlmost with cum := 0 }
        match cumulate_cum fuel (P2 qlmost).pr P2 with
        | .error e => .error e
        | .ok P3 => .ok { env with ymax := ymax, p := P3 }

/-! ## `meet` -/

/-- Left chord gradient of `meet`: defined when `(q->pl != NULL) &&
(q->pl->pl->pl != NULL)`, the gradient of the chord through `q->pl` and
`q->pl->pl->pl`. -/
def meet_gl (P : Nat → POINT α) (q : Nat) : Except Fault (Option α) :=
  match (P q).pl with
  | none => .ok none
  | some l =>
    match (P l).pl with
    | none => .error .null
    | some ll =>
      match (P ll).pl with
      | none => .ok none
      | some lll => .ok (some (((P l).y - (P lll).y) / ((P l).x - (P lll).x)))

/-- Right chord gradient of `meet`: defined when `(q->pr != NULL) &&
(q->pr->pr->pr != NULL)`. -/
def meet_gr (P : Nat → POINT α) (q : Nat) : Except Fault (Option α) :=
  match (P q).pr with
  | none => .ok none
  | some r =>
    match (P r).pr with
    | none => .error .null
    | some rr =>
      match (P rr).pr with
      | none => .ok none
      | some rrr => .ok (some (((P r).y - (P rrr).y) / ((P r).x - (P rrr).x)))

/-- Chord gradient across the interval in `meet`: defined when `(q->pl != NULL)
&& (q->pr != NULL)`. -/
def meet_grl (P : Nat → POINT α) (q : Nat) : Option α :=
  match (P q).pl, (P q).pr with
  | some l, some r => some (((P r).y - (P l).y) / ((P r).x - (P l).x))
  | _, _ => none

/-- The flooring `if (d < YEPS) d = YEPS` of `meet`. -/
def meet_floor (d : α) : α := if d < YEPS then YEPS else d

/-- Width `q->pr->x - q->pl->x` of the interval of `q` (read only when both
neighbours exist). -/
def meet_width (P : Nat → POINT α) (q : Nat) : α :=
  match (P q).pl, (P q).pr with
  | some l, some r => (P r).x - (P l).x
  | _, _ => 0

/-- End of `meet`: with `q->x` and `q->y` stored, the test for error 32
(intersection point outside interval) and the successful exit. -/
def meet_check (q : Nat) (env : arms_state α) (x y : α) : Except Fault (Int × arms_state α) :=
  let P := env.p
  let below := match (P q).pl with
    | some l => decide (x < (P l).x)
    | none => false
  let above := match (P q).pr with
    | some r => decide (x > (P r).x)
    | none => false
  if below || above then .error (.error 32)
  else .ok (0, { env with p := Function.update P q { P q with x := x, y := y } })

/-- The final case distinction of `meet` on `il`, `ir`, `irl`: where the
intersection is stored. -/
def meet_store (q : Nat) (env : arms_state α) (il ir irl : Bool) (gl gr dl dr : α) :
    Except Fault (Int × arms_state α) :=
  let P := env.p
  if il && ir && irl then
    match (P q).pl, (P q).pr with
    | some l, some r =>
      meet_check q env ((dl * (P r).x + dr * (P l).x) / (dl + dr))
        ((dl * (P r).y + dr * (P l).y + dl * dr) / (dl + dr))
    | _, _ => .error .null
  else if il && irl then
    match (P q).pr with
    | some r => meet_check q env (P r).x ((P r).y + dr)
    | none => .error .null
  else if ir && irl then
    match (P q).pl with
    | some l => meet_check q env (P l).x ((P l).y + dl)
    | none => .error .null
  else if il then
    match (P q).pl with
    | some l => meet_check q env (P q).x ((P l).y + gl * ((P q).x - (P l).x))
    | none => .error .null
  else if ir then
    match (P q).pr with
    | some r => meet_check q env (P q).x ((P r).y - gr * ((P r).x - (P q).x))
    | none => .error .null
  else .error (.error 31)

/-- The C function `meet`: find where two chords intersect, and store the
point of intersection in `q`.  Returns 1 on an envelope violation without
metropolis, 0 on success. -/
def meet (q : Nat) (env : arms_state α) (params : apop_arms_settings α) :
    Except Fault (Int × arms_state α) :=
  let P := env.p
  if (P q).f ≠ 0 then .error (.error 30)
  else
    match meet_gl P q with
    | .error e => .error e
    | .ok ogl =>
      match meet_gr P q with
      | .error e => .error e
      | .ok ogr =>
        let il := ogl.isSome
        let ir := ogr.isSome
        let irl := (meet_grl P q).isSome
        let gl0 := ogl.getD 0
        let gr0 := ogr.getD 0
        let grl := (meet_grl P q).getD 0
        if (irl && il && decide (gl0 < grl)) && decide (params.do_metro = 0) then .ok (1, env)
        else
          let gl := if irl && il && decide (gl0 < grl)
            then gl0 + (1 + env.convex) * (grl - gl0) else gl0
          if (irl && ir && decide (gr0 > grl)) && decide (params.do_metro = 0) then .ok (1, env)
          else
            let gr := if irl && ir && decide (gr0 > grl)
              then gr0 + (1 + env.convex) * (grl - gr0) else gr0
            let dr := if il && irl then meet_floor ((gl - grl) * meet_width P q) else 0
            let dl := if ir && irl then meet_floor ((grl - gr) * meet_width P q) else 0
            meet_store q env il ir irl gl gr dl dr

/-! ## `initial` -/

/-- The loop `for (i = 1; i < ninit; i++) apop_assert (xinit[i] > xinit[i-1],
1004, ...)` of `initial`: true when no assertion fails. -/
def initial_ordered (xinit : Nat → α) (ninit : Nat) : Bool :=
  (List.range' 1 (ninit - 1)).all fun i => decide (xinit i > xinit (i - 1))

/-- The loop `for (j = 1, k = 0; j < mpoint - 1; j++)` of `initial`, with the
number of iterations left as first argument: slot `j` becomes a point on the
log density (odd `j`) or an intersection point (even `j`). -/
def initial_points : Nat → Nat → Nat → (Nat → POINT α) → apop_arms_settings α →
    (Nat → POINT α) × apop_arms_settings α
  | 0, _, _, P, params => (P, params)
  | n + 1, j, k, P, params =>
    if j % 2 ≠ 0 then
      let x := params.xinit k
      let yp := perfunc params x
      initial_points n (j + 1) (k + 1)
        (Function.update P j
          { P j with x := x, y := yp.1, f := 1, pl := some (j - 1), pr := some (j + 1) })
        yp.2
    else
      initial_points n (j + 1) k
        (Function.update P j { P j with f := 0, pl := some (j - 1), pr := some (j + 1) })
        params

/-- The loop `for (j = 0; j < mpoint; j = j + 2, q = q + 2) apop_assert
(!meet (q, env, params), 2000, ...)` of `initial`, with the number of
iterations left as first argument. -/
def initial_meets (params : apop_arms_settings α) :
    Nat → Nat → arms_state α → Except Fault (Int × arms_state α)
  | 0, _, env => .ok (0, env)
  | n + 1, j, env =>
    match meet j env params with
    | .error e => .error e
    | .ok (rc, env1) =>
      if rc ≠ 0 then .ok (2000, env1) else initial_meets params n (j + 2) env1

/-- The body of `initial` after the validation of the configuration: set up
the envelope points in the block `mem`, calculate the intersection points, and
exponentiate and integrate the envelope.  It is entered with `mpoint` equal to
`2*ninit+1` (see `initial`). -/
def initial_envelope (m : Libm α) (fuel : Nat) (mem : Nat → POINT α)
    (params : apop_arms_settings α) (env : arms_state α) :
    Except Fault (Int × apop_arms_settings α × arms_state α) :=
  let mpoint := 2 * params.ninit + 1
  let params1 := { params with neval := 0 }
  let env1 := { env with convex := params.convex, npoint := params.npoint, p := mem }
  let P0 := Function.update mem 0 { mem 0 with x := params.xl, f := 0, pl := none, pr := some 1 }
  let Pp := initial_points (mpoint - 2) 1 0 P0 params1
  let last := mpoint - 1
  let P2 := Function.update Pp.1 last
    { Pp.1 last with x := params.xr, f := 0, pl := some (last - 1), pr := none }
  match initial_meets Pp.2 (params.ninit + 1) 0 { env1 with p := P2 } with
  | .error e => .error e
  | .ok (rc, env2) =>
    if rc ≠ 0 then .ok (2000, Pp.2, env2)
    else
      match cumulate m fuel env2 with
      | .error e => .error e
      | .ok env3 => .ok (0, Pp.2, { env3 with cpoint := mpoint })

/-- The C function `initial`: set up the initial envelope.  The argument `mem`
is the block returned by `malloc` for `env->p`.  Returns the error code (0 on
success) with the settings and the state as left by the call.

The first statement is `int mpoint = 2*params->ninit + 1;` on `int` fields:
for `ninit ≥ 2^30` the stored value wraps, and the five validation tests that
follow run with the wrapped value.  When they all pass with a wrapped (hence
negative) `mpoint`, the C code skips both of its loops, hands the never
assigned `y` of the two end points to `cumulate` and stores the negative value
in `env->cpoint`; the field `cpoint : Nat` of `arms_state` has no such value,
and that path ends in `Fault.overflow`. -/
def initial (m : Libm α) (fuel : Nat) (mem : Nat → POINT α)
    (params : apop_arms_settings α) (env : arms_state α) :
    Except Fault (Int × apop_arms_settings α × arms_state α) :=
  let mpoint : Int := int_wrap (2 * (params.ninit : Int) + 1)
  if ¬ (params.ninit ≥ 3) then .ok (1001, params, env)
  else if ¬ ((params.npoint : Int) ≥ mpoint) then .ok (1002, params, env)
  else if ¬ (params.xinit 0 > params.xl ∧ params.xinit (params.ninit - 1) < params.xr) then
    .ok (1003, params, env)
  else if ¬ (initial_ordered params.xinit params.ninit = true) then .ok (1004, params, env)
  else if ¬ (params.convex ≥ 0) then .ok (1008, params, env)
  else if mpoint ≠ 2 * (params.ninit : Int) + 1 then .error .overflow
  else initial_envelope m fuel mem params env

/-! ## `invert`, `sample` -/

/-- The loop `while (q->pl->cum > u) q = q->pl` of `invert`. -/
def invert_walk (P : Nat → POINT α) (u : α) : Nat → Nat → Except Fault Nat
  | 0, _ => .error .fuel
  | n + 1, q =>
    match (P q).pl with
    | none => .error .null
    | some l => if (P l).cum > u then invert_walk P u n l else .ok q

/-- The guard at the end of `invert`: `if ((p->x < xl) || (p->x > xr)) exit (1)`,
where `xl` and `xr` are the local variables of `invert`. -/
def invert_guard (xl xr : α) (p : POINT α) : Except Fault (POINT α) :=
  if p.x < xl ∨ p.x > xr then .error (.exit 1) else .ok p

/-- The C function `invert`: obtain a point corresponding to a given
cumulative probability.  The working point `p` is returned as left by the
call. -/
def invert (m : Libm α) (fuel : Nat) (prob : α) (env : arms_state α) (p : POINT α) :
    Except Fault (POINT α) :=
  match rightmost env.p fuel 0 with
  | .error e => .error e
  | .ok q0 =>
    let u := prob * (env.p q0).cum
    match invert_walk env.p u fuel q0 with
    | .error e => .error e
    | .ok q =>
      match (env.p q).pl with
      | none => .error .null
      | some l =>
        let L := env.p l
        let R := env.p q
        let p1 := { p with pl := some l, pr := some q, f := 0, cum := u }
        let prop := (u - L.cum) / (R.cum - L.cum)
        if L.x = R.x then
          -- interval is of zero length; the locals xl, xr still hold 0
          invert_guard 0 0 { p1 with x := R.x, y := R.y, ey := R.ey }
        else
          let xl := L.x
          let xr := R.x
          let yl := L.y
          let yr := R.y
          let eyl := L.ey
          let eyr := R.ey
          if |yr - yl| < YEPS then
            let x :=
              if |eyr - eyl| > EYEPS * |eyr + eyl| then
                xl + ((xr - xl) / (eyr - eyl))
                  * (-eyl + m.sqrt ((1 - prop) * eyl * eyl + prop * eyr * eyr))
              else xl + (xr - xl) * prop
            let ey := ((x - xl) / (xr - xl)) * (eyr - eyl) + eyl
            let y := logshift m ey env.ymax
            invert_guard xl xr { p1 with x := x, ey := ey, y := y }
          else
            let x := xl + ((xr - xl) / (yr - yl))
              * (-yl + logshift m ((1 - prop) * eyl + prop * eyr) env.ymax)
            let y := ((x - xl) / (xr - xl)) * (yr - yl) + yl
            let ey := expshift m y env.ymax
            invert_guard xl xr { p1 with x := x, y := y, ey := ey }

/-- The C function `sample`: sample from the piecewise exponential envelope. -/
def sample (m : Libm α) (fuel : Nat) (r : Rng α) (env : arms_state α) (p : POINT α) :
    Except Fault (Rng α × POINT α) :=
  let d := gsl_rng_uniform r
  match invert m fuel d.1 env p with
  | .error e => .error e
  | .ok p1 => .ok (d.2, p1)

/-! ## `update` -/

/-- The splice of `update`: link the new point `qi` and the new intersection
`mi` between the neighbours of the working point `p`. -/
def update_splice (P : Nat → POINT α) (p : POINT α) (qi mi : Nat) :
    Except Fault (Nat → POINT α) := do
  let l ← deref p.pl
  let r ← deref p.pr
  if (P l).f ≠ 0 ∧ ¬ ((P r).f ≠ 0) then
    -- left end of piece is on log density; right end is not
    let P1 := Function.update P mi { P mi with pl := p.pl }
    let P2 := Function.update P1 mi { P1 mi with pr := some qi }
    let P3 := Function.update P2 qi { P2 qi with pl := some mi }
    let P4 := Function.update P3 qi { P3 qi with pr := p.pr }
    let a ← deref (P4 mi).pl
    let P5 := Function.update P4 a { P4 a with pr := some mi }
    let b ← deref (P5 qi).pr
    pure (Function.update P5 b { P5 b with pl := some qi })
  else if ¬ ((P l).f ≠ 0) ∧ (P r).f ≠ 0 then
    -- left end of interval is not on log density; right end is
    let P1 := Function.update P mi { P mi with pr := p.pr }
    let P2 := Function.update P1 mi { P1 mi with pl := some qi }
    let P3 := Function.update P2 qi { P2 qi with pr := some mi }
    let P4 := Function.update P3 qi { P3 qi with pl := p.pl }
    let a ← deref (P4 mi).pr
    let P5 := Function.update P4 a { P4 a with pl := some mi }
    let b ← deref (P5 qi).pl
    pure (Function.update P5 b { P5 b with pr := some qi })
  else .error (.exit 10)

/-- The adjustment of `update`: move `q` if it is too close to an end point of
its interval, and evaluate the log density at its new position. -/
def update_adjust (P : Nat → POINT α) (params : apop_arms_settings α) (qi : Nat) :
    Except Fault ((Nat → POINT α) × apop_arms_settings α) := do
  let l ← deref (P qi).pl
  let r ← deref (P qi).pr
  let ql := match (P l).pl with
    | some ll => ll
    | none => l
  let qr := match (P r).pr with
    | some rr => rr
    | none => r
  if (P qi).x < (1 - XEPS) * (P ql).x + XEPS * (P qr).x then
    let x := (1 - XEPS) * (P ql).x + XEPS * (P qr).x
    let yp := perfunc params x
    pure (Function.update P qi { P qi with x := x, y := yp.1 }, yp.2)
  else if (P qi).x > XEPS * (P ql).x + (1 - XEPS) * (P qr).x then
    let x := XEPS * (P ql).x + (1 - XEPS) * (P qr).x
    let yp := perfunc params x
    pure (Function.update P qi { P qi with x := x, y := yp.1 }, yp.2)
  else pure (P, params)

/-- The revision of intersection points in `update`: `meet (q->pl) || meet
(q->pr) || (q->pl->pl != NULL && meet (q->pl->pl->pl)) || (q->pr->pr != NULL &&
meet (q->pr->pr->pr))`, evaluated left to right; the boolean says whether some
call reported a violation. -/
def update_meets (env : arms_state α) (params : apop_arms_settings α) (qi : Nat) :
    Except Fault (Bool × arms_state α) := do
  let l ← deref (env.p qi).pl
  let r1 ← meet l env params
  if r1.1 ≠ 0 then pure (true, r1.2)
  else
    let r ← deref (r1.2.p qi).pr
    let r2 ← meet r r1.2 params
    if r2.1 ≠ 0 then pure (true, r2.2)
    else
      let l2 ← deref (r2.2.p qi).pl
      let r3 ← (match (r2.2.p l2).pl with
        | none => pure (0, r2.2)
        | some ll => do
          let lll ← deref (r2.2.p ll).pl
          meet lll r2.2 params)
      if r3.1 ≠ 0 then pure (true, r3.2)
      else
        let rr0 ← deref (r3.2.p qi).pr
        let r4 ← (match (r3.2.p rr0).pr with
          | none => pure (0, r3.2)
          | some rr => do
            let rrr ← deref (r3.2.p rr).pr
            meet rrr r3.2 params)
        if r4.1 ≠ 0 then pure (true, r4.2) else pure (false, r4.2)

/-- The C function `update`: update the envelope to incorporate a new point on
the log density.  Returns 1 on an envelope violation, 0 otherwise. -/
def update (m : Libm α) (fuel : Nat) (env : arms_state α) (p : POINT α)
    (params : apop_arms_settings α) :
    Except Fault (Int × arms_state α × apop_arms_settings α) :=
  if ¬ (p.f ≠ 0) ∨ ((env.cpoint : Int) > (env.npoint : Int) - 2) then
    -- y-value has not been evaluated or no room for further points
    .ok (0, env, params)
  else do
    -- copy working POINT p to a new POINT q
    let qi := env.cpoint
    let P1 := Function.update env.p qi { env.p qi with x := p.x, y := p.y, f := 1 }
    -- allocate an unused POINT for a new intersection
    let mi := env.cpoint + 1
    let P2 := Function.update P1 mi { P1 mi with f := 0 }
    let P3 ← update_splice P2 p qi mi
    let adj ← update_adjust P3 params qi
    let env1 := { env with cpoint := env.cpoint + 2, p := adj.1 }
    let rv ← update_meets env1 adj.2 qi
    if rv.1 then pure (1, rv.2, adj.2)
    else
      let env2 ← cumulate m fuel rv.2
      pure (0, env2, adj.2)

/-! ## `test` -/

/-- The squeezing test of `test`: `some ysqueez` when the test is performed
(no metropolis, and both `p->pl->pl` and `p->pr->pr` exist). -/
def test_squeeze (env : arms_state α) (p : POINT α) (params : apop_arms_settings α)
    (l r : Nat) : Option α :=
  let P := env.p
  if params.do_metro = 0 then
    match (P l).pl, (P r).pr with
    | some ll, some rr =>
      let ql := if (P l).f ≠ 0 then l else ll
      let qr := if (P r).f ≠ 0 then r else rr
      some (((P qr).y * (p.x - (P ql).x) + (P ql).y * ((P qr).x - p.x))
        / ((P qr).x - (P ql).x))
    | _, _ => none
  else none

/-- The loop `while (ql->pr->x < env->metro_xprev) ql = ql->pr` of `test`. -/
def test_walk (P : Nat → POINT α) (xprev : α) : Nat → Nat → Except Fault Nat
  | 0, _ => .error .fuel
  | n + 1, ql =>
    match (P ql).pr with
    | none => .error .null
    | some r => if (P r).x < xprev then test_walk P xprev n r else .ok ql

/-- The acceptance probability of the metropolis step of `test`, from the new
log density value `ynew`, the working point's `y`, the previous iterate's log
density `yold` and the envelope height `zold` at the previous iterate. -/
def test_accept (m : Libm α) (ynew py yold zold : α) : α :=
  let znew := py
  let zold1 := if yold < zold then yold else zold
  let znew1 := if ynew < znew then ynew else znew
  let w := ynew - znew1 - yold + zold1
  let w1 := if w < 0 then w else 0
  if w1 > -YCEIL then m.exp w1 else 0

/-- The metropolis step of `test` (from `yold = env->metro_yprev` on). -/
def test_metro (m : Libm α) (fuel : Nat) (r : Rng α) (env : arms_state α) (p : POINT α)
    (params : apop_arms_settings α) (ynew : α) :
    Except Fault (Int × Rng α × arms_state α × POINT α × apop_arms_settings α) := do
  let yold := env.metro_yprev
  -- find envelope piece containing metrop->xprev
  let q0 ← leftmost env.p fuel 0
  let ql ← test_walk env.p env.metro_xprev fuel q0
  let qr ← deref (env.p ql).pr
  -- calculate height of envelope at metrop->xprev
  let w := (env.metro_xprev - (env.p ql).x) / ((env.p qr).x - (env.p ql).x)
  let zold := (env.p ql).y + w * ((env.p qr).y - (env.p ql).y)
  let w2 := test_accept m ynew p.y yold zold
  let d := gsl_rng_uniform r
  let eyprev := expshift m env.metro_yprev env.ymax
  if d.1 > w2 then
    -- metropolis says do not move: replace current point with previous iterate
    pure (1, d.2, env,
      { p with x := env.metro_xprev, y := env.metro_yprev, ey := eyprev, f := 1,
               pl := some ql, pr := some qr }, params)
  else
    -- trial point accepted by metropolis: update previous markov chain iterate
    pure (1, d.2, { env with metro_xprev := p.x, metro_yprev := ynew }, p, params)

/-- The C function `test`: perform rejection, squeezing, and metropolis tests.
Returns 1 (accepted), 0 (rejected) or -1 (envelope violation), with the
generator, the state, the working point and the settings as left by the
call. -/
def test (m : Libm α) (fuel : Nat) (r : Rng α) (env : arms_state α) (p : POINT α)
    (params : apop_arms_settings α) :
    Except Fault (Int × Rng α × arms_state α × POINT α × apop_arms_settings α) :=
  match p.pl, p.pr with
  | some l, some rt =>
    -- for rejection test
    let d := gsl_rng_uniform r
    let u := d.1 * p.ey
    let y := logshift m u env.ymax
    if (match test_squeeze env p params l rt with
        | some ysqueez => decide (y ≤ ysqueez)
        | none => false) then
      -- accept point at squeezing step
      .ok (1, d.2, env, p, params)
    else
      -- evaluate log density at point to be tested
      let yp := perfunc params p.x
      let ynew := yp.1
      if ¬ (params.do_metro ≠ 0) ∨ (params.do_metro ≠ 0 ∧ y ≥ ynew) then
        -- update envelope
        let eynew := expshift m ynew env.ymax
        let p1 := { p with y := ynew, ey := eynew, f := 1 }
        match update m fuel env p1 yp.2 with
        | .error e => .error e
        | .ok (rc, env1, params1) =>
          if rc ≠ 0 then .ok (-1, d.2, env1, p1, params1)
          else .ok (if y < ynew then 1 else 0, d.2, env1, p1, params1)
      else test_metro m fuel d.2 env p yp.2 ynew
  | _, _ => .error .assert

/-! ## `apop_arms_draw`, `apop_arms_settings_init` -/

/-- Result of `apop_arms_draw`: the value written to `*out` (`none` when
`*out` was left untouched), the number of rejected samples `msamp`, and the
generator, state and settings as left by the call. -/
structure DrawResult (α : Type) where
  out : Option α
  msamp : Nat
  rng : Rng α
  state : arms_state α
  params : apop_arms_settings α

/-- One pass through the body of the loop of `apop_arms_draw`: `sample (state,
&pwork); int i = test (state, &pwork, params);`. -/
def draw_attempt (m : Libm α) (fuel : Nat) (r : Rng α) (state : arms_state α)
    (pwork : POINT α) (params : apop_arms_settings α) :
    Except Fault (Int × Rng α × arms_state α × POINT α × apop_arms_settings α) :=
  -- sample a new point
  match sample m fuel r state pwork with
  | .error e => .error e
  | .ok (r1, pw) =>
    -- perform rejection (and perhaps metropolis) tests
    test m fuel r1 state pw params

/-- The `do ... while (msamp < 1e4)` loop of `apop_arms_draw`; the first
argument bounds the number of iterations still to be made. -/
def apop_arms_draw_loop (m : Libm α) (fuel : Nat) :
    Nat → Nat → Rng α → arms_state α → POINT α → apop_arms_settings α →
    Except Fault (DrawResult α)
  | 0, _, _, _, _, _ => .error .fuel
  | k + 1, msamp, r, state, pwork, params =>
    match draw_attempt m fuel r state pwork params with
    | .error e => .error e
    | .ok (i, r2, state1, pw1, params1) =>
      if i = 1 then
        -- point accepted
        .ok ⟨some pw1.x, msamp, r2, state1, params1⟩
      else if i ≠ 0 then .error (.error 0)
      else if msamp + 1 < 10000 then
        apop_arms_draw_loop m fuel k (msamp + 1) r2 state1 pw1 params1
      else .ok ⟨none, msamp + 1, r2, state1, params1⟩

/-- The generator, state, working point and settings after `n` passes through
the loop body of `apop_arms_draw` that all ended with `test` returning 0
(`none` if one of them did not). -/
def draw_rejected (m : Libm α) (fuel : Nat) :
    Nat → Rng α × arms_state α × POINT α × apop_arms_settings α →
    Option (Rng α × arms_state α × POINT α × apop_arms_settings α)
  | 0, s => some s
  | n + 1, s =>
    match draw_attempt m fuel s.1 s.2.1 s.2.2.1 s.2.2.2 with
    | .ok (i, s1) => if i = 0 then draw_rejected m fuel n s1 else none
    | .error _ => none

/-- The C function `apop_arms_draw`, from `POINT pwork; int msamp = 0;` on.
The argument `pwork` is the uninitialised working point. -/
def apop_arms_draw (m : Libm α) (fuel : Nat) (r : Rng α) (state : arms_state α)
    (pwork : POINT α) (params : apop_arms_settings α) : Except Fault (DrawResult α) :=
  apop_arms_draw_loop m fuel 10000 0 r state pwork params

/-- The C function `apop_arms_settings_init`, from the allocation of the state
on: `out` holds the settings after the defaults have been filled in, `st0` is
the freshly allocated state.  Returns `none` for the `NULL` result when
`initial` reports an error. -/
def apop_arms_settings_init (m : Libm α) (fuel : Nat) (mem : Nat → POINT α)
    (st0 : arms_state α) (out : apop_arms_settings α) :
    Except Fault (Option (apop_arms_settings α × arms_state α)) :=
  match initial m fuel mem out st0 with
  | .error e => .error e
  | .ok (err, out1, st) =>
    if err ≠ 0 then .ok none
    else if out1.do_metro ≠ 0 then
      -- finish setting up metropolis struct
      let yp := perfunc out1 out1.xprev
      .ok (some (yp.2, { st with metro_xprev := out1.xprev, metro_yprev := yp.1 }))
    else .ok (some (out1, st))

/-! ## Frame conditions -/

/-- The fields of the state that neither `meet` nor `cumulate` writes. -/
def SameScalars (env env1 : arms_state α) : Prop :=
  env1.cpoint = env.cpoint ∧ env1.npoint = env.npoint ∧ env1.convex = env.convex ∧
    env1.metro_xprev = env.metro_xprev ∧ env1.metro_yprev = env.metro_yprev

/-- What calls of `meet` leave alone in the arena: everything but `x` and `y` of
points that are not on the log density, and also `x` of the two end points. -/
def MeetFrame (P P1 : Nat → POINT α) : Prop :=
  ∀ i, (P1 i).ey = (P i).ey ∧ (P1 i).cum = (P i).cum ∧ (P1 i).f = (P i).f ∧
    (P1 i).pl = (P i).pl ∧ (P1 i).pr = (P i).pr ∧
    ((P i).f ≠ 0 → (P1 i).x = (P i).x ∧ (P1 i).y = (P i).y) ∧
    ((P i).pl = none ∨ (P i).pr = none → (P1 i).x = (P i).x)

/-- What `cumulate` leaves alone in the arena: everything but `ey` and `cum`. -/
def CumFrame (P P1 : Nat → POINT α) : Prop :=
  ∀ i, (P1 i).x = (P i).x ∧ (P1 i).y = (P i).y ∧ (P1 i).f = (P i).f ∧
    (P1 i).pl = (P i).pl ∧ (P1 i).pr = (P i).pr

/-- An arena of two points at the same abscissa `x = 1`, with zero heights and
zero cumulative integrals: slot 0 is the left end, slot 1 the right end. -/
def deg_arena : Nat → POINT α
  | 0 => ⟨1, 0, 0, 0, 0, none, some 1⟩
  | _ => ⟨1, 0, 0, 0, 0, some 0, none⟩

/-- The state whose envelope is `deg_arena`. -/
def deg_env : arms_state α := ⟨2, 2, deg_arena, 0, 0, 0, 0⟩

/-- An arena of two points: the left end at `x = 0` and the right end at
`x = 1`, both of height 0. -/
def two_arena : Nat → POINT α
  | 0 => ⟨0, 0, 0, 0, 0, none, some 1⟩
  | _ => ⟨1, 0, 0, 0, 0, some 0, none⟩

/-- A state over `two_arena` whose cached previous iterate is `x = 1/2` with
log density 2. -/
def two_env : arms_state α := ⟨2, 2, two_arena, 0, 0, 1 / 2, 2⟩

/-- Settings with Metropolis enabled and the log density `0`. -/
def two_settings : apop_arms_settings α :=
  { xinit := fun _ => 0, ninit := 3, xl := 0, xr := 1, convex := 0, npoint := 2,
    do_metro := 1, xprev := 1 / 2, neval := 0, model := fun _ => 0 }

/-- A working point at `x = 1/4` in the only piece of `two_arena`, with height
`y = -1` and `ey = 1`. -/
def two_work : POINT α := ⟨1 / 4, -1, 1, 0, 0, some 0, some 1⟩

/-- A chain of seven points: slots 0, 2, 4, 6 lie on the log density `-x^2` at
`x = -3, -1, 1, 3`; slots 1, 3, 5 are intersection points. -/
def cross_arena : Nat → POINT α
  | 0 => ⟨-3, -9, 0, 0, 1, none, some 1⟩
  | 1 => ⟨-2, 0, 0, 0, 0, some 0, some 2⟩
  | 2 => ⟨-1, -1, 0, 0, 1, some 1, some 3⟩
  | 3 => ⟨0, 0, 0, 0, 0, some 2, some 4⟩
  | 4 => ⟨1, -1, 0, 0, 1, some 3, some 5⟩
  | 5 => ⟨2, 0, 0, 0, 0, some 4, some 6⟩
  | _ => ⟨3, -9, 0, 0, 1, some 5, none⟩

/-- The state whose arena is `cross_arena`. -/
def cross_env : arms_state α := ⟨7, 7, cross_arena, 0, 0, 0, 0⟩

/-! ## The envelope as a chain of slots -/

/-- `Linked P prev l`: the slots of `l`, read from left to right, are linked by
their neighbour pointers: `pl` of each slot is the slot before it (`prev` for
the first one) and `pr` is the slot after it (`NULL` for the last one). -/
def Linked (P : Nat → POINT α) : Option Nat → List Nat → Prop
  | _, [] => True
  | prev, a :: t => (P a).pl = prev ∧ (P a).pr = t.head? ∧ Linked P (some a) t

/-- `IsChain P l`: the list `l` is the envelope read from its leftmost to its
rightmost point, and no slot occurs twice. -/
def IsChain (P : Nat → POINT α) (l : List Nat) : Prop :=
  l ≠ [] ∧ l.Nodup ∧ Linked P none l

/-- `x` is non-decreasing along the slots of `l`. -/
def XSorted (P : Nat → POINT α) (l : List Nat) : Prop :=
  List.Chain' (fun a b => (P a).x ≤ (P b).x) l

/-- The on-curve flags alternate along `l`: the first and the last slot are not
on-curve, and of two adjacent slots exactly one is on-curve. -/
def Alternating (P : Nat → POINT α) (l : List Nat) : Prop :=
  (∀ a, l.head? = some a → (P a).f = 0) ∧ (∀ a, l.getLast? = some a → (P a).f = 0) ∧
    List.Chain' (fun a b => ((P a).f ≠ 0 ∧ (P b).f = 0) ∨ ((P a).f = 0 ∧ (P b).f ≠ 0)) l

/-- Two arenas with the same flags and the same neighbour pointers. -/
def SameShape (P P1 : Nat → POINT α) : Prop :=
  ∀ i, (P1 i).f = (P i).f ∧ (P1 i).pl = (P i).pl ∧ (P1 i).pr = (P i).pr

/-- An arena of two points before `cumulate` has run: the left end at `x = 0`
with height `-200`, the right end at `x = 1` with height 0. -/
def cut_arena : Nat → POINT α
  | 0 => ⟨0, -200, 0, 0, 0, none, some 1⟩
  | _ => ⟨1, 0, 0, 0, 0, some 0, none⟩

/-- The state whose arena is `cut_arena`. -/
def cut_env : arms_state α := ⟨2, 2, cut_arena, 0, 0, 0, 0⟩

/-- A chain of seven points in the order of their abscissae, whose on-curve
points (slots 1, 3, 5 at `x = -1, 0, 1` with heights `0, 0, 1`) are not
log-concave: the chord over `[-1, 0]` has gradient 0, the chord over `[0, 1]`
gradient 1.  Slot 4 is the intersection point of the last two. -/
def relax_arena : Nat → POINT α
  | 0 => ⟨-2, 0, 0, 0, 0, none, some 1⟩
  | 1 => ⟨-1, 0, 0, 0, 1, some 0, some 2⟩
  | 2 => ⟨-1 / 2, 0, 0, 0, 0, some 1, some 3⟩
  | 3 => ⟨0, 0, 0, 0, 1, some 2, some 4⟩
  | 4 => ⟨1 / 2, 0, 0, 0, 0, some 3, some 5⟩
  | 5 => ⟨1, 1, 0, 0, 1, some 4, some 6⟩
  | _ => ⟨2, 0, 0, 0, 0, some 5, none⟩

/-- The state whose arena is `relax_arena`, with `convex = 1`. -/
def relax_env : arms_state α := ⟨7, 7, relax_arena, 0, 1, 0, 0⟩

/-! ## The defaults of `apop_arms_settings_init` -/

/-- The GSL macro `GSL_MIN (a, b)`, that is `((a) < (b) ? (a) : (b))`. -/
def GSL_MIN (a b : α) : α := if a < b then a else b

/-- The GSL macro `GSL_MAX (a, b)`, that is `((a) > (b) ? (a) : (b))`. -/
def GSL_MAX (a b : α) : α := if a > b then a else b

/-- The argument `in` of `apop_arms_settings_init`: the settings as the
caller wrote them, a field being `none` when the caller did not supply it. -/
structure apop_arms_settings_in (α : Type) where
  xinit : Option (Nat → α)
  ninit : Option Nat
  xl : Option α
  xr : Option α
  convex : Option α
  npoint : Option Nat
  do_metro : Option Int
  xprev : Option α
  neval : Option Nat
  model : Option (α → α)

/-- Modelled from the spec: the macro `apop_varad_setting (in, out, name,
value)`, whose definition is not under src/.  It sets `out->name` to `in.name`
when the caller supplied that field, and to the default `value` otherwise. -/
def apop_varad_setting {β : Type} (supplied : Option β) (value : β) : β :=
  supplied.getD value

/-- The default abscissae `((double []) {-1, 0, 1})`. -/
def default_xinit : Nat → α
  | 0 => -1
  | 1 => 0
  | _ => 1

/-- The first part of the C function `apop_arms_settings_init`: the settings
`out` with the defaults filled in (each default is computed from the fields of
`out` set before it), and the check that the model is present. -/
def apop_arms_settings_defaults (inp : apop_arms_settings_in α) :
    Except Fault (apop_arms_settings α) :=
  let xinit := apop_varad_setting inp.xinit default_xinit
  let ninit := apop_varad_setting inp.ninit 3
  let xl := apop_varad_setting inp.xl (GSL_MIN (xinit 0 / 10) (xinit 0 * 10) - 1 / 10)
  let xr := apop_varad_setting inp.xr
    (GSL_MAX (xinit (ninit - 1) / 10) (xinit (ninit - 1) * 10) + 1 / 10)
  let convex := apop_varad_setting inp.convex 0
  let npoint := apop_varad_setting inp.npoint 100
  let do_metro := apop_varad_setting inp.do_metro 1
  let xprev := apop_varad_setting inp.xprev ((xinit 0 + xinit (ninit - 1)) / 2)
  let neval := apop_varad_setting inp.neval 1000
  match inp.model with
  | none => .error (.error 0)
  | some f =>
    .ok { xinit := xinit, ninit := ninit, xl := xl, xr := xr, convex := convex,
          npoint := npoint, do_metro := do_metro, xprev := xprev, neval := neval, model := f }

/-! ## `apop_pmf.c`: the draw from a PMF -/

/-- Ways in which `draw` of `apop_pmf.c` fails to return. -/
inductive PmfFault where
  /-- A read of `cdf[index]` with `index` outside `[0, size)`. -/
  | bounds (index : Nat)
  /-- The search did not end within the step budget. -/
  | fuel
  deriving DecidableEq, Repr

/-- The running sums of `draw`: `cdf->data[0] = weights->data[0]` and
`cdf->data[i] = weights->data[i] + cdf->data[i-1]`. -/
def pmf_sums (w : Nat → α) : Nat → α
  | 0 => w 0
  | i + 1 => w (i + 1) + pmf_sums w i

/-- The CMF of `draw` after `gsl_vector_scale (cdf, 1./cdf->data[size-1])`. -/
def pmf_cdf (w : Nat → α) (size : Nat) (i : Nat) : α :=
  pmf_sums w i * (1 / pmf_sums w (size - 1))

/-- A read of `cdf[i]` for an index `i` of type `size_t`. -/
def pmf_read (cdf : Nat → α) (size i : Nat) : Except PmfFault α :=
  if i < size then .ok (cdf i) else .error (.bounds i)

/-- The value of `n - 1` in the type `size_t` (64 bits). -/
def size_t_pred (n : Nat) : Nat := (n + 2 ^ 64 - 1) % 2 ^ 64

/-- The loop `while (!(cdf[current]>=draw && cdf[current-1] < draw))` of the
binary search in `draw`, with the local variables `top`, `bottom`, `current`;
the first argument bounds the number of iterations. -/
def pmf_search (cdf : Nat → α) (size : Nat) (d : α) :
    Nat → Nat → Nat → Nat → Except PmfFault Nat
  | 0, _, _, _ => .error .fuel
  | n + 1, top, bottom, current =>
    match pmf_read cdf size current with
    | .error e => .error e
    | .ok c =>
      if c < d then
        -- step up
        if current = size_t_pred top then
          pmf_search cdf size d n top current ((current + 1) % 2 ^ 64)
        else pmf_search cdf size d n top current ((current + top) / 2)
      else
        match pmf_read cdf size (size_t_pred current) with
        | .error e => .error e
        | .ok cm =>
          if cm < d then .ok current
          else
            -- step down
            if current = (bottom + 1) % 2 ^ 64 then
              pmf_search cdf size d n current bottom (size_t_pred current)
            else pmf_search cdf size d n current bottom ((bottom + current) / 2)

/-- The row index `current` that the C function `draw` of `apop_pmf.c` computes
on its first call: the CMF is built from the weights, and the binary search
for the uniform draw `d` is run on it. -/
def pmf_draw_index (w : Nat → α) (size : Nat) (d : α) (fuel : Nat) : Except PmfFault Nat :=
  let cdf := pmf_cdf w size
  let current := (size + 0) / 2
  if current = 0 then
    -- array of size one or two
    if size ≠ 0 then
      match pmf_read cdf size 0 with
      | .error e => .error e
      | .ok c => if c < d then .ok 1 else .ok current
    else .ok current
  else pmf_search cdf size d fuel size 0 current

/-! ## `apop_multinomial_probit.c`: the multinomial logit log likelihood -/

/-- The loop `while (in !=m[i] && i<max) i++` of the C function `find_index`,
from the index `i` on; the first argument is the number of indices below
`max` that are left. -/
def find_index_from (v : α) (m : Nat → α) (max : Nat) : Nat → Nat → Nat
  | 0, i => i
  | n + 1, i => if v ≠ m i ∧ i < max then find_index_from v m max n (i + 1) else i

/-- The C function `find_index`. -/
def find_index (v : α) (m : Nat → α) (max : Nat) : Nat :=
  find_index_from v m max max 0

/-- The first loop of `multilogit_log_likelihood`, over the first `n`
observations: `ll += (index==0) ? 1 : apop_data_get (xbeta, i, index-1)`, with
`index = find_index (gsl_vector_get (d->vector, i), factor_list, choicect)`.
The argument `obs` is `d->vector` and `xbeta` the matrix computed by
`apop_dot`. -/
def multilogit_numerator (obs factor_list : Nat → α) (xbeta : Nat → Nat → α)
    (choicect : Nat) : Nat → α
  | 0 => 0
  | n + 1 =>
    multilogit_numerator obs factor_list xbeta choicect n +
      (if find_index (obs n) factor_list choicect = 0 then 1
        else xbeta n (find_index (obs n) factor_list choicect - 1))

/-- The value of `gsl_vector_max` on the elements `0, ..., n` of a row. -/
def gsl_vector_max (row : Nat → α) : Nat → α
  | 0 => row 0
  | n + 1 => if row (n + 1) > gsl_vector_max row n then row (n + 1) else gsl_vector_max row n

/-- The value of `apop_vector_sum` on the first `n` elements of a row. -/
def apop_vector_sum (row : Nat → α) : Nat → α
  | 0 => 0
  | n + 1 => apop_vector_sum row n + row n

/-- The body of the second loop of `multilogit_log_likelihood` for one row of
`xbeta` with `choicect` columns: the value `max + log (apop_vector_sum
(thisrow) + exp (-max))` computed after `gsl_vector_add_constant (thisrow,
-max)` and `apop_vector_exp (thisrow)`. -/
def multilogit_denominator (m : Libm α) (row : Nat → α) (choicect : Nat) : α :=
  let mx := gsl_vector_max row (choicect - 1)
  mx + m.log (apop_vector_sum (fun k => m.exp (row k + -mx)) choicect + m.exp (-mx))

/-- The second loop of `multilogit_log_likelihood`, over the first `n` rows of
`xbeta`, started with the value `ll`: `ll -= max + log (...)`. -/
def multilogit_subtract (m : Libm α) (xbeta : Nat → Nat → α) (choicect : Nat) (ll : α) :
    Nat → α
  | 0 => ll
  | n + 1 =>
    multilogit_subtract m xbeta choicect ll n - multilogit_denominator m (xbeta n) choicect

/-- The C function `multilogit_log_likelihood`, from the computation of
`xbeta` on: `nobs` is the number of observations (the size of `d->vector` and
the number of rows of `xbeta`). -/
def multilogit_log_likelihood (m : Libm α) (obs factor_list : Nat → α)
    (xbeta : Nat → Nat → α) (choicect nobs : Nat) : α :=
  multilogit_subtract m xbeta choicect
    (multilogit_numerator obs factor_list xbeta choicect nobs) nobs

/-- The point in slot `q` is in order with its neighbours: its `x` is at least
that of its left neighbour and at most that of its right neighbour (where
they exist). -/
def LocalOrder (P : Nat → POINT α) (q : Nat) : Prop :=
  (∀ a, (P q).pl = some a → (P a).x ≤ (P q).x) ∧ (∀ b, (P q).pr = some b → (P q).x ≤ (P b).x)

/-- The state of the sampler between two draws, with the envelope read as the
list `l` from its leftmost to its rightmost point: an alternating chain through
slot 0 that is non-decreasing in `x`, runs from `x = xl` to `x = xr`, lies in
the allocated part of the arena, and, under Metropolis, a cached previous
iterate inside `[xl, xr]`. -/
def EnvelopeInv (params : apop_arms_settings α) (env : arms_state α) (l : List Nat) : Prop :=
  IsChain env.p l ∧ Alternating env.p l ∧ XSorted env.p l ∧ 0 ∈ l ∧
    (∀ s, s ∈ l → s < env.cpoint) ∧
    (∀ a, l.head? = some a → (env.p a).x = params.xl) ∧
    (∀ b, l.getLast? = some b → (env.p b).x = params.xr) ∧
    (params.do_metro ≠ 0 → params.xl ≤ env.metro_xprev ∧ env.metro_xprev ≤ params.xr)

/-- A zeroed point. -/
def blank_point : POINT α := ⟨0, 0, 0, 0, 0, none, none⟩

/-- A zeroed arena, standing for the block returned by `malloc`. -/
def blank_mem : Nat → POINT α := fun _ => blank_point

/-- A zeroed state, standing for the freshly allocated `arms_state`. -/
def blank_state : arms_state α := ⟨0, 0, blank_mem, 0, 0, 0, 0⟩

/-- Settings with Metropolis enabled and a previous iterate `xprev = -5`
outside the bounds `[-2, 2]`: abscissae `-1, 0, 1`, room for 7 points, and a
log density that is 100 left of `-3` and 0 elsewhere. -/
def metro_settings : apop_arms_settings α :=
  { xinit := fun i => (i : α) - 1, ninit := 3, xl := -2, xr := 2, convex := 0, npoint := 7,
    do_metro := 1, xprev := -5, neval := 0, model := fun x => if x < -3 then 100 else 0 }

/-- The arena that `initial` builds from `metro_settings` before `cumulate`
runs. -/
def metro_arena : Nat → POINT α
  | 0 => ⟨-2, 0, 0, 0, 0, none, some 1⟩
  | 1 => ⟨-1, 0, 0, 0, 1, some 0, some 2⟩
  | 2 => ⟨-1, 1 / 10, 0, 0, 0, some 1, some 3⟩
  | 3 => ⟨0, 0, 0, 0, 1, some 2, some 4⟩
  | 4 => ⟨1, 1 / 10, 0, 0, 0, some 3, some 5⟩
  | 5 => ⟨1, 0, 0, 0, 1, some 4, some 6⟩
  | 6 => ⟨2, 0, 0, 0, 0, some 5, none⟩
  | _ => blank_point

/-- The envelope as `cumulate` leaves it, read as the list `l` from its
leftmost to its rightmost point: a chain through slot 0 whose leftmost `cum` is
0, whose `cum` grows from each point to the next by the area of the piece
between them, an area that is not negative, and whose last piece has positive
length (the last on-curve point lies to the left of the right bound). -/
def SegmentInv (env : arms_state α) (l : List Nat) : Prop :=
  IsChain env.p l ∧ 0 ∈ l ∧
    (∀ a, l.head? = some a → (env.p a).cum = 0) ∧
    List.Chain' (fun a b => ∃ ar, area env.p b = .ok ar ∧ 0 ≤ ar ∧
      (env.p b).cum = (env.p a).cum + ar) l ∧
    (∃ z lz, l.getLast? = some z ∧ (env.p z).pl = some lz ∧ (env.p lz).x < (env.p z).x)

/-! ## Concrete inputs

The default abscissae `{-1, 0, 1}` with bounds `[-2, 2]` and the log density
`-x^2/2`, run over the rationals. -/

/-- A stand-in for libm over the rationals (three identity functions), used to
run the code on concrete inputs where the values of `exp`, `log` and `sqrt` do
not matter. -/
def ratLibm : Libm ℚ := ⟨fun x => x, fun x => x, fun x => x⟩

/-- Settings for the concrete runs: abscissae `-1, 0, 1`, bounds `[-2, 2]`,
room for 7 points, log density `-x^2/2`, Metropolis disabled. -/
def ex_settings : apop_arms_settings ℚ :=
  { xinit := fun i => (i : ℚ) - 1, ninit := 3, xl := -2, xr := 2, convex := 0, npoint := 7,
    do_metro := 0, xprev := 0, neval := 0, model := fun x => -(x * x) / 2 }

/-- The settings `ex_settings` with `ninit = 2^30` abscissae `-1, 0, 1, 2, ...`:
the value `2*ninit+1 = 2^31 + 1` does not fit an `int`. -/
def overflow_settings : apop_arms_settings ℚ := { ex_settings with ninit := 1073741824 }

/-- A zeroed point. -/
def ex_point : POINT ℚ := ⟨0, 0, 0, 0, 0, none, none⟩

/-- A zeroed arena, standing for the block returned by `malloc`. -/
def ex_mem : Nat → POINT ℚ := fun _ => ex_point

/-- A zeroed state, standing for the freshly allocated `arms_state`. -/
def ex_state : arms_state ℚ := ⟨0, 0, ex_mem, 0, 0, 0, 0⟩

/-- The arena that `initial ratLibm` builds from `ex_settings`. -/
def ex_arena : Nat → POINT ℚ
  | 0 => ⟨-2, -1, 97 / 2, 0, 0, none, some 1⟩
  | 1 => ⟨-1, -1 / 2, 49, 1, 1, some 0, some 2⟩
  | 2 => ⟨-1, 1 / 2, 50, 1, 0, some 1, some 3⟩
  | 3 => ⟨0, 0, 99 / 2, 2, 1, some 2, some 4⟩
  | 4 => ⟨1, 1 / 2, 50, 3, 0, some 3, some 5⟩
  | 5 => ⟨1, -1 / 2, 49, 3, 1, some 4, some 6⟩
  | 6 => ⟨2, -1, 97 / 2, 4, 0, some 5, none⟩
  | _ => ex_point

/-- The state that `initial ratLibm` builds from `ex_settings`. -/
def ex_env : arms_state ℚ := ⟨7, 7, ex_arena, 1 / 2, 0, 0, 0⟩

/-- A working point in the piece between slots 3 and 4 of `ex_arena`. -/
def ex_work : POINT ℚ := ⟨1 / 2, 1 / 4, 50, 5 / 2, 0, some 3, some 4⟩

/-- A generator whose draws are all 1. -/
def ex_rng : Rng ℚ := ⟨fun _ => 1, 0⟩

/-- The envelope `ex_env` with room for two more points. -/
def ex_env9 : arms_state ℚ := { ex_env with npoint := 9 }

/-- A working point flagged on-curve whose height `-10` lies far below the
chord through its neighbours: inserting it violates convexity. -/
def ex_low : POINT ℚ := ⟨1 / 2, -10, 0, 0, 1, some 3, some 4⟩

/-- A working point on the log density `-x^2/2` at `x = 1/2`, flagged on-curve,
in the piece between slots 3 and 4 of `ex_arena`. -/
def ex_new : POINT ℚ := ⟨1 / 2, -1 / 8, 0, 0, 1, some 3, some 4⟩

end Code

/-! ## Numeric helpers: `expshift` and `logshift` -/

section Shift

theorem expshift_of_gt {α : Type} [LinearOrderedField α] (m : Libm α) (y y0 : α)
    (h : y - y0 > -2 * YCEIL) : expshift m y y0 = m.exp (y - y0 + YCEIL) := by
  unfold expshift
  rw [if_pos h]

theorem expshift_of_le {α : Type} [LinearOrderedField α] (m : Libm α) (y y0 : α)
    (h : y - y0 ≤ -2 * YCEIL) : expshift m y y0 = 0 := by
  unfold expshift
  rw [if_neg (not_lt.mpr h)]

/-- C10: `logshift` undoes `expshift`.  For all real `y`, `y0` with
`y - y0 > -2 * YCEIL` (and `-2 * YCEIL = -100`), `logshift (expshift (y, y0), y0)
= y`; and `expshift (y, y0)` is 0 exactly when `y - y0 <= -2 * YCEIL`. -/
theorem logshift_expshift (y y0 : ℝ) :
    ((-2 * YCEIL : ℝ) = -100) ∧
    (y - y0 > -2 * YCEIL →
      logshift (Libm.mk Real.exp Real.log Real.sqrt)
        (expshift (Libm.mk Real.exp Real.log Real.sqrt) y y0) y0 = y) ∧
    (expshift (Libm.mk Real.exp Real.log Real.sqrt) y y0 = 0 ↔ y - y0 ≤ -2 * YCEIL) := by
  refine ⟨by norm_num [YCEIL], ?_, ?_⟩
  · intro h
    rw [expshift_of_gt _ _ _ h]
    simp only [logshift, Real.log_exp]
    ring
  · constructor
    · intro h
      by_contra hc
      rw [expshift_of_gt _ _ _ (not_le.mp hc)] at h
      exact (Real.exp_pos _).ne (Eq.symm h)
    · intro h
      exact expshift_of_le _ _ _ h

/-- Counterexample to C11 as stated: at `u = exp (-50) > 0` and `y0 = 0`,
`expshift (logshift (u, y0), y0)` is 0, not `u`. -/
theorem expshift_logshift_counterexample :
    (0 : ℝ) < Real.exp (-50) ∧
    expshift (Libm.mk Real.exp Real.log Real.sqrt)
      (logshift (Libm.mk Real.exp Real.log Real.sqrt) (Real.exp (-50)) 0) 0 = 0 ∧
    expshift (Libm.mk Real.exp Real.log Real.sqrt)
      (logshift (Libm.mk Real.exp Real.log Real.sqrt) (Real.exp (-50)) 0) 0
      ≠ Real.exp (-50) := by
  have h0 : expshift (Libm.mk Real.exp Real.log Real.sqrt)
      (logshift (Libm.mk Real.exp Real.log Real.sqrt) (Real.exp (-50)) 0) 0 = 0 := by
    apply expshift_of_le
    simp only [logshift, Real.log_exp, YCEIL]
    norm_num
  refine ⟨Real.exp_pos _, h0, ?_⟩
  rw [h0]
  exact (Real.exp_pos _).ne

/-- C11 (amended): `expshift` undoes `logshift` above the underflow cut.  For
every `y0` and every `u > exp (-YCEIL)`, `expshift (logshift (u, y0), y0) = u`;
for `0 < u <= exp (-YCEIL)` the result is 0. -/
theorem expshift_logshift (u y0 : ℝ) :
    (u > Real.exp (-YCEIL) →
      expshift (Libm.mk Real.exp Real.log Real.sqrt)
        (logshift (Libm.mk Real.exp Real.log Real.sqrt) u y0) y0 = u) ∧
    (0 < u → u ≤ Real.exp (-YCEIL) →
      expshift (Libm.mk Real.exp Real.log Real.sqrt)
        (logshift (Libm.mk Real.exp Real.log Real.sqrt) u y0) y0 = 0) := by
  constructor
  · intro h
    have hu : 0 < u := lt_trans (Real.exp_pos _) h
    have hl : Real.log u > -YCEIL := by
      have := Real.log_lt_log (Real.exp_pos _) h
      rwa [Real.log_exp] at this
    rw [expshift_of_gt]
    · simp only [logshift]
      rw [show Real.log u + y0 - YCEIL - y0 + YCEIL = Real.log u by ring, Real.exp_log hu]
    · simp only [logshift]
      linarith
  · intro hu h
    have hl : Real.log u ≤ -YCEIL := by
      have := Real.log_le_log hu h
      rwa [Real.log_exp] at this
    apply expshift_of_le
    simp only [logshift]
    linarith

end Shift

/-! ## Validation of the configuration in `initial` -/

section Validation
variable {α : Type} [LinearOrderedField α]

theorem initial_ordered_iff (xinit : Nat → α) (n : Nat) :
    initial_ordered xinit n = true ↔ ∀ i, 1 ≤ i → i < n → xinit i > xinit (i - 1) := by
  unfold initial_ordered
  rw [List.all_eq_true]
  constructor
  · intro h i h1 h2
    have := h i (by rw [List.mem_range'_1]; omega)
    simpa using this
  · intro h i hi
    rw [List.mem_range'_1] at hi
    simpa using h i hi.1 (by omega)

/-- The wrapped value lies in the range of `int`. -/
theorem int_wrap_range (z : Int) : -2 ^ 31 ≤ int_wrap z ∧ int_wrap z < 2 ^ 31 := by
  unfold int_wrap
  omega

/-- A value in the range of `int` is stored as it is. -/
theorem int_wrap_of_range (z : Int) (h0 : -2 ^ 31 ≤ z) (h1 : z < 2 ^ 31) : int_wrap z = z := by
  unfold int_wrap
  omega

/-- Without overflow, `mpoint` is `2*ninit+1`. -/
theorem int_wrap_mpoint (n : Nat) (h : 2 * n + 1 < 2 ^ 31) :
    int_wrap (2 * (n : Int) + 1) = 2 * (n : Int) + 1 := by
  apply int_wrap_of_range <;> omega

/-- The stored `mpoint` is never above `2*ninit+1`. -/
theorem int_wrap_mpoint_le (n : Nat) : int_wrap (2 * (n : Int) + 1) ≤ 2 * (n : Int) + 1 := by
  unfold int_wrap
  omega

/-- A stored `mpoint` equal to `2*ninit+1` means that the computation did not
overflow. -/
theorem int_wrap_mpoint_bound (n : Nat) (h : int_wrap (2 * (n : Int) + 1) = 2 * (n : Int) + 1) :
    2 * n + 1 < 2 ^ 31 := by
  have := (int_wrap_range (2 * (n : Int) + 1)).2
  rw [h] at this
  omega

theorem initial_1001 (m : Libm α) (fuel : Nat) (mem : Nat → POINT α)
    (params : apop_arms_settings α) (env : arms_state α) (h : params.ninit < 3) :
    initial m fuel mem params env = .ok (1001, params, env) := by
  unfold initial
  rw [if_pos (by omega)]

/-- The capacity test of `initial`, on the stored `mpoint`. -/
theorem initial_1002_int (m : Libm α) (fuel : Nat) (mem : Nat → POINT α)
    (params : apop_arms_settings α) (env : arms_state α) (h1 : 3 ≤ params.ninit)
    (h2 : (params.npoint : Int) < int_wrap (2 * (params.ninit : Int) + 1)) :
    initial m fuel mem params env = .ok (1002, params, env) := by
  unfold initial
  rw [if_neg (by omega), if_pos (by simp only [ge_iff_le]; omega)]

theorem initial_1002 (m : Libm α) (fuel : Nat) (mem : Nat → POINT α)
    (params : apop_arms_settings α) (env : arms_state α) (h1 : 3 ≤ params.ninit)
    (hb : 2 * params.ninit + 1 < 2 ^ 31)
    (h2 : params.npoint < 2 * params.ninit + 1) :
    initial m fuel mem params env = .ok (1002, params, env) := by
  apply initial_1002_int m fuel mem params env h1
  rw [int_wrap_mpoint _ hb]
  omega

/-- The capacity test of `initial` passes when `2*ninit+1 ≤ npoint`. -/
theorem initial_capacity_pass (n np : Nat) (h2 : 2 * n + 1 ≤ np) :
    ¬ ¬ ((np : Int) ≥ int_wrap (2 * (n : Int) + 1)) := by
  have := int_wrap_mpoint_le n
  simp only [ge_iff_le, not_not]
  omega

theorem initial_1003 (m : Libm α) (fuel : Nat) (mem : Nat → POINT α)
    (params : apop_arms_settings α) (env : arms_state α) (h1 : 3 ≤ params.ninit)
    (h2 : 2 * params.ninit + 1 ≤ params.npoint)
    (h3 : ¬ (params.xinit 0 > params.xl ∧ params.xinit (params.ninit - 1) < params.xr)) :
    initial m fuel mem params env = .ok (1003, params, env) := by
  unfold initial
  rw [if_neg (by omega), if_neg (initial_capacity_pass _ _ h2), if_pos h3]

theorem initial_1004 (m : Libm α) (fuel : Nat) (mem : Nat → POINT α)
    (params : apop_arms_settings α) (env : arms_state α) (h1 : 3 ≤ params.ninit)
    (h2 : 2 * params.ninit + 1 ≤ params.npoint)
    (h3 : params.xinit 0 > params.xl ∧ params.xinit (params.ninit - 1) < params.xr)
    (h4 : ¬ (initial_ordered params.xinit params.ninit = true)) :
    initial m fuel mem params env = .ok (1004, params, env) := by
  unfold initial
  rw [if_neg (by omega), if_neg (initial_capacity_pass _ _ h2), if_neg (not_not.mpr h3),
    if_pos h4]

theorem initial_1008 (m : Libm α) (fuel : Nat) (mem : Nat → POINT α)
    (params : apop_arms_settings α) (env : arms_state α) (h1 : 3 ≤ params.ninit)
    (h2 : 2 * params.ninit + 1 ≤ params.npoint)
    (h3 : params.xinit 0 > params.xl ∧ params.xinit (params.ninit - 1) < params.xr)
    (h4 : initial_ordered params.xinit params.ninit = true) (h5 : params.convex < 0) :
    initial m fuel mem params env = .ok (1008, params, env) := by
  unfold initial
  rw [if_neg (by omega), if_neg (initial_capacity_pass _ _ h2), if_neg (not_not.mpr h3),
    if_neg (not_not.mpr h4), if_pos (not_le.mpr h5)]

/-- On a valid configuration whose `2*ninit+1` fits an `int`, `initial` builds
the envelope. -/
theorem initial_of_valid (m : Libm α) (fuel : Nat) (mem : Nat → POINT α)
    (params : apop_arms_settings α) (env : arms_state α) (h1 : 3 ≤ params.ninit)
    (hb : 2 * params.ninit + 1 < 2 ^ 31)
    (h2 : 2 * params.ninit + 1 ≤ params.npoint)
    (h3 : params.xinit 0 > params.xl ∧ params.xinit (params.ninit - 1) < params.xr)
    (h4 : initial_ordered params.xinit params.ninit = true) (h5 : 0 ≤ params.convex) :
    initial m fuel mem params env = initial_envelope m fuel mem params env := by
  unfold initial
  rw [if_neg (by omega), if_neg (initial_capacity_pass _ _ h2), if_neg (not_not.mpr h3),
    if_neg (not_not.mpr h4), if_neg (not_not.mpr h5),
    if_neg (not_not.mpr (int_wrap_mpoint _ hb))]

/-- On a valid configuration `initial` either builds the envelope or, when
`2*ninit+1` does not fit an `int`, ends in the overflow of `mpoint`. -/
theorem initial_valid_cases (m : Libm α) (fuel : Nat) (mem : Nat → POINT α)
    (params : apop_arms_settings α) (env : arms_state α) (h1 : 3 ≤ params.ninit)
    (h2 : 2 * params.ninit + 1 ≤ params.npoint)
    (h3 : params.xinit 0 > params.xl ∧ params.xinit (params.ninit - 1) < params.xr)
    (h4 : initial_ordered params.xinit params.ninit = true) (h5 : 0 ≤ params.convex) :
    initial m fuel mem params env = .error .overflow ∨
    (2 * params.ninit + 1 < 2 ^ 31 ∧
      initial m fuel mem params env = initial_envelope m fuel mem params env) := by
  by_cases hb : 2 * params.ninit + 1 < 2 ^ 31
  · exact Or.inr ⟨hb, initial_of_valid m fuel mem params env h1 hb h2 h3 h4 h5⟩
  · left
    unfold initial
    rw [if_neg (by omega), if_neg (initial_capacity_pass _ _ h2), if_neg (not_not.mpr h3),
      if_neg (not_not.mpr h4), if_neg (not_not.mpr h5),
      if_pos (fun hc => hb (int_wrap_mpoint_bound _ hc))]

/-- The paths through `initial`: one of the five validation codes with the
settings and the state unchanged, the overflow of `mpoint` behind a passed
validation, or the construction of the envelope on a valid configuration. -/
theorem initial_cases (m : Libm α) (fuel : Nat) (mem : Nat → POINT α)
    (params : apop_arms_settings α) (env : arms_state α) :
    (params.ninit < 3 ∧ initial m fuel mem params env = .ok (1001, params, env)) ∨
    (3 ≤ params.ninit ∧ (params.npoint : Int) < int_wrap (2 * (params.ninit : Int) + 1) ∧
      initial m fuel mem params env = .ok (1002, params, env)) ∨
    (¬ (params.xinit 0 > params.xl ∧ params.xinit (params.ninit - 1) < params.xr) ∧
      initial m fuel mem params env = .ok (1003, params, env)) ∨
    (¬ (initial_ordered params.xinit params.ninit = true) ∧
      initial m fuel mem params env = .ok (1004, params, env)) ∨
    (params.convex < 0 ∧ initial m fuel mem params env = .ok (1008, params, env)) ∨
    (2 ^ 31 ≤ 2 * params.ninit + 1 ∧ initial m fuel mem params env = .error .overflow) ∨
    ((3 ≤ params.ninit ∧ 2 * params.ninit + 1 ≤ params.npoint ∧
      (params.xinit 0 > params.xl ∧ params.xinit (params.ninit - 1) < params.xr) ∧
      initial_ordered params.xinit params.ninit = true ∧ 0 ≤ params.convex) ∧
      2 * params.ninit + 1 < 2 ^ 31 ∧
      initial m fuel mem params env = initial_envelope m fuel mem params env) := by
  unfold initial
  dsimp only
  by_cases c1 : params.ninit ≥ 3
  swap
  · rw [if_pos c1]
    exact Or.inl ⟨by omega, rfl⟩
  rw [if_neg (not_not.mpr c1)]
  by_cases c2 : (params.npoint : Int) ≥ int_wrap (2 * (params.ninit : Int) + 1)
  swap
  · rw [if_pos c2]
    exact Or.inr (Or.inl ⟨c1, by omega, rfl⟩)
  rw [if_neg (not_not.mpr c2)]
  by_cases c3 : params.xinit 0 > params.xl ∧ params.xinit (params.ninit - 1) < params.xr
  swap
  · rw [if_pos c3]
    exact Or.inr (Or.inr (Or.inl ⟨c3, rfl⟩))
  rw [if_neg (not_not.mpr c3)]
  by_cases c4 : initial_ordered params.xinit params.ninit = true
  swap
  · rw [if_pos c4]
    exact Or.inr (Or.inr (Or.inr (Or.inl ⟨c4, rfl⟩)))
  rw [if_neg (not_not.mpr c4)]
  by_cases c5 : params.convex ≥ 0
  swap
  · rw [if_pos c5]
    exact Or.inr (Or.inr (Or.inr (Or.inr (Or.inl ⟨not_le.mp c5, rfl⟩))))
  rw [if_neg (not_not.mpr c5)]
  by_cases c6 : int_wrap (2 * (params.ninit : Int) + 1) = 2 * (params.ninit : Int) + 1
  · rw [if_neg (not_not.mpr c6)]
    have hb := int_wrap_mpoint_bound _ c6
    refine Or.inr (Or.inr (Or.inr (Or.inr (Or.inr (Or.inr ⟨⟨c1, ?_, c3, c4, c5⟩, hb, rfl⟩)))))
    rw [c6] at c2
    omega
  · rw [if_pos c6]
    refine Or.inr (Or.inr (Or.inr (Or.inr (Or.inr (Or.inl ⟨?_, rfl⟩)))))
    by_contra hlt
    exact c6 (int_wrap_mpoint _ (by omega))

/-- C2 (amended): `initial` reports a malformed configuration before touching
anything.  It returns 1001 if `ninit < 3`; otherwise 1002 if
`npoint < 2*ninit+1`, provided that `2*ninit+1` fits an `int`
(`2*ninit+1 < 2^31`); otherwise 1003 unless `xinit[0] > xl` and
`xinit[ninit-1] < xr`; otherwise 1004 if some `xinit[i] <= xinit[i-1]`;
otherwise 1008 if `convex < 0`; in each case the settings (with the evaluation
counter `neval`) and the state come back unchanged, so the log density was not
evaluated.  Conversely, if `initial` returns 0 then `2*ninit+1` fits an `int`
and all five conditions hold. -/
theorem initial_validation (m : Libm α) (fuel : Nat) (mem : Nat → POINT α)
    (params : apop_arms_settings α) (env : arms_state α) :
    (params.ninit < 3 → initial m fuel mem params env = .ok (1001, params, env)) ∧
    (3 ≤ params.ninit → 2 * params.ninit + 1 < 2 ^ 31 →
      params.npoint < 2 * params.ninit + 1 →
      initial m fuel mem params env = .ok (1002, params, env)) ∧
    (3 ≤ params.ninit → 2 * params.ninit + 1 ≤ params.npoint →
      ¬ (params.xinit 0 > params.xl ∧ params.xinit (params.ninit - 1) < params.xr) →
      initial m fuel mem params env = .ok (1003, params, env)) ∧
    (3 ≤ params.ninit → 2 * params.ninit + 1 ≤ params.npoint →
      (params.xinit 0 > params.xl ∧ params.xinit (params.ninit - 1) < params.xr) →
      (∃ i, 1 ≤ i ∧ i < params.ninit ∧ params.xinit i ≤ params.xinit (i - 1)) →
      initial m fuel mem params env = .ok (1004, params, env)) ∧
    (3 ≤ params.ninit → 2 * params.ninit + 1 ≤ params.npoint →
      (params.xinit 0 > params.xl ∧ params.xinit (params.ninit - 1) < params.xr) →
      (∀ i, 1 ≤ i → i < params.ninit → params.xinit i > params.xinit (i - 1)) →
      params.convex < 0 →
      initial m fuel mem params env = .ok (1008, params, env)) ∧
    (∀ params1 env1, initial m fuel mem params env = .ok (0, params1, env1) →
      2 * params.ninit + 1 < 2 ^ 31 ∧
      3 ≤ params.ninit ∧ 2 * params.ninit + 1 ≤ params.npoint ∧
      params.xinit 0 > params.xl ∧ params.xinit (params.ninit - 1) < params.xr ∧
      (∀ i, 1 ≤ i → i < params.ninit → params.xinit i > params.xinit (i - 1)) ∧
      0 ≤ params.convex) := by
  refine ⟨initial_1001 m fuel mem params env, initial_1002 m fuel mem params env,
    initial_1003 m fuel mem params env, ?_, ?_, ?_⟩
  · intro h1 h2 h3 h4
    apply initial_1004 m fuel mem params env h1 h2 h3
    rw [initial_ordered_iff]
    obtain ⟨i, hi1, hi2, hi3⟩ := h4
    intro hc
    exact absurd (hc i hi1 hi2) (not_lt.mpr hi3)
  · intro h1 h2 h3 h4 h5
    exact initial_1008 m fuel mem params env h1 h2 h3 ((initial_ordered_iff _ _).mpr h4) h5
  · intro params1 env1 h
    rcases initial_cases m fuel mem params env with ⟨-, hc⟩ | ⟨-, -, hc⟩ | ⟨-, hc⟩ |
      ⟨-, hc⟩ | ⟨-, hc⟩ | ⟨-, hc⟩ | ⟨hv, hb, -⟩
    · rw [hc] at h
      simp at h
    · rw [hc] at h
      simp at h
    · rw [hc] at h
      simp at h
    · rw [hc] at h
      simp at h
    · rw [hc] at h
      simp at h
    · rw [hc] at h
      simp at h
    · exact ⟨hb, hv.1, hv.2.1, hv.2.2.1.1, hv.2.2.1.2,
        (initial_ordered_iff _ _).mp hv.2.2.2.1, hv.2.2.2.2⟩

end Validation

/-- Counterexample to C2 as stated: with `ninit = 2^30` (at least 3) and
`npoint = 7 < 2*ninit+1`, the stored `mpoint` is `-2^31 + 1`, the capacity test
`npoint >= mpoint` passes, and `initial` returns 1003 (the last abscissa
`2^30 - 2` is not below `xr = 2`), not 1002. -/
theorem initial_validation_counterexample :
    3 ≤ overflow_settings.ninit ∧
    overflow_settings.npoint < 2 * overflow_settings.ninit + 1 ∧
    int_wrap (2 * (overflow_settings.ninit : Int) + 1) = -2147483647 ∧
    initial ratLibm 10 ex_mem overflow_settings ex_state
      = .ok (1003, overflow_settings, ex_state) ∧
    initial ratLibm 10 ex_mem overflow_settings ex_state
      ≠ .ok (1002, overflow_settings, ex_state) := by
  have hw : int_wrap (2 * (overflow_settings.ninit : Int) + 1) = -2147483647 := by
    norm_num [int_wrap, overflow_settings]
  have h3 : initial ratLibm 10 ex_mem overflow_settings ex_state
      = .ok (1003, overflow_settings, ex_state) := by
    unfold initial
    dsimp only
    rw [hw, if_neg (by norm_num [overflow_settings]),
      if_neg (by norm_num [overflow_settings, ex_settings]),
      if_pos (by norm_num [overflow_settings, ex_settings])]
  refine ⟨by norm_num [overflow_settings], by norm_num [overflow_settings, ex_settings], hw,
    h3, ?_⟩
  rw [h3]
  intro h
  simp only [Except.ok.injEq, Prod.mk.injEq] at h
  exact absurd h.1 (by decide)

/-! ## Return codes of `meet`, `update`, `test` -/

section ReturnCodes
variable {α : Type} [LinearOrderedField α]

theorem meet_check_ok (q : Nat) (env env1 : arms_state α) (x y : α) (rc : Int)
    (h : meet_check q env x y = .ok (rc, env1)) :
    rc = 0 ∧ env1 = { env with p := Function.update env.p q { env.p q with x := x, y := y } } := by
  unfold meet_check at h
  dsimp only at h
  split at h
  · exact absurd h (by simp)
  · simp only [Except.ok.injEq, Prod.mk.injEq] at h
    exact ⟨h.1.symm, h.2.symm⟩

theorem meet_store_ok (q : Nat) (env env1 : arms_state α) (il ir irl : Bool)
    (gl gr dl dr : α) (rc : Int)
    (h : meet_store q env il ir irl gl gr dl dr = .ok (rc, env1)) :
    rc = 0 ∧ ∃ x y,
      env1 = { env with p := Function.update env.p q { env.p q with x := x, y := y } } := by
  unfold meet_store at h
  dsimp only at h
  split at h
  · split at h
    · exact ⟨(meet_check_ok _ _ _ _ _ _ h).1, _, _, (meet_check_ok _ _ _ _ _ _ h).2⟩
    · exact absurd h (by simp)
  · split at h
    · split at h
      · exact ⟨(meet_check_ok _ _ _ _ _ _ h).1, _, _, (meet_check_ok _ _ _ _ _ _ h).2⟩
      · exact absurd h (by simp)
    · split at h
      · split at h
        · exact ⟨(meet_check_ok _ _ _ _ _ _ h).1, _, _, (meet_check_ok _ _ _ _ _ _ h).2⟩
        · exact absurd h (by simp)
      · split at h
        · split at h
          · exact ⟨(meet_check_ok _ _ _ _ _ _ h).1, _, _, (meet_check_ok _ _ _ _ _ _ h).2⟩
          · exact absurd h (by simp)
        · split at h
          · split at h
            · exact ⟨(meet_check_ok _ _ _ _ _ _ h).1, _, _, (meet_check_ok _ _ _ _ _ _ h).2⟩
            · exact absurd h (by simp)
          · exact absurd h (by simp)

/-- What `meet` returns: either 0 with only `x` and `y` of point `q` rewritten,
or 1 with the state untouched and Metropolis disabled. -/
theorem meet_ok (q : Nat) (env env1 : arms_state α) (params : apop_arms_settings α) (rc : Int)
    (h : meet q env params = .ok (rc, env1)) :
    (env.p q).f = 0 ∧
    ((rc = 0 ∧ ∃ x y,
      env1 = { env with p := Function.update env.p q { env.p q with x := x, y := y } }) ∨
    (rc = 1 ∧ params.do_metro = 0 ∧ env1 = env)) := by
  unfold meet at h
  dsimp only at h
  split at h
  · exact absurd h (by simp)
  · rename_i hf
    refine ⟨not_not.mp hf, ?_⟩
    split at h
    · exact absurd h (by simp)
    · split at h
      · exact absurd h (by simp)
      · split at h
        · rename_i hc
          simp only [Bool.and_eq_true, decide_eq_true_eq] at hc
          simp only [Except.ok.injEq, Prod.mk.injEq] at h
          exact Or.inr ⟨h.1.symm, hc.2, h.2.symm⟩
        · split at h
          · rename_i hc
            simp only [Bool.and_eq_true, decide_eq_true_eq] at hc
            simp only [Except.ok.injEq, Prod.mk.injEq] at h
            exact Or.inr ⟨h.1.symm, hc.2, h.2.symm⟩
          · exact Or.inl (meet_store_ok _ _ _ _ _ _ _ _ _ _ _ h)

end ReturnCodes

section ReturnCodes2
variable {α : Type} [LinearOrderedField α]

theorem bind_ok {ε β γ : Type} (x : Except ε β) (f : β → Except ε γ) (v : γ)
    (h : (x >>= f) = .ok v) : ∃ a, x = .ok a ∧ f a = .ok v := by
  cases x with
  | error e => exact absurd h (by simp [bind, Except.bind])
  | ok a => exact ⟨a, rfl, h⟩

theorem pure_ok {ε β : Type} (a v : β) (h : (pure a : Except ε β) = .ok v) : a = v := by
  simpa [pure, Except.pure] using h

omit [LinearOrderedField α] in
theorem perfunc_snd (params : apop_arms_settings α) (x : α) :
    (perfunc params x).2 = { params with neval := params.neval + 1 } := rfl

omit [LinearOrderedField α] in
theorem initial_points_do_metro (n j k : Nat) (P : Nat → POINT α)
    (params : apop_arms_settings α) :
    (initial_points n j k P params).2.do_metro = params.do_metro := by
  induction n generalizing j k P params with
  | zero => rfl
  | succ n ih =>
    unfold initial_points
    split
    · dsimp only
      rw [ih]
      rfl
    · rw [ih]

theorem initial_meets_rc (params : apop_arms_settings α) (n j : Nat) (env env1 : arms_state α)
    (rc : Int) (h : initial_meets params n j env = .ok (rc, env1)) :
    rc = 0 ∨ (rc = 2000 ∧ params.do_metro = 0) := by
  induction n generalizing j env with
  | zero =>
    unfold initial_meets at h
    simp only [Except.ok.injEq, Prod.mk.injEq] at h
    exact Or.inl h.1.symm
  | succ n ih =>
    unfold initial_meets at h
    split at h
    · exact absurd h (by simp)
    · rename_i rc1 env2 hm
      split at h
      · rename_i hrc
        simp only [Except.ok.injEq, Prod.mk.injEq] at h
        rcases (meet_ok _ _ _ _ _ hm).2 with h0 | h1
        · exact absurd h0.1 hrc
        · exact Or.inr ⟨h.1.symm, h1.2.1⟩
      · exact ih _ _ h

theorem update_adjust_do_metro (P P1 : Nat → POINT α) (params params1 : apop_arms_settings α)
    (qi : Nat) (h : update_adjust P params qi = .ok (P1, params1)) :
    params1.do_metro = params.do_metro := by
  unfold update_adjust at h
  obtain ⟨l, -, h⟩ := bind_ok _ _ _ h
  obtain ⟨r, -, h⟩ := bind_ok _ _ _ h
  dsimp only at h
  split at h
  · have := pure_ok _ _ h
    simp only [Prod.mk.injEq] at this
    rw [← this.2]; rfl
  · split at h
    · have := pure_ok _ _ h
      simp only [Prod.mk.injEq] at this
      rw [← this.2]; rfl
    · have := pure_ok _ _ h
      simp only [Prod.mk.injEq] at this
      rw [← this.2]

theorem update_meets_true (env env1 : arms_state α) (params : apop_arms_settings α) (qi : Nat)
    (b : Bool) (h : update_meets env params qi = .ok (b, env1)) (hb : b = true) :
    params.do_metro = 0 := by
  subst hb
  have key : ∀ (q : Nat) (e : arms_state α) (r : Int × arms_state α),
      meet q e params = .ok r → r.1 ≠ 0 → params.do_metro = 0 := by
    intro q e r hm hr
    rcases (meet_ok q e r.2 params r.1 hm).2 with h0 | h1
    · exact absurd h0.1 hr
    · exact h1.2.1
  unfold update_meets at h
  obtain ⟨l, -, h⟩ := bind_ok _ _ _ h
  obtain ⟨r1, h1, h⟩ := bind_ok _ _ _ h
  split at h
  · exact key _ _ _ h1 (by assumption)
  clear h1
  obtain ⟨r, -, h⟩ := bind_ok _ _ _ h
  obtain ⟨r2, h2, h⟩ := bind_ok _ _ _ h
  split at h
  · exact key _ _ _ h2 (by assumption)
  clear h2
  obtain ⟨l2, -, h⟩ := bind_ok _ _ _ h
  obtain ⟨r3, h3, h⟩ := bind_ok _ _ _ h
  split at h
  · rename_i hr3
    split at h3
    · have := pure_ok _ _ h3
      rw [← this] at hr3
      exact absurd rfl hr3
    · obtain ⟨lll, -, h3⟩ := bind_ok _ _ _ h3
      exact key _ _ _ h3 hr3
  clear h3
  obtain ⟨rr0, -, h⟩ := bind_ok _ _ _ h
  obtain ⟨r4, h4, h⟩ := bind_ok _ _ _ h
  split at h
  · rename_i hr4
    split at h4
    · have := pure_ok _ _ h4
      rw [← this] at hr4
      exact absurd rfl hr4
    · obtain ⟨rrr, -, h4⟩ := bind_ok _ _ _ h4
      exact key _ _ _ h4 hr4
  · have := pure_ok _ _ h
    simp at this

end ReturnCodes2

section ReturnCodes3
variable {α : Type} [LinearOrderedField α]

theorem update_rc (m : Libm α) (fuel : Nat) (env env1 : arms_state α) (p : POINT α)
    (params params1 : apop_arms_settings α) (rc : Int)
    (h : update m fuel env p params = .ok (rc, env1, params1)) :
    params1.do_metro = params.do_metro ∧ (rc = 0 ∨ (rc = 1 ∧ params.do_metro = 0)) := by
  unfold update at h
  split at h
  · simp only [Except.ok.injEq, Prod.mk.injEq] at h
    exact ⟨by rw [← h.2.2], Or.inl h.1.symm⟩
  · obtain ⟨P3, -, h⟩ := bind_ok _ _ _ h
    obtain ⟨adj, hadj, h⟩ := bind_ok _ _ _ h
    obtain ⟨rv, hrv, h⟩ := bind_ok _ _ _ h
    have hdm := update_adjust_do_metro _ _ _ _ _ hadj
    split at h
    · rename_i hb
      have := pure_ok _ _ h
      simp only [Prod.mk.injEq] at this
      refine ⟨by rw [← this.2.2]; exact hdm, Or.inr ⟨this.1.symm, ?_⟩⟩
      rw [← hdm]
      exact update_meets_true _ _ _ _ _ hrv hb
    · obtain ⟨env2, -, h⟩ := bind_ok _ _ _ h
      have := pure_ok _ _ h
      simp only [Prod.mk.injEq] at this
      exact ⟨by rw [← this.2.2]; exact hdm, Or.inl this.1.symm⟩

theorem test_metro_rc (m : Libm α) (fuel : Nat) (r r1 : Rng α) (env env1 : arms_state α)
    (p p1 : POINT α) (params params1 : apop_arms_settings α) (ynew : α) (rc : Int)
    (h : test_metro m fuel r env p params ynew = .ok (rc, r1, env1, p1, params1)) : rc = 1 := by
  unfold test_metro at h
  obtain ⟨q0, -, h⟩ := bind_ok _ _ _ h
  obtain ⟨ql, -, h⟩ := bind_ok _ _ _ h
  obtain ⟨qr, -, h⟩ := bind_ok _ _ _ h
  dsimp only at h
  split at h
  · have := pure_ok _ _ h
    simp only [Prod.mk.injEq] at this
    exact this.1.symm
  · have := pure_ok _ _ h
    simp only [Prod.mk.injEq] at this
    exact this.1.symm

theorem test_rc (m : Libm α) (fuel : Nat) (r r1 : Rng α) (env env1 : arms_state α)
    (p p1 : POINT α) (params params1 : apop_arms_settings α) (rc : Int)
    (h : test m fuel r env p params = .ok (rc, r1, env1, p1, params1)) :
    rc = 0 ∨ rc = 1 ∨ (rc = -1 ∧ params.do_metro = 0) := by
  unfold test at h
  split at h
  · dsimp only at h
    split at h
    · simp only [Except.ok.injEq, Prod.mk.injEq] at h
      exact Or.inr (Or.inl h.1.symm)
    · split at h
      · split at h
        · exact absurd h (by simp)
        · rename_i rcu envu paramsu hu
          have hu2 := update_rc _ _ _ _ _ _ _ _ hu
          split at h
          · rename_i hne
            simp only [Except.ok.injEq, Prod.mk.injEq] at h
            rcases hu2.2 with h0 | h1
            · exact absurd h0 hne
            · exact Or.inr (Or.inr ⟨h.1.symm, h1.2⟩)
          · simp only [Except.ok.injEq, Prod.mk.injEq] at h
            rw [← h.1]
            split
            · exact Or.inr (Or.inl rfl)
            · exact Or.inl rfl
      · exact Or.inr (Or.inl (test_metro_rc _ _ _ _ _ _ _ _ _ _ _ _ h))
  · exact absurd h (by simp)


/-- The validity conditions on a configuration checked by `initial`. -/
theorem initial_ok_cases (m : Libm α) (fuel : Nat) (mem : Nat → POINT α)
    (params params1 : apop_arms_settings α) (env env1 : arms_state α) (rc : Int)
    (h : initial m fuel mem params env = .ok (rc, params1, env1)) :
    (rc ∈ [(1001 : Int), 1002, 1003, 1004, 1008] ∧ params1 = params ∧ env1 = env) ∨
    ((3 ≤ params.ninit ∧ 2 * params.ninit + 1 ≤ params.npoint ∧
      (params.xinit 0 > params.xl ∧ params.xinit (params.ninit - 1) < params.xr) ∧
      initial_ordered params.xinit params.ninit = true ∧ 0 ≤ params.convex) ∧
      initial_envelope m fuel mem params env = .ok (rc, params1, env1)) := by
  have hcode : ∀ c : Int, c ∈ [(1001 : Int), 1002, 1003, 1004, 1008] →
      initial m fuel mem params env = .ok (c, params, env) →
      rc ∈ [(1001 : Int), 1002, 1003, 1004, 1008] ∧ params1 = params ∧ env1 = env := by
    intro c hc h1
    rw [h1] at h
    simp only [Except.ok.injEq, Prod.mk.injEq] at h
    exact ⟨by rw [← h.1]; exact hc, h.2.1.symm, h.2.2.symm⟩
  rcases initial_cases m fuel mem params env with ⟨-, hc⟩ | ⟨-, -, hc⟩ | ⟨-, hc⟩ |
    ⟨-, hc⟩ | ⟨-, hc⟩ | ⟨-, hc⟩ | ⟨hv, -, he⟩
  · exact Or.inl (hcode 1001 (by simp) hc)
  · exact Or.inl (hcode 1002 (by simp) hc)
  · exact Or.inl (hcode 1003 (by simp) hc)
  · exact Or.inl (hcode 1004 (by simp) hc)
  · exact Or.inl (hcode 1008 (by simp) hc)
  · rw [hc] at h
    exact absurd h (by simp)
  · rw [he] at h
    exact Or.inr ⟨hv, h⟩

theorem initial_envelope_rc (m : Libm α) (fuel : Nat) (mem : Nat → POINT α)
    (params params1 : apop_arms_settings α) (env env1 : arms_state α) (rc : Int)
    (h : initial_envelope m fuel mem params env = .ok (rc, params1, env1)) :
    rc = 0 ∨ (rc = 2000 ∧ params.do_metro = 0) := by
  unfold initial_envelope at h
  dsimp only at h
  split at h
  · exact absurd h (by simp)
  · rename_i rc1 env2 hm
    split at h
    · rename_i hne
      simp only [Except.ok.injEq, Prod.mk.injEq] at h
      rcases initial_meets_rc _ _ _ _ _ _ hm with h0 | h1
      · exact absurd h0 hne
      · refine Or.inr ⟨h.1.symm, ?_⟩
        rw [← h1.2, initial_points_do_metro]
    · split at h
      · exact absurd h (by simp)
      · simp only [Except.ok.injEq, Prod.mk.injEq] at h
        exact Or.inl h.1.symm

/-- C3: an envelope violation is reported only while Metropolis correction is
disabled.  `meet` returns non-zero only if `do_metro` is 0; consequently, with
`do_metro` enabled, `initial` never returns 2000 (a configuration that passes
validation makes it return 0), `update` never returns 1 (it returns 0), and
`test` returns 0 or 1, never -1. -/
theorem violation_only_without_metro (m : Libm α) (fuel : Nat) :
    (∀ (q : Nat) (env env1 : arms_state α) (params : apop_arms_settings α) (rc : Int),
      meet q env params = .ok (rc, env1) → rc ≠ 0 → params.do_metro = 0) ∧
    (∀ (mem : Nat → POINT α) (params params1 : apop_arms_settings α) (env env1 : arms_state α)
      (rc : Int), params.do_metro ≠ 0 →
      initial m fuel mem params env = .ok (rc, params1, env1) →
      rc ≠ 2000 ∧
      (3 ≤ params.ninit → 2 * params.ninit + 1 ≤ params.npoint →
        (params.xinit 0 > params.xl ∧ params.xinit (params.ninit - 1) < params.xr) →
        (∀ i, 1 ≤ i → i < params.ninit → params.xinit i > params.xinit (i - 1)) →
        0 ≤ params.convex → rc = 0)) ∧
    (∀ (env env1 : arms_state α) (p : POINT α) (params params1 : apop_arms_settings α)
      (rc : Int), params.do_metro ≠ 0 →
      update m fuel env p params = .ok (rc, env1, params1) → rc ≠ 1 ∧ rc = 0) ∧
    (∀ (r r1 : Rng α) (env env1 : arms_state α) (p p1 : POINT α)
      (params params1 : apop_arms_settings α) (rc : Int), params.do_metro ≠ 0 →
      test m fuel r env p params = .ok (rc, r1, env1, p1, params1) →
      (rc = 0 ∨ rc = 1) ∧ rc ≠ -1) := by
  refine ⟨?_, ?_, ?_, ?_⟩
  · intro q env env1 params rc h hrc
    rcases (meet_ok _ _ _ _ _ h).2 with h0 | h1
    · exact absurd h0.1 hrc
    · exact h1.2.1
  · intro mem params params1 env env1 rc hdm h
    rcases initial_ok_cases _ _ _ _ _ _ _ _ h with ⟨hc, -, -⟩ | ⟨hv, he⟩
    · refine ⟨?_, ?_⟩
      · intro h2
        rw [h2] at hc
        simp at hc
      · intro h1 h2 h3 h4 h5
        rcases initial_valid_cases m fuel mem params env h1 h2 h3
          ((initial_ordered_iff _ _).mpr h4) h5 with ho | ⟨-, hv⟩
        · rw [ho] at h
          exact absurd h (by simp)
        · rw [hv] at h
          rcases initial_envelope_rc _ _ _ _ _ _ _ _ h with h0 | h1
          · exact h0
          · exact absurd h1.2 hdm
    · rcases initial_envelope_rc _ _ _ _ _ _ _ _ he with h0 | h1
      · exact ⟨by rw [h0]; decide, fun _ _ _ _ _ => h0⟩
      · exact absurd h1.2 hdm
  · intro env env1 p params params1 rc hdm h
    rcases (update_rc _ _ _ _ _ _ _ _ h).2 with h0 | h1
    · exact ⟨by rw [h0]; decide, h0⟩
    · exact absurd h1.2 hdm
  · intro r r1 env env1 p p1 params params1 rc hdm h
    rcases test_rc _ _ _ _ _ _ _ _ _ _ _ h with h0 | h1 | h2
    · exact ⟨Or.inl h0, by rw [h0]; decide⟩
    · exact ⟨Or.inr h1, by rw [h1]; decide⟩
    · exact absurd h2.2 hdm

end ReturnCodes3

/-! ## The acceptance test -/

section AcceptanceTest
variable {α : Type} [LinearOrderedField α]

/-- The test height `y = logshift (u2 * p->ey, env->ymax)` of `test`. -/
theorem test_squeeze_accept (m : Libm α) (fuel : Nat) (r : Rng α) (env : arms_state α)
    (p : POINT α) (params : apop_arms_settings α) (l rt : Nat) (ys : α)
    (hpl : p.pl = some l) (hpr : p.pr = some rt)
    (hs : test_squeeze env p params l rt = some ys)
    (hy : logshift m ((gsl_rng_uniform r).1 * p.ey) env.ymax ≤ ys) :
    test m fuel r env p params = .ok (1, (gsl_rng_uniform r).2, env, p, params) := by
  unfold test
  rw [hpl, hpr]
  dsimp only
  rw [hs]
  dsimp only
  rw [if_pos (decide_eq_true hy)]

theorem test_no_squeeze (m : Libm α) (fuel : Nat) (r : Rng α) (env : arms_state α)
    (p : POINT α) (params : apop_arms_settings α) (l rt : Nat)
    (hpl : p.pl = some l) (hpr : p.pr = some rt)
    (hs : ∀ ys, test_squeeze env p params l rt = some ys →
      ¬ (logshift m ((gsl_rng_uniform r).1 * p.ey) env.ymax ≤ ys)) :
    test m fuel r env p params =
      if ¬ (params.do_metro ≠ 0) ∨ (params.do_metro ≠ 0 ∧
          logshift m ((gsl_rng_uniform r).1 * p.ey) env.ymax ≥ (perfunc params p.x).1) then
        match update m fuel env
          { p with y := (perfunc params p.x).1,
                   ey := expshift m (perfunc params p.x).1 env.ymax, f := 1 }
          (perfunc params p.x).2 with
        | .error e => .error e
        | .ok (rc, env1, params1) =>
          if rc ≠ 0 then .ok (-1, (gsl_rng_uniform r).2, env1,
            { p with y := (perfunc params p.x).1,
                     ey := expshift m (perfunc params p.x).1 env.ymax, f := 1 }, params1)
          else .ok (if logshift m ((gsl_rng_uniform r).1 * p.ey) env.ymax
              < (perfunc params p.x).1 then 1 else 0, (gsl_rng_uniform r).2, env1,
            { p with y := (perfunc params p.x).1,
                     ey := expshift m (perfunc params p.x).1 env.ymax, f := 1 }, params1)
      else test_metro m fuel (gsl_rng_uniform r).2 env p (perfunc params p.x).2
        (perfunc params p.x).1 := by
  unfold test
  rw [hpl, hpr]
  dsimp only
  have : (match test_squeeze env p params l rt with
        | some ysqueez => decide (logshift m ((gsl_rng_uniform r).1 * p.ey) env.ymax ≤ ysqueez)
        | none => false) = false := by
    cases hq : test_squeeze env p params l rt with
    | none => rfl
    | some ys => exact decide_eq_false (hs ys hq)
  rw [this]
  rfl

theorem test_squeeze_metro (env : arms_state α) (p : POINT α) (params : apop_arms_settings α)
    (l rt : Nat) (hdm : params.do_metro ≠ 0) : test_squeeze env p params l rt = none := by
  unfold test_squeeze
  dsimp only
  rw [if_neg hdm]

end AcceptanceTest

section RejectionBranch
variable {α : Type} [LinearOrderedField α]

/-- C4: the rejection branch of `test`.  When the squeeze step did not accept
and either Metropolis is disabled, or it is enabled and `y_test >= y_new`
(`y_test = logshift (u2 * p.ey, ymax)`, `y_new` the log density at `p.x`), and
`update` reports no violation, then `test` returns 1 if `y_test < y_new` and 0
otherwise; with Metropolis enabled this branch returns 0. -/
theorem test_rejection_branch (m : Libm α) (fuel : Nat) (r : Rng α) (env env1 : arms_state α)
    (p : POINT α) (params params1 : apop_arms_settings α) (l rt : Nat)
    (hpl : p.pl = some l) (hpr : p.pr = some rt)
    (hs : ∀ ys, test_squeeze env p params l rt = some ys →
      ¬ (logshift m ((gsl_rng_uniform r).1 * p.ey) env.ymax ≤ ys))
    (hb : params.do_metro = 0 ∨ (params.do_metro ≠ 0 ∧
      logshift m ((gsl_rng_uniform r).1 * p.ey) env.ymax ≥ params.model p.x))
    (hu : update m fuel env
      { p with y := params.model p.x, ey := expshift m (params.model p.x) env.ymax, f := 1 }
      (perfunc params p.x).2 = .ok (0, env1, params1)) :
    test m fuel r env p params =
      .ok (if logshift m ((gsl_rng_uniform r).1 * p.ey) env.ymax < params.model p.x
          then 1 else 0,
        (gsl_rng_uniform r).2, env1,
        { p with y := params.model p.x, ey := expshift m (params.model p.x) env.ymax, f := 1 },
        params1) ∧
    (params.do_metro ≠ 0 →
      test m fuel r env p params =
        .ok (0, (gsl_rng_uniform r).2, env1,
          { p with y := params.model p.x, ey := expshift m (params.model p.x) env.ymax,
                   f := 1 },
          params1)) := by
  have h1 : test m fuel r env p params =
      .ok (if logshift m ((gsl_rng_uniform r).1 * p.ey) env.ymax < params.model p.x
          then 1 else 0,
        (gsl_rng_uniform r).2, env1,
        { p with y := params.model p.x, ey := expshift m (params.model p.x) env.ymax, f := 1 },
        params1) := by
    rw [test_no_squeeze m fuel r env p params l rt hpl hpr hs]
    have hc : ¬ (params.do_metro ≠ 0) ∨ (params.do_metro ≠ 0 ∧
        logshift m ((gsl_rng_uniform r).1 * p.ey) env.ymax ≥ (perfunc params p.x).1) := by
      rcases hb with h0 | h1
      · exact Or.inl (not_not.mpr h0)
      · exact Or.inr h1
    rw [if_pos hc]
    have hu1 : update m fuel env
        { p with y := (perfunc params p.x).1,
                 ey := expshift m (perfunc params p.x).1 env.ymax, f := 1 }
        (perfunc params p.x).2 = .ok (0, env1, params1) := hu
    rw [hu1]
    rfl
  refine ⟨h1, ?_⟩
  intro hdm
  rw [h1]
  rcases hb with h0 | h2
  · exact absurd h0 hdm
  · rw [if_neg (not_lt.mpr h2.2)]


end RejectionBranch

/-- Witness for C4: the working point `ex_work` in the full envelope `ex_env`
with Metropolis disabled is rejected (`y_test = 1/2`, `y_new = -1/8`). -/
theorem test_rejection_branch_witness :
    test ratLibm 10 ex_rng ex_env ex_work ex_settings =
      .ok (if logshift ratLibm ((gsl_rng_uniform ex_rng).1 * ex_work.ey) ex_env.ymax
            < ex_settings.model ex_work.x then 1 else 0,
        (gsl_rng_uniform ex_rng).2, ex_env,
        { ex_work with y := ex_settings.model ex_work.x,
                       ey := expshift ratLibm (ex_settings.model ex_work.x) ex_env.ymax,
                       f := 1 },
        { ex_settings with neval := 1 }) ∧
    ¬ (logshift ratLibm ((gsl_rng_uniform ex_rng).1 * ex_work.ey) ex_env.ymax
            < ex_settings.model ex_work.x) :=
  ⟨(test_rejection_branch ratLibm 10 ex_rng ex_env ex_env ex_work ex_settings
      { ex_settings with neval := 1 } 3 4 rfl rfl
      (by
        intro ys h
        simp [test_squeeze, ex_env, ex_arena, ex_settings, ex_work] at h
        subst h
        norm_num [logshift, ratLibm, gsl_rng_uniform, ex_rng, ex_work, ex_env, YCEIL])
      (Or.inl rfl) rfl).1,
    by norm_num [logshift, ratLibm, gsl_rng_uniform, ex_rng, ex_work, ex_env, YCEIL,
      ex_settings]⟩

section MetropolisBranch
variable {α : Type} [LinearOrderedField α]

theorem test_metro_eq (m : Libm α) (fuel : Nat) (r : Rng α) (env : arms_state α) (p : POINT α)
    (params : apop_arms_settings α) (ynew : α) (q0 ql qr : Nat)
    (h0 : leftmost env.p fuel 0 = .ok q0)
    (h1 : test_walk env.p env.metro_xprev fuel q0 = .ok ql)
    (h2 : (env.p ql).pr = some qr) :
    test_metro m fuel r env p params ynew =
      .ok (1, (gsl_rng_uniform r).2,
        if (gsl_rng_uniform r).1 > test_accept m ynew p.y env.metro_yprev
            ((env.p ql).y + ((env.metro_xprev - (env.p ql).x) / ((env.p qr).x - (env.p ql).x))
              * ((env.p qr).y - (env.p ql).y))
          then env else { env with metro_xprev := p.x, metro_yprev := ynew },
        if (gsl_rng_uniform r).1 > test_accept m ynew p.y env.metro_yprev
            ((env.p ql).y + ((env.metro_xprev - (env.p ql).x) / ((env.p qr).x - (env.p ql).x))
              * ((env.p qr).y - (env.p ql).y))
          then { p with x := env.metro_xprev, y := env.metro_yprev,
                        ey := expshift m env.metro_yprev env.ymax, f := 1,
                        pl := some ql, pr := some qr }
          else p,
        params) := by
  unfold test_metro
  rw [h0]
  simp only [bind, Except.bind]
  rw [h1]
  dsimp only
  rw [h2]
  simp only [deref]
  split <;> rfl

theorem test_metro_ok (m : Libm α) (fuel : Nat) (r : Rng α) (env : arms_state α) (p : POINT α)
    (params : apop_arms_settings α) (ynew : α)
    (out : Int × Rng α × arms_state α × POINT α × apop_arms_settings α)
    (h : test_metro m fuel r env p params ynew = .ok out) :
    ∃ q0 ql qr, leftmost env.p fuel 0 = .ok q0 ∧
      test_walk env.p env.metro_xprev fuel q0 = .ok ql ∧ (env.p ql).pr = some qr := by
  unfold test_metro at h
  obtain ⟨q0, h0, h⟩ := bind_ok _ _ _ h
  obtain ⟨ql, h1, h⟩ := bind_ok _ _ _ h
  obtain ⟨qr, h2, h⟩ := bind_ok _ _ _ h
  refine ⟨q0, ql, qr, h0, h1, ?_⟩
  unfold deref at h2
  split at h2
  · rename_i i hi
    simp only [Except.ok.injEq] at h2
    rw [hi, h2]
  · exact absurd h2 (by simp)

end MetropolisBranch

section MetropolisBranch2
variable {α : Type} [LinearOrderedField α]

/-- C5: the Metropolis branch of `test` (`do_metro` enabled and `y_test <
y_new`).  Whenever `test` returns, the return value is 1 and the envelope points
are not modified; with `w` the acceptance probability and `u3` the third
uniform draw, if `u3 > w` the working point's `x` and `y` become the cached
previous iterate and the cache is unchanged, otherwise the cache becomes
`(p.x, y_new)` and the working point's `x` is unchanged.  And `test` does
return as soon as the walk to the piece containing `metro_xprev` ends. -/
theorem test_metropolis_branch (m : Libm α) (fuel : Nat) (r : Rng α) (env : arms_state α)
    (p : POINT α) (params : apop_arms_settings α) (l rt : Nat)
    (hpl : p.pl = some l) (hpr : p.pr = some rt) (hdm : params.do_metro ≠ 0)
    (hy : logshift m ((gsl_rng_uniform r).1 * p.ey) env.ymax < params.model p.x) :
    (∀ rc r1 env1 p1 params1,
      test m fuel r env p params = .ok (rc, r1, env1, p1, params1) →
      rc = 1 ∧ env1.p = env.p ∧
      ∃ q0 ql qr, leftmost env.p fuel 0 = .ok q0 ∧
        test_walk env.p env.metro_xprev fuel q0 = .ok ql ∧ (env.p ql).pr = some qr ∧
        (((gsl_rng_uniform (gsl_rng_uniform r).2).1 >
            test_accept m (params.model p.x) p.y env.metro_yprev
              ((env.p ql).y + ((env.metro_xprev - (env.p ql).x) / ((env.p qr).x - (env.p ql).x))
                * ((env.p qr).y - (env.p ql).y)) →
          p1.x = env.metro_xprev ∧ p1.y = env.metro_yprev ∧
          env1.metro_xprev = env.metro_xprev ∧ env1.metro_yprev = env.metro_yprev) ∧
        (¬ ((gsl_rng_uniform (gsl_rng_uniform r).2).1 >
            test_accept m (params.model p.x) p.y env.metro_yprev
              ((env.p ql).y + ((env.metro_xprev - (env.p ql).x) / ((env.p qr).x - (env.p ql).x))
                * ((env.p qr).y - (env.p ql).y))) →
          env1.metro_xprev = p.x ∧ env1.metro_yprev = params.model p.x ∧ p1.x = p.x))) ∧
    (∀ q0 ql qr, leftmost env.p fuel 0 = .ok q0 →
      test_walk env.p env.metro_xprev fuel q0 = .ok ql → (env.p ql).pr = some qr →
      ∃ r1 env1 p1 params1, test m fuel r env p params = .ok (1, r1, env1, p1, params1)) := by
  have hs : ∀ ys, test_squeeze env p params l rt = some ys →
      ¬ (logshift m ((gsl_rng_uniform r).1 * p.ey) env.ymax ≤ ys) := by
    intro ys h
    rw [test_squeeze_metro env p params l rt hdm] at h
    exact absurd h (by simp)
  have hb : ¬ (¬ (params.do_metro ≠ 0) ∨ (params.do_metro ≠ 0 ∧
      logshift m ((gsl_rng_uniform r).1 * p.ey) env.ymax ≥ (perfunc params p.x).1)) := by
    intro h
    rcases h with h | h
    · exact h hdm
    · exact absurd hy (not_lt.mpr h.2)
  have ht := test_no_squeeze m fuel r env p params l rt hpl hpr hs
  rw [if_neg hb] at ht
  constructor
  · intro rc r1 env1 p1 params1 h
    rw [ht] at h
    obtain ⟨q0, ql, qr, h0, h1, h2⟩ := test_metro_ok _ _ _ _ _ _ _ _ h
    rw [test_metro_eq m fuel _ env p _ _ q0 ql qr h0 h1 h2] at h
    simp only [Except.ok.injEq, Prod.mk.injEq] at h
    obtain ⟨hrc, -, he, hp, -⟩ := h
    refine ⟨hrc.symm, ?_, q0, ql, qr, h0, h1, h2, ?_, ?_⟩
    · rw [← he]
      split <;> rfl
    · intro hu
      have hu1 : (gsl_rng_uniform (gsl_rng_uniform r).2).1 >
          test_accept m (perfunc params p.x).1 p.y env.metro_yprev
            ((env.p ql).y + ((env.metro_xprev - (env.p ql).x) / ((env.p qr).x - (env.p ql).x))
              * ((env.p qr).y - (env.p ql).y)) := hu
      rw [if_pos hu1] at he hp
      rw [← he, ← hp]
      exact ⟨rfl, rfl, rfl, rfl⟩
    · intro hu
      have hu1 : ¬ ((gsl_rng_uniform (gsl_rng_uniform r).2).1 >
          test_accept m (perfunc params p.x).1 p.y env.metro_yprev
            ((env.p ql).y + ((env.metro_xprev - (env.p ql).x) / ((env.p qr).x - (env.p ql).x))
              * ((env.p qr).y - (env.p ql).y))) := hu
      rw [if_neg hu1] at he hp
      rw [← he, ← hp]
      exact ⟨rfl, rfl, rfl⟩
  · intro q0 ql qr h0 h1 h2
    rw [ht, test_metro_eq m fuel _ env p _ _ q0 ql qr h0 h1 h2]
    exact ⟨_, _, _, _, rfl⟩

/-- Witness for C5: the working point `ex_work` in the envelope `ex_env` with
Metropolis enabled and all draws 0 (`y_test = -99/2 < y_new = -1/8`): `test`
returns 1. -/
theorem test_metropolis_branch_witness :
    ∃ r1 env1 p1 params1,
      test ratLibm 10 ⟨fun _ => 0, 0⟩ ex_env ex_work { ex_settings with do_metro := 1 } =
        .ok (1, r1, env1, p1, params1) :=
  (test_metropolis_branch ratLibm 10 ⟨fun _ => 0, 0⟩ ex_env ex_work
    { ex_settings with do_metro := 1 } 3 4 rfl rfl (by decide)
    (by norm_num [logshift, ratLibm, gsl_rng_uniform, ex_work, ex_env, YCEIL,
      ex_settings])).2 0 2 3 rfl rfl rfl

end MetropolisBranch2

section SqueezeStep
variable {α : Type} [LinearOrderedField α]

theorem update_adjust_neval (P P1 : Nat → POINT α) (params params1 : apop_arms_settings α)
    (qi : Nat) (h : update_adjust P params qi = .ok (P1, params1)) :
    params.neval ≤ params1.neval := by
  unfold update_adjust at h
  obtain ⟨l, -, h⟩ := bind_ok _ _ _ h
  obtain ⟨r, -, h⟩ := bind_ok _ _ _ h
  dsimp only at h
  split at h
  · have := pure_ok _ _ h
    simp only [Prod.mk.injEq] at this
    rw [← this.2, perfunc_snd]
    exact Nat.le_succ _
  · split at h
    · have := pure_ok _ _ h
      simp only [Prod.mk.injEq] at this
      rw [← this.2, perfunc_snd]
      exact Nat.le_succ _
    · have := pure_ok _ _ h
      simp only [Prod.mk.injEq] at this
      rw [← this.2]

theorem update_neval (m : Libm α) (fuel : Nat) (env env1 : arms_state α) (p : POINT α)
    (params params1 : apop_arms_settings α) (rc : Int)
    (h : update m fuel env p params = .ok (rc, env1, params1)) :
    params.neval ≤ params1.neval := by
  unfold update at h
  split at h
  · simp only [Except.ok.injEq, Prod.mk.injEq] at h
    rw [← h.2.2]
  · obtain ⟨P3, -, h⟩ := bind_ok _ _ _ h
    obtain ⟨adj, hadj, h⟩ := bind_ok _ _ _ h
    obtain ⟨rv, hrv, h⟩ := bind_ok _ _ _ h
    have hn := update_adjust_neval _ _ _ _ _ hadj
    split at h
    · have := pure_ok _ _ h
      simp only [Prod.mk.injEq] at this
      rw [← this.2.2]
      exact hn
    · obtain ⟨env2, -, h⟩ := bind_ok _ _ _ h
      have := pure_ok _ _ h
      simp only [Prod.mk.injEq] at this
      rw [← this.2.2]
      exact hn

theorem test_metro_params (m : Libm α) (fuel : Nat) (r r1 : Rng α) (env env1 : arms_state α)
    (p p1 : POINT α) (params params1 : apop_arms_settings α) (ynew : α) (rc : Int)
    (h : test_metro m fuel r env p params ynew = .ok (rc, r1, env1, p1, params1)) :
    params1 = params := by
  obtain ⟨q0, ql, qr, h0, h1, h2⟩ := test_metro_ok _ _ _ _ _ _ _ _ h
  rw [test_metro_eq m fuel _ env p _ _ q0 ql qr h0 h1 h2] at h
  simp only [Except.ok.injEq, Prod.mk.injEq] at h
  exact h.2.2.2.2.symm

/-- C6: the squeeze step of `test`.  If Metropolis is disabled, both `p.pl.pl`
and `p.pr.pr` exist, and `y_test` is at most the value at `p.x` of the chord
through the nearest on-curve points on either side of the candidate (`p.pl` if
on-curve else `p.pl.pl`; `p.pr` if on-curve else `p.pr.pr`), then `test`
returns 1 with the settings (so `neval`), the state and the working point
unchanged.  With Metropolis enabled the squeeze step is not taken, and every
call of `test` that returns has increased `neval` by at least one. -/
theorem test_squeeze_step (m : Libm α) (fuel : Nat) (r : Rng α) (env : arms_state α)
    (p : POINT α) (params : apop_arms_settings α) (l rt : Nat)
    (hpl : p.pl = some l) (hpr : p.pr = some rt) :
    (∀ ll rr, params.do_metro = 0 → (env.p l).pl = some ll → (env.p rt).pr = some rr →
      logshift m ((gsl_rng_uniform r).1 * p.ey) env.ymax ≤
        ((env.p (if (env.p rt).f ≠ 0 then rt else rr)).y
            * (p.x - (env.p (if (env.p l).f ≠ 0 then l else ll)).x)
          + (env.p (if (env.p l).f ≠ 0 then l else ll)).y
            * ((env.p (if (env.p rt).f ≠ 0 then rt else rr)).x - p.x))
        / ((env.p (if (env.p rt).f ≠ 0 then rt else rr)).x
          - (env.p (if (env.p l).f ≠ 0 then l else ll)).x) →
      test m fuel r env p params = .ok (1, (gsl_rng_uniform r).2, env, p, params)) ∧
    (params.do_metro ≠ 0 →
      test_squeeze env p params l rt = none ∧
      ∀ rc r1 env1 p1 params1,
        test m fuel r env p params = .ok (rc, r1, env1, p1, params1) →
        params.neval + 1 ≤ params1.neval) := by
  constructor
  · intro ll rr hdm hll hrr hy
    apply test_squeeze_accept m fuel r env p params l rt _ hpl hpr _ hy
    unfold test_squeeze
    dsimp only
    rw [if_pos hdm, hll, hrr]
  · intro hdm
    refine ⟨test_squeeze_metro env p params l rt hdm, ?_⟩
    intro rc r1 env1 p1 params1 h
    have hs : ∀ ys, test_squeeze env p params l rt = some ys →
        ¬ (logshift m ((gsl_rng_uniform r).1 * p.ey) env.ymax ≤ ys) := by
      intro ys h
      rw [test_squeeze_metro env p params l rt hdm] at h
      exact absurd h (by simp)
    rw [test_no_squeeze m fuel r env p params l rt hpl hpr hs] at h
    split at h
    · split at h
      · exact absurd h (by simp)
      · rename_i rcu envu paramsu hu
        have hn := update_neval _ _ _ _ _ _ _ _ hu
        rw [perfunc_snd] at hn
        split at h
        · simp only [Except.ok.injEq, Prod.mk.injEq] at h
          rw [← h.2.2.2.2]
          exact hn
        · simp only [Except.ok.injEq, Prod.mk.injEq] at h
          rw [← h.2.2.2.2]
          exact hn
    · have := test_metro_params _ _ _ _ _ _ _ _ _ _ _ _ h
      rw [this, perfunc_snd]

/-- Witness for C6: the working point `ex_work` in `ex_env`, Metropolis
disabled, all draws 0: `y_test = -99/2` is below the chord value `-1/4`, and
`test` accepts at the squeeze step. -/
theorem test_squeeze_step_witness :
    test ratLibm 10 ⟨fun _ => 0, 0⟩ ex_env ex_work ex_settings =
      .ok (1, ⟨fun _ => 0, 1⟩, ex_env, ex_work, ex_settings) :=
  (test_squeeze_step ratLibm 10 ⟨fun _ => 0, 0⟩ ex_env ex_work ex_settings 3 4 rfl rfl).1
    2 5 rfl rfl rfl
    (by norm_num [logshift, ratLibm, gsl_rng_uniform, ex_work, ex_env, YCEIL, ex_arena])

end SqueezeStep

/-! ## `update`: capacity, no-op, error path -/

section Updater
variable {α : Type} [LinearOrderedField α]

/-- C13: when the arena is exhausted (`cpoint > npoint - 2`) or the candidate is
not flagged on-curve, `update` returns 0 and leaves the whole envelope
unchanged: the state (with `cpoint`, every point of the arena and `ymax`) and
the settings (with the evaluation counter) come back as they were. -/
theorem update_noop (m : Libm α) (fuel : Nat) (env : arms_state α) (p : POINT α)
    (params : apop_arms_settings α)
    (h : (env.cpoint : Int) > (env.npoint : Int) - 2 ∨ p.f = 0) :
    update m fuel env p params = .ok (0, env, params) := by
  unfold update
  rw [if_pos]
  rcases h with h | h
  · exact Or.inr h
  · exact Or.inl (not_not.mpr h)

/-- Witness for C13: the envelope `ex_env` is full (`cpoint = npoint = 7`). -/
theorem update_noop_witness :
    update ratLibm 10 ex_env { ex_work with f := 1 } ex_settings
      = .ok (0, ex_env, ex_settings) :=
  update_noop ratLibm 10 ex_env { ex_work with f := 1 } ex_settings (Or.inl (by decide))

end Updater

section MeetBoundary
variable {α : Type} [LinearOrderedField α]

theorem meet_check_x (q : Nat) (env env1 : arms_state α) (x y : α) (rc : Int)
    (h : meet_check q env x y = .ok (rc, env1)) :
    (env1.p q).x = x ∧ (∀ a, (env.p q).pl = some a → (env.p a).x ≤ x) ∧
      (∀ b, (env.p q).pr = some b → x ≤ (env.p b).x) := by
  unfold meet_check at h
  dsimp only at h
  split at h
  · exact absurd h (by simp)
  · rename_i hc
    simp only [Except.ok.injEq, Prod.mk.injEq] at h
    rw [← h.2]
    refine ⟨by simp, ?_, ?_⟩
    · intro a ha
      rw [ha] at hc
      simp only [Bool.or_eq_true, decide_eq_true_eq, not_or, not_lt] at hc
      exact hc.1
    · intro b hb
      rw [hb] at hc
      simp only [Bool.or_eq_true, decide_eq_true_eq, not_or, not_lt] at hc
      exact hc.2

/-- After a call of `meet` that returns 0, the point `q` lies between its
neighbours (the test for error 32), and keeps its `x` if it is an end point of
the envelope. -/
theorem meet_ok_x (q : Nat) (env env1 : arms_state α) (params : apop_arms_settings α)
    (h : meet q env params = .ok (0, env1)) :
    (∀ a, (env.p q).pl = some a → (env.p a).x ≤ (env1.p q).x) ∧
    (∀ b, (env.p q).pr = some b → (env1.p q).x ≤ (env.p b).x) ∧
    ((env.p q).pl = none ∨ (env.p q).pr = none → (env1.p q).x = (env.p q).x) := by
  unfold meet at h
  dsimp only at h
  split at h
  · exact absurd h (by simp)
  · cases hgl : meet_gl env.p q with
    | error e => rw [hgl] at h; exact absurd h (by simp)
    | ok ogl =>
      cases hgr : meet_gr env.p q with
      | error e => rw [hgl, hgr] at h; exact absurd h (by simp)
      | ok ogr =>
        rw [hgl, hgr] at h
        dsimp only at h
        split at h
        · simp only [Except.ok.injEq, Prod.mk.injEq] at h
          exact absurd h.1 (by decide)
        · split at h
          · simp only [Except.ok.injEq, Prod.mk.injEq] at h
            exact absurd h.1 (by decide)
          · -- the final case distinction
            have hil : (env.p q).pl = none → ogl.isSome = false := by
              intro hn
              unfold meet_gl at hgl
              rw [hn] at hgl
              simp only [Except.ok.injEq] at hgl
              rw [← hgl]
              rfl
            have hir : (env.p q).pr = none → ogr.isSome = false := by
              intro hn
              unfold meet_gr at hgr
              rw [hn] at hgr
              simp only [Except.ok.injEq] at hgr
              rw [← hgr]
              rfl
            have hirl : ((env.p q).pl = none ∨ (env.p q).pr = none) →
                (meet_grl env.p q).isSome = false := by
              intro hn
              unfold meet_grl
              rcases hn with hn | hn
              · rw [hn]
                cases (env.p q).pr <;> rfl
              · rw [hn]
                cases (env.p q).pl <;> rfl
            unfold meet_store at h
            dsimp only at h
            split at h
            · rename_i hc
              split at h
              · have := meet_check_x _ _ _ _ _ _ h
                refine ⟨by rw [this.1]; exact this.2.1, by rw [this.1]; exact this.2.2, ?_⟩
                intro hn
                rw [hirl hn] at hc
                simp at hc
              · exact absurd h (by simp)
            · split at h
              · rename_i hc
                split at h
                · have := meet_check_x _ _ _ _ _ _ h
                  refine ⟨by rw [this.1]; exact this.2.1, by rw [this.1]; exact this.2.2, ?_⟩
                  intro hn
                  rw [hirl hn] at hc
                  simp at hc
                · exact absurd h (by simp)
              · split at h
                · rename_i hc
                  split at h
                  · have := meet_check_x _ _ _ _ _ _ h
                    refine ⟨by rw [this.1]; exact this.2.1, by rw [this.1]; exact this.2.2, ?_⟩
                    intro hn
                    rw [hirl hn] at hc
                    simp at hc
                  · exact absurd h (by simp)
                · split at h
                  · split at h
                    · have := meet_check_x _ _ _ _ _ _ h
                      exact ⟨by rw [this.1]; exact this.2.1, by rw [this.1]; exact this.2.2,
                        fun _ => this.1⟩
                    · exact absurd h (by simp)
                  · split at h
                    · split at h
                      · have := meet_check_x _ _ _ _ _ _ h
                        exact ⟨by rw [this.1]; exact this.2.1, by rw [this.1]; exact this.2.2,
                          fun _ => this.1⟩
                      · exact absurd h (by simp)
                    · exact absurd h (by simp)

end MeetBoundary

section Frames
variable {α : Type} [LinearOrderedField α]

omit [LinearOrderedField α] in
theorem sameScalars_refl (env : arms_state α) : SameScalars env env :=
  ⟨rfl, rfl, rfl, rfl, rfl⟩

omit [LinearOrderedField α] in
theorem sameScalars_trans {e1 e2 e3 : arms_state α} (h1 : SameScalars e1 e2)
    (h2 : SameScalars e2 e3) : SameScalars e1 e3 :=
  ⟨h2.1.trans h1.1, h2.2.1.trans h1.2.1, h2.2.2.1.trans h1.2.2.1,
    h2.2.2.2.1.trans h1.2.2.2.1, h2.2.2.2.2.trans h1.2.2.2.2⟩

omit [LinearOrderedField α] in
theorem meetFrame_refl (P : Nat → POINT α) : MeetFrame P P :=
  fun _ => ⟨rfl, rfl, rfl, rfl, rfl, fun _ => ⟨rfl, rfl⟩, fun _ => rfl⟩

omit [LinearOrderedField α] in
theorem meetFrame_trans {P1 P2 P3 : Nat → POINT α} (h1 : MeetFrame P1 P2)
    (h2 : MeetFrame P2 P3) : MeetFrame P1 P3 := by
  intro i
  obtain ⟨a1, a2, a3, a4, a5, a6, a7⟩ := h1 i
  obtain ⟨b1, b2, b3, b4, b5, b6, b7⟩ := h2 i
  refine ⟨b1.trans a1, b2.trans a2, b3.trans a3, b4.trans a4, b5.trans a5, ?_, ?_⟩
  · intro hf
    have hf2 : (P2 i).f ≠ 0 := by rw [a3]; exact hf
    exact ⟨(b6 hf2).1.trans (a6 hf).1, (b6 hf2).2.trans (a6 hf).2⟩
  · intro hb
    have hb2 : (P2 i).pl = none ∨ (P2 i).pr = none := by rw [a4, a5]; exact hb
    exact (b7 hb2).trans (a7 hb)

omit [LinearOrderedField α] in
theorem cumFrame_refl (P : Nat → POINT α) : CumFrame P P :=
  fun _ => ⟨rfl, rfl, rfl, rfl, rfl⟩

omit [LinearOrderedField α] in
theorem cumFrame_trans {P1 P2 P3 : Nat → POINT α} (h1 : CumFrame P1 P2)
    (h2 : CumFrame P2 P3) : CumFrame P1 P3 := by
  intro i
  obtain ⟨a1, a2, a3, a4, a5⟩ := h1 i
  obtain ⟨b1, b2, b3, b4, b5⟩ := h2 i
  exact ⟨b1.trans a1, b2.trans a2, b3.trans a3, b4.trans a4, b5.trans a5⟩

omit [LinearOrderedField α] in
theorem cumFrame_update_ey (P : Nat → POINT α) (q : Nat) (e : α) :
    CumFrame P (Function.update P q { P q with ey := e }) := by
  intro i
  by_cases h : i = q
  · subst h
    simp
  · simp [Function.update_noteq h]

omit [LinearOrderedField α] in
theorem cumFrame_update_cum (P : Nat → POINT α) (q : Nat) (c : α) :
    CumFrame P (Function.update P q { P q with cum := c }) := by
  intro i
  by_cases h : i = q
  · subst h
    simp
  · simp [Function.update_noteq h]

theorem meet_frame (q : Nat) (env env1 : arms_state α) (params : apop_arms_settings α)
    (rc : Int) (h : meet q env params = .ok (rc, env1)) :
    SameScalars env env1 ∧ env1.ymax = env.ymax ∧ MeetFrame env.p env1.p := by
  obtain ⟨hf, h0 | h1⟩ := meet_ok _ _ _ _ _ h
  · obtain ⟨hrc, x, y, he⟩ := h0
    subst hrc
    have hx := (meet_ok_x _ _ _ _ h).2.2
    subst he
    refine ⟨⟨rfl, rfl, rfl, rfl, rfl⟩, rfl, ?_⟩
    intro i
    by_cases hi : i = q
    · subst hi
      refine ⟨by simp, by simp, by simp, by simp, by simp, fun h0 => absurd hf h0, hx⟩
    · simp [Function.update_noteq hi]
  · rw [h1.2.2]
    exact ⟨sameScalars_refl _, rfl, meetFrame_refl _⟩

theorem cumulate_ey_frame (m : Libm α) (ymax : α) (n : Nat) (q : Option Nat)
    (P P1 : Nat → POINT α) (h : cumulate_ey m ymax n q P = .ok P1) : CumFrame P P1 := by
  induction n generalizing q P with
  | zero =>
    cases q with
    | none =>
      unfold cumulate_ey at h
      simp only [Except.ok.injEq] at h
      rw [← h]
      exact cumFrame_refl _
    | some q =>
      unfold cumulate_ey at h
      exact absurd h (by simp)
  | succ n ih =>
    cases q with
    | none =>
      unfold cumulate_ey at h
      simp only [Except.ok.injEq] at h
      rw [← h]
      exact cumFrame_refl _
    | some q =>
      unfold cumulate_ey at h
      exact cumFrame_trans (cumFrame_update_ey P q _) (ih _ _ h)

theorem cumulate_cum_frame (n : Nat) (q : Option Nat)
    (P P1 : Nat → POINT α) (h : cumulate_cum n q P = .ok P1) : CumFrame P P1 := by
  induction n generalizing q P with
  | zero =>
    cases q with
    | none =>
      unfold cumulate_cum at h
      simp only [Except.ok.injEq] at h
      rw [← h]
      exact cumFrame_refl _
    | some q =>
      unfold cumulate_cum at h
      exact absurd h (by simp)
  | succ n ih =>
    cases q with
    | none =>
      unfold cumulate_cum at h
      simp only [Except.ok.injEq] at h
      rw [← h]
      exact cumFrame_refl _
    | some q =>
      unfold cumulate_cum at h
      split at h
      · exact absurd h (by simp)
      · split at h
        · exact absurd h (by simp)
        · exact cumFrame_trans (cumFrame_update_cum P q _) (ih _ _ h)

theorem cumulate_frame (m : Libm α) (fuel : Nat) (env env1 : arms_state α)
    (h : cumulate m fuel env = .ok env1) : SameScalars env env1 ∧ CumFrame env.p env1.p := by
  unfold cumulate at h
  split at h
  · exact absurd h (by simp)
  · split at h
    · exact absurd h (by simp)
    · split at h
      · exact absurd h (by simp)
      · rename_i P1 hey
        dsimp only at h
        split at h
        · exact absurd h (by simp)
        · rename_i P3 hcum
          simp only [Except.ok.injEq] at h
          rw [← h]
          refine ⟨⟨rfl, rfl, rfl, rfl, rfl⟩, ?_⟩
          exact cumFrame_trans (cumulate_ey_frame _ _ _ _ _ _ hey)
            (cumFrame_trans (cumFrame_update_cum P1 _ 0) (cumulate_cum_frame _ _ _ _ hcum))

end Frames

section Frames2
variable {α : Type} [LinearOrderedField α]

theorem initial_meets_frame (params : apop_arms_settings α) (n j : Nat)
    (env env1 : arms_state α) (rc : Int) (h : initial_meets params n j env = .ok (rc, env1)) :
    SameScalars env env1 ∧ env1.ymax = env.ymax ∧ MeetFrame env.p env1.p := by
  induction n generalizing j env with
  | zero =>
    unfold initial_meets at h
    simp only [Except.ok.injEq, Prod.mk.injEq] at h
    rw [← h.2]
    exact ⟨sameScalars_refl _, rfl, meetFrame_refl _⟩
  | succ n ih =>
    unfold initial_meets at h
    split at h
    · exact absurd h (by simp)
    · rename_i rc1 env2 hm
      have hf := meet_frame _ _ _ _ _ hm
      split at h
      · simp only [Except.ok.injEq, Prod.mk.injEq] at h
        rw [← h.2]
        exact hf
      · have hf2 := ih _ _ h
        exact ⟨sameScalars_trans hf.1 hf2.1, hf2.2.1.trans hf.2.1,
          meetFrame_trans hf.2.2 hf2.2.2⟩

theorem update_meets_frame (env env1 : arms_state α) (params : apop_arms_settings α) (qi : Nat)
    (b : Bool) (h : update_meets env params qi = .ok (b, env1)) :
    SameScalars env env1 ∧ env1.ymax = env.ymax ∧ MeetFrame env.p env1.p := by
  have key : ∀ (q : Nat) (e : arms_state α) (r : Int × arms_state α),
      meet q e params = .ok r →
      SameScalars e r.2 ∧ r.2.ymax = e.ymax ∧ MeetFrame e.p r.2.p :=
    fun q e r hm => meet_frame q e r.2 params r.1 hm
  have tr : ∀ (e1 e2 e3 : arms_state α),
      (SameScalars e1 e2 ∧ e2.ymax = e1.ymax ∧ MeetFrame e1.p e2.p) →
      (SameScalars e2 e3 ∧ e3.ymax = e2.ymax ∧ MeetFrame e2.p e3.p) →
      (SameScalars e1 e3 ∧ e3.ymax = e1.ymax ∧ MeetFrame e1.p e3.p) :=
    fun e1 e2 e3 h1 h2 =>
      ⟨sameScalars_trans h1.1 h2.1, h2.2.1.trans h1.2.1, meetFrame_trans h1.2.2 h2.2.2⟩
  unfold update_meets at h
  obtain ⟨l, -, h⟩ := bind_ok _ _ _ h
  obtain ⟨r1, h1, h⟩ := bind_ok _ _ _ h
  have f1 := key _ _ _ h1
  split at h
  · have := pure_ok _ _ h
    simp only [Prod.mk.injEq] at this
    rw [← this.2]
    exact f1
  clear h1
  obtain ⟨r, -, h⟩ := bind_ok _ _ _ h
  obtain ⟨r2, h2, h⟩ := bind_ok _ _ _ h
  have f2 := tr _ _ _ f1 (key _ _ _ h2)
  split at h
  · have := pure_ok _ _ h
    simp only [Prod.mk.injEq] at this
    rw [← this.2]
    exact f2
  clear h2 f1
  obtain ⟨l2, -, h⟩ := bind_ok _ _ _ h
  obtain ⟨r3, h3, h⟩ := bind_ok _ _ _ h
  have f3 : SameScalars env r3.2 ∧ r3.2.ymax = env.ymax ∧ MeetFrame env.p r3.2.p := by
    split at h3
    · have := pure_ok _ _ h3
      rw [← this]
      exact f2
    · obtain ⟨lll, -, h3⟩ := bind_ok _ _ _ h3
      exact tr _ _ _ f2 (key _ _ _ h3)
  split at h
  · have := pure_ok _ _ h
    simp only [Prod.mk.injEq] at this
    rw [← this.2]
    exact f3
  clear h3 f2
  obtain ⟨rr0, -, h⟩ := bind_ok _ _ _ h
  obtain ⟨r4, h4, h⟩ := bind_ok _ _ _ h
  have f4 : SameScalars env r4.2 ∧ r4.2.ymax = env.ymax ∧ MeetFrame env.p r4.2.p := by
    split at h4
    · have := pure_ok _ _ h4
      rw [← this]
      exact f3
    · obtain ⟨rrr, -, h4⟩ := bind_ok _ _ _ h4
      exact tr _ _ _ f3 (key _ _ _ h4)
  split at h
  · have := pure_ok _ _ h
    simp only [Prod.mk.injEq] at this
    rw [← this.2]
    exact f4
  · have := pure_ok _ _ h
    simp only [Prod.mk.injEq] at this
    rw [← this.2]
    exact f4

/-- The structure of a call of `update` that is not a no-op. -/
theorem update_ok (m : Libm α) (fuel : Nat) (env env1 : arms_state α) (p : POINT α)
    (params params1 : apop_arms_settings α) (rc : Int)
    (hne : ¬ (¬ (p.f ≠ 0) ∨ ((env.cpoint : Int) > (env.npoint : Int) - 2)))
    (h : update m fuel env p params = .ok (rc, env1, params1)) :
    ∃ P3 P4 env2 b,
      update_splice
        (Function.update
          (Function.update env.p env.cpoint { env.p env.cpoint with x := p.x, y := p.y, f := 1 })
          (env.cpoint + 1)
          { (Function.update env.p env.cpoint
              { env.p env.cpoint with x := p.x, y := p.y, f := 1 }) (env.cpoint + 1) with f := 0 })
        p env.cpoint (env.cpoint + 1) = .ok P3 ∧
      update_adjust P3 params env.cpoint = .ok (P4, params1) ∧
      update_meets { env with cpoint := env.cpoint + 2, p := P4 } params1 env.cpoint
        = .ok (b, env2) ∧
      ((b = true ∧ rc = 1 ∧ env1 = env2) ∨
       (b = false ∧ rc = 0 ∧ cumulate m fuel env2 = .ok env1)) := by
  unfold update at h
  rw [if_neg hne] at h
  obtain ⟨P3, h3, h⟩ := bind_ok _ _ _ h
  obtain ⟨adj, hadj, h⟩ := bind_ok _ _ _ h
  obtain ⟨rv, hrv, h⟩ := bind_ok _ _ _ h
  split at h
  · rename_i hb
    have := pure_ok _ _ h
    simp only [Prod.mk.injEq] at this
    refine ⟨P3, adj.1, rv.2, rv.1, h3, ?_, ?_, Or.inl ⟨hb, this.1.symm, this.2.1.symm⟩⟩
    · rw [← this.2.2]; exact hadj
    · rw [← this.2.2]; exact hrv
  · rename_i hb
    obtain ⟨env2, hc, h⟩ := bind_ok _ _ _ h
    have := pure_ok _ _ h
    simp only [Prod.mk.injEq] at this
    refine ⟨P3, adj.1, rv.2, rv.1, h3, ?_, ?_, Or.inr ⟨by simpa using hb, this.1.symm, ?_⟩⟩
    · rw [← this.2.2]; exact hadj
    · rw [← this.2.2]; exact hrv
    · rw [← this.2.1]; exact hc

theorem update_counts (m : Libm α) (fuel : Nat) (env env1 : arms_state α) (p : POINT α)
    (params params1 : apop_arms_settings α) (rc : Int)
    (h : update m fuel env p params = .ok (rc, env1, params1)) :
    env1.npoint = env.npoint ∧
    ((rc = 0 ∧ env1 = env) ∨
     (env1.cpoint = env.cpoint + 2 ∧ (env.cpoint : Int) + 2 ≤ env.npoint)) := by
  by_cases hne : ¬ (p.f ≠ 0) ∨ ((env.cpoint : Int) > (env.npoint : Int) - 2)
  · unfold update at h
    rw [if_pos hne] at h
    simp only [Except.ok.injEq, Prod.mk.injEq] at h
    rw [← h.2.1]
    exact ⟨rfl, Or.inl ⟨h.1.symm, rfl⟩⟩
  · obtain ⟨P3, P4, env2, b, -, -, hm, hc⟩ := update_ok m fuel env env1 p params params1 rc hne h
    have hf := (update_meets_frame _ _ _ _ _ hm).1
    have hcap : (env.cpoint : Int) + 2 ≤ env.npoint := by
      have := not_or.mp hne
      have h2 := this.2
      simp only [gt_iff_lt, not_lt] at h2
      omega
    rcases hc with ⟨-, -, he⟩ | ⟨-, -, he⟩
    · rw [he]
      exact ⟨hf.2.1, Or.inr ⟨hf.1, hcap⟩⟩
    · have hf2 := (cumulate_frame _ _ _ _ he).1
      exact ⟨hf2.2.1.trans hf.2.1, Or.inr ⟨hf2.1.trans hf.1, hcap⟩⟩

end Frames2

section Capacity
variable {α : Type} [LinearOrderedField α]

theorem initial_envelope_counts (m : Libm α) (fuel : Nat) (mem : Nat → POINT α)
    (params params1 : apop_arms_settings α) (env env1 : arms_state α)
    (h : initial_envelope m fuel mem params env = .ok (0, params1, env1)) :
    env1.cpoint = 2 * params.ninit + 1 ∧ env1.npoint = params.npoint := by
  unfold initial_envelope at h
  dsimp only at h
  split at h
  · exact absurd h (by simp)
  · rename_i rc1 env2 hm
    have hf := (initial_meets_frame _ _ _ _ _ _ hm).1
    split at h
    · simp only [Except.ok.injEq, Prod.mk.injEq] at h
      exact absurd h.1 (by decide)
    · split at h
      · exact absurd h (by simp)
      · rename_i env3 hc
        have hf2 := (cumulate_frame _ _ _ _ hc).1
        simp only [Except.ok.injEq, Prod.mk.injEq] at h
        rw [← h.2.2]
        exact ⟨rfl, hf2.2.1.trans hf.2.1⟩

theorem test_counts (m : Libm α) (fuel : Nat) (r r1 : Rng α) (env env1 : arms_state α)
    (p p1 : POINT α) (params params1 : apop_arms_settings α) (rc : Int)
    (h : test m fuel r env p params = .ok (rc, r1, env1, p1, params1)) :
    env1.npoint = env.npoint ∧ env.cpoint ≤ env1.cpoint ∧
      (env.cpoint ≤ env.npoint → env1.cpoint ≤ env1.npoint) := by
  unfold test at h
  split at h
  · dsimp only at h
    split at h
    · simp only [Except.ok.injEq, Prod.mk.injEq] at h
      rw [← h.2.2.1]
      exact ⟨rfl, le_refl _, fun hc => hc⟩
    · split at h
      · split at h
        · exact absurd h (by simp)
        · rename_i rcu envu paramsu hu
          have hcnt := update_counts _ _ _ _ _ _ _ _ hu
          have he : env1 = envu := by
            split at h
            · simp only [Except.ok.injEq, Prod.mk.injEq] at h
              exact h.2.2.1.symm
            · simp only [Except.ok.injEq, Prod.mk.injEq] at h
              exact h.2.2.1.symm
          rw [he]
          refine ⟨hcnt.1, ?_, ?_⟩
          · rcases hcnt.2 with h0 | h2
            · rw [h0.2]
            · rw [h2.1]; omega
          · intro hc
            rcases hcnt.2 with h0 | h2
            · rw [h0.2]; exact hc
            · rw [h2.1, hcnt.1]
              have := h2.2
              omega
      · obtain ⟨q0, ql, qr, h0, h1, h2⟩ := test_metro_ok _ _ _ _ _ _ _ _ h
        rw [test_metro_eq m fuel _ env p _ _ q0 ql qr h0 h1 h2] at h
        simp only [Except.ok.injEq, Prod.mk.injEq] at h
        rw [← h.2.2.1]
        split
        · exact ⟨rfl, le_refl _, fun hc => hc⟩
        · exact ⟨rfl, le_refl _, fun hc => hc⟩
  · exact absurd h (by simp)

theorem invert_ok_state (m : Libm α) (fuel : Nat) (r r1 : Rng α) (state : arms_state α)
    (pwork pw : POINT α) (h : sample m fuel r state pwork = .ok (r1, pw)) :
    r1 = (gsl_rng_uniform r).2 ∧ invert m fuel (gsl_rng_uniform r).1 state pwork = .ok pw := by
  unfold sample at h
  dsimp only at h
  split at h
  · exact absurd h (by simp)
  · rename_i p1 hp
    simp only [Except.ok.injEq, Prod.mk.injEq] at h
    rw [← h.2]
    exact ⟨h.1.symm, hp⟩

theorem draw_attempt_ok (m : Libm α) (fuel : Nat) (r r1 : Rng α) (state state1 : arms_state α)
    (pwork pw1 : POINT α) (params params1 : apop_arms_settings α) (rc : Int)
    (h : draw_attempt m fuel r state pwork params = .ok (rc, r1, state1, pw1, params1)) :
    ∃ pw, invert m fuel (gsl_rng_uniform r).1 state pwork = .ok pw ∧
      test m fuel (gsl_rng_uniform r).2 state pw params = .ok (rc, r1, state1, pw1, params1) := by
  unfold draw_attempt at h
  split at h
  · exact absurd h (by simp)
  · rename_i r2 pw hs
    have := invert_ok_state _ _ _ _ _ _ _ hs
    rw [this.1] at h
    exact ⟨pw, this.2, h⟩

theorem draw_attempt_counts (m : Libm α) (fuel : Nat) (r r1 : Rng α)
    (state state1 : arms_state α) (pwork pw1 : POINT α)
    (params params1 : apop_arms_settings α) (rc : Int)
    (h : draw_attempt m fuel r state pwork params = .ok (rc, r1, state1, pw1, params1)) :
    state1.npoint = state.npoint ∧ state.cpoint ≤ state1.cpoint ∧
      (state.cpoint ≤ state.npoint → state1.cpoint ≤ state1.npoint) := by
  obtain ⟨pw, -, ht⟩ := draw_attempt_ok _ _ _ _ _ _ _ _ _ _ _ h
  exact test_counts _ _ _ _ _ _ _ _ _ _ _ ht

theorem apop_arms_draw_loop_counts (m : Libm α) (fuel : Nat) (k msamp : Nat) (r : Rng α)
    (state : arms_state α) (pwork : POINT α) (params : apop_arms_settings α)
    (res : DrawResult α)
    (h : apop_arms_draw_loop m fuel k msamp r state pwork params = .ok res) :
    res.state.npoint = state.npoint ∧
      (state.cpoint ≤ state.npoint → res.state.cpoint ≤ res.state.npoint) := by
  induction k generalizing msamp r state pwork params with
  | zero =>
    unfold apop_arms_draw_loop at h
    exact absurd h (by simp)
  | succ k ih =>
    unfold apop_arms_draw_loop at h
    split at h
    · exact absurd h (by simp)
    · rename_i i r2 state1 pw1 params1 ha
      have hc := draw_attempt_counts _ _ _ _ _ _ _ _ _ _ _ ha
      split at h
      · simp only [Except.ok.injEq] at h
        rw [← h]
        exact ⟨hc.1, hc.2.2⟩
      · split at h
        · exact absurd h (by simp)
        · split at h
          · have := ih _ _ _ _ _ h
            exact ⟨this.1.trans hc.1, fun hcap => this.2 (hc.2.2 hcap)⟩
          · simp only [Except.ok.injEq] at h
            rw [← h]
            exact ⟨hc.1, hc.2.2⟩

/-- C12: the number of envelope points never exceeds the configured capacity.
`cpoint <= npoint` holds after every successful `initial`, and is preserved
(with `npoint` itself) by every call of `update`, of `test` and of
`apop_arms_draw`. -/
theorem cpoint_le_npoint (m : Libm α) (fuel : Nat) :
    (∀ (mem : Nat → POINT α) (params params1 : apop_arms_settings α) (env env1 : arms_state α),
      initial m fuel mem params env = .ok (0, params1, env1) →
      env1.cpoint ≤ env1.npoint ∧ env1.npoint = params.npoint) ∧
    (∀ (env env1 : arms_state α) (p : POINT α) (params params1 : apop_arms_settings α)
      (rc : Int), env.cpoint ≤ env.npoint →
      update m fuel env p params = .ok (rc, env1, params1) →
      env1.cpoint ≤ env1.npoint ∧ env1.npoint = env.npoint) ∧
    (∀ (r r1 : Rng α) (env env1 : arms_state α) (p p1 : POINT α)
      (params params1 : apop_arms_settings α) (rc : Int), env.cpoint ≤ env.npoint →
      test m fuel r env p params = .ok (rc, r1, env1, p1, params1) →
      env1.cpoint ≤ env1.npoint ∧ env1.npoint = env.npoint) ∧
    (∀ (r : Rng α) (state : arms_state α) (pwork : POINT α) (params : apop_arms_settings α)
      (res : DrawResult α), state.cpoint ≤ state.npoint →
      apop_arms_draw m fuel r state pwork params = .ok res →
      res.state.cpoint ≤ res.state.npoint ∧ res.state.npoint = state.npoint) := by
  refine ⟨?_, ?_, ?_, ?_⟩
  · intro mem params params1 env env1 h
    rcases initial_ok_cases _ _ _ _ _ _ _ _ h with ⟨hc, -, -⟩ | ⟨hv, he⟩
    · simp at hc
    · have := initial_envelope_counts _ _ _ _ _ _ _ he
      rw [this.1, this.2]
      exact ⟨hv.2.1, rfl⟩
  · intro env env1 p params params1 rc hcap h
    have hcnt := update_counts _ _ _ _ _ _ _ _ h
    refine ⟨?_, hcnt.1⟩
    rcases hcnt.2 with h0 | h2
    · rw [h0.2]; exact hcap
    · rw [h2.1, hcnt.1]
      have := h2.2
      omega
  · intro r r1 env env1 p p1 params params1 rc hcap h
    have := test_counts _ _ _ _ _ _ _ _ _ _ _ h
    exact ⟨this.2.2 hcap, this.1⟩
  · intro r state pwork params res hcap h
    have := apop_arms_draw_loop_counts _ _ _ _ _ _ _ _ _ h
    exact ⟨this.2 hcap, this.1⟩

end Capacity

/-! ## The draw loop -/

section DrawLoop
variable {α : Type} [LinearOrderedField α]

theorem draw_loop_run (m : Libm α) (fuel : Nat) (k msamp : Nat) (r : Rng α)
    (state : arms_state α) (pwork : POINT α) (params : apop_arms_settings α)
    (res : DrawResult α) (hm : msamp < 10000)
    (h : apop_arms_draw_loop m fuel k msamp r state pwork params = .ok res) :
    ∃ n s1, draw_rejected m fuel n (r, state, pwork, params) = some s1 ∧
      ((msamp + n < 10000 ∧ ∃ s2, draw_attempt m fuel s1.1 s1.2.1 s1.2.2.1 s1.2.2.2
            = .ok (1, s2) ∧
          res = ⟨some s2.2.2.1.x, msamp + n, s2.1, s2.2.1, s2.2.2.2⟩) ∨
       (msamp + n = 10000 ∧ res = ⟨none, 10000, s1.1, s1.2.1, s1.2.2.2⟩)) := by
  induction k generalizing msamp r state pwork params with
  | zero =>
    unfold apop_arms_draw_loop at h
    exact absurd h (by simp)
  | succ k ih =>
    unfold apop_arms_draw_loop at h
    split at h
    · exact absurd h (by simp)
    · rename_i i r2 state1 pw1 params1 ha
      split at h
      · rename_i hi
        subst hi
        simp only [Except.ok.injEq] at h
        exact ⟨0, _, rfl, Or.inl ⟨by omega, _, ha, by rw [← h]; rfl⟩⟩
      · split at h
        · exact absurd h (by simp)
        · rename_i hi1 hi0
          have hi : i = 0 := not_not.mp hi0
          subst hi
          split at h
          · rename_i hlt
            obtain ⟨n, s1, hr, hc⟩ := ih (msamp + 1) r2 state1 pw1 params1 hlt h
            refine ⟨n + 1, s1, ?_, ?_⟩
            · unfold draw_rejected
              dsimp only
              rw [ha]
              simpa using hr
            · rcases hc with ⟨h1, s2, h2, h3⟩ | ⟨h1, h3⟩
              · exact Or.inl ⟨by omega, s2, h2, by rw [h3]; congr 1; omega⟩
              · exact Or.inr ⟨by omega, h3⟩
          · simp only [Except.ok.injEq] at h
            refine ⟨1, (r2, state1, pw1, params1), ?_, Or.inr ⟨by omega, ?_⟩⟩
            · unfold draw_rejected
              dsimp only
              rw [ha]
              simp [draw_rejected]
            · rw [← h]
              congr 1
              omega

theorem draw_loop_of_run (m : Libm α) (fuel : Nat) (n : Nat) :
    ∀ (k msamp : Nat) (s s1 : Rng α × arms_state α × POINT α × apop_arms_settings α),
      msamp + k = 10000 → msamp < 10000 →
      draw_rejected m fuel n s = some s1 →
      (∀ s2, msamp + n < 10000 →
        draw_attempt m fuel s1.1 s1.2.1 s1.2.2.1 s1.2.2.2 = .ok (1, s2) →
        apop_arms_draw_loop m fuel k msamp s.1 s.2.1 s.2.2.1 s.2.2.2
          = .ok ⟨some s2.2.2.1.x, msamp + n, s2.1, s2.2.1, s2.2.2.2⟩) ∧
      (msamp + n = 10000 →
        apop_arms_draw_loop m fuel k msamp s.1 s.2.1 s.2.2.1 s.2.2.2
          = .ok ⟨none, 10000, s1.1, s1.2.1, s1.2.2.2⟩) := by
  induction n with
  | zero =>
    intro k msamp s s1 hk hm hr
    unfold draw_rejected at hr
    simp only [Option.some.injEq] at hr
    subst hr
    constructor
    · intro s2 _ ha
      obtain ⟨k, rfl⟩ : ∃ k1, k = k1 + 1 := ⟨k - 1, by omega⟩
      unfold apop_arms_draw_loop
      rw [ha]
      simp
    · intro h
      omega
  | succ n ih =>
    intro k msamp s s1 hk hm hr
    obtain ⟨k, rfl⟩ : ∃ k1, k = k1 + 1 := ⟨k - 1, by omega⟩
    unfold draw_rejected at hr
    split at hr
    swap
    · exact absurd hr (by simp)
    rename_i i s3 ha
    split at hr
    swap
    · exact absurd hr (by simp)
    rename_i hi
    subst hi
    constructor
    · intro s2 hlt ha2
      unfold apop_arms_draw_loop
      rw [ha]
      dsimp only
      rw [if_neg (by decide), if_neg (by decide), if_pos (by omega)]
      have := (ih k (msamp + 1) s3 s1 (by omega) (by omega) hr).1 s2 (by omega) ha2
      rw [this]
      congr 2
      omega
    · intro heq
      unfold apop_arms_draw_loop
      rw [ha]
      dsimp only
      rw [if_neg (by decide), if_neg (by decide)]
      by_cases hlt : msamp + 1 < 10000
      · rw [if_pos hlt]
        exact (ih k (msamp + 1) s3 s1 (by omega) hlt hr).2 (by omega)
      · rw [if_neg hlt]
        have hn : n = 0 := by omega
        subst hn
        unfold draw_rejected at hr
        simp only [Option.some.injEq] at hr
        subst hr
        congr 2

/-- C14: the draw loop is bounded.  `apop_arms_draw` returns exactly in two
ways.  Either, for some `n < 10^4`, the first `n` sample+test attempts ended
with `test` returning 0 and attempt `n + 1` ended with `test` returning 1: then
`*out` is written with the working point's `x` (at most `10^4` attempts were
made).  Or all of the first `10^4` attempts ended with `test` returning 0: then
the call returns after exactly `10^4` attempts with `*out` left untouched. -/
theorem apop_arms_draw_bounded (m : Libm α) (fuel : Nat) (r : Rng α) (state : arms_state α)
    (pwork : POINT α) (params : apop_arms_settings α) (res : DrawResult α) :
    apop_arms_draw m fuel r state pwork params = .ok res ↔
    ∃ n s1, draw_rejected m fuel n (r, state, pwork, params) = some s1 ∧
      ((n < 10000 ∧ ∃ s2, draw_attempt m fuel s1.1 s1.2.1 s1.2.2.1 s1.2.2.2 = .ok (1, s2) ∧
          res = ⟨some s2.2.2.1.x, n, s2.1, s2.2.1, s2.2.2.2⟩) ∨
       (n = 10000 ∧ res = ⟨none, 10000, s1.1, s1.2.1, s1.2.2.2⟩)) := by
  unfold apop_arms_draw
  constructor
  · intro h
    obtain ⟨n, s1, hr, hc⟩ := draw_loop_run m fuel 10000 0 r state pwork params res
      (by decide) h
    refine ⟨n, s1, hr, ?_⟩
    simpa using hc
  · rintro ⟨n, s1, hr, hc⟩
    have := draw_loop_of_run m fuel n 10000 0 (r, state, pwork, params) s1 rfl (by decide) hr
    rcases hc with ⟨h1, s2, h2, h3⟩ | ⟨h1, h3⟩
    · rw [h3]
      simpa using this.1 s2 (by omega) h2
    · rw [h3]
      simpa using this.2 (by omega)

end DrawLoop

section Splice
variable {α : Type} [LinearOrderedField α]

omit [LinearOrderedField α] in
/-- The arena after the splice of `update`, when the neighbours `l`, `r` of the
working point are distinct points other than the two new slots. -/
theorem update_splice_ok (P P3 : Nat → POINT α) (p : POINT α) (qi mi l r : Nat)
    (hpl : p.pl = some l) (hpr : p.pr = some r) (hqm : qi ≠ mi)
    (hlq : l ≠ qi) (hlm : l ≠ mi) (hrq : r ≠ qi) (hrm : r ≠ mi) (hlr : l ≠ r)
    (h : update_splice P p qi mi = .ok P3) :
    ((P l).f ≠ 0 ∧ (P r).f = 0 ∧
      P3 = Function.update (Function.update (Function.update (Function.update P
        mi { P mi with pl := some l, pr := some qi })
        qi { P qi with pl := some mi, pr := some r })
        l { P l with pr := some mi })
        r { P r with pl := some qi }) ∨
    ((P l).f = 0 ∧ (P r).f ≠ 0 ∧
      P3 = Function.update (Function.update (Function.update (Function.update P
        mi { P mi with pl := some qi, pr := some r })
        qi { P qi with pl := some l, pr := some mi })
        r { P r with pl := some mi })
        l { P l with pr := some qi }) := by
  unfold update_splice at h
  rw [hpl, hpr] at h
  simp only [deref, bind, Except.bind] at h
  split at h
  · rename_i hc
    left
    refine ⟨hc.1, not_not.mp hc.2, ?_⟩
    simp only [Function.update_same, Function.update_noteq hqm, Function.update_noteq hqm.symm,
      Function.update_noteq hlq, Function.update_noteq hlm, Function.update_noteq hrq,
      Function.update_noteq hrm, Function.update_noteq hlr, Function.update_noteq hlr.symm,
      Function.update_noteq hlq.symm, Function.update_noteq hlm.symm,
      Function.update_noteq hrq.symm, Function.update_noteq hrm.symm,
      Function.update_idem, pure, Except.pure, Except.ok.injEq] at h
    rw [← h]
  · split at h
    · rename_i hc
      right
      refine ⟨not_not.mp hc.1, hc.2, ?_⟩
      simp only [Function.update_same, Function.update_noteq hqm,
        Function.update_noteq hqm.symm,
        Function.update_noteq hlq, Function.update_noteq hlm, Function.update_noteq hrq,
        Function.update_noteq hrm, Function.update_noteq hlr, Function.update_noteq hlr.symm,
        Function.update_noteq hlq.symm, Function.update_noteq hlm.symm,
        Function.update_noteq hrq.symm, Function.update_noteq hrm.symm,
        Function.update_idem, pure, Except.pure, Except.ok.injEq] at h
      rw [← h]
    · exact absurd h (by simp)

end Splice

section ErrorPath
variable {α : Type} [LinearOrderedField α]

theorem ok_of_check {ε β : Type} (x : Except ε β) (c : β → Bool)
    (h : (match x with
      | .ok v => c v
      | .error _ => false) = true) : ∃ v, x = .ok v ∧ c v = true := by
  cases x with
  | error e => exact absurd h (by simp)
  | ok v => exact ⟨v, rfl, h⟩

theorem update_adjust_ok (P P4 : Nat → POINT α) (params params1 : apop_arms_settings α)
    (qi : Nat) (h : update_adjust P params qi = .ok (P4, params1)) :
    ∃ x y, P4 = Function.update P qi { P qi with x := x, y := y } := by
  unfold update_adjust at h
  obtain ⟨l, -, h⟩ := bind_ok _ _ _ h
  obtain ⟨r, -, h⟩ := bind_ok _ _ _ h
  dsimp only at h
  split at h
  · have := pure_ok _ _ h
    simp only [Prod.mk.injEq] at this
    exact ⟨_, _, this.1.symm⟩
  · split at h
    · have := pure_ok _ _ h
      simp only [Prod.mk.injEq] at this
      exact ⟨_, _, this.1.symm⟩
    · have := pure_ok _ _ h
      simp only [Prod.mk.injEq] at this
      refine ⟨(P qi).x, (P qi).y, ?_⟩
      rw [← this.1]
      exact (Function.update_eq_self qi P).symm

/-- C20: `update` is not atomic on error.  Whenever `update` returns non-zero
for a working point whose neighbours `l = p->pl`, `r = p->pr` are distinct
points of the envelope, the return value is 1 and `cpoint` has already been
increased by 2; the new on-curve point (slot `cpoint`) and the new intersection
point (slot `cpoint + 1`) remain spliced between `l` and `r`; `cumulate` has not
been run (`ymax` and every `ey`, `cum` are as before); and the state after the
failed call differs from the state before it. -/
theorem update_not_atomic (m : Libm α) (fuel : Nat) (env env1 : arms_state α) (p : POINT α)
    (params params1 : apop_arms_settings α) (rc : Int) (l r : Nat)
    (hpl : p.pl = some l) (hpr : p.pr = some r)
    (hl : l < env.cpoint) (hr : r < env.cpoint) (hlr : l ≠ r)
    (h : update m fuel env p params = .ok (rc, env1, params1)) (hrc : rc ≠ 0) :
    rc = 1 ∧ env1.cpoint = env.cpoint + 2 ∧ env1 ≠ env ∧
    (env1.p env.cpoint).f = 1 ∧ (env1.p (env.cpoint + 1)).f = 0 ∧
    (((env1.p l).pr = some (env.cpoint + 1) ∧
        (env1.p (env.cpoint + 1)).pl = some l ∧
        (env1.p (env.cpoint + 1)).pr = some env.cpoint ∧
        (env1.p env.cpoint).pl = some (env.cpoint + 1) ∧
        (env1.p env.cpoint).pr = some r ∧ (env1.p r).pl = some env.cpoint) ∨
      ((env1.p l).pr = some env.cpoint ∧
        (env1.p env.cpoint).pl = some l ∧
        (env1.p env.cpoint).pr = some (env.cpoint + 1) ∧
        (env1.p (env.cpoint + 1)).pl = some env.cpoint ∧
        (env1.p (env.cpoint + 1)).pr = some r ∧ (env1.p r).pl = some (env.cpoint + 1))) ∧
    env1.ymax = env.ymax ∧
    (∀ i, (env1.p i).ey = (env.p i).ey ∧ (env1.p i).cum = (env.p i).cum) := by
  have hcnt := update_counts _ _ _ _ _ _ _ _ h
  have hne : ¬ (¬ (p.f ≠ 0) ∨ ((env.cpoint : Int) > (env.npoint : Int) - 2)) := by
    intro hc
    unfold update at h
    rw [if_pos hc] at h
    simp only [Except.ok.injEq, Prod.mk.injEq] at h
    exact hrc h.1.symm
  obtain ⟨P3, P4, env2, b, hs, ha, hm, hc⟩ := update_ok m fuel env env1 p params params1 rc hne h
  have hcase : rc = 1 ∧ env1 = env2 := by
    rcases hc with ⟨-, h1, h2⟩ | ⟨-, h1, -⟩
    · exact ⟨h1, h2⟩
    · exact absurd h1 hrc
  obtain ⟨hrc1, he⟩ := hcase
  subst he
  obtain ⟨hsc, hym, hmf⟩ := update_meets_frame _ _ _ _ _ hm
  have hcp : env1.cpoint = env.cpoint + 2 := hsc.1
  obtain ⟨x4, y4, hP4⟩ := update_adjust_ok _ _ _ _ _ ha
  have hqm : env.cpoint ≠ env.cpoint + 1 := by omega
  have hlq : l ≠ env.cpoint := by omega
  have hlm : l ≠ env.cpoint + 1 := by omega
  have hrq : r ≠ env.cpoint := by omega
  have hrm : r ≠ env.cpoint + 1 := by omega
  have hsp := update_splice_ok _ _ p _ _ l r hpl hpr hqm hlq hlm hrq hrm hlr hs
  refine ⟨hrc1, hcp, ?_, ?_⟩
  · intro heq
    rw [heq] at hcp
    omega
  · -- the arena after splice and adjustment
    have hfr : ∀ i, (env1.p i).ey = (P4 i).ey ∧ (env1.p i).cum = (P4 i).cum ∧
        (env1.p i).f = (P4 i).f ∧ (env1.p i).pl = (P4 i).pl ∧ (env1.p i).pr = (P4 i).pr :=
      fun i => ⟨(hmf i).1, (hmf i).2.1, (hmf i).2.2.1, (hmf i).2.2.2.1, (hmf i).2.2.2.2.1⟩
    rcases hsp with ⟨-, -, hP3⟩ | ⟨-, -, hP3⟩
    · subst hP3
      subst hP4
      refine ⟨?_, ?_, Or.inl ⟨?_, ?_, ?_, ?_, ?_, ?_⟩, hym, ?_⟩
      · rw [(hfr _).2.2.1]
        simp [Function.update_noteq hqm, Function.update_noteq hlq.symm,
          Function.update_noteq hrq.symm]
      · rw [(hfr _).2.2.1]
        simp [Function.update_noteq hqm.symm, Function.update_noteq hlm.symm,
          Function.update_noteq hrm.symm]
      · rw [(hfr _).2.2.2.2]
        simp [Function.update_noteq hlq, Function.update_noteq hlr]
      · rw [(hfr _).2.2.2.1]
        simp [Function.update_noteq hqm.symm, Function.update_noteq hlm.symm,
          Function.update_noteq hrm.symm]
      · rw [(hfr _).2.2.2.2]
        simp [Function.update_noteq hqm.symm, Function.update_noteq hlm.symm,
          Function.update_noteq hrm.symm]
      · rw [(hfr _).2.2.2.1]
        simp [Function.update_noteq hlq.symm, Function.update_noteq hrq.symm]
      · rw [(hfr _).2.2.2.2]
        simp [Function.update_noteq hlq.symm, Function.update_noteq hrq.symm]
      · rw [(hfr _).2.2.2.1]
        simp [Function.update_noteq hrq]
      · intro i
        rw [(hfr i).1, (hfr i).2.1]
        simp only [Function.update_apply]
        split_ifs <;> simp_all
    · subst hP3
      subst hP4
      refine ⟨?_, ?_, Or.inr ⟨?_, ?_, ?_, ?_, ?_, ?_⟩, hym, ?_⟩
      · rw [(hfr _).2.2.1]
        simp [Function.update_noteq hqm, Function.update_noteq hlq.symm,
          Function.update_noteq hrq.symm]
      · rw [(hfr _).2.2.1]
        simp [Function.update_noteq hqm.symm, Function.update_noteq hlm.symm,
          Function.update_noteq hrm.symm]
      · rw [(hfr _).2.2.2.2]
        simp [Function.update_noteq hlq]
      · rw [(hfr _).2.2.2.1]
        simp [Function.update_noteq hlq.symm, Function.update_noteq hrq.symm]
      · rw [(hfr _).2.2.2.2]
        simp [Function.update_noteq hlq.symm, Function.update_noteq hrq.symm]
      · rw [(hfr _).2.2.2.1]
        simp [Function.update_noteq hqm.symm, Function.update_noteq hlm.symm,
          Function.update_noteq hrm.symm]
      · rw [(hfr _).2.2.2.2]
        simp [Function.update_noteq hqm.symm, Function.update_noteq hlm.symm,
          Function.update_noteq hrm.symm]
      · rw [(hfr _).2.2.2.1]
        simp [Function.update_noteq hrq, Function.update_noteq hlr.symm]
      · intro i
        rw [(hfr i).1, (hfr i).2.1]
        simp only [Function.update_apply]
        split_ifs <;> simp_all

end ErrorPath

/-- Witness for C20: inserting `ex_low` into `ex_env9` with Metropolis disabled
makes `meet` report a violation; `update` returns 1 with `cpoint = 9`. -/
theorem update_not_atomic_witness :
    ∃ env1 params1, update ratLibm 10 ex_env9 ex_low ex_settings = .ok (1, env1, params1) ∧
      env1.cpoint = 9 ∧ env1 ≠ ex_env9 := by
  obtain ⟨⟨rc, env1, params1⟩, hv, hc⟩ :=
    ok_of_check (update ratLibm 10 ex_env9 ex_low ex_settings) (fun v => decide (v.1 = 1))
      (by with_unfolding_all rfl)
  have hrc : rc = 1 := by simpa using hc
  subst hrc
  have := update_not_atomic ratLibm 10 ex_env9 env1 ex_low ex_settings params1 1 3 4 rfl rfl
    (by decide) (by decide) (by decide) hv (by decide)
  exact ⟨env1, params1, hv, this.2.1, this.2.2.1⟩

/-! ## `invert` on a segment of zero length -/

section Degenerate
variable {α : Type} [LinearOrderedField α]

/-- What `invert` would do on a state where the segment it selects has zero
length (`q->pl->x == q->x`): the guard at its end still compares with
`xl = xr = 0`, so the call returns only if the shared `x` is 0, and calls
`exit (1)` otherwise.  No envelope that `initial` and `update` build lets
`invert` select such a segment (`initial_segment_inv`, `update_segment_inv`). -/
theorem invert_degenerate (m : Libm α) (fuel : Nat) (prob : α) (env : arms_state α)
    (p : POINT α) (q0 q l : Nat) (h0 : rightmost env.p fuel 0 = .ok q0)
    (hw : invert_walk env.p (prob * (env.p q0).cum) fuel q0 = .ok q)
    (hl : (env.p q).pl = some l) (hx : (env.p l).x = (env.p q).x) :
    invert m fuel prob env p =
      if (env.p q).x = 0 then
        .ok { p with pl := some l, pr := some q, f := 0, cum := prob * (env.p q0).cum,
                     x := (env.p q).x, y := (env.p q).y, ey := (env.p q).ey }
      else .error (.exit 1) := by
  unfold invert
  rw [h0]
  dsimp only
  rw [hw]
  dsimp only
  rw [hl]
  dsimp only
  rw [if_pos hx]
  unfold invert_guard
  dsimp only
  by_cases hz : (env.p q).x = 0
  · rw [if_pos hz, if_neg]
    rw [hz]
    simp
  · rw [if_neg hz, if_pos]
    rcases lt_or_gt_of_ne hz with h | h
    · exact Or.inl h
    · exact Or.inr h

/-- The branch for a segment of zero length, run on a state made by hand: on
the two-point arena `deg_env`, whose only segment has zero length at `x = 1`
(not an envelope that `initial` builds, whose last piece has positive length),
`invert` with `prob = 1/2` selects that segment and calls `exit (1)`. -/
theorem invert_degenerate_exit (m : Libm α) (p : POINT α) :
    rightmost (deg_env : arms_state α).p 2 0 = .ok 1 ∧
    invert_walk (deg_env : arms_state α).p (1 / 2 * ((deg_env : arms_state α).p 1).cum) 2 1
      = .ok 1 ∧
    ((deg_env : arms_state α).p 1).pl = some 0 ∧
    ((deg_env : arms_state α).p 0).x = ((deg_env : arms_state α).p 1).x ∧
    invert m 2 (1 / 2) deg_env p = .error (.exit 1) := by
  have h0 : rightmost (deg_env : arms_state α).p 2 0 = .ok 1 := by
    simp [rightmost, deg_env, deg_arena]
  have hw : invert_walk (deg_env : arms_state α).p
      (1 / 2 * ((deg_env : arms_state α).p 1).cum) 2 1 = .ok 1 := by
    simp [invert_walk, deg_env, deg_arena]
  refine ⟨h0, hw, rfl, rfl, ?_⟩
  rw [invert_degenerate m 2 (1 / 2) deg_env p 1 1 0 h0 hw rfl rfl]
  rw [if_neg]
  simp [deg_env, deg_arena]

end Degenerate

/-! ## The Metropolis acceptance probability -/

section Acceptance
variable {α : Type} [LinearOrderedField α]

theorem test_accept_eq (m : Libm α) (ynew py yold zold : α) :
    test_accept m ynew py yold zold =
      if min 0 ((ynew - min py ynew) - (yold - min zold yold)) > -YCEIL
      then m.exp (min 0 ((ynew - min py ynew) - (yold - min zold yold))) else 0 := by
  unfold test_accept
  dsimp only
  have h1 : (if yold < zold then yold else zold) = min zold yold := by
    rw [min_def]
    split_ifs with a b b
    · exact absurd a (not_lt.mpr b)
    · rfl
    · rfl
    · exact le_antisymm (le_of_not_lt a) (le_of_not_le b)
  have h2 : (if ynew < py then ynew else py) = min py ynew := by
    rw [min_def]
    split_ifs with a b b
    · exact absurd a (not_lt.mpr b)
    · rfl
    · rfl
    · exact le_antisymm (le_of_not_lt a) (le_of_not_le b)
  rw [h1, h2]
  have h3 : ∀ w : α, (if w < 0 then w else 0) = min 0 w := by
    intro w
    rw [min_def]
    split_ifs with a b b
    · exact absurd a (not_lt.mpr b)
    · rfl
    · rfl
    · exact absurd (le_of_not_lt a) b
  rw [h3]
  have h4 : ynew - min py ynew - yold + min zold yold
      = (ynew - min py ynew) - (yold - min zold yold) := by ring
  rw [h4]

end Acceptance

section Acceptance2
variable {α : Type} [LinearOrderedField α]

/-- C19 (amended): the acceptance probability of the Metropolis branch of
`test`.  With `y_new` the log density at the candidate, `y_old` the cached
log density of the previous iterate, `z_old` the envelope height at the
previous iterate (linear interpolation between its straddling points `ql`,
`qr`) and `z_new = p.y` the height of the working point as left by `invert`,
the log-ratio is `w = min (0, (y_new - min (z_new, y_new)) - (y_old - min
(z_old, y_old)))` and the acceptance probability is `exp (w)` if `w > -YCEIL`
and 0 otherwise; the chain stays at the previous iterate exactly when the
third uniform draw exceeds it. -/
theorem test_acceptance_probability (m : Libm α) (fuel : Nat) (r : Rng α) (env : arms_state α)
    (p : POINT α) (params : apop_arms_settings α) (l rt q0 ql qr : Nat)
    (hpl : p.pl = some l) (hpr : p.pr = some rt) (hdm : params.do_metro ≠ 0)
    (hy : logshift m ((gsl_rng_uniform r).1 * p.ey) env.ymax < params.model p.x)
    (h0 : leftmost env.p fuel 0 = .ok q0)
    (h1 : test_walk env.p env.metro_xprev fuel q0 = .ok ql)
    (h2 : (env.p ql).pr = some qr) :
    test m fuel r env p params =
      .ok (1, (gsl_rng_uniform (gsl_rng_uniform r).2).2,
        if (gsl_rng_uniform (gsl_rng_uniform r).2).1 >
            (if min 0 ((params.model p.x - min p.y (params.model p.x))
                - (env.metro_yprev - min ((env.p ql).y
                    + ((env.metro_xprev - (env.p ql).x) / ((env.p qr).x - (env.p ql).x))
                      * ((env.p qr).y - (env.p ql).y)) env.metro_yprev)) > -YCEIL
              then m.exp (min 0 ((params.model p.x - min p.y (params.model p.x))
                - (env.metro_yprev - min ((env.p ql).y
                    + ((env.metro_xprev - (env.p ql).x) / ((env.p qr).x - (env.p ql).x))
                      * ((env.p qr).y - (env.p ql).y)) env.metro_yprev)))
              else 0)
          then env else { env with metro_xprev := p.x, metro_yprev := params.model p.x },
        if (gsl_rng_uniform (gsl_rng_uniform r).2).1 >
            (if min 0 ((params.model p.x - min p.y (params.model p.x))
                - (env.metro_yprev - min ((env.p ql).y
                    + ((env.metro_xprev - (env.p ql).x) / ((env.p qr).x - (env.p ql).x))
                      * ((env.p qr).y - (env.p ql).y)) env.metro_yprev)) > -YCEIL
              then m.exp (min 0 ((params.model p.x - min p.y (params.model p.x))
                - (env.metro_yprev - min ((env.p ql).y
                    + ((env.metro_xprev - (env.p ql).x) / ((env.p qr).x - (env.p ql).x))
                      * ((env.p qr).y - (env.p ql).y)) env.metro_yprev)))
              else 0)
          then { p with x := env.metro_xprev, y := env.metro_yprev,
                        ey := expshift m env.metro_yprev env.ymax, f := 1,
                        pl := some ql, pr := some qr }
          else p,
        (perfunc params p.x).2) := by
  have hs : ∀ ys, test_squeeze env p params l rt = some ys →
      ¬ (logshift m ((gsl_rng_uniform r).1 * p.ey) env.ymax ≤ ys) := by
    intro ys h
    rw [test_squeeze_metro env p params l rt hdm] at h
    exact absurd h (by simp)
  have hb : ¬ (¬ (params.do_metro ≠ 0) ∨ (params.do_metro ≠ 0 ∧
      logshift m ((gsl_rng_uniform r).1 * p.ey) env.ymax ≥ (perfunc params p.x).1)) := by
    intro h
    rcases h with h | h
    · exact h hdm
    · exact absurd hy (not_lt.mpr h.2)
  rw [test_no_squeeze m fuel r env p params l rt hpl hpr hs, if_neg hb,
    test_metro_eq m fuel _ env p _ _ q0 ql qr h0 h1 h2, test_accept_eq]
  rfl

theorem two_env_hy :
    logshift (Libm.mk Real.exp Real.log Real.sqrt)
      ((gsl_rng_uniform (⟨fun i => if i = 0 then 1 / 2 else Real.exp (-1), 0⟩ : Rng ℝ)).1
        * (two_work : POINT ℝ).ey) (two_env : arms_state ℝ).ymax
      < (two_settings : apop_arms_settings ℝ).model (two_work : POINT ℝ).x := by
  have hlog : Real.log (1 / 2) < 0 := Real.log_neg (by norm_num) (by norm_num)
  simp only [two_settings, logshift, gsl_rng_uniform, two_work, two_env, YCEIL]
  norm_num
  linarith

/-- Witness for C19 (amended): the working point `two_work` (`p.y = -1`,
`y_new = 0`) in `two_env` (`y_old = 2`, `z_old = 0`), draws `1/2` and
`exp (-1)`. -/
theorem test_acceptance_probability_witness :
    ∃ env1 p1, test (Libm.mk Real.exp Real.log Real.sqrt) 2
        ⟨fun i => if i = 0 then 1 / 2 else Real.exp (-1), 0⟩ two_env two_work two_settings =
      .ok (1, ⟨fun i => if i = 0 then 1 / 2 else Real.exp (-1), 2⟩, env1, p1,
        { (two_settings : apop_arms_settings ℝ) with neval := 1 }) :=
  ⟨_, _, test_acceptance_probability (Libm.mk Real.exp Real.log Real.sqrt) 2
    ⟨fun i => if i = 0 then 1 / 2 else Real.exp (-1), 0⟩ two_env two_work two_settings
    0 1 0 0 1 rfl rfl (by simp [two_settings]) two_env_hy
    (by simp [leftmost, two_env, two_arena])
    (by simp [test_walk, two_env, two_arena]; norm_num) rfl⟩

/-- Counterexample to C19 as stated: `test` on the working point `two_work`
(`p.y = -1`, `y_new = 0`) in `two_env` (`y_old = 2`, `z_old = 0`) with third
draw `u3 = exp (-1)` accepts the candidate, the cache becoming `(1/4, 0)`;
the probability computed with `z_new = y_new` is `exp (-2) < u3`, for which
the chain would have stayed at the previous iterate. -/
theorem test_acceptance_counterexample :
    test (Libm.mk Real.exp Real.log Real.sqrt) 2
        ⟨fun i => if i = 0 then 1 / 2 else Real.exp (-1), 0⟩ two_env two_work two_settings =
      .ok (1, ⟨fun i => if i = 0 then 1 / 2 else Real.exp (-1), 2⟩,
        { (two_env : arms_state ℝ) with metro_xprev := 1 / 4, metro_yprev := 0 }, two_work,
        { (two_settings : apop_arms_settings ℝ) with neval := 1 }) ∧
    (if min 0 (((0 : ℝ) - min 0 0) - (2 - min 0 2)) > -YCEIL
      then Real.exp (min 0 (((0 : ℝ) - min 0 0) - (2 - min 0 2))) else 0) < Real.exp (-1) := by
  constructor
  · rw [test_no_squeeze _ 2 _ two_env two_work two_settings 0 1 rfl rfl
      (by
        intro ys h
        rw [test_squeeze_metro _ _ _ _ _ (by simp [two_settings])] at h
        exact absurd h (by simp))]
    rw [if_neg (by
      intro h
      rcases h with h | h
      · exact h (by simp [two_settings])
      · exact absurd two_env_hy (not_lt.mpr h.2))]
    rw [test_metro_eq _ 2 _ two_env two_work _ _ 0 0 1
      (by simp [leftmost, two_env, two_arena])
      (by simp [test_walk, two_env, two_arena]; norm_num)
      rfl]
    rw [test_accept_eq]
    simp only [two_settings, perfunc, gsl_rng_uniform, two_work, two_env, two_arena, YCEIL]
    norm_num
  · norm_num [YCEIL]

end Acceptance2

/-! ## `meet`: the crossing point of the bounding chords -/

section Crossing
variable {α : Type} [LinearOrderedField α]

theorem YEPS_pos : (0 : α) < YEPS := by
  unfold YEPS
  norm_num

/-- The value of `meet` when both chord gradients are defined, no convexity
adjustment applies and neither `dl` nor `dr` is floored. -/
theorem meet_two_sided (q l r ll lll rr rrr : Nat) (env : arms_state α)
    (params : apop_arms_settings α)
    (hf : (env.p q).f = 0) (hl : (env.p q).pl = some l) (hr : (env.p q).pr = some r)
    (hll : (env.p l).pl = some ll) (hlll : (env.p ll).pl = some lll)
    (hrr : (env.p r).pr = some rr) (hrrr : (env.p rr).pr = some rrr)
    (hgl : ¬ (((env.p l).y - (env.p lll).y) / ((env.p l).x - (env.p lll).x)
      < ((env.p r).y - (env.p l).y) / ((env.p r).x - (env.p l).x)))
    (hgr : ¬ (((env.p r).y - (env.p rrr).y) / ((env.p r).x - (env.p rrr).x)
      > ((env.p r).y - (env.p l).y) / ((env.p r).x - (env.p l).x)))
    (hdr : YEPS ≤ (((env.p l).y - (env.p lll).y) / ((env.p l).x - (env.p lll).x)
      - ((env.p r).y - (env.p l).y) / ((env.p r).x - (env.p l).x))
        * ((env.p r).x - (env.p l).x))
    (hdl : YEPS ≤ (((env.p r).y - (env.p l).y) / ((env.p r).x - (env.p l).x)
      - ((env.p r).y - (env.p rrr).y) / ((env.p r).x - (env.p rrr).x))
        * ((env.p r).x - (env.p l).x)) :
    meet q env params =
      meet_check q env
        (((((env.p r).y - (env.p l).y) / ((env.p r).x - (env.p l).x)
            - ((env.p r).y - (env.p rrr).y) / ((env.p r).x - (env.p rrr).x))
            * ((env.p r).x - (env.p l).x) * (env.p r).x
          + (((env.p l).y - (env.p lll).y) / ((env.p l).x - (env.p lll).x)
            - ((env.p r).y - (env.p l).y) / ((env.p r).x - (env.p l).x))
            * ((env.p r).x - (env.p l).x) * (env.p l).x)
          / ((((env.p r).y - (env.p l).y) / ((env.p r).x - (env.p l).x)
            - ((env.p r).y - (env.p rrr).y) / ((env.p r).x - (env.p rrr).x))
            * ((env.p r).x - (env.p l).x)
          + (((env.p l).y - (env.p lll).y) / ((env.p l).x - (env.p lll).x)
            - ((env.p r).y - (env.p l).y) / ((env.p r).x - (env.p l).x))
            * ((env.p r).x - (env.p l).x)))
        (((((env.p r).y - (env.p l).y) / ((env.p r).x - (env.p l).x)
            - ((env.p r).y - (env.p rrr).y) / ((env.p r).x - (env.p rrr).x))
            * ((env.p r).x - (env.p l).x) * (env.p r).y
          + (((env.p l).y - (env.p lll).y) / ((env.p l).x - (env.p lll).x)
            - ((env.p r).y - (env.p l).y) / ((env.p r).x - (env.p l).x))
            * ((env.p r).x - (env.p l).x) * (env.p l).y
          + (((env.p r).y - (env.p l).y) / ((env.p r).x - (env.p l).x)
            - ((env.p r).y - (env.p rrr).y) / ((env.p r).x - (env.p rrr).x))
            * ((env.p r).x - (env.p l).x)
            * ((((env.p l).y - (env.p lll).y) / ((env.p l).x - (env.p lll).x)
            - ((env.p r).y - (env.p l).y) / ((env.p r).x - (env.p l).x))
            * ((env.p r).x - (env.p l).x)))
          / ((((env.p r).y - (env.p l).y) / ((env.p r).x - (env.p l).x)
            - ((env.p r).y - (env.p rrr).y) / ((env.p r).x - (env.p rrr).x))
            * ((env.p r).x - (env.p l).x)
          + (((env.p l).y - (env.p lll).y) / ((env.p l).x - (env.p lll).x)
            - ((env.p r).y - (env.p l).y) / ((env.p r).x - (env.p l).x))
            * ((env.p r).x - (env.p l).x))) := by
  have e1 : meet_gl env.p q
      = .ok (some (((env.p l).y - (env.p lll).y) / ((env.p l).x - (env.p lll).x))) := by
    unfold meet_gl
    rw [hl]
    dsimp only
    rw [hll]
    dsimp only
    rw [hlll]
  have e2 : meet_gr env.p q
      = .ok (some (((env.p r).y - (env.p rrr).y) / ((env.p r).x - (env.p rrr).x))) := by
    unfold meet_gr
    rw [hr]
    dsimp only
    rw [hrr]
    dsimp only
    rw [hrrr]
  have e3 : meet_grl env.p q
      = some (((env.p r).y - (env.p l).y) / ((env.p r).x - (env.p l).x)) := by
    unfold meet_grl
    rw [hl, hr]
  have e4 : meet_width env.p q = (env.p r).x - (env.p l).x := by
    unfold meet_width
    rw [hl, hr]
  unfold meet
  dsimp only
  rw [if_neg (not_not.mpr hf), e1, e2, e3, e4]
  simp only [Option.isSome_some, Option.getD_some, Bool.true_and, Bool.and_true,
    decide_eq_true_eq, hgl, hgr, decide_False, Bool.false_and, if_false, if_true,
    Bool.false_eq_true]
  unfold meet_floor
  rw [if_neg (not_lt.mpr hdr), if_neg (not_lt.mpr hdl)]
  unfold meet_store
  simp only [Bool.and_self, if_true, hl, hr]

end Crossing
section Crossing2
variable {α : Type} [LinearOrderedField α]

theorem crossing_algebra (xl xr yl yr gl gr dl dr : α)
    (hdl : dl = ((yr - yl) / (xr - xl) - gr) * (xr - xl))
    (hdr : dr = (gl - (yr - yl) / (xr - xl)) * (xr - xl))
    (hD : 0 < xr - xl) (hl : 0 < dl) (hr : 0 < dr) :
    xl ≤ (dl * xr + dr * xl) / (dl + dr) ∧ (dl * xr + dr * xl) / (dl + dr) ≤ xr ∧
    (dl * yr + dr * yl + dl * dr) / (dl + dr)
      = yl + gl * ((dl * xr + dr * xl) / (dl + dr) - xl) ∧
    (dl * yr + dr * yl + dl * dr) / (dl + dr)
      = yr + gr * ((dl * xr + dr * xl) / (dl + dr) - xr) ∧
    ∀ X Y, Y = yl + gl * (X - xl) → Y = yr + gr * (X - xr) →
      X = (dl * xr + dr * xl) / (dl + dr) ∧ Y = (dl * yr + dr * yl + dl * dr) / (dl + dr) := by
  have hs : 0 < dl + dr := add_pos hl hr
  have hDne : xr - xl ≠ 0 := hD.ne'
  have hdl2 : dl = (yr - yl) - gr * (xr - xl) := by
    rw [hdl]; field_simp; ring
  have hdr2 : dr = gl * (xr - xl) - (yr - yl) := by
    rw [hdr]; field_simp
  have hsum : dl + dr = (gl - gr) * (xr - xl) := by
    rw [hdl2, hdr2]; ring
  have hx1 : (dl * xr + dr * xl) / (dl + dr) - xl = dl * (xr - xl) / (dl + dr) := by
    field_simp; ring
  have hx2 : (dl * xr + dr * xl) / (dl + dr) - xr = - (dr * (xr - xl)) / (dl + dr) := by
    field_simp; ring
  have hy1 : (dl * yr + dr * yl + dl * dr) / (dl + dr)
      = yl + gl * ((dl * xr + dr * xl) / (dl + dr) - xl) := by
    rw [hx1]
    field_simp
    rw [hsum, hdl2, hdr2]
    ring
  have hy2 : (dl * yr + dr * yl + dl * dr) / (dl + dr)
      = yr + gr * ((dl * xr + dr * xl) / (dl + dr) - xr) := by
    rw [hx2]
    field_simp
    rw [hsum, hdl2, hdr2]
    ring
  refine ⟨?_, ?_, hy1, hy2, ?_⟩
  · rw [le_div_iff₀ hs]
    nlinarith
  · rw [div_le_iff₀ hs]
    nlinarith
  · intro X Y h1 h2
    have hg : gl - gr ≠ 0 := by
      intro h0
      rw [h0, zero_mul] at hsum
      exact hs.ne' hsum
    have hX : X = (dl * xr + dr * xl) / (dl + dr) := by
      have e : (gl - gr) * X = (gl - gr) * ((dl * xr + dr * xl) / (dl + dr)) := by
        have e1 : (gl - gr) * X = yr - yl + gl * xl - gr * xr := by
          have := h1.symm.trans h2
          linear_combination this
        have e2 : (gl - gr) * ((dl * xr + dr * xl) / (dl + dr))
            = yr - yl + gl * xl - gr * xr := by
          have := hy1.symm.trans hy2
          linear_combination this
        rw [e1, e2]
      exact mul_left_cancel₀ hg e
    refine ⟨hX, ?_⟩
    rw [h1, hX, hy1]

end Crossing2
section Crossing3
variable {α : Type} [LinearOrderedField α]

theorem meet_check_pass (q l r : Nat) (env : arms_state α) (x y : α)
    (hl : (env.p q).pl = some l) (hr : (env.p q).pr = some r)
    (h1 : (env.p l).x ≤ x) (h2 : x ≤ (env.p r).x) :
    meet_check q env x y
      = .ok (0, { env with p := Function.update env.p q { env.p q with x := x, y := y } }) := by
  unfold meet_check
  dsimp only
  rw [hl, hr]
  dsimp only
  rw [if_neg]
  simp [not_lt.mpr h1, not_lt.mpr h2]

/-- C18: the crossing point of the bounding chords.  When an interior
intersection point `q` has a chord gradient on both sides (`gl` through `q.pl`
and `q.pl.pl.pl`, `gr` through `q.pr` and `q.pr.pr.pr`), no convexity
adjustment applies (neither `gl < grl` nor `gr > grl`), and neither `dl` nor
`dr` is floored (both `>= YEPS`), `meet` returns 0 and the `(x, y)` it stores
in `q` is the unique point lying on the line through `q.pl` with slope `gl`
and on the line through `q.pr` with slope `gr`. -/
theorem meet_crossing_point (q l r ll lll rr rrr : Nat) (env : arms_state α)
    (params : apop_arms_settings α)
    (hf : (env.p q).f = 0) (hl : (env.p q).pl = some l) (hr : (env.p q).pr = some r)
    (hll : (env.p l).pl = some ll) (hlll : (env.p ll).pl = some lll)
    (hrr : (env.p r).pr = some rr) (hrrr : (env.p rr).pr = some rrr)
    (hgl : ¬ (((env.p l).y - (env.p lll).y) / ((env.p l).x - (env.p lll).x)
      < ((env.p r).y - (env.p l).y) / ((env.p r).x - (env.p l).x)))
    (hgr : ¬ (((env.p r).y - (env.p rrr).y) / ((env.p r).x - (env.p rrr).x)
      > ((env.p r).y - (env.p l).y) / ((env.p r).x - (env.p l).x)))
    (hdr : YEPS ≤ (((env.p l).y - (env.p lll).y) / ((env.p l).x - (env.p lll).x)
      - ((env.p r).y - (env.p l).y) / ((env.p r).x - (env.p l).x))
        * ((env.p r).x - (env.p l).x))
    (hdl : YEPS ≤ (((env.p r).y - (env.p l).y) / ((env.p r).x - (env.p l).x)
      - ((env.p r).y - (env.p rrr).y) / ((env.p r).x - (env.p rrr).x))
        * ((env.p r).x - (env.p l).x)) :
    ∃ x y,
      meet q env params
        = .ok (0, { env with p := Function.update env.p q { env.p q with x := x, y := y } }) ∧
      y = (env.p l).y
        + ((env.p l).y - (env.p lll).y) / ((env.p l).x - (env.p lll).x) * (x - (env.p l).x) ∧
      y = (env.p r).y
        + ((env.p r).y - (env.p rrr).y) / ((env.p r).x - (env.p rrr).x) * (x - (env.p r).x) ∧
      ∀ X Y,
        Y = (env.p l).y
          + ((env.p l).y - (env.p lll).y) / ((env.p l).x - (env.p lll).x) * (X - (env.p l).x) →
        Y = (env.p r).y
          + ((env.p r).y - (env.p rrr).y) / ((env.p r).x - (env.p rrr).x) * (X - (env.p r).x) →
        X = x ∧ Y = y := by
  have hdl0 := lt_of_lt_of_le YEPS_pos hdl
  have hdr0 := lt_of_lt_of_le YEPS_pos hdr
  have hD : 0 < (env.p r).x - (env.p l).x := by
    by_contra hc
    have h1 : (env.p r).x - (env.p l).x ≤ 0 := not_lt.mp hc
    have h2 : 0 ≤ ((env.p r).y - (env.p l).y) / ((env.p r).x - (env.p l).x)
        - ((env.p r).y - (env.p rrr).y) / ((env.p r).x - (env.p rrr).x) := by
      have := not_lt.mp hgr
      linarith
    have := mul_nonpos_of_nonneg_of_nonpos h2 h1
    exact absurd hdl0 (not_lt.mpr this)
  obtain ⟨a1, a2, a3, a4, a5⟩ := crossing_algebra (env.p l).x (env.p r).x (env.p l).y
    (env.p r).y (((env.p l).y - (env.p lll).y) / ((env.p l).x - (env.p lll).x))
    (((env.p r).y - (env.p rrr).y) / ((env.p r).x - (env.p rrr).x)) _ _ rfl rfl hD hdl0 hdr0
  refine ⟨_, _, ?_, a3, a4, a5⟩
  rw [meet_two_sided q l r ll lll rr rrr env params hf hl hr hll hlll hrr hrrr hgl hgr hdr hdl]
  exact meet_check_pass q l r env _ _ hl hr a1 a2

/-- Witness for C18: the intersection point in slot 3 of `cross_arena`, between
the points `(-1, -1)` and `(1, -1)` of the log density `-x^2`, with chord
gradients `gl = 4`, `gr = -4`, `grl = 0` and `dl = dr = 8`; the chords cross
at `(0, 3)`. -/
theorem meet_crossing_point_witness :
    ∃ x y,
      meet 3 (cross_env : arms_state ℚ) ex_settings
        = .ok (0, { (cross_env : arms_state ℚ) with
            p := Function.update cross_env.p 3 { cross_env.p 3 with x := x, y := y } }) ∧
      y = -1 + 4 * (x - -1) ∧ y = -1 + -4 * (x - 1) := by
  obtain ⟨x, y, h1, h2, h3, -⟩ := meet_crossing_point 3 2 4 1 0 5 6 (cross_env : arms_state ℚ)
    ex_settings rfl rfl rfl rfl rfl rfl rfl
    (by norm_num [cross_env, cross_arena])
    (by norm_num [cross_env, cross_arena])
    (by norm_num [cross_env, cross_arena, YEPS])
    (by norm_num [cross_env, cross_arena, YEPS])
  refine ⟨x, y, h1, ?_, ?_⟩
  · rw [h2]
    norm_num [cross_env, cross_arena]
  · rw [h3]
    norm_num [cross_env, cross_arena]

end Crossing3

/-! ## The envelope built by `initial` -/

section InitialShape
variable {α : Type} [LinearOrderedField α]

omit [LinearOrderedField α] in
theorem initial_points_spec (n : Nat) :
    ∀ (j : Nat) (P : Nat → POINT α) (params : apop_arms_settings α),
    (∀ i, i < j ∨ j + n ≤ i → (initial_points n j (j / 2) P params).1 i = P i) ∧
    (∀ i, j ≤ i → i < j + n →
      (initial_points n j (j / 2) P params).1 i =
        if i % 2 ≠ 0 then
          { P i with x := params.xinit (i / 2), y := params.model (params.xinit (i / 2)),
                     f := 1, pl := some (i - 1), pr := some (i + 1) }
        else { P i with f := 0, pl := some (i - 1), pr := some (i + 1) }) ∧
    (initial_points n j (j / 2) P params).2
      = { params with neval := params.neval + ((j + n) / 2 - j / 2) } := by
  induction n with
  | zero =>
    intro j P params
    refine ⟨fun i _ => rfl, fun i h1 h2 => absurd h2 (by omega), ?_⟩
    simp [initial_points]
  | succ n ih =>
    intro j P params
    unfold initial_points
    by_cases hj : j % 2 ≠ 0
    · rw [if_pos hj]
      dsimp only
      have hk : j / 2 + 1 = (j + 1) / 2 := by omega
      rw [hk]
      obtain ⟨h1, h2, h3⟩ := ih (j + 1)
        (Function.update P j
          { P j with x := params.xinit (j / 2)
                     y := params.model (params.xinit (j / 2))
                     f := 1
                     pl := some (j - 1)
                     pr := some (j + 1) })
        { params with neval := params.neval + 1 }
      refine ⟨?_, ?_, ?_⟩
      · intro i hi
        exact (h1 i (by omega)).trans (Function.update_noteq (by omega) _ _)
      · intro i hi1 hi2
        by_cases hij : i = j
        · subst hij
          rw [if_pos hj]
          exact (h1 i (by omega)).trans (Function.update_same _ _ _)
        · refine (h2 i (by omega) (by omega)).trans ?_
          rw [Function.update_noteq hij]
      · refine h3.trans ?_
        simp only [perfunc]
        congr 1
        omega
    · rw [if_neg hj]
      have hk : j / 2 = (j + 1) / 2 := by omega
      rw [hk]
      obtain ⟨h1, h2, h3⟩ := ih (j + 1)
        (Function.update P j { P j with f := 0, pl := some (j - 1), pr := some (j + 1) })
        params
      refine ⟨?_, ?_, ?_⟩
      · intro i hi
        exact (h1 i (by omega)).trans (Function.update_noteq (by omega) _ _)
      · intro i hi1 hi2
        by_cases hij : i = j
        · subst hij
          rw [if_neg hj]
          exact (h1 i (by omega)).trans (Function.update_same _ _ _)
        · refine (h2 i (by omega) (by omega)).trans ?_
          rw [Function.update_noteq hij]
      · refine h3.trans ?_
        congr 1
        omega

end InitialShape

section InitialShape2
variable {α : Type} [LinearOrderedField α]

omit [LinearOrderedField α] in
theorem linked_range' (P : Nat → POINT α) (N : Nat) :
    ∀ (cnt j : Nat), j + cnt = N →
    (∀ i, j ≤ i → i < N →
      (P i).pl = (if i = 0 then none else some (i - 1)) ∧
      (P i).pr = (if i + 1 = N then none else some (i + 1))) →
    Linked P (if j = 0 then none else some (j - 1)) (List.range' j cnt) := by
  intro cnt
  induction cnt with
  | zero =>
    intro j _ _
    simp [Linked]
  | succ cnt ih =>
    intro j hN h
    rw [List.range'_succ]
    unfold Linked
    refine ⟨(h j (le_refl _) (by omega)).1, ?_, ?_⟩
    · rw [(h j (le_refl _) (by omega)).2]
      cases cnt with
      | zero =>
        rw [if_pos (by omega)]
        rfl
      | succ c =>
        rw [if_neg (by omega), List.range'_succ]
        rfl
    · have := ih (j + 1) (by omega) (fun i hi1 hi2 => h i (by omega) hi2)
      simpa using this

omit [LinearOrderedField α] in
theorem linked_congr (P P1 : Nat → POINT α) (l : List Nat) (prev : Option Nat)
    (h : ∀ i, i ∈ l → (P1 i).pl = (P i).pl ∧ (P1 i).pr = (P i).pr) (hl : Linked P prev l) :
    Linked P1 prev l := by
  induction l generalizing prev with
  | nil => trivial
  | cons a t ih =>
    unfold Linked at hl ⊢
    have ha := h a (List.mem_cons_self _ _)
    refine ⟨ha.1.trans hl.1, ha.2.trans hl.2.1, ?_⟩
    exact ih _ (fun i hi => h i (List.mem_cons_of_mem _ hi)) hl.2.2

end InitialShape2

section InitialShape3
variable {α : Type} [LinearOrderedField α]

omit [LinearOrderedField α] in
/-- The arena handed to the intersection loop of `initial`. -/
theorem initial_arena_spec (mem : Nat → POINT α) (params : apop_arms_settings α)
    (hn : 1 ≤ params.ninit) :
    (initial_points (2 * params.ninit + 1 - 2) 1 0
        (Function.update mem 0
          { mem 0 with x := params.xl, f := 0, pl := none, pr := some 1 })
        { params with neval := 0 }).2 = { params with neval := params.ninit } ∧
    ∀ i, i ≤ 2 * params.ninit →
      ((Function.update
        (initial_points (2 * params.ninit + 1 - 2) 1 0
          (Function.update mem 0
            { mem 0 with x := params.xl, f := 0, pl := none, pr := some 1 })
          { params with neval := 0 }).1
        (2 * params.ninit + 1 - 1)
        { (initial_points (2 * params.ninit + 1 - 2) 1 0
            (Function.update mem 0
              { mem 0 with x := params.xl, f := 0, pl := none, pr := some 1 })
            { params with neval := 0 }).1 (2 * params.ninit + 1 - 1) with
          x := params.xr, f := 0, pl := some (2 * params.ninit + 1 - 1 - 1), pr := none }) i).pl
        = (if i = 0 then none else some (i - 1)) ∧
      ((Function.update
        (initial_points (2 * params.ninit + 1 - 2) 1 0
          (Function.update mem 0
            { mem 0 with x := params.xl, f := 0, pl := none, pr := some 1 })
          { params with neval := 0 }).1
        (2 * params.ninit + 1 - 1)
        { (initial_points (2 * params.ninit + 1 - 2) 1 0
            (Function.update mem 0
              { mem 0 with x := params.xl, f := 0, pl := none, pr := some 1 })
            { params with neval := 0 }).1 (2 * params.ninit + 1 - 1) with
          x := params.xr, f := 0, pl := some (2 * params.ninit + 1 - 1 - 1), pr := none }) i).pr
        = (if i = 2 * params.ninit then none else some (i + 1)) ∧
      ((Function.update
        (initial_points (2 * params.ninit + 1 - 2) 1 0
          (Function.update mem 0
            { mem 0 with x := params.xl, f := 0, pl := none, pr := some 1 })
          { params with neval := 0 }).1
        (2 * params.ninit + 1 - 1)
        { (initial_points (2 * params.ninit + 1 - 2) 1 0
            (Function.update mem 0
              { mem 0 with x := params.xl, f := 0, pl := none, pr := some 1 })
            { params with neval := 0 }).1 (2 * params.ninit + 1 - 1) with
          x := params.xr, f := 0, pl := some (2 * params.ninit + 1 - 1 - 1), pr := none }) i).f
        = (if i % 2 ≠ 0 then 1 else 0) ∧
      ((Function.update
        (initial_points (2 * params.ninit + 1 - 2) 1 0
          (Function.update mem 0
            { mem 0 with x := params.xl, f := 0, pl := none, pr := some 1 })
          { params with neval := 0 }).1
        (2 * params.ninit + 1 - 1)
        { (initial_points (2 * params.ninit + 1 - 2) 1 0
            (Function.update mem 0
              { mem 0 with x := params.xl, f := 0, pl := none, pr := some 1 })
            { params with neval := 0 }).1 (2 * params.ninit + 1 - 1) with
          x := params.xr, f := 0, pl := some (2 * params.ninit + 1 - 1 - 1), pr := none }) i).x
        = (if i = 0 then params.xl else if i = 2 * params.ninit then params.xr
            else if i % 2 ≠ 0 then params.xinit (i / 2) else (mem i).x) ∧
      (i % 2 ≠ 0 →
        ((Function.update
          (initial_points (2 * params.ninit + 1 - 2) 1 0
            (Function.update mem 0
              { mem 0 with x := params.xl, f := 0, pl := none, pr := some 1 })
            { params with neval := 0 }).1
          (2 * params.ninit + 1 - 1)
          { (initial_points (2 * params.ninit + 1 - 2) 1 0
              (Function.update mem 0
                { mem 0 with x := params.xl, f := 0, pl := none, pr := some 1 })
              { params with neval := 0 }).1 (2 * params.ninit + 1 - 1) with
            x := params.xr, f := 0, pl := some (2 * params.ninit + 1 - 1 - 1), pr := none })
          i).y = params.model (params.xinit (i / 2))) := by
  obtain ⟨h1, h2, h3⟩ := initial_points_spec (2 * params.ninit + 1 - 2) 1
    (Function.update mem 0 { mem 0 with x := params.xl, f := 0, pl := none, pr := some 1 })
    { params with neval := 0 }
  have e0 : (1 : Nat) / 2 = 0 := by decide
  rw [e0] at h1 h2 h3
  constructor
  · rw [h3]
    simp only [Nat.zero_add, Nat.sub_zero]
    congr 1
    omega
  · intro i hi
    have hN : 2 * params.ninit + 1 - 1 = 2 * params.ninit := by omega
    rw [hN]
    by_cases hlast : i = 2 * params.ninit
    · subst hlast
      have hne : 2 * params.ninit ≠ 0 := by omega
      have hev : (2 * params.ninit) % 2 = 0 := by omega
      have hn0 : params.ninit ≠ 0 := by omega
      simp [hne, hev, hn0]
    · rw [Function.update_noteq hlast]
      by_cases hz : i = 0
      · subst hz
        rw [h1 0 (Or.inl (by omega))]
        have hn0 : params.ninit ≠ 0 := by omega
        simp [hn0]
      · have := h2 i (by omega) (by omega)
        rw [this, Function.update_noteq hz]
        by_cases hodd : i % 2 ≠ 0
        · rw [if_pos hodd]
          simp [hz, hlast, hodd]
        · rw [if_neg hodd]
          simp [hz, hlast, hodd]

end InitialShape3
section InitialShape4
variable {α : Type} [LinearOrderedField α]

/-- The shape of the arena after `initial_envelope` has returned 0. -/
theorem initial_envelope_shape (m : Libm α) (fuel : Nat) (mem : Nat → POINT α)
    (params params1 : apop_arms_settings α) (env env1 : arms_state α)
    (hn : 1 ≤ params.ninit)
    (h : initial_envelope m fuel mem params env = .ok (0, params1, env1)) :
    params1 = { params with neval := params.ninit } ∧
    env1.cpoint = 2 * params.ninit + 1 ∧
    ∀ i, i ≤ 2 * params.ninit →
      (env1.p i).pl = (if i = 0 then none else some (i - 1)) ∧
      (env1.p i).pr = (if i = 2 * params.ninit then none else some (i + 1)) ∧
      (env1.p i).f = (if i % 2 ≠ 0 then 1 else 0) ∧
      (i = 0 → (env1.p i).x = params.xl) ∧
      (i = 2 * params.ninit → (env1.p i).x = params.xr) ∧
      (i % 2 ≠ 0 → (env1.p i).x = params.xinit (i / 2) ∧
        (env1.p i).y = params.model (params.xinit (i / 2))) := by
  obtain ⟨hp, hA⟩ := initial_arena_spec mem params hn
  unfold initial_envelope at h
  dsimp only at h
  split at h
  · exact absurd h (by simp)
  · rename_i rc1 env2 hm
    obtain ⟨-, -, hmf⟩ := initial_meets_frame _ _ _ _ _ _ hm
    split at h
    · simp only [Except.ok.injEq, Prod.mk.injEq] at h
      exact absurd h.1 (by decide)
    · split at h
      · exact absurd h (by simp)
      · rename_i env3 hc
        obtain ⟨-, hcf⟩ := cumulate_frame _ _ _ _ hc
        simp only [Except.ok.injEq, Prod.mk.injEq, true_and] at h
        obtain ⟨h1, h2⟩ := h
        subst h2
        refine ⟨by rw [← h1]; exact hp, rfl, ?_⟩
        intro i hi
        obtain ⟨a1, a2, a3, a4, a5⟩ := hA i hi
        obtain ⟨-, -, b3, b4, b5, b6, b7⟩ := hmf i
        obtain ⟨c1, c2, c3, c4, c5⟩ := hcf i
        dsimp only at b3 b4 b5 b6 b7 ⊢
        refine ⟨(c4.trans b4).trans a1, (c5.trans b5).trans a2, (c3.trans b3).trans a3,
          ?_, ?_, ?_⟩
        · intro hi0
          rw [c1, b7 (Or.inl (by rw [a1, if_pos hi0])), a4, if_pos hi0]
        · intro hiN
          have hn0 : i ≠ 0 := by omega
          rw [c1, b7 (Or.inr (by rw [a2, if_pos hiN])), a4, if_neg hn0, if_pos hiN]
        · intro hodd
          have hf : (Function.update
              (initial_points (2 * params.ninit + 1 - 2) 1 0
                (Function.update mem 0
                  { mem 0 with x := params.xl, f := 0, pl := none, pr := some 1 })
                { params with neval := 0 }).1
              (2 * params.ninit + 1 - 1)
              { (initial_points (2 * params.ninit + 1 - 2) 1 0
                  (Function.update mem 0
                    { mem 0 with x := params.xl, f := 0, pl := none, pr := some 1 })
                  { params with neval := 0 }).1 (2 * params.ninit + 1 - 1) with
                x := params.xr, f := 0, pl := some (2 * params.ninit + 1 - 1 - 1),
                pr := none } i).f ≠ 0 := by
            rw [a3, if_pos hodd]
            decide
          have hn0 : i ≠ 0 := by omega
          have hnN : i ≠ 2 * params.ninit := by omega
          rw [c1, c2, (b6 hf).1, (b6 hf).2, a4, a5 hodd, if_neg hn0, if_neg hnN, if_pos hodd]
          exact ⟨rfl, rfl⟩

/-- The chain and the flags after `initial` has returned 0: the slots `0, ...,
2*ninit` in this order, the odd ones on-curve and the even ones not. -/
theorem initial_chain_flags (m : Libm α) (fuel : Nat) (mem : Nat → POINT α)
    (params params1 : apop_arms_settings α) (env env1 : arms_state α)
    (h : initial m fuel mem params env = .ok (0, params1, env1)) :
    env1.cpoint = 2 * params.ninit + 1 ∧
    IsChain env1.p (List.range (2 * params.ninit + 1)) ∧
    (∀ k, k < params.ninit → (env1.p (2 * k + 1)).f ≠ 0) ∧
    (∀ k, k ≤ params.ninit → (env1.p (2 * k)).f = 0) := by
  rcases initial_ok_cases _ _ _ _ _ _ _ _ h with ⟨hc, -, -⟩ | ⟨hv, he⟩
  · simp at hc
  obtain ⟨-, hcp, hS⟩ := initial_envelope_shape m fuel mem params params1 env env1
    (by omega) he
  refine ⟨hcp, ?_, ?_, ?_⟩
  · refine ⟨by simp, List.nodup_range _, ?_⟩
    rw [List.range_eq_range']
    have := linked_range' env1.p (2 * params.ninit + 1) (2 * params.ninit + 1) 0 (by omega)
      (fun i _ hi => by
        obtain ⟨a1, a2, -⟩ := hS i (by omega)
        refine ⟨a1, ?_⟩
        rw [a2]
        by_cases hiN : i = 2 * params.ninit
        · rw [if_pos hiN, if_pos (by omega)]
        · rw [if_neg hiN, if_neg (by omega)])
    simpa using this
  · intro k hk
    rw [(hS (2 * k + 1) (by omega)).2.2.1, if_pos (by omega)]
    decide
  · intro k hk
    rw [(hS (2 * k) (by omega)).2.2.1, if_neg (by omega)]

end InitialShape4

section Alternation
variable {α : Type} [LinearOrderedField α]

omit [LinearOrderedField α] in
theorem sameShape_refl (P : Nat → POINT α) : SameShape P P := fun _ => ⟨rfl, rfl, rfl⟩

omit [LinearOrderedField α] in
theorem meetFrame_sameShape {P P1 : Nat → POINT α} (h : MeetFrame P P1) : SameShape P P1 :=
  fun i => ⟨(h i).2.2.1, (h i).2.2.2.1, (h i).2.2.2.2.1⟩

omit [LinearOrderedField α] in
theorem cumFrame_sameShape {P P1 : Nat → POINT α} (h : CumFrame P P1) : SameShape P P1 :=
  fun i => ⟨(h i).2.2.1, (h i).2.2.2.1, (h i).2.2.2.2⟩

omit [LinearOrderedField α] in
theorem sameShape_update_xy (P : Nat → POINT α) (q : Nat) (x y : α) :
    SameShape P (Function.update P q { P q with x := x, y := y }) := by
  intro i
  by_cases h : i = q
  · subst h
    simp
  · simp [Function.update_noteq h]

omit [LinearOrderedField α] in
theorem sameShape_isChain {P P1 : Nat → POINT α} (h : SameShape P P1) (l : List Nat)
    (hl : IsChain P l) : IsChain P1 l :=
  ⟨hl.1, hl.2.1, linked_congr P P1 l none (fun i _ => ⟨(h i).2.1, (h i).2.2⟩) hl.2.2⟩

omit [LinearOrderedField α] in
theorem alternating_congr (P P1 : Nat → POINT α) (l : List Nat)
    (h : ∀ i, i ∈ l → (P1 i).f = (P i).f) (hl : Alternating P l) : Alternating P1 l := by
  obtain ⟨h1, h2, h3⟩ := hl
  refine ⟨?_, ?_, ?_⟩
  · intro a ha
    rw [h a (List.mem_of_mem_head? ha)]
    exact h1 a ha
  · intro a ha
    rw [h a (List.mem_of_mem_getLast? ha)]
    exact h2 a ha
  · refine List.Chain'.imp ?_ (List.Chain'.iff_mem.1 h3)
    intro a b hab
    obtain ⟨ha, hb, hR⟩ := hab
    rw [h a ha, h b hb]
    exact hR

omit [LinearOrderedField α] in
theorem sameShape_alternating {P P1 : Nat → POINT α} (h : SameShape P P1) (l : List Nat)
    (hl : Alternating P l) : Alternating P1 l :=
  alternating_congr P P1 l (fun i _ => (h i).1) hl

end Alternation
section Insertion
variable {α : Type} [LinearOrderedField α]

omit [LinearOrderedField α] in
/-- Linking two new slots `s1`, `s2` between the adjacent slots `a` and `b` of
a chain. -/
theorem linked_insert (P P3 : Nat → POINT α) (a b s1 s2 : Nat) (l2 : List Nat) :
    ∀ (l1 : List Nat) (prev : Option Nat),
    Linked P prev (l1 ++ a :: b :: l2) → (l1 ++ a :: b :: l2).Nodup →
    s1 ∉ l1 ++ a :: b :: l2 → s2 ∉ l1 ++ a :: b :: l2 →
    (∀ i, i ≠ a → i ≠ b → i ≠ s1 → i ≠ s2 →
      (P3 i).pl = (P i).pl ∧ (P3 i).pr = (P i).pr) →
    (P3 a).pl = (P a).pl → (P3 a).pr = some s1 →
    (P3 s1).pl = some a → (P3 s1).pr = some s2 →
    (P3 s2).pl = some s1 → (P3 s2).pr = some b →
    (P3 b).pl = some s2 → (P3 b).pr = (P b).pr →
    Linked P3 prev (l1 ++ a :: s1 :: s2 :: b :: l2) := by
  intro l1
  induction l1 with
  | nil =>
    intro prev hl hnd hs1 hs2 hfr ha1 ha2 hs11 hs12 hs21 hs22 hb1 hb2
    simp only [List.nil_append] at hl hnd hs1 hs2 ⊢
    unfold Linked at hl
    obtain ⟨e1, -, hl⟩ := hl
    unfold Linked at hl
    obtain ⟨-, e4, hl⟩ := hl
    unfold Linked
    refine ⟨ha1.trans e1, ha2, ?_⟩
    unfold Linked
    refine ⟨hs11, hs12, ?_⟩
    unfold Linked
    refine ⟨hs21, hs22, ?_⟩
    unfold Linked
    refine ⟨hb1, hb2.trans e4, ?_⟩
    refine linked_congr P P3 l2 _ ?_ hl
    intro i hi
    have hia : i ≠ a := by
      rintro rfl
      simp only [List.nodup_cons, List.mem_cons] at hnd
      exact hnd.1 (Or.inr hi)
    have hib : i ≠ b := by
      rintro rfl
      simp only [List.nodup_cons, List.mem_cons] at hnd
      exact hnd.2.1 hi
    have his1 : i ≠ s1 := by
      rintro rfl
      exact hs1 (by simp [hi])
    have his2 : i ≠ s2 := by
      rintro rfl
      exact hs2 (by simp [hi])
    exact hfr i hia hib his1 his2
  | cons c l1 ih =>
    intro prev hl hnd hs1 hs2 hfr ha1 ha2 hs11 hs12 hs21 hs22 hb1 hb2
    simp only [List.cons_append] at hl hnd hs1 hs2 ⊢
    unfold Linked at hl
    obtain ⟨e1, e2, hl⟩ := hl
    have hnd2 := (List.nodup_cons.mp hnd).2
    have hc := (List.nodup_cons.mp hnd).1
    have hca : c ≠ a := by
      rintro rfl
      exact hc (by simp)
    have hcb : c ≠ b := by
      rintro rfl
      exact hc (by simp)
    have hcs1 : c ≠ s1 := by
      rintro rfl
      exact hs1 (by simp)
    have hcs2 : c ≠ s2 := by
      rintro rfl
      exact hs2 (by simp)
    unfold Linked
    refine ⟨(hfr c hca hcb hcs1 hcs2).1.trans e1, ?_, ?_⟩
    · rw [(hfr c hca hcb hcs1 hcs2).2, e2]
      cases l1 <;> rfl
    · exact ih (some c) hl hnd2 (fun h => hs1 (List.mem_cons_of_mem _ h))
        (fun h => hs2 (List.mem_cons_of_mem _ h)) hfr ha1 ha2 hs11 hs12 hs21 hs22 hb1 hb2

theorem nodup_insert (a b s1 s2 : Nat) (l1 l2 : List Nat)
    (hnd : (l1 ++ a :: b :: l2).Nodup) (hs1 : s1 ∉ l1 ++ a :: b :: l2)
    (hs2 : s2 ∉ l1 ++ a :: b :: l2) (h12 : s1 ≠ s2) :
    (l1 ++ a :: s1 :: s2 :: b :: l2).Nodup := by
  have hp : List.Perm (l1 ++ a :: s1 :: s2 :: b :: l2) (s1 :: s2 :: (l1 ++ a :: b :: l2)) := by
    have e1 : l1 ++ a :: s1 :: s2 :: b :: l2 = (l1 ++ [a]) ++ s1 :: (s2 :: b :: l2) := by simp
    have e2 : l1 ++ a :: b :: l2 = (l1 ++ [a]) ++ b :: l2 := by simp
    rw [e1, e2]
    refine List.perm_middle.trans (List.Perm.cons _ ?_)
    exact List.perm_middle
  rw [hp.nodup_iff]
  refine List.nodup_cons.mpr ⟨?_, List.nodup_cons.mpr ⟨hs2, hnd⟩⟩
  intro h
  rcases List.mem_cons.mp h with h | h
  · exact h12 h
  · exact hs1 h

omit [LinearOrderedField α] in
/-- Alternation of the flags after two new slots, of which exactly one is
on-curve and in the right order, have been linked between `a` and `b`. -/
theorem alternating_insert (P P3 : Nat → POINT α) (a b s1 s2 : Nat) (l1 l2 : List Nat)
    (hl : Alternating P (l1 ++ a :: b :: l2))
    (hf : ∀ i, i ∈ l1 ++ a :: b :: l2 → (P3 i).f = (P i).f)
    (h1 : ((P a).f ≠ 0 ∧ (P3 s1).f = 0 ∧ (P3 s2).f ≠ 0 ∧ (P b).f = 0) ∨
      ((P a).f = 0 ∧ (P3 s1).f ≠ 0 ∧ (P3 s2).f = 0 ∧ (P b).f ≠ 0)) :
    Alternating P3 (l1 ++ a :: s1 :: s2 :: b :: l2) := by
  have hl3 := alternating_congr P P3 _ hf hl
  obtain ⟨g1, g2, g3⟩ := hl3
  have fa := hf a (by simp)
  have fb := hf b (by simp)
  refine ⟨?_, ?_, ?_⟩
  · intro c hc
    apply g1 c
    cases l1 with
    | nil => simpa using hc
    | cons d l1 => simpa using hc
  · intro c hc
    apply g2 c
    have e1 : l1 ++ a :: s1 :: s2 :: b :: l2 = (l1 ++ [a, s1, s2]) ++ b :: l2 := by simp
    have e2 : l1 ++ a :: b :: l2 = (l1 ++ [a]) ++ b :: l2 := by simp
    rw [e1, List.getLast?_append_of_ne_nil _ (by simp)] at hc
    rw [e2, List.getLast?_append_of_ne_nil _ (by simp)]
    exact hc
  · rw [List.chain'_append_cons_cons] at g3
    obtain ⟨c1, -, c3⟩ := g3
    have e1 : l1 ++ a :: s1 :: s2 :: b :: l2 = (l1 ++ [a]) ++ s1 :: s2 :: b :: l2 := by simp
    rw [e1, List.chain'_append]
    refine ⟨c1, ?_, ?_⟩
    · rw [List.chain'_cons, List.chain'_cons]
      refine ⟨?_, ?_, c3⟩
      · rcases h1 with ⟨-, k2, k3, -⟩ | ⟨-, k2, k3, -⟩
        · exact Or.inr ⟨k2, k3⟩
        · exact Or.inl ⟨k2, k3⟩
      · rcases h1 with ⟨-, k2, k3, k4⟩ | ⟨-, k2, k3, k4⟩
        · exact Or.inl ⟨k3, by rw [fb]; exact k4⟩
        · exact Or.inr ⟨k3, by rw [fb]; exact k4⟩
    · intro x hx y hy
      simp only [List.head?_cons, Option.mem_def, Option.some.injEq] at hy
      subst hy
      rw [List.getLast?_append_of_ne_nil _ (by simp)] at hx
      simp only [List.getLast?_singleton, Option.mem_def, Option.some.injEq] at hx
      subst hx
      rcases h1 with ⟨k1, k2, -, -⟩ | ⟨k1, k2, -, -⟩
      · exact Or.inl ⟨by rw [fa]; exact k1, k2⟩
      · exact Or.inr ⟨by rw [fa]; exact k1, k2⟩

end Insertion

section UpdateChain
variable {α : Type} [LinearOrderedField α]

end UpdateChain
section FlagsAlternate
variable {α : Type} [LinearOrderedField α]

omit [LinearOrderedField α] in
/-- Along an alternating chain the on-curve points are exactly those at odd
positions. -/
theorem alternating_odd (P : Nat → POINT α) (l : List Nat) (hl : Alternating P l) :
    ∀ (k : Nat) (hk : k < l.length), ((P (l.get ⟨k, hk⟩)).f ≠ 0 ↔ k % 2 = 1) := by
  obtain ⟨h1, -, h3⟩ := hl
  rw [List.chain'_iff_get] at h3
  intro k
  induction k with
  | zero =>
    intro hk
    have : (P (l.get ⟨0, hk⟩)).f = 0 := by
      apply h1
      cases l with
      | nil => exact absurd hk (by simp)
      | cons a t => rfl
    constructor
    · intro hc
      exact absurd this hc
    · intro hc
      omega
  | succ k ih =>
    intro hk
    have hk1 : k < l.length := by omega
    have := h3 k (by omega)
    have ih1 := ih hk1
    rcases this with ⟨a1, a2⟩ | ⟨a1, a2⟩
    · have hodd := ih1.mp a1
      constructor
      · intro hc
        exact absurd a2 hc
      · intro hc
        omega
    · have hev : ¬ (k % 2 = 1) := fun hc => (ih1.mpr hc) a1
      constructor
      · intro _
        omega
      · intro _
        exact a2

end FlagsAlternate

section Cumulate
variable {α : Type} [LinearOrderedField α]

omit [LinearOrderedField α] in
/-- In a linked list of slots, the left neighbour of a slot is the slot before
it. -/
theorem linked_pl (P : Nat → POINT α) (b q : Nat) (l2 : List Nat) :
    ∀ (l1 : List Nat) (prev : Option Nat), Linked P prev (l1 ++ b :: q :: l2) →
      (P q).pl = some b := by
  intro l1
  induction l1 with
  | nil =>
    intro prev h
    simp only [List.nil_append] at h
    unfold Linked at h
    have h2 := h.2.2
    unfold Linked at h2
    exact h2.1
  | cons c l1 ih =>
    intro prev h
    simp only [List.cons_append] at h
    unfold Linked at h
    exact ih (some c) h.2.2

omit [LinearOrderedField α] in
/-- In a linked list of slots, the right neighbour of a slot is the slot after
it, and the rest of the list is linked. -/
theorem linked_pr (P : Nat → POINT α) (q : Nat) (l2 : List Nat) :
    ∀ (l1 : List Nat) (prev : Option Nat), Linked P prev (l1 ++ q :: l2) →
      (P q).pr = l2.head? ∧ Linked P (some q) l2 := by
  intro l1
  induction l1 with
  | nil =>
    intro prev h
    simp only [List.nil_append] at h
    unfold Linked at h
    exact ⟨h.2.1, h.2.2⟩
  | cons c l1 ih =>
    intro prev h
    simp only [List.cons_append] at h
    unfold Linked at h
    exact ih (some c) h.2.2

omit [LinearOrderedField α] in
/-- The walk `while (q->pl) q = q->pl` from any slot of a chain ends at its
first slot. -/
theorem leftmost_chain (P : Nat → POINT α) (a0 : Nat) :
    ∀ (l1 : List Nat) (q : Nat) (l2 : List Nat) (n : Nat),
      Linked P none (l1 ++ q :: l2) → (l1 ++ [q]).head? = some a0 → l1.length < n →
      leftmost P n q = .ok a0 := by
  intro l1
  induction l1 using List.reverseRecOn with
  | nil =>
    intro q l2 n h hh hn
    simp only [List.nil_append] at h hh
    unfold Linked at h
    obtain ⟨k, rfl⟩ : ∃ k, n = k + 1 := ⟨n - 1, by simp at hn; omega⟩
    unfold leftmost
    rw [h.1]
    simp only [List.head?_cons, Option.some.injEq] at hh
    rw [hh]
  | append_singleton l1 b ih =>
    intro q l2 n h hh hn
    have e : l1 ++ [b] ++ q :: l2 = l1 ++ b :: q :: l2 := by simp
    rw [e] at h
    have hpl := linked_pl P b q l2 l1 none h
    obtain ⟨k, rfl⟩ : ∃ k, n = k + 1 := ⟨n - 1, by simp at hn; omega⟩
    unfold leftmost
    rw [hpl]
    refine ih b (q :: l2) k h ?_ (by simp at hn; omega)
    rw [List.head?_append_of_ne_nil _ (by simp)] at hh
    exact hh

omit [LinearOrderedField α] in
/-- The walk `while (q->pr != NULL) q = q->pr` from any slot of a chain ends at
its last slot. -/
theorem rightmost_chain (P : Nat → POINT α) (z : Nat) :
    ∀ (l2 : List Nat) (q : Nat) (prev : Option Nat) (n : Nat),
      Linked P prev (q :: l2) → (q :: l2).getLast? = some z → l2.length < n →
      rightmost P n q = .ok z := by
  intro l2
  induction l2 with
  | nil =>
    intro q prev n h hh hn
    unfold Linked at h
    obtain ⟨k, rfl⟩ : ∃ k, n = k + 1 := ⟨n - 1, by simp at hn; omega⟩
    unfold rightmost
    rw [h.2.1]
    simp only [List.getLast?_singleton, Option.some.injEq] at hh
    simp [hh]
  | cons b l2 ih =>
    intro q prev n h hh hn
    unfold Linked at h
    obtain ⟨k, rfl⟩ : ∃ k, n = k + 1 := ⟨n - 1, by simp at hn; omega⟩
    unfold rightmost
    rw [h.2.1]
    simp only [List.head?_cons]
    refine ih b (some q) k h.2.2 ?_ (by simp at hn; omega)
    rw [List.getLast?_cons_cons] at hh
    exact hh

/-- The first loop of `cumulate` ends on a linked list of slots. -/
theorem cumulate_ymax_chain (P : Nat → POINT α) :
    ∀ (l : List Nat) (prev : Option Nat) (n : Nat) (ym : α),
      Linked P prev l → l.length ≤ n → ∃ ym1, cumulate_ymax P n l.head? ym = .ok ym1 := by
  intro l
  induction l with
  | nil =>
    intro prev n ym _ _
    refine ⟨ym, ?_⟩
    simp only [List.head?_nil]
    cases n <;> rfl
  | cons a t ih =>
    intro prev n ym h hn
    unfold Linked at h
    obtain ⟨k, rfl⟩ : ∃ k, n = k + 1 := ⟨n - 1, by simp at hn; omega⟩
    simp only [List.head?_cons]
    unfold cumulate_ymax
    rw [h.2.1]
    exact ih (some a) k _ h.2.2 (by simp at hn; omega)

/-- The second loop of `cumulate` on a linked list of slots: it ends, and sets
`ey = expshift (y, ymax)` in the slots of the list and nothing else. -/
theorem cumulate_ey_chain (m : Libm α) (ymax : α) :
    ∀ (l : List Nat) (prev : Option Nat) (n : Nat) (P : Nat → POINT α),
      Linked P prev l → l.Nodup → l.length ≤ n →
      ∃ P1, cumulate_ey m ymax n l.head? P = .ok P1 ∧
        (∀ q, q ∈ l → P1 q = { P q with ey := expshift m (P q).y ymax }) ∧
        (∀ q, q ∉ l → P1 q = P q) := by
  intro l
  induction l with
  | nil =>
    intro prev n P _ _ _
    refine ⟨P, ?_, by simp, fun _ _ => rfl⟩
    simp only [List.head?_nil]
    cases n <;> rfl
  | cons a t ih =>
    intro prev n P h hnd hn
    unfold Linked at h
    obtain ⟨k, rfl⟩ : ∃ k, n = k + 1 := ⟨n - 1, by simp at hn; omega⟩
    simp only [List.head?_cons]
    unfold cumulate_ey
    dsimp only
    have hat : a ∉ t := (List.nodup_cons.mp hnd).1
    have hl : Linked (Function.update P a { P a with ey := expshift m (P a).y ymax })
        (some a) t := by
      refine linked_congr P _ t _ ?_ h.2.2
      intro i hi
      have hia : i ≠ a := by
        rintro rfl
        exact hat hi
      rw [Function.update_noteq hia]
      exact ⟨rfl, rfl⟩
    obtain ⟨P1, h1, h2, h3⟩ := ih (some a) k _ hl (List.nodup_cons.mp hnd).2
      (by simp at hn; omega)
    refine ⟨P1, ?_, ?_, ?_⟩
    · rw [← h1]
      congr 1
      rw [Function.update_same]
      exact h.2.1
    · intro q hq
      rcases List.mem_cons.mp hq with rfl | hqt
      · rw [h3 q hat, Function.update_same]
      · have hqa : q ≠ a := by
          rintro rfl
          exact hat hqt
        rw [h2 q hqt, Function.update_noteq hqa]
    · intro q hq
      have hqa : q ≠ a := by
        rintro rfl
        exact hq (List.mem_cons_self _ _)
      rw [h3 q (fun h => hq (List.mem_cons_of_mem _ h)), Function.update_noteq hqa]

end Cumulate
section Cumulate2
variable {α : Type} [LinearOrderedField α]

/-- The function `area` reads only `x`, `y`, `ey` and `pl`. -/
theorem area_congr (P P1 : Nat → POINT α) (q : Nat)
    (h : ∀ i, (P1 i).x = (P i).x ∧ (P1 i).y = (P i).y ∧ (P1 i).ey = (P i).ey ∧
      (P1 i).pl = (P i).pl) :
    area P1 q = area P q := by
  unfold area
  rw [(h q).2.2.2]
  cases (P q).pl with
  | none => rfl
  | some l =>
    simp only [(h q).1, (h q).2.1, (h q).2.2.1, (h l).1, (h l).2.1, (h l).2.2.1]

/-- The function `area` returns when the point has a left neighbour. -/
theorem area_ok (P : Nat → POINT α) (q l : Nat) (h : (P q).pl = some l) :
    ∃ a, area P q = .ok a := by
  unfold area
  rw [h]
  dsimp only
  split_ifs
  · exact ⟨_, rfl⟩
  · exact ⟨_, rfl⟩
  · exact ⟨_, rfl⟩

/-- The third loop of `cumulate` on a linked list of slots that follows the
slot `a0`: it ends, writes only `cum`, only in the slots of the list, and
leaves `cum` of each slot equal to `cum` of the slot before it plus the `area`
of the slot. -/
theorem cumulate_cum_chain :
    ∀ (t : List Nat) (a0 : Nat) (n : Nat) (P : Nat → POINT α),
      Linked P (some a0) t → (a0 :: t).Nodup → t.length ≤ n →
      ∃ P1, cumulate_cum n t.head? P = .ok P1 ∧
        (∀ i, (P1 i).x = (P i).x ∧ (P1 i).y = (P i).y ∧ (P1 i).ey = (P i).ey ∧
          (P1 i).f = (P i).f ∧ (P1 i).pl = (P i).pl ∧ (P1 i).pr = (P i).pr) ∧
        (∀ q, q ∉ t → P1 q = P q) ∧
        List.Chain (fun a b => ∃ ar, area P1 b = .ok ar ∧ (P1 b).cum = (P1 a).cum + ar)
          a0 t := by
  intro t
  induction t with
  | nil =>
    intro a0 n P _ _ _
    refine ⟨P, ?_, fun _ => ⟨rfl, rfl, rfl, rfl, rfl, rfl⟩, fun _ _ => rfl, List.Chain.nil⟩
    simp only [List.head?_nil]
    cases n <;> rfl
  | cons b t ih =>
    intro a0 n P h hnd hn
    unfold Linked at h
    obtain ⟨k, rfl⟩ : ∃ k, n = k + 1 := ⟨n - 1, by simp at hn; omega⟩
    obtain ⟨ar, har⟩ := area_ok P b a0 h.1
    have hnd2 : (b :: t).Nodup := (List.nodup_cons.mp hnd).2
    have hbt : b ∉ t := (List.nodup_cons.mp hnd2).1
    have ha0b : a0 ≠ b := by
      rintro rfl
      exact (List.nodup_cons.mp hnd).1 (List.mem_cons_self _ _)
    have ha0t : a0 ∉ t := fun hm => (List.nodup_cons.mp hnd).1 (List.mem_cons_of_mem _ hm)
    have hl : Linked (Function.update P b { P b with cum := (P a0).cum + ar }) (some b) t := by
      refine linked_congr P _ t _ ?_ h.2.2
      intro i hi
      have hib : i ≠ b := by
        rintro rfl
        exact hbt hi
      rw [Function.update_noteq hib]
      exact ⟨rfl, rfl⟩
    obtain ⟨P1, h1, h2, h3, h4⟩ := ih b k _ hl hnd2 (by simp at hn; omega)
    have hfr : ∀ i, (P1 i).x = (P i).x ∧ (P1 i).y = (P i).y ∧ (P1 i).ey = (P i).ey ∧
        (P1 i).f = (P i).f ∧ (P1 i).pl = (P i).pl ∧ (P1 i).pr = (P i).pr := by
      intro i
      obtain ⟨c1, c2, c3, c4, c5, c6⟩ := h2 i
      by_cases hib : i = b
      · subst hib
        rw [Function.update_same] at c1 c2 c3 c4 c5 c6
        exact ⟨c1, c2, c3, c4, c5, c6⟩
      · rw [Function.update_noteq hib] at c1 c2 c3 c4 c5 c6
        exact ⟨c1, c2, c3, c4, c5, c6⟩
    refine ⟨P1, ?_, hfr, ?_, ?_⟩
    · simp only [List.head?_cons]
      unfold cumulate_cum
      rw [har]
      dsimp only
      rw [h.1]
      dsimp only
      rw [← h1]
      have e : (⟨(P b).x, (P b).y, (P b).ey, (P a0).cum + ar, (P b).f, some a0, (P b).pr⟩ :
          POINT α) = { P b with cum := (P a0).cum + ar } := by
        rw [← h.1]
      rw [e, Function.update_same]
      show cumulate_cum k (P b).pr _ = _
      rw [h.2.1]
    · intro q hq
      have hqb : q ≠ b := by
        rintro rfl
        exact hq (List.mem_cons_self _ _)
      rw [h3 q (fun hm => hq (List.mem_cons_of_mem _ hm)), Function.update_noteq hqb]
    · refine List.Chain.cons ⟨ar, ?_, ?_⟩ h4
      · rw [area_congr P P1 b (fun i => ⟨(hfr i).1, (hfr i).2.1, (hfr i).2.2.1, (hfr i).2.2.2.2.1⟩)]
        exact har
      · rw [h3 b hbt, h3 a0 ha0t, Function.update_same, Function.update_noteq ha0b]

/-- The value of `expshift` is not negative when `exp` is not. -/
theorem expshift_nonneg (m : Libm α) (hpos : ∀ t, 0 ≤ m.exp t) (y y0 : α) :
    0 ≤ expshift m y y0 := by
  unfold expshift
  split_ifs
  · exact hpos _
  · exact le_refl _

/-- The function `expshift` is monotone in `y` when `exp` is monotone and not
negative. -/
theorem expshift_mono (m : Libm α) (hmono : Monotone m.exp) (hpos : ∀ t, 0 ≤ m.exp t)
    (y y1 y0 : α) (h : y ≤ y1) : expshift m y y0 ≤ expshift m y1 y0 := by
  unfold expshift
  by_cases h1 : y - y0 > -2 * YCEIL
  · have h2 : y1 - y0 > -2 * YCEIL := lt_of_lt_of_le h1 (by linarith)
    rw [if_pos h1, if_pos h2]
    exact hmono (by linarith)
  · rw [if_neg h1]
    split_ifs
    · exact hpos _
    · exact le_refl _

/-- The value of `area` is not negative on a piece whose end points are in
order and carry `ey = expshift (y, ymax)`. -/
theorem area_nonneg (m : Libm α) (hmono : Monotone m.exp) (hpos : ∀ t, 0 ≤ m.exp t)
    (ymax : α) (P : Nat → POINT α) (q l : Nat) (a : α)
    (hpl : (P q).pl = some l) (hx : (P l).x ≤ (P q).x)
    (hel : (P l).ey = expshift m (P l).y ymax) (heq : (P q).ey = expshift m (P q).y ymax)
    (ha : area P q = .ok a) : 0 ≤ a := by
  unfold area at ha
  rw [hpl] at ha
  dsimp only at ha
  have e1 := expshift_nonneg m hpos (P l).y ymax
  have e2 := expshift_nonneg m hpos (P q).y ymax
  rw [← hel] at e1
  rw [← heq] at e2
  split_ifs at ha with h1 h2
  · simp only [Except.ok.injEq] at ha
    exact ha.le
  · simp only [Except.ok.injEq] at ha
    rw [← ha]
    exact mul_nonneg (mul_nonneg (by norm_num) (add_nonneg e2 e1)) (sub_nonneg.mpr hx)
  · simp only [Except.ok.injEq] at ha
    rw [← ha]
    refine mul_nonneg ?_ (sub_nonneg.mpr hx)
    rcases le_total (P l).y (P q).y with hy | hy
    · have := expshift_mono m hmono hpos _ _ ymax hy
      rw [← hel, ← heq] at this
      exact div_nonneg (sub_nonneg.mpr this) (sub_nonneg.mpr hy)
    · have := expshift_mono m hmono hpos _ _ ymax hy
      rw [← hel, ← heq] at this
      exact div_nonneg_of_nonpos (sub_nonpos.mpr this) (sub_nonpos.mpr hy)

/-- Along a list in which `cum` of each slot is `cum` of the slot before it
plus `ar` of the slot, `cum` of the last slot is `cum` of the first slot plus
the sum of `ar` over the other slots. -/
theorem cum_last_sum (P : Nat → POINT α) (ar : Nat → α) :
    ∀ (t : List Nat) (a0 z : Nat),
      List.Chain (fun a b => (P b).cum = (P a).cum + ar b) a0 t →
      (a0 :: t).getLast? = some z → (P z).cum = (P a0).cum + (t.map ar).sum := by
  intro t
  induction t with
  | nil =>
    intro a0 z _ hz
    simp only [List.getLast?_singleton, Option.some.injEq] at hz
    simp [hz]
  | cons b t ih =>
    intro a0 z hc hz
    rw [List.getLast?_cons_cons] at hz
    rw [List.chain_cons] at hc
    rw [ih b z hc.2 hz, hc.1]
    simp only [List.map_cons, List.sum_cons]
    ring

end Cumulate2
section Cumulate3
variable {α : Type} [LinearOrderedField α]

omit [LinearOrderedField α] in
/-- In a linked list of slots each slot is the left neighbour of the next. -/
theorem linked_chain_pl (P : Nat → POINT α) :
    ∀ (t : List Nat) (a : Nat), Linked P (some a) t →
      List.Chain (fun a b => (P b).pl = some a) a t := by
  intro t
  induction t with
  | nil => exact fun _ _ => List.Chain.nil
  | cons b t ih =>
    intro a h
    unfold Linked at h
    exact List.Chain.cons h.1 (ih b h.2.2)

/-- Two relations that hold along a list hold together along it. -/
theorem chain_and {β : Type} (R S : β → β → Prop) :
    ∀ (t : List β) (a : β), List.Chain R a t → List.Chain S a t →
      List.Chain (fun x y => R x y ∧ S x y) a t := by
  intro t
  induction t with
  | nil => exact fun _ _ _ => List.Chain.nil
  | cons b t ih =>
    intro a h1 h2
    rw [List.chain_cons] at h1 h2
    exact List.Chain.cons ⟨h1.1, h2.1⟩ (ih b h1.2 h2.2)

/-- The function `cumulate` on a chain `a0 :: t` that holds slot 0: it returns,
leaves `x`, `y`, the flags and the links alone, sets `ey = expshift (y, ymax)`
along the chain and `cum = 0` at its first slot, and `cum` of every other slot
to `cum` of its left neighbour plus its `area`. -/
theorem cumulate_chain (m : Libm α) (fuel : Nat) (env : arms_state α) (a0 : Nat) (t : List Nat)
    (hc : IsChain env.p (a0 :: t)) (h0 : 0 ∈ a0 :: t) (hf : (a0 :: t).length ≤ fuel) :
    ∃ env1, cumulate m fuel env = .ok env1 ∧ CumFrame env.p env1.p ∧
      (∀ q, q ∈ a0 :: t → (env1.p q).ey = expshift m (env1.p q).y env1.ymax) ∧
      (env1.p a0).cum = 0 ∧
      List.Chain (fun a b => ∃ ar, area env1.p b = .ok ar ∧
        (env1.p b).cum = (env1.p a).cum + ar) a0 t := by
  obtain ⟨-, hnd, hl⟩ := hc
  have hl0 := hl
  unfold Linked at hl0
  obtain ⟨-, hpr0, hlt⟩ := hl0
  have hat : a0 ∉ t := (List.nodup_cons.mp hnd).1
  -- the walk to the leftmost point
  obtain ⟨l1, l2, hsplit⟩ := List.append_of_mem h0
  have hleft : leftmost env.p fuel 0 = .ok a0 := by
    refine leftmost_chain env.p a0 l1 0 l2 fuel (by rw [← hsplit]; exact hl) ?_ ?_
    · cases l1 with
      | nil =>
        simp only [List.nil_append, List.cons.injEq] at hsplit
        simp [hsplit.1]
      | cons c l1 =>
        simp only [List.cons_append, List.cons.injEq] at hsplit
        simp [hsplit.1]
    · have := congrArg List.length hsplit
      simp only [List.length_cons, List.length_append] at this hf
      omega
  obtain ⟨ymax, hymax⟩ := cumulate_ymax_chain env.p t (some a0) fuel (env.p a0).y hlt
    (by simp only [List.length_cons] at hf; omega)
  rw [← hpr0] at hymax
  obtain ⟨P1, hey, hP1in, hP1out⟩ := cumulate_ey_chain m ymax (a0 :: t) none fuel env.p hl hnd hf
  simp only [List.head?_cons] at hey
  have hP1 : ∀ i, (P1 i).x = (env.p i).x ∧ (P1 i).y = (env.p i).y ∧ (P1 i).f = (env.p i).f ∧
      (P1 i).pl = (env.p i).pl ∧ (P1 i).pr = (env.p i).pr ∧ (P1 i).cum = (env.p i).cum := by
    intro i
    by_cases hi : i ∈ a0 :: t
    · rw [hP1in i hi]
      exact ⟨rfl, rfl, rfl, rfl, rfl, rfl⟩
    · rw [hP1out i hi]
      exact ⟨rfl, rfl, rfl, rfl, rfl, rfl⟩
  have hP2 : ∀ i, (Function.update P1 a0 { P1 a0 with cum := 0 } i).x = (P1 i).x ∧
      (Function.update P1 a0 { P1 a0 with cum := 0 } i).y = (P1 i).y ∧
      (Function.update P1 a0 { P1 a0 with cum := 0 } i).ey = (P1 i).ey ∧
      (Function.update P1 a0 { P1 a0 with cum := 0 } i).f = (P1 i).f ∧
      (Function.update P1 a0 { P1 a0 with cum := 0 } i).pl = (P1 i).pl ∧
      (Function.update P1 a0 { P1 a0 with cum := 0 } i).pr = (P1 i).pr := by
    intro i
    by_cases hi : i = a0
    · subst hi
      rw [Function.update_same]
      exact ⟨rfl, rfl, rfl, rfl, rfl, rfl⟩
    · rw [Function.update_noteq hi]
      exact ⟨rfl, rfl, rfl, rfl, rfl, rfl⟩
  have hl2 : Linked (Function.update P1 a0 { P1 a0 with cum := 0 }) (some a0) t := by
    refine linked_congr env.p _ t _ ?_ hlt
    intro i _
    exact ⟨(hP2 i).2.2.2.2.1.trans (hP1 i).2.2.2.1, (hP2 i).2.2.2.2.2.trans (hP1 i).2.2.2.2.1⟩
  obtain ⟨P3, hcum, hP3, hP3out, hchain⟩ := cumulate_cum_chain t a0 fuel _ hl2 hnd
    (by simp only [List.length_cons] at hf; omega)
  have hpr2 : (Function.update P1 a0 { P1 a0 with cum := 0 } a0).pr = t.head? :=
    ((hP2 a0).2.2.2.2.2.trans (hP1 a0).2.2.2.2.1).trans hpr0
  rw [← hpr2] at hcum
  refine ⟨{ env with ymax := ymax, p := P3 }, ?_, ?_, ?_, ?_, hchain⟩
  · unfold cumulate
    rw [hleft]
    dsimp only
    rw [hymax]
    dsimp only
    rw [hey]
    dsimp only
    rw [hcum]
  · intro i
    obtain ⟨b1, b2, -, b4, b5, b6⟩ := hP3 i
    obtain ⟨c1, c2, -, c4, c5, c6⟩ := hP2 i
    obtain ⟨d1, d2, d3, d4, d5, -⟩ := hP1 i
    exact ⟨(b1.trans c1).trans d1, (b2.trans c2).trans d2, (b4.trans c4).trans d3,
      (b5.trans c5).trans d4, (b6.trans c6).trans d5⟩
  · intro q hq
    show (P3 q).ey = expshift m (P3 q).y ymax
    rw [(hP3 q).2.2.1, (hP2 q).2.2.1, (hP3 q).2.1, (hP2 q).2.1, hP1in q hq]
  · show (P3 a0).cum = 0
    rw [hP3out a0 hat, Function.update_same]

end Cumulate3
section Cumulate4
variable {α : Type} [LinearOrderedField α]

/-- The invariants of `cumulate` for any `exp` that is monotone and not
negative. -/
theorem cumulate_chain_nonneg (m : Libm α) (hmono : Monotone m.exp) (hpos : ∀ t, 0 ≤ m.exp t)
    (fuel : Nat) (env : arms_state α) (a0 : Nat) (t : List Nat)
    (hc : IsChain env.p (a0 :: t)) (h0 : 0 ∈ a0 :: t) (hx : XSorted env.p (a0 :: t))
    (hf : (a0 :: t).length ≤ fuel) :
    ∃ env1 ar, cumulate m fuel env = .ok env1 ∧ CumFrame env.p env1.p ∧
      (env1.p a0).cum = 0 ∧
      List.Chain (fun a b => area env1.p b = .ok (ar b) ∧ 0 ≤ ar b ∧
        (env1.p b).cum = (env1.p a).cum + ar b ∧ (env1.p a).cum ≤ (env1.p b).cum) a0 t ∧
      (∀ z, (a0 :: t).getLast? = some z → (env1.p z).cum = (t.map ar).sum) := by
  obtain ⟨env1, hcum, hfr, hey, hc0, hchain⟩ := cumulate_chain m fuel env a0 t hc h0 hf
  have hlt : Linked env1.p (some a0) t := by
    have := hc.2.2
    unfold Linked at this
    exact linked_congr env.p env1.p t _ (fun i _ => ⟨(hfr i).2.2.2.1, (hfr i).2.2.2.2⟩) this.2.2
  have hpl := linked_chain_pl env1.p t a0 hlt
  have hx0 : List.Chain (fun a b => (env.p a).x ≤ (env.p b).x) a0 t := hx
  have hall := List.Chain.iff_mem.1 (chain_and _ _ t a0 hchain (chain_and _ _ t a0 hpl hx0))
  have hfin : List.Chain (fun a b =>
      area env1.p b = .ok ((fun q => match area env1.p q with
        | .ok v => v
        | .error _ => 0) b) ∧
      0 ≤ (fun q => match area env1.p q with
        | .ok v => v
        | .error _ => 0) b ∧
      (env1.p b).cum = (env1.p a).cum + (fun q => match area env1.p q with
        | .ok v => v
        | .error _ => 0) b ∧
      (env1.p a).cum ≤ (env1.p b).cum) a0 t := by
    refine List.Chain.imp ?_ hall
    rintro a b ⟨ha, hb, ⟨ar, har, hcb⟩, hplb, hxab⟩
    have hnn : 0 ≤ ar := by
      refine area_nonneg m hmono hpos env1.ymax env1.p b a ar hplb ?_
        (hey a ha) (hey b (List.mem_cons_of_mem _ hb)) har
      rw [(hfr a).1, (hfr b).1]
      exact hxab
    dsimp only
    rw [har]
    dsimp only
    exact ⟨rfl, hnn, hcb, by rw [hcb]; exact le_add_of_nonneg_right hnn⟩
  refine ⟨env1, _, hcum, hfr, hc0, hfin, ?_⟩
  intro z hz
  have := cum_last_sum env1.p _ t a0 z (List.Chain.imp (fun a b h => h.2.2.1) hfin) hz
  rw [this, hc0, zero_add]

end Cumulate4

section Cumulate5

/-- C9: the invariants of `cumulate`, with the real exponential.  On an
envelope (a chain `l` of slots holding slot 0) whose points are non-decreasing
in `x`, `cumulate` returns; afterwards the leftmost point's `cum` is 0, every
other point's `cum` is its left neighbour's `cum` plus its `area`, every such
area is not negative, so `cum` is non-decreasing from left to right, and the
rightmost point's `cum` is the sum of `area` over all points but the
leftmost. -/
theorem cumulate_invariants (fuel : Nat) (env : arms_state ℝ) (l : List Nat)
    (hc : IsChain env.p l) (h0 : 0 ∈ l) (hx : XSorted env.p l) (hf : l.length ≤ fuel) :
    ∃ env1 ar, cumulate (Libm.mk Real.exp Real.log Real.sqrt) fuel env = .ok env1 ∧
      IsChain env1.p l ∧ XSorted env1.p l ∧
      (∀ a, l.head? = some a → (env1.p a).cum = 0) ∧
      List.Chain' (fun a b => area env1.p b = .ok (ar b) ∧ 0 ≤ ar b ∧
        (env1.p b).cum = (env1.p a).cum + ar b ∧ (env1.p a).cum ≤ (env1.p b).cum) l ∧
      (∀ z, l.getLast? = some z → (env1.p z).cum = (l.tail.map ar).sum) := by
  cases l with
  | nil => exact absurd rfl hc.1
  | cons a0 t =>
    obtain ⟨env1, ar, h1, h2, h3, h4, h5⟩ :=
      cumulate_chain_nonneg (Libm.mk Real.exp Real.log Real.sqrt)
        (fun _ _ h => Real.exp_le_exp.mpr h) (fun t => (Real.exp_pos t).le) fuel env a0 t
        hc h0 hx hf
    refine ⟨env1, ar, h1, sameShape_isChain (cumFrame_sameShape h2) _ hc, ?_, ?_, h4, h5⟩
    · unfold XSorted at hx ⊢
      refine List.Chain'.imp ?_ hx
      intro a b hab
      rw [(h2 a).1, (h2 b).1]
      exact hab
    · intro a ha
      simp only [List.head?_cons, Option.some.injEq] at ha
      rw [← ha]
      exact h3

/-- Witness for C9: the two-point envelope `two_arena` (points at `x = 0` and
`x = 1`) satisfies the hypotheses. -/
theorem cumulate_invariants_witness :
    IsChain (two_env : arms_state ℝ).p [0, 1] ∧
    ∃ env1 ar, cumulate (Libm.mk Real.exp Real.log Real.sqrt) 2 two_env = .ok env1 ∧
      IsChain env1.p [0, 1] ∧ XSorted env1.p [0, 1] ∧
      (∀ a, [0, 1].head? = some a → (env1.p a).cum = 0) ∧
      List.Chain' (fun a b => area env1.p b = .ok (ar b) ∧ 0 ≤ ar b ∧
        (env1.p b).cum = (env1.p a).cum + ar b ∧ (env1.p a).cum ≤ (env1.p b).cum) [0, 1] ∧
      (∀ z, [0, 1].getLast? = some z → (env1.p z).cum = (([0, 1] : List Nat).tail.map ar).sum) :=
  have hc : IsChain (two_env : arms_state ℝ).p [0, 1] :=
    ⟨by simp, by simp, by simp [Linked, two_env, two_arena]⟩
  ⟨hc, cumulate_invariants 2 two_env [0, 1] hc (by simp)
    (by simp [XSorted, two_env, two_arena]) (by simp)⟩

end Cumulate5

/-! ## The guard of `invert` -/

section InvertBounds

/-- A point `xl + (xr - xl) / d * w` with `w` between 0 and `d` lies between
`xl` and `xr`. -/
theorem between_of_ratio {α : Type} [LinearOrderedField α] (xl xr d w : α) (hx : xl < xr)
    (h : (0 < d ∧ 0 ≤ w ∧ w ≤ d) ∨ (d < 0 ∧ d ≤ w ∧ w ≤ 0)) :
    xl ≤ xl + (xr - xl) / d * w ∧ xl + (xr - xl) / d * w ≤ xr := by
  have e : (xr - xl) / d * w = (xr - xl) * (w / d) := by
    rw [div_mul_eq_mul_div, mul_div_assoc]
  have hr : 0 ≤ w / d ∧ w / d ≤ 1 := by
    rcases h with ⟨hd, h1, h2⟩ | ⟨hd, h1, h2⟩
    · exact ⟨div_nonneg h1 hd.le, (div_le_one hd).mpr h2⟩
    · exact ⟨div_nonneg_of_nonpos h2 hd.le, (div_le_one_of_neg hd).mpr h1⟩
  have hpos : 0 < xr - xl := sub_pos.mpr hx
  rw [e]
  constructor
  · have := mul_nonneg hpos.le hr.1
    linarith
  · have := mul_le_mul_of_nonneg_left hr.2 hpos.le
    linarith

/-- The quadratic branch of `invert` stays inside the segment. -/
theorem invert_quadratic_bounds (xl xr eyl eyr prop : ℝ) (hx : xl < xr)
    (hp0 : 0 ≤ prop) (hp1 : prop ≤ 1) (hl : 0 ≤ eyl) (hr : 0 ≤ eyr)
    (hne : |eyr - eyl| > EYEPS * |eyr + eyl|) :
    xl ≤ xl + ((xr - xl) / (eyr - eyl))
        * (-eyl + Real.sqrt ((1 - prop) * eyl * eyl + prop * eyr * eyr)) ∧
    xl + ((xr - xl) / (eyr - eyl))
        * (-eyl + Real.sqrt ((1 - prop) * eyl * eyl + prop * eyr * eyr)) ≤ xr := by
  have hne2 : eyr ≠ eyl := by
    intro he
    rw [he, sub_self, abs_zero] at hne
    have : (0 : ℝ) ≤ EYEPS * |eyl + eyl| := mul_nonneg (by norm_num [EYEPS]) (abs_nonneg _)
    linarith
  have hsl : Real.sqrt (eyl * eyl) = eyl := Real.sqrt_mul_self hl
  have hsr : Real.sqrt (eyr * eyr) = eyr := Real.sqrt_mul_self hr
  apply between_of_ratio xl xr _ _ hx
  rcases lt_or_gt_of_ne hne2 with hlt | hgt
  · right
    have h1 : eyr * eyr ≤ (1 - prop) * eyl * eyl + prop * eyr * eyr := by
      have : eyr * eyr ≤ eyl * eyl := mul_le_mul hlt.le hlt.le hr hl
      nlinarith
    have h2 : (1 - prop) * eyl * eyl + prop * eyr * eyr ≤ eyl * eyl := by
      have : eyr * eyr ≤ eyl * eyl := mul_le_mul hlt.le hlt.le hr hl
      nlinarith
    have s1 := Real.sqrt_le_sqrt h1
    have s2 := Real.sqrt_le_sqrt h2
    rw [hsr] at s1
    rw [hsl] at s2
    refine ⟨by linarith, by linarith, by linarith⟩
  · left
    have h1 : eyl * eyl ≤ (1 - prop) * eyl * eyl + prop * eyr * eyr := by
      have : eyl * eyl ≤ eyr * eyr := mul_le_mul hgt.le hgt.le hl hr
      nlinarith
    have h2 : (1 - prop) * eyl * eyl + prop * eyr * eyr ≤ eyr * eyr := by
      have : eyl * eyl ≤ eyr * eyr := mul_le_mul hgt.le hgt.le hl hr
      nlinarith
    have s1 := Real.sqrt_le_sqrt h1
    have s2 := Real.sqrt_le_sqrt h2
    rw [hsl] at s1
    rw [hsr] at s2
    refine ⟨by linarith, by linarith, by linarith⟩

/-- The linear branch of `invert` stays inside the segment. -/
theorem invert_linear_bounds {α : Type} [LinearOrderedField α] (xl xr prop : α) (hx : xl < xr)
    (hp0 : 0 ≤ prop) (hp1 : prop ≤ 1) :
    xl ≤ xl + (xr - xl) * prop ∧ xl + (xr - xl) * prop ≤ xr := by
  have hpos : 0 < xr - xl := sub_pos.mpr hx
  constructor
  · have := mul_nonneg hpos.le hp0
    linarith
  · have := mul_le_mul_of_nonneg_left hp1 hpos.le
    linarith

/-- The exponential branch of `invert` stays inside the segment when both end
points lie above the underflow cut of `expshift`. -/
theorem invert_exponential_bounds (xl xr yl yr ymax prop : ℝ) (hx : xl < xr)
    (hp0 : 0 ≤ prop) (hp1 : prop ≤ 1) (hy : ¬ |yr - yl| < YEPS) :
    xl ≤ xl + ((xr - xl) / (yr - yl))
        * (-yl + (Real.log ((1 - prop) * Real.exp (yl - ymax + YCEIL)
            + prop * Real.exp (yr - ymax + YCEIL)) + ymax - YCEIL)) ∧
    xl + ((xr - xl) / (yr - yl))
        * (-yl + (Real.log ((1 - prop) * Real.exp (yl - ymax + YCEIL)
            + prop * Real.exp (yr - ymax + YCEIL)) + ymax - YCEIL)) ≤ xr := by
  have hne : yr ≠ yl := by
    intro he
    apply hy
    rw [he, sub_self, abs_zero]
    exact YEPS_pos
  have el := Real.exp_pos (yl - ymax + YCEIL)
  have er := Real.exp_pos (yr - ymax + YCEIL)
  have hq0 : 0 ≤ 1 - prop := by linarith
  apply between_of_ratio xl xr _ _ hx
  rcases lt_or_gt_of_ne hne with hlt | hgt
  · right
    have hm : Real.exp (yr - ymax + YCEIL) ≤ Real.exp (yl - ymax + YCEIL) :=
      Real.exp_le_exp.mpr (by linarith)
    have h1 : Real.exp (yr - ymax + YCEIL) ≤
        (1 - prop) * Real.exp (yl - ymax + YCEIL) + prop * Real.exp (yr - ymax + YCEIL) := by
      nlinarith
    have h2 : (1 - prop) * Real.exp (yl - ymax + YCEIL) + prop * Real.exp (yr - ymax + YCEIL)
        ≤ Real.exp (yl - ymax + YCEIL) := by
      nlinarith
    have l1 := Real.log_le_log er h1
    have l2 := Real.log_le_log (lt_of_lt_of_le er h1) h2
    rw [Real.log_exp] at l1 l2
    refine ⟨by linarith, by linarith, by linarith⟩
  · left
    have hm : Real.exp (yl - ymax + YCEIL) ≤ Real.exp (yr - ymax + YCEIL) :=
      Real.exp_le_exp.mpr (by linarith)
    have h1 : Real.exp (yl - ymax + YCEIL) ≤
        (1 - prop) * Real.exp (yl - ymax + YCEIL) + prop * Real.exp (yr - ymax + YCEIL) := by
      nlinarith
    have h2 : (1 - prop) * Real.exp (yl - ymax + YCEIL) + prop * Real.exp (yr - ymax + YCEIL)
        ≤ Real.exp (yr - ymax + YCEIL) := by
      nlinarith
    have l1 := Real.log_le_log el h1
    have l2 := Real.log_le_log (lt_of_lt_of_le el h1) h2
    rw [Real.log_exp] at l1 l2
    refine ⟨by linarith, by linarith, by linarith⟩

end InvertBounds

section InvertWalk
variable {α : Type} [LinearOrderedField α]

omit [LinearOrderedField α] in
/-- A final part of a linked list of slots is linked. -/
theorem linked_suffix (P : Nat → POINT α) (l2 : List Nat) :
    ∀ (l1 : List Nat) (prev : Option Nat), Linked P prev (l1 ++ l2) →
      ∃ prev1, Linked P prev1 l2 := by
  intro l1
  induction l1 with
  | nil => exact fun prev h => ⟨prev, h⟩
  | cons c l1 ih =>
    intro prev h
    simp only [List.cons_append] at h
    unfold Linked at h
    exact ih (some c) h.2.2

/-- The walk `while (q->pl->cum > u) q = q->pl` of `invert` along a chain whose
first slot has `cum <= u`: it ends at a slot `q1` with a left neighbour `lq`
such that `lq->cum <= u`, and `u < q1->cum` unless `q1` is the starting slot. -/
theorem invert_walk_chain (P : Nat → POINT α) (u : α) (a0 : Nat) (hu : (P a0).cum ≤ u) :
    ∀ (l1 : List Nat) (b q : Nat) (l2 : List Nat) (n : Nat),
      Linked P none (l1 ++ b :: q :: l2) → (l1 ++ [b]).head? = some a0 → l1.length < n →
      ∃ q1 lq, invert_walk P u n q = .ok q1 ∧ (P q1).pl = some lq ∧ (P lq).cum ≤ u ∧
        (q1 = q ∨ u < (P q1).cum) ∧ lq ∈ l1 ++ [b] ∧ q1 ∈ l1 ++ [b, q] := by
  intro l1
  induction l1 using List.reverseRecOn with
  | nil =>
    intro b q l2 n h hh hn
    obtain ⟨k, rfl⟩ : ∃ k, n = k + 1 := ⟨n - 1, by simp at hn; omega⟩
    have hpl := linked_pl P b q l2 [] none h
    simp only [List.nil_append, List.head?_cons, Option.some.injEq] at hh
    subst hh
    refine ⟨q, b, ?_, hpl, hu, Or.inl rfl, by simp, by simp⟩
    unfold invert_walk
    rw [hpl]
    dsimp only
    rw [if_neg (not_lt.mpr hu)]
  | append_singleton l1 c ih =>
    intro b q l2 n h hh hn
    obtain ⟨k, rfl⟩ : ∃ k, n = k + 1 := ⟨n - 1, by simp at hn; omega⟩
    have e : l1 ++ [c] ++ b :: q :: l2 = l1 ++ c :: b :: q :: l2 := by simp
    have hpl := linked_pl P b q l2 (l1 ++ [c]) none h
    by_cases hb : (P b).cum > u
    · rw [e] at h
      have hh2 : (l1 ++ [c]).head? = some a0 := by
        rw [List.head?_append_of_ne_nil _ (by simp)] at hh
        exact hh
      obtain ⟨q1, lq, h1, h2, h3, h4, h5, h6⟩ := ih c b (q :: l2) k h hh2
        (by simp at hn; omega)
      refine ⟨q1, lq, ?_, h2, h3, Or.inr ?_, by simp [List.mem_append.mp h5 |>.elim
        (fun h => Or.inl h) (fun h => Or.inr (Or.inl (by simpa using h)))], ?_⟩
      · unfold invert_walk
        rw [hpl]
        dsimp only
        rw [if_pos hb]
        exact h1
      · rcases h4 with rfl | h4
        · exact hb
        · exact h4
      · simp only [List.mem_append, List.mem_cons, List.mem_singleton, List.not_mem_nil,
          or_false] at h6 ⊢
        tauto
    · refine ⟨q, b, ?_, hpl, not_lt.mp hb, Or.inl rfl, by simp, by simp⟩
      unfold invert_walk
      rw [hpl]
      dsimp only
      rw [if_neg hb]

end InvertWalk

section InvertSegment

/-- C7 (amended): in exact real arithmetic, on an envelope (a chain `l` of
slots holding slot 0) with `ey = expshift (y, ymax)`, `cum = 0` at the leftmost
point and a positive total at the rightmost point, and for every `prob` in
`[0, 1)`, the walk of `invert` selects a segment `(lq, q)`; if that segment has
`lq.x < q.x` and, in the exponential branch (`|yr - yl| >= YEPS`), both its end
points lie above the underflow cut of `expshift` (`y - ymax > -2*YCEIL`), then
`invert` returns (the guard does not trip) with `lq.x <= x <= q.x`.  The
quadratic and the linear branch need no condition on the cut. -/
theorem invert_within_segment (fuel : Nat) (prob : ℝ) (env : arms_state ℝ) (p : POINT ℝ)
    (l : List Nat) (a0 z : Nat)
    (hc : IsChain env.p l) (h0 : 0 ∈ l) (hf : l.length ≤ fuel)
    (ha0 : l.head? = some a0) (hz : l.getLast? = some z)
    (hey : ∀ q, q ∈ l →
      (env.p q).ey = expshift (Libm.mk Real.exp Real.log Real.sqrt) (env.p q).y env.ymax)
    (hcum0 : (env.p a0).cum = 0) (htot : 0 < (env.p z).cum)
    (hp0 : 0 ≤ prob) (hp1 : prob < 1) :
    ∃ q lq, invert_walk env.p (prob * (env.p z).cum) fuel z = .ok q ∧
      (env.p q).pl = some lq ∧
      ((env.p lq).x < (env.p q).x →
        (|(env.p q).y - (env.p lq).y| < YEPS ∨
          ((env.p lq).y - env.ymax > -2 * YCEIL ∧ (env.p q).y - env.ymax > -2 * YCEIL)) →
        ∃ p1, invert (Libm.mk Real.exp Real.log Real.sqrt) fuel prob env p = .ok p1 ∧
          (env.p lq).x ≤ p1.x ∧ p1.x ≤ (env.p q).x ∧ p1.pl = some lq ∧ p1.pr = some q) := by
  obtain ⟨-, hnd, hl⟩ := hc
  -- the walk to the rightmost point
  obtain ⟨k1, k2, hsplit⟩ := List.append_of_mem h0
  have hright : rightmost env.p fuel 0 = .ok z := by
    obtain ⟨prev, hl2⟩ := linked_suffix env.p (0 :: k2) k1 none (by rw [← hsplit]; exact hl)
    refine rightmost_chain env.p z k2 0 prev fuel hl2 ?_ ?_
    · rw [hsplit, List.getLast?_append_of_ne_nil _ (by simp)] at hz
      exact hz
    · have := congrArg List.length hsplit
      simp only [List.length_cons, List.length_append] at this
      omega
  -- the chain has at least two slots
  have hne : a0 ≠ z := by
    rintro rfl
    rw [hcum0] at htot
    exact lt_irrefl _ htot
  obtain ⟨l1, b, hlb⟩ : ∃ l1 b, l = l1 ++ [b, z] := by
    rcases List.eq_nil_or_concat l with rfl | ⟨i1, z1, rfl⟩
    · simp at hz
    · have hz1 : z1 = z := by simpa using hz
      subst hz1
      rcases List.eq_nil_or_concat i1 with rfl | ⟨i2, b, rfl⟩
      · simp at ha0
        exact absurd ha0.symm hne
      · exact ⟨i2, b, by simp⟩
  subst hlb
  have hu : (env.p a0).cum ≤ prob * (env.p z).cum := by
    rw [hcum0]
    exact mul_nonneg hp0 htot.le
  have hhead : (l1 ++ [b]).head? = some a0 := by
    have e : l1 ++ [b, z] = (l1 ++ [b]) ++ [z] := by simp
    rw [e, List.head?_append_of_ne_nil _ (by simp)] at ha0
    exact ha0
  obtain ⟨q, lq, hwalk, hpl, hlq, hq, hmemlq, hmemq⟩ :=
    invert_walk_chain env.p (prob * (env.p z).cum) a0 hu l1 b z [] fuel hl hhead
      (by simp only [List.length_append, List.length_cons, List.length_nil] at hf; omega)
  have hqu : prob * (env.p z).cum < (env.p q).cum := by
    rcases hq with rfl | hq
    · have := mul_lt_mul_of_pos_right hp1 htot
      linarith
    · exact hq
  refine ⟨q, lq, hwalk, hpl, ?_⟩
  intro hx hbr
  have hden : 0 < (env.p q).cum - (env.p lq).cum := by linarith
  have hprop0 : 0 ≤ (prob * (env.p z).cum - (env.p lq).cum) / ((env.p q).cum - (env.p lq).cum) :=
    div_nonneg (by linarith) hden.le
  have hprop1 : (prob * (env.p z).cum - (env.p lq).cum) / ((env.p q).cum - (env.p lq).cum) ≤ 1 :=
    (div_le_one hden).mpr (by linarith)
  have hml : lq ∈ l1 ++ [b, z] := by
    simp only [List.mem_append, List.mem_cons, List.mem_singleton, List.not_mem_nil,
      or_false] at hmemlq ⊢
    tauto
  have heyl := hey lq hml
  have heyq := hey q hmemq
  have hnl : 0 ≤ (env.p lq).ey := by
    rw [heyl]
    exact expshift_nonneg _ (fun t => (Real.exp_pos t).le) _ _
  have hnq : 0 ≤ (env.p q).ey := by
    rw [heyq]
    exact expshift_nonneg _ (fun t => (Real.exp_pos t).le) _ _
  unfold invert
  rw [hright]
  dsimp only
  rw [hwalk]
  dsimp only
  rw [hpl]
  dsimp only
  rw [if_neg (ne_of_lt hx)]
  by_cases hy : |(env.p q).y - (env.p lq).y| < YEPS
  · rw [if_pos hy]
    by_cases hq2 : |(env.p q).ey - (env.p lq).ey| > EYEPS * |(env.p q).ey + (env.p lq).ey|
    · rw [if_pos hq2]
      obtain ⟨b1, b2⟩ := invert_quadratic_bounds (env.p lq).x (env.p q).x (env.p lq).ey
        (env.p q).ey _ hx hprop0 hprop1 hnl hnq hq2
      unfold invert_guard
      rw [if_neg (by
        dsimp only
        rintro (h | h)
        · exact absurd b1 (not_le.mpr h)
        · exact absurd b2 (not_le.mpr h))]
      exact ⟨_, rfl, b1, b2, rfl, rfl⟩
    · rw [if_neg hq2]
      obtain ⟨b1, b2⟩ := invert_linear_bounds (env.p lq).x (env.p q).x _ hx hprop0 hprop1
      unfold invert_guard
      rw [if_neg (by
        dsimp only
        rintro (h | h)
        · exact absurd b1 (not_le.mpr h)
        · exact absurd b2 (not_le.mpr h))]
      exact ⟨_, rfl, b1, b2, rfl, rfl⟩
  · rw [if_neg hy]
    rcases hbr with hbr | ⟨hcl, hcq⟩
    · exact absurd hbr hy
    · have el : (env.p lq).ey = Real.exp ((env.p lq).y - env.ymax + YCEIL) := by
        rw [heyl]
        exact expshift_of_gt _ _ _ hcl
      have eq : (env.p q).ey = Real.exp ((env.p q).y - env.ymax + YCEIL) := by
        rw [heyq]
        exact expshift_of_gt _ _ _ hcq
      obtain ⟨b1, b2⟩ := invert_exponential_bounds (env.p lq).x (env.p q).x (env.p lq).y
        (env.p q).y env.ymax _ hx hprop0 hprop1 hy
      rw [← el, ← eq] at b1 b2
      unfold invert_guard
      rw [if_neg (by
        dsimp only
        rintro (h | h)
        · exact absurd b1 (not_le.mpr h)
        · exact absurd b2 (not_le.mpr h))]
      exact ⟨_, rfl, b1, b2, rfl, rfl⟩

end InvertSegment

/-! ## `invert` at the underflow cut of `expshift` -/

/-- The envelope that `cumulate` computes from `cut_env`. -/
theorem cut_cumulate :
    ∃ env1, cumulate (Libm.mk Real.exp Real.log Real.sqrt) 2 (cut_env : arms_state ℝ) = .ok env1 ∧
      env1.ymax = 0 ∧ env1.p 0 = ⟨0, -200, 0, 0, 0, none, some 1⟩ ∧
      env1.p 1 = ⟨1, 0, Real.exp 50, Real.exp 50 / 200, 0, some 0, none⟩ := by
  have e0 : (cut_arena 0 : POINT ℝ) = ⟨0, -200, 0, 0, 0, none, some 1⟩ := rfl
  have e1 : (cut_arena 1 : POINT ℝ) = ⟨1, 0, 0, 0, 0, some 0, none⟩ := rfl
  have h : ∀ r, cumulate (Libm.mk Real.exp Real.log Real.sqrt) 2 (cut_env : arms_state ℝ) = r →
      ∃ env1, r = .ok env1 ∧
      env1.ymax = 0 ∧ env1.p 0 = ⟨0, -200, 0, 0, 0, none, some 1⟩ ∧
      env1.p 1 = ⟨1, 0, Real.exp 50, Real.exp 50 / 200, 0, some 0, none⟩ := by
    intro r hr
    simp [cumulate, leftmost, cumulate_ymax, cumulate_ey, cumulate_cum, area, expshift, cut_env,
      e0, e1, YCEIL, YEPS, Function.update_apply] at hr
    norm_num at hr
    subst hr
    exact ⟨_, rfl, rfl, by simp [Function.update_apply], by simp [Function.update_apply]⟩
  exact h _ rfl

/-- Counterexample for C7: on the envelope that `cumulate` computes from
`cut_env` (a point of height `-200` at `x = 0`, whose `ey` underflows to 0, and
a point of height 0 at `x = 1`), `invert` at `prob = exp (-300)` selects the
only segment, takes the exponential branch, computes `x = -1/2` and stops in
its guard. -/
theorem invert_guard_counterexample :
    ∃ env1, cumulate (Libm.mk Real.exp Real.log Real.sqrt) 2 (cut_env : arms_state ℝ) = .ok env1 ∧
      (0 ≤ Real.exp (-300) ∧ Real.exp (-300) < 1) ∧
      (env1.p 0).x < (env1.p 1).x ∧
      invert (Libm.mk Real.exp Real.log Real.sqrt) 2 (Real.exp (-300)) env1 two_work
        = .error (.exit 1) := by
  obtain ⟨env1, hc, hy, h0, h1⟩ := cut_cumulate
  refine ⟨env1, hc, ⟨(Real.exp_pos _).le, ?_⟩, ?_, ?_⟩
  · have := Real.exp_lt_exp.mpr (show (-300 : ℝ) < 0 by norm_num)
    rwa [Real.exp_zero] at this
  · rw [h0, h1]
    norm_num
  · have hu : ¬ (0 > Real.exp (-300) * (Real.exp 50 / 200)) :=
      not_lt.mpr (mul_nonneg (Real.exp_pos _).le (div_nonneg (Real.exp_pos _).le (by norm_num)))
    have hr : rightmost env1.p 2 0 = .ok 1 := by
      simp [rightmost, h0, h1]
    have hw : invert_walk env1.p (Real.exp (-300) * (env1.p 1).cum) 2 1 = .ok 1 := by
      simp only [invert_walk, h1, h0]
      rw [if_neg hu]
    have hprop : (Real.exp (-300) * (Real.exp 50 / 200) - 0) / (Real.exp 50 / 200 - 0)
        = Real.exp (-300) := by
      have := Real.exp_pos 50
      field_simp
    have hlog : Real.log (Real.exp (-300) * Real.exp 50) = -250 := by
      rw [← Real.exp_add, Real.log_exp]
      norm_num
    unfold invert
    rw [hr]
    dsimp only
    rw [hw]
    dsimp only
    rw [h1]
    dsimp only
    rw [h0]
    dsimp only
    rw [if_neg (by norm_num), if_neg (by norm_num [YEPS])]
    unfold invert_guard
    rw [if_pos]
    left
    dsimp only
    rw [hprop]
    simp only [logshift, hy, YCEIL, mul_zero, zero_add, hlog]
    norm_num

/-- The envelope that `cumulate` computes from `two_env`. -/
theorem two_cumulate :
    ∃ env1, cumulate (Libm.mk Real.exp Real.log Real.sqrt) 2 (two_env : arms_state ℝ) = .ok env1 ∧
      env1.ymax = 0 ∧ env1.p 0 = ⟨0, 0, Real.exp 50, 0, 0, none, some 1⟩ ∧
      env1.p 1 = ⟨1, 0, Real.exp 50, Real.exp 50, 0, some 0, none⟩ := by
  have e0 : (two_arena 0 : POINT ℝ) = ⟨0, 0, 0, 0, 0, none, some 1⟩ := rfl
  have e1 : (two_arena 1 : POINT ℝ) = ⟨1, 0, 0, 0, 0, some 0, none⟩ := rfl
  have h : ∀ r, cumulate (Libm.mk Real.exp Real.log Real.sqrt) 2 (two_env : arms_state ℝ) = r →
      ∃ env1, r = .ok env1 ∧
      env1.ymax = 0 ∧ env1.p 0 = ⟨0, 0, Real.exp 50, 0, 0, none, some 1⟩ ∧
      env1.p 1 = ⟨1, 0, Real.exp 50, Real.exp 50, 0, some 0, none⟩ := by
    intro r hr
    simp [cumulate, leftmost, cumulate_ymax, cumulate_ey, cumulate_cum, area, expshift, two_env,
      e0, e1, YCEIL, YEPS, Function.update_apply] at hr
    norm_num at hr
    subst hr
    refine ⟨_, rfl, rfl, by simp [Function.update_apply], ?_⟩
    simp only [Function.update_apply, if_true]
    congr 1
    ring
  exact h _ rfl

/-- Witness for C7: on the envelope that `cumulate` computes from `two_env`
(two points of height 0 at `x = 0` and `x = 1`), `invert` at `prob = 1/2`
returns a point between 0 and 1. -/
theorem invert_within_segment_witness :
    ∃ env1, cumulate (Libm.mk Real.exp Real.log Real.sqrt) 2 (two_env : arms_state ℝ) = .ok env1 ∧
      ∃ p1, invert (Libm.mk Real.exp Real.log Real.sqrt) 2 (1 / 2) env1 two_work = .ok p1 ∧
        0 ≤ p1.x ∧ p1.x ≤ 1 := by
  obtain ⟨env1, hc, hy, h0, h1⟩ := two_cumulate
  refine ⟨env1, hc, ?_⟩
  have hey : ∀ q, q ∈ [0, 1] →
      (env1.p q).ey = expshift (Libm.mk Real.exp Real.log Real.sqrt) (env1.p q).y env1.ymax := by
    intro q hq
    simp only [List.mem_cons, List.mem_singleton, List.not_mem_nil, or_false] at hq
    rcases hq with rfl | rfl
    · rw [h0, hy]
      norm_num [expshift, YCEIL]
    · rw [h1, hy]
      norm_num [expshift, YCEIL]
  obtain ⟨q, lq, hw, hpl, hres⟩ := invert_within_segment 2 (1 / 2) env1 two_work [0, 1] 0 1
    ⟨by simp, by simp, by simp [Linked, h0, h1]⟩ (by simp) (by simp) rfl rfl hey
    (by rw [h0]) (by rw [h1]; exact Real.exp_pos _) (by norm_num) (by norm_num)
  have hq : q = 1 ∧ lq = 0 := by
    have hu : ¬ (0 > 1 / 2 * Real.exp 50) :=
      not_lt.mpr (mul_nonneg (by norm_num) (Real.exp_pos _).le)
    simp only [invert_walk, h1, h0] at hw
    rw [if_neg hu] at hw
    simp only [Except.ok.injEq] at hw
    subst hw
    rw [h1] at hpl
    simp only [Option.some.injEq] at hpl
    exact ⟨rfl, hpl.symm⟩
  obtain ⟨rfl, rfl⟩ := hq
  obtain ⟨p1, hp1, b1, b2, -, -⟩ := hres (by rw [h0, h1]; norm_num)
    (Or.inl (by rw [h0, h1]; norm_num [YEPS]))
  rw [h0] at b1
  rw [h1] at b2
  exact ⟨p1, hp1, b1, b2⟩

/-! ## `cumulate`: the maximum height and the exponentiated heights -/

section CumulateMax
variable {α : Type} [LinearOrderedField α]

/-- The first loop of `cumulate` on a linked list of slots, started with the
value `ym`: it returns the maximum of `ym` and of `y` over the slots. -/
theorem cumulate_ymax_max (P : Nat → POINT α) :
    ∀ (l : List Nat) (prev : Option Nat) (n : Nat) (ym : α),
      Linked P prev l → l.length ≤ n →
      ∃ ym1, cumulate_ymax P n l.head? ym = .ok ym1 ∧ ym ≤ ym1 ∧
        (∀ q, q ∈ l → (P q).y ≤ ym1) ∧ (ym1 = ym ∨ ∃ q, q ∈ l ∧ ym1 = (P q).y) := by
  intro l
  induction l with
  | nil =>
    intro prev n ym _ _
    refine ⟨ym, ?_, le_refl _, by simp, Or.inl rfl⟩
    simp only [List.head?_nil]
    cases n <;> rfl
  | cons a t ih =>
    intro prev n ym h hn
    unfold Linked at h
    obtain ⟨k, rfl⟩ : ∃ k, n = k + 1 := ⟨n - 1, by simp at hn; omega⟩
    obtain ⟨ym1, h1, h2, h3, h4⟩ := ih (some a) k (if (P a).y > ym then (P a).y else ym) h.2.2
      (by simp at hn; omega)
    have hge : ym ≤ (if (P a).y > ym then (P a).y else ym) ∧
        (P a).y ≤ (if (P a).y > ym then (P a).y else ym) := by
      split_ifs with hc
      · exact ⟨hc.le, le_refl _⟩
      · exact ⟨le_refl _, not_lt.mp hc⟩
    refine ⟨ym1, ?_, le_trans hge.1 h2, ?_, ?_⟩
    · simp only [List.head?_cons]
      unfold cumulate_ymax
      rw [h.2.1]
      exact h1
    · intro q hq
      rcases List.mem_cons.mp hq with rfl | hqt
      · exact le_trans hge.2 h2
      · exact h3 q hqt
    · rcases h4 with h4 | ⟨q, hq, h4⟩
      · by_cases hc : (P a).y > ym
        · rw [if_pos hc] at h4
          exact Or.inr ⟨a, List.mem_cons_self _ _, h4⟩
        · rw [if_neg hc] at h4
          exact Or.inl h4
      · exact Or.inr ⟨q, List.mem_cons_of_mem _ hq, h4⟩

/-- The value of `ymax` that `cumulate` leaves is the one found by its first
loop, started at the leftmost point. -/
theorem cumulate_ok_ymax (m : Libm α) (fuel : Nat) (env env1 : arms_state α)
    (h : cumulate m fuel env = .ok env1) :
    ∃ ql, leftmost env.p fuel 0 = .ok ql ∧
      cumulate_ymax env.p fuel (env.p ql).pr (env.p ql).y = .ok env1.ymax := by
  unfold cumulate at h
  split at h
  · exact absurd h (by simp)
  · rename_i ql hl
    dsimp only at h
    split at h
    · exact absurd h (by simp)
    · rename_i ymax hy
      split at h
      · exact absurd h (by simp)
      · split at h
        · exact absurd h (by simp)
        · simp only [Except.ok.injEq] at h
          refine ⟨ql, hl, ?_⟩
          rw [← h]
          exact hy

end CumulateMax

section CumulateMax2

/-- C24: the maximum height and the exponentiated heights after `cumulate`.
On an envelope (a chain `l` of slots holding slot 0) `cumulate` returns;
afterwards `ymax` is the maximum of `y` over the points of the chain (an upper
bound that one of them attains), every point has `ey = expshift (y, ymax)`,
every `ey` lies in `[0, exp (YCEIL)]`, and a point attaining `ymax` has
`ey = exp (YCEIL)`. -/
theorem cumulate_ymax_ey (fuel : Nat) (env : arms_state ℝ) (l : List Nat)
    (hc : IsChain env.p l) (h0 : 0 ∈ l) (hf : l.length ≤ fuel) :
    ∃ env1, cumulate (Libm.mk Real.exp Real.log Real.sqrt) fuel env = .ok env1 ∧
      (∀ q, q ∈ l → (env1.p q).y ≤ env1.ymax) ∧
      (∃ q, q ∈ l ∧ (env1.p q).y = env1.ymax) ∧
      (∀ q, q ∈ l →
        (env1.p q).ey
          = expshift (Libm.mk Real.exp Real.log Real.sqrt) (env1.p q).y env1.ymax ∧
        0 ≤ (env1.p q).ey ∧ (env1.p q).ey ≤ Real.exp YCEIL ∧
        ((env1.p q).y = env1.ymax → (env1.p q).ey = Real.exp YCEIL)) := by
  cases l with
  | nil => exact absurd rfl hc.1
  | cons a0 t =>
    obtain ⟨env1, hcum, hfr, hey, -, -⟩ :=
      cumulate_chain (Libm.mk Real.exp Real.log Real.sqrt) fuel env a0 t hc h0 hf
    obtain ⟨ql, hleft, hym⟩ := cumulate_ok_ymax _ fuel env env1 hcum
    -- the leftmost point is the head of the chain
    obtain ⟨l1, l2, hsplit⟩ := List.append_of_mem h0
    have hl := hc.2.2
    have hleft0 : leftmost env.p fuel 0 = .ok a0 := by
      refine leftmost_chain env.p a0 l1 0 l2 fuel (by rw [← hsplit]; exact hl) ?_ ?_
      · cases l1 with
        | nil =>
          simp only [List.nil_append, List.cons.injEq] at hsplit
          simp [hsplit.1]
        | cons c l1 =>
          simp only [List.cons_append, List.cons.injEq] at hsplit
          simp [hsplit.1]
      · have := congrArg List.length hsplit
        simp only [List.length_cons, List.length_append] at this hf
        omega
    rw [hleft0] at hleft
    simp only [Except.ok.injEq] at hleft
    subst hleft
    have hl0 := hl
    unfold Linked at hl0
    obtain ⟨ym1, h1, h2, h3, h4⟩ := cumulate_ymax_max env.p t (some a0) fuel (env.p a0).y hl0.2.2
      (by simp only [List.length_cons] at hf; omega)
    rw [← hl0.2.1, hym] at h1
    simp only [Except.ok.injEq] at h1
    have hmax : ∀ q, q ∈ a0 :: t → (env1.p q).y ≤ env1.ymax := by
      intro q hq
      rw [(hfr q).2.1, h1]
      rcases List.mem_cons.mp hq with rfl | hqt
      · exact h2
      · exact h3 q hqt
    refine ⟨env1, hcum, hmax, ?_, ?_⟩
    · rcases h4 with h4 | ⟨q, hq, h4⟩
      · exact ⟨a0, List.mem_cons_self _ _, by rw [(hfr a0).2.1, h1, h4]⟩
      · exact ⟨q, List.mem_cons_of_mem _ hq, by rw [(hfr q).2.1, h1, h4]⟩
    · intro q hq
      have he := hey q hq
      refine ⟨he, ?_, ?_, ?_⟩
      · rw [he]
        exact expshift_nonneg _ (fun t => (Real.exp_pos t).le) _ _
      · rw [he]
        unfold expshift
        split_ifs
        · exact Real.exp_le_exp.mpr (by linarith [hmax q hq])
        · exact (Real.exp_pos _).le
      · intro hy
        rw [he, hy]
        unfold expshift
        rw [if_pos (by norm_num [YCEIL])]
        simp

/-- Witness for C24: the two-point envelope `two_arena` is a chain holding
slot 0. -/
theorem cumulate_ymax_ey_witness :
    IsChain (two_env : arms_state ℝ).p [0, 1] ∧
    ∃ env1, cumulate (Libm.mk Real.exp Real.log Real.sqrt) 2 two_env = .ok env1 ∧
      (∀ q, q ∈ [0, 1] → (env1.p q).y ≤ env1.ymax) ∧
      (∃ q, q ∈ [0, 1] ∧ (env1.p q).y = env1.ymax) ∧
      (∀ q, q ∈ [0, 1] →
        (env1.p q).ey
          = expshift (Libm.mk Real.exp Real.log Real.sqrt) (env1.p q).y env1.ymax ∧
        0 ≤ (env1.p q).ey ∧ (env1.p q).ey ≤ Real.exp YCEIL ∧
        ((env1.p q).y = env1.ymax → (env1.p q).ey = Real.exp YCEIL)) :=
  have hc : IsChain (two_env : arms_state ℝ).p [0, 1] :=
    ⟨by simp, by simp, by simp [Linked, two_env, two_arena]⟩
  ⟨hc, cumulate_ymax_ey 2 two_env [0, 1] hc (by simp) (by simp)⟩

end CumulateMax2

/-! ## `area`: the integral of a piece of the exponentiated envelope -/

section AreaIntegral

/-- The integral of the exponential of a straight line. -/
theorem integral_exp_line (a b yl y c : ℝ) (hab : a ≠ b) (hy : y ≠ yl) :
    ∫ t in a..b, Real.exp (yl + (y - yl) / (b - a) * (t - a) + c)
      = (Real.exp (y + c) - Real.exp (yl + c)) / (y - yl) * (b - a) := by
  have hba : b - a ≠ 0 := sub_ne_zero.mpr (Ne.symm hab)
  have hyy : y - yl ≠ 0 := sub_ne_zero.mpr hy
  have hs : (y - yl) / (b - a) ≠ 0 := div_ne_zero hyy hba
  have e : ∀ t, Real.exp (yl + (y - yl) / (b - a) * (t - a) + c)
      = Real.exp ((y - yl) / (b - a) * t + (yl - (y - yl) / (b - a) * a + c)) := by
    intro t
    congr 1
    ring
  simp only [e]
  rw [intervalIntegral.integral_comp_mul_add (fun u => Real.exp u) hs, integral_exp]
  have e1 : (y - yl) / (b - a) * b + (yl - (y - yl) / (b - a) * a + c) = y + c := by
    field_simp
    ring
  have e2 : (y - yl) / (b - a) * a + (yl - (y - yl) / (b - a) * a + c) = yl + c := by
    ring
  rw [e1, e2, smul_eq_mul]
  field_simp
  ring

/-- C25: the three cases of `area`.  For a point `q` with left neighbour `l`,
`area (q)` returns 0 for an interval of zero length, the trapezoid value
`0.5 * (ey + ey_left) * (x - x_left)` when `|y - y_left| < YEPS`, and otherwise
`(ey - ey_left) / (y - y_left) * (x - x_left)`; in this last case, when both
end points have `ey = exp (y - ymax + YCEIL)`, the result is the integral over
`[x_left, x]` of `exp (L t - ymax + YCEIL)`, where `L` is the straight line
through `(x_left, y_left)` and `(x, y)`. -/
theorem area_cases (P : Nat → POINT ℝ) (q l : Nat) (ymax : ℝ) (hpl : (P q).pl = some l) :
    ((P l).x = (P q).x → area P q = .ok 0) ∧
    ((P l).x ≠ (P q).x → |(P q).y - (P l).y| < YEPS →
      area P q = .ok (1 / 2 * ((P q).ey + (P l).ey) * ((P q).x - (P l).x))) ∧
    ((P l).x ≠ (P q).x → ¬ |(P q).y - (P l).y| < YEPS →
      area P q = .ok (((P q).ey - (P l).ey) / ((P q).y - (P l).y) * ((P q).x - (P l).x)) ∧
      ((P l).ey = Real.exp ((P l).y - ymax + YCEIL) →
        (P q).ey = Real.exp ((P q).y - ymax + YCEIL) →
        ((P q).ey - (P l).ey) / ((P q).y - (P l).y) * ((P q).x - (P l).x)
          = ∫ t in (P l).x..(P q).x,
              Real.exp ((P l).y + ((P q).y - (P l).y) / ((P q).x - (P l).x) * (t - (P l).x)
                - ymax + YCEIL))) := by
  refine ⟨?_, ?_, ?_⟩
  · intro hx
    unfold area
    rw [hpl]
    dsimp only
    rw [if_pos hx]
  · intro hx hy
    unfold area
    rw [hpl]
    dsimp only
    rw [if_neg hx, if_pos hy]
  · intro hx hy
    refine ⟨?_, ?_⟩
    · unfold area
      rw [hpl]
      dsimp only
      rw [if_neg hx, if_neg hy]
    · intro hel heq
      have hne : (P q).y ≠ (P l).y := by
        intro he
        apply hy
        rw [he, sub_self, abs_zero]
        exact YEPS_pos
      have := integral_exp_line (P l).x (P q).x (P l).y (P q).y (-ymax + YCEIL) hx hne
      have e : ∀ t, Real.exp ((P l).y + ((P q).y - (P l).y) / ((P q).x - (P l).x)
          * (t - (P l).x) - ymax + YCEIL)
          = Real.exp ((P l).y + ((P q).y - (P l).y) / ((P q).x - (P l).x) * (t - (P l).x)
            + (-ymax + YCEIL)) := by
        intro t
        congr 1
        ring
      have h1 : (P q).y + (-ymax + YCEIL) = (P q).y - ymax + YCEIL := by
        rw [sub_add, sub_eq_add_neg, neg_sub, neg_add_eq_sub]
      have h2 : (P l).y + (-ymax + YCEIL) = (P l).y - ymax + YCEIL := by
        rw [sub_add, sub_eq_add_neg, neg_sub, neg_add_eq_sub]
      rw [h1, h2] at this
      simp only [e]
      rw [this, hel, heq]

/-- Witness for C25: the right end of `two_arena` has the left end as its left
neighbour. -/
theorem area_cases_witness :
    (two_arena 1 : POINT ℝ).pl = some 0 ∧
    area (two_arena : Nat → POINT ℝ) 1
      = .ok (1 / 2 * ((two_arena 1 : POINT ℝ).ey + (two_arena 0 : POINT ℝ).ey)
          * ((two_arena 1 : POINT ℝ).x - (two_arena 0 : POINT ℝ).x)) :=
  ⟨rfl, (area_cases two_arena 1 0 0 rfl).2.1 (by simp [two_arena])
    (by simp [two_arena, YEPS])⟩

end AreaIntegral

/-! ## `meet`: the relaxation of the gradients -/

section Relaxation
variable {α : Type} [LinearOrderedField α]

/-- The flooring of `meet` yields at least `YEPS`. -/
theorem meet_floor_ge (d : α) : YEPS ≤ meet_floor d := by
  unfold meet_floor
  split_ifs with h
  · exact le_refl _
  · exact not_lt.mp h

end Relaxation

/-! ## `meet`: a gradient exists on one side -/

section Positions
variable {α : Type} [LinearOrderedField α]

omit [LinearOrderedField α] in
/-- The neighbour pointers of the slot at position `k` of a linked list of
slots are the slots at positions `k - 1` and `k + 1`. -/
theorem linked_getElem (P : Nat → POINT α) :
    ∀ (l : List Nat) (prev : Option Nat) (k a : Nat), Linked P prev l → l[k]? = some a →
      (P a).pl = (if k = 0 then prev else l[k - 1]?) ∧ (P a).pr = l[k + 1]? := by
  intro l
  induction l with
  | nil =>
    intro prev k a _ h
    simp at h
  | cons b t ih =>
    intro prev k a hl h
    unfold Linked at hl
    cases k with
    | zero =>
      simp only [List.getElem?_cons_zero, Option.some.injEq] at h
      subst h
      refine ⟨by simpa using hl.1, ?_⟩
      rw [hl.2.1]
      cases t <;> simp
    | succ k =>
      simp only [List.getElem?_cons_succ] at h
      obtain ⟨h1, h2⟩ := ih (some b) k a hl.2.2 h
      refine ⟨?_, by simpa using h2⟩
      rw [h1]
      cases k with
      | zero => simp
      | succ k => simp

omit [LinearOrderedField α] in
/-- Along a list whose flags alternate, the number of on-curve slots is half
the length, rounded down when the first slot is not on-curve and up when it
is. -/
theorem alternating_count (P : Nat → POINT α) :
    ∀ (l : List Nat),
      List.Chain' (fun a b => ((P a).f ≠ 0 ∧ (P b).f = 0) ∨ ((P a).f = 0 ∧ (P b).f ≠ 0)) l →
      (∀ a, l.head? = some a → (P a).f = 0 →
        l.countP (fun s => decide ((P s).f ≠ 0)) = l.length / 2) ∧
      (∀ a, l.head? = some a → (P a).f ≠ 0 →
        l.countP (fun s => decide ((P s).f ≠ 0)) = (l.length + 1) / 2) := by
  intro l
  induction l with
  | nil => simp
  | cons b t ih =>
    intro hc
    have hct : List.Chain' (fun a b => ((P a).f ≠ 0 ∧ (P b).f = 0) ∨
        ((P a).f = 0 ∧ (P b).f ≠ 0)) t := hc.tail
    obtain ⟨i1, i2⟩ := ih hct
    constructor
    · intro a ha hf
      simp only [List.head?_cons, Option.some.injEq] at ha
      subst ha
      rw [List.countP_cons_of_neg _ _ (by simp [hf])]
      cases t with
      | nil => simp
      | cons c t =>
        rw [List.chain'_cons] at hc
        have hcf : (P c).f ≠ 0 := by
          rcases hc.1 with ⟨h1, -⟩ | ⟨-, h2⟩
          · exact absurd hf h1
          · exact h2
        rw [i2 c rfl hcf]
        simp only [List.length_cons]
    · intro a ha hf
      simp only [List.head?_cons, Option.some.injEq] at ha
      subst ha
      rw [List.countP_cons_of_pos _ _ (by simp [hf])]
      cases t with
      | nil => simp
      | cons c t =>
        rw [List.chain'_cons] at hc
        have hcf : (P c).f = 0 := by
          rcases hc.1 with ⟨-, h2⟩ | ⟨h1, -⟩
          · exact h2
          · exact absurd h1 hf
        rw [i1 c rfl hcf]
        simp only [List.length_cons]
        omega

omit [LinearOrderedField α] in
/-- An alternating chain has `2 * n + 1` points, where `n` is the number of
its on-curve points. -/
theorem alternating_length (P : Nat → POINT α) (l : List Nat) (hne : l ≠ [])
    (hl : Alternating P l) :
    l.length = 2 * l.countP (fun s => decide ((P s).f ≠ 0)) + 1 := by
  have hodd := alternating_odd P l hl
  obtain ⟨h1, h2, h3⟩ := hl
  have hpos : 0 < l.length := List.length_pos.mpr hne
  obtain ⟨a, ha⟩ : ∃ a, l.head? = some a := by
    cases l with
    | nil => exact absurd rfl hne
    | cons a t => exact ⟨a, rfl⟩
  have hcnt := (alternating_count P l h3).1 a ha (h1 a ha)
  have hlast : (P (l.get ⟨l.length - 1, by omega⟩)).f = 0 := by
    apply h2
    rw [List.getLast?_eq_getElem?]
    simp
  have := (hodd (l.length - 1) (by omega)).not.mp (by simpa using hlast)
  rw [hcnt]
  omega

end Positions
section NoError31
variable {α : Type} [LinearOrderedField α]

/-- The end of `meet` does not fail with error 31. -/
theorem meet_check_ne_31 (q : Nat) (env : arms_state α) (x y : α) :
    meet_check q env x y ≠ .error (.error 31) := by
  unfold meet_check
  dsimp only
  split_ifs
  · intro h
    simp only [Except.error.injEq, Fault.error.injEq] at h
    omega
  · intro h
    exact absurd h (by simp)

/-- The case distinction of `meet` fails with error 31 only when there is a
gradient on neither side. -/
theorem meet_store_ne_31 (q : Nat) (env : arms_state α) (il ir irl : Bool) (gl gr dl dr : α)
    (h : il = true ∨ ir = true) :
    meet_store q env il ir irl gl gr dl dr ≠ .error (.error 31) := by
  unfold meet_store
  dsimp only
  split_ifs with h1 h2 h3 h4 h5
  · split
    · exact meet_check_ne_31 _ _ _ _
    · intro hc
      exact absurd hc (by simp)
  · split
    · exact meet_check_ne_31 _ _ _ _
    · intro hc
      exact absurd hc (by simp)
  · split
    · exact meet_check_ne_31 _ _ _ _
    · intro hc
      exact absurd hc (by simp)
  · split
    · exact meet_check_ne_31 _ _ _ _
    · intro hc
      exact absurd hc (by simp)
  · split
    · exact meet_check_ne_31 _ _ _ _
    · intro hc
      exact absurd hc (by simp)
  · rcases h with h | h
    · exact absurd h h4
    · exact absurd h h5

/-- C27: error 31 of `meet` is unreachable on a well-formed envelope.  For
every chain `l` whose on-curve flags alternate (both end points not on-curve)
and which has at least 3 on-curve points, and every point `q` of it that is
not on-curve: the search for the left gradient and the search for the right
gradient both return (every neighbour they dereference exists), at least one
of the two gradients is defined, and `meet` does not fail with error 31. -/
theorem meet_gradient_defined (q : Nat) (env : arms_state α) (params : apop_arms_settings α)
    (l : List Nat) (hc : IsChain env.p l) (ha : Alternating env.p l)
    (hn : 3 ≤ l.countP (fun s => decide ((env.p s).f ≠ 0)))
    (hq : q ∈ l) (hf : (env.p q).f = 0) :
    ∃ ogl ogr, meet_gl env.p q = .ok ogl ∧ meet_gr env.p q = .ok ogr ∧
      (ogl.isSome = true ∨ ogr.isSome = true) ∧
      meet q env params ≠ .error (.error 31) := by
  have hlen := alternating_length env.p l hc.1 ha
  have hodd := alternating_odd env.p l ha
  have hL := linked_getElem env.p l none
  obtain ⟨k, hk, hkq⟩ := List.getElem_of_mem hq
  have hkev : k % 2 = 0 := by
    have := (hodd k hk).not.mp (by
      simp only [List.get_eq_getElem, hkq]
      exact fun h => h hf)
    omega
  have hget : ∀ j (hj : j < l.length), l[j]? = some (l.get ⟨j, hj⟩) := by
    intro j hj
    simp [List.getElem?_eq_getElem hj]
  have hqk : l[k]? = some q := by
    rw [hget k hk]
    simp [hkq]
  obtain ⟨qpl, qpr⟩ := hL k q hc.2.2 hqk
  -- the search on the left
  have hleft : ∃ ogl, meet_gl env.p q = .ok ogl ∧ (4 ≤ k → ogl.isSome = true) := by
    unfold meet_gl
    by_cases hk0 : k = 0
    · rw [qpl, if_pos hk0]
      exact ⟨none, rfl, fun h => by omega⟩
    · have hk1 : k - 1 < l.length := by omega
      rw [qpl, if_neg hk0, hget (k - 1) hk1]
      dsimp only
      obtain ⟨apl, -⟩ := hL (k - 1) _ hc.2.2 (hget (k - 1) hk1)
      have hk2 : k - 1 - 1 < l.length := by omega
      rw [apl, if_neg (by omega), hget (k - 1 - 1) hk2]
      dsimp only
      obtain ⟨bpl, -⟩ := hL (k - 1 - 1) _ hc.2.2 (hget (k - 1 - 1) hk2)
      rw [bpl]
      by_cases hk3 : k - 1 - 1 = 0
      · rw [if_pos hk3]
        exact ⟨none, rfl, fun h => by omega⟩
      · have hk4 : k - 1 - 1 - 1 < l.length := by omega
        rw [if_neg hk3, hget (k - 1 - 1 - 1) hk4]
        exact ⟨_, rfl, fun _ => rfl⟩
  -- the search on the right
  have hright : ∃ ogr, meet_gr env.p q = .ok ogr ∧ (k + 3 < l.length → ogr.isSome = true) := by
    unfold meet_gr
    by_cases hk0 : k + 1 < l.length
    · rw [qpr, hget (k + 1) hk0]
      dsimp only
      obtain ⟨-, apr⟩ := hL (k + 1) _ hc.2.2 (hget (k + 1) hk0)
      have hk2 : k + 1 + 1 < l.length := by omega
      rw [apr, hget (k + 1 + 1) hk2]
      dsimp only
      obtain ⟨-, bpr⟩ := hL (k + 1 + 1) _ hc.2.2 (hget (k + 1 + 1) hk2)
      rw [bpr]
      by_cases hk3 : k + 1 + 1 + 1 < l.length
      · rw [hget (k + 1 + 1 + 1) hk3]
        exact ⟨_, rfl, fun _ => rfl⟩
      · rw [List.getElem?_eq_none (by omega)]
        exact ⟨none, rfl, fun h => by omega⟩
    · rw [qpr, List.getElem?_eq_none (by omega)]
      exact ⟨none, rfl, fun h => by omega⟩
  obtain ⟨ogl, hgl, hgl2⟩ := hleft
  obtain ⟨ogr, hgr, hgr2⟩ := hright
  have hone : ogl.isSome = true ∨ ogr.isSome = true := by
    by_cases h4 : 4 ≤ k
    · exact Or.inl (hgl2 h4)
    · exact Or.inr (hgr2 (by omega))
  refine ⟨ogl, ogr, hgl, hgr, hone, ?_⟩
  unfold meet
  dsimp only
  rw [if_neg (fun h => h hf), hgl, hgr]
  dsimp only
  split_ifs
  all_goals first
    | exact meet_store_ne_31 _ _ _ _ _ _ _ _ _ hone
    | exact fun h => absurd h (by simp)

end NoError31

/-- Witness for C27: the chain `0, ..., 6` of `ex_arena` alternates and has 3
on-curve points; its intersection point in slot 2 has a gradient on the right
only. -/
theorem meet_gradient_defined_witness :
    IsChain ex_env.p (List.range 7) ∧ Alternating ex_env.p (List.range 7) ∧
    ∃ ogl ogr, meet_gl ex_env.p 2 = .ok ogl ∧ meet_gr ex_env.p 2 = .ok ogr ∧
      (ogl.isSome = true ∨ ogr.isSome = true) ∧
      meet 2 ex_env ex_settings ≠ .error (.error 31) := by
  have hc : IsChain ex_env.p (List.range 7) :=
    ⟨by decide, by decide, by simp [List.range, List.range.loop, Linked, ex_env, ex_arena]⟩
  have ha : Alternating ex_env.p (List.range 7) := by
    refine ⟨?_, ?_, ?_⟩
    · intro a h
      have : a = 0 := by simpa [List.range, List.range.loop] using h.symm
      subst this
      rfl
    · intro a h
      have : a = 6 := by simpa [List.range, List.range.loop] using h.symm
      subst this
      rfl
    · simp [List.range, List.range.loop, ex_env, ex_arena]
  exact ⟨hc, ha, meet_gradient_defined 2 ex_env ex_settings (List.range 7) hc ha
    (by simp [List.range, List.range.loop, List.countP_cons, ex_env, ex_arena])
    (by decide) rfl⟩

/-! ## `update`: the adjustment of the new point -/

section Adjust
variable {α : Type} [LinearOrderedField α]

/-- C29: the adjustment of the new point `q` in `update`.  With `l`, `r` the
neighbours of `q`, `ql` the point two steps to the left of `q` (or `l` where
there is none), `qr` the point two steps to the right (or `r`), and
`ql.x <= qr.x`: the step returns; it writes nothing but `x` and `y` of `q`; if
`q.x` is below `lo = (1-XEPS)*ql.x + XEPS*qr.x` it is moved to exactly `lo`,
else if it is above `hi = XEPS*ql.x + (1-XEPS)*qr.x` it is moved to exactly
`hi`, in both cases `q.y` becomes the log density at the new `q.x` and the
evaluation counter grows by one; otherwise nothing changes.  Afterwards
`lo <= q.x <= hi`. -/
theorem update_adjust_spec (P : Nat → POINT α) (params : apop_arms_settings α)
    (qi l r ql qr : Nat) (hl : (P qi).pl = some l) (hr : (P qi).pr = some r)
    (hql : ql = (match (P l).pl with
      | some ll => ll
      | none => l))
    (hqr : qr = (match (P r).pr with
      | some rr => rr
      | none => r))
    (hx : (P ql).x ≤ (P qr).x) :
    ∃ P1 params1, update_adjust P params qi = .ok (P1, params1) ∧
      (∀ i, i ≠ qi → P1 i = P i) ∧
      ((P qi).x < (1 - XEPS) * (P ql).x + XEPS * (P qr).x →
        P1 qi = { P qi with x := (1 - XEPS) * (P ql).x + XEPS * (P qr).x,
                            y := params.model ((1 - XEPS) * (P ql).x + XEPS * (P qr).x) } ∧
        params1 = { params with neval := params.neval + 1 }) ∧
      (¬ (P qi).x < (1 - XEPS) * (P ql).x + XEPS * (P qr).x →
        (P qi).x > XEPS * (P ql).x + (1 - XEPS) * (P qr).x →
        P1 qi = { P qi with x := XEPS * (P ql).x + (1 - XEPS) * (P qr).x,
                            y := params.model (XEPS * (P ql).x + (1 - XEPS) * (P qr).x) } ∧
        params1 = { params with neval := params.neval + 1 }) ∧
      (¬ (P qi).x < (1 - XEPS) * (P ql).x + XEPS * (P qr).x →
        ¬ (P qi).x > XEPS * (P ql).x + (1 - XEPS) * (P qr).x → P1 = P ∧ params1 = params) ∧
      (1 - XEPS) * (P ql).x + XEPS * (P qr).x ≤ (P1 qi).x ∧
      (P1 qi).x ≤ XEPS * (P ql).x + (1 - XEPS) * (P qr).x := by
  have hlohi : (1 - XEPS) * (P ql).x + XEPS * (P qr).x
      ≤ XEPS * (P ql).x + (1 - XEPS) * (P qr).x := by
    have h2 : (0 : α) ≤ 1 - 2 * XEPS := by norm_num [XEPS]
    have := mul_nonneg h2 (sub_nonneg.mpr hx)
    linarith
  have hu : update_adjust P params qi =
      (if (P qi).x < (1 - XEPS) * (P ql).x + XEPS * (P qr).x then
        .ok (Function.update P qi
          { P qi with x := (1 - XEPS) * (P ql).x + XEPS * (P qr).x,
                      y := params.model ((1 - XEPS) * (P ql).x + XEPS * (P qr).x) },
          { params with neval := params.neval + 1 })
      else if (P qi).x > XEPS * (P ql).x + (1 - XEPS) * (P qr).x then
        .ok (Function.update P qi
          { P qi with x := XEPS * (P ql).x + (1 - XEPS) * (P qr).x,
                      y := params.model (XEPS * (P ql).x + (1 - XEPS) * (P qr).x) },
          { params with neval := params.neval + 1 })
      else .ok (P, params)) := by
    unfold update_adjust
    rw [hl, hr, hql, hqr]
    rfl
  rw [hu]
  by_cases h1 : (P qi).x < (1 - XEPS) * (P ql).x + XEPS * (P qr).x
  · rw [if_pos h1]
    refine ⟨_, _, rfl, fun i hi => Function.update_noteq hi _ _,
      fun _ => ⟨Function.update_same _ _ _, rfl⟩, fun h => absurd h1 h, fun h => absurd h1 h,
      ?_, ?_⟩
    · rw [Function.update_same]
    · rw [Function.update_same]
      exact hlohi
  · rw [if_neg h1]
    by_cases h2 : (P qi).x > XEPS * (P ql).x + (1 - XEPS) * (P qr).x
    · rw [if_pos h2]
      refine ⟨_, _, rfl, fun i hi => Function.update_noteq hi _ _, fun h => absurd h h1,
        fun _ _ => ⟨Function.update_same _ _ _, rfl⟩, fun _ h => absurd h2 h, ?_, ?_⟩
      · rw [Function.update_same]
        exact hlohi
      · rw [Function.update_same]
    · rw [if_neg h2]
      exact ⟨_, _, rfl, fun _ _ => rfl, fun h => absurd h h1, fun _ h => absurd h h2,
        fun _ _ => ⟨rfl, rfl⟩, not_lt.mp h1, not_lt.mp h2⟩

end Adjust

/-- Witness for C29: the point in slot 3 of `cross_arena` (`x = 0`, between the
points at `x = -2` and `x = 2` two steps away) is left where it is. -/
theorem update_adjust_spec_witness :
    (cross_arena 1 : POINT ℚ).x ≤ (cross_arena 5 : POINT ℚ).x ∧
    ∃ P1 params1, update_adjust (cross_arena : Nat → POINT ℚ) ex_settings 3 = .ok (P1, params1) ∧
      P1 = cross_arena ∧ params1 = ex_settings := by
  have hx : (cross_arena 1 : POINT ℚ).x ≤ (cross_arena 5 : POINT ℚ).x := by
    norm_num [cross_arena]
  obtain ⟨P1, params1, h1, -, -, -, h5, -⟩ :=
    update_adjust_spec (cross_arena : Nat → POINT ℚ) ex_settings 3 2 4 1 5 rfl rfl rfl rfl hx
  obtain ⟨e1, e2⟩ := h5 (by norm_num [cross_arena, XEPS]) (by norm_num [cross_arena, XEPS])
  exact ⟨hx, P1, params1, h1, e1, e2⟩

/-! ## `invert`: the walk to the segment that holds the target mass -/

section Adjacent
variable {α : Type} [LinearOrderedField α]

omit [LinearOrderedField α] in
/-- In a chain, a left neighbour pointer leads to the slot just before. -/
theorem chain_pl_adjacent (P : Nat → POINT α) (l : List Nat) (a b : Nat)
    (hl : Linked P none l) (ha : a ∈ l) (hb : (P a).pl = some b) :
    ∃ l1 l2, l = l1 ++ b :: a :: l2 := by
  obtain ⟨k1, k2, rfl⟩ := List.append_of_mem ha
  rcases List.eq_nil_or_concat k1 with rfl | ⟨i1, c, rfl⟩
  · simp only [List.nil_append] at hl
    unfold Linked at hl
    rw [hl.1] at hb
    exact absurd hb (by simp)
  · have e : i1.concat c ++ a :: k2 = i1 ++ c :: a :: k2 := by simp
    rw [e] at hl
    have := linked_pl P c a k2 i1 none hl
    rw [this] at hb
    simp only [Option.some.injEq] at hb
    subst hb
    exact ⟨i1, k2, e⟩

omit [LinearOrderedField α] in
/-- In a chain, a right neighbour pointer leads to the slot just after. -/
theorem chain_pr_adjacent (P : Nat → POINT α) (l : List Nat) (a b : Nat)
    (hl : Linked P none l) (ha : a ∈ l) (hb : (P a).pr = some b) :
    ∃ l1 l2, l = l1 ++ a :: b :: l2 := by
  obtain ⟨k1, k2, rfl⟩ := List.append_of_mem ha
  have := (linked_pr P a k2 k1 none hl).1
  rw [this] at hb
  cases k2 with
  | nil => simp at hb
  | cons c k2 =>
    simp only [List.head?_cons, Option.some.injEq] at hb
    subst hb
    exact ⟨k1, k2, rfl⟩

/-- Along a list on which `cum` is non-decreasing, `cum` of the first slot is
at most `cum` of every other slot. -/
theorem cum_head_le (P : Nat → POINT α) :
    ∀ (t : List Nat) (a : Nat), List.Chain (fun a b => (P a).cum ≤ (P b).cum) a t →
      ∀ b, b ∈ t → (P a).cum ≤ (P b).cum := by
  intro t
  induction t with
  | nil =>
    intro a _ b hb
    simp at hb
  | cons c t ih =>
    intro a h b hb
    rw [List.chain_cons] at h
    rcases List.mem_cons.mp hb with rfl | hbt
    · exact h.1
    · exact le_trans h.1 (ih c h.2 b hbt)

/-- The guard of `invert` either stops the program with `exit (1)` or returns
the working point. -/
theorem invert_guard_cases (xl xr : α) (p : POINT α) :
    invert_guard xl xr p = .error (.exit 1) ∨ invert_guard xl xr p = .ok p := by
  unfold invert_guard
  split_ifs
  · exact Or.inl rfl
  · exact Or.inr rfl

end Adjacent

section WalkSelects
variable {α : Type} [LinearOrderedField α]

/-- C30: the walk of `invert`.  For every envelope (a chain `l` of slots
holding slot 0, made of its two end points at least, so that it has a segment
to select), whose leftmost `cum` is 0 and whose `cum` is non-decreasing, and
every `prob` in `[0, 1)`: with
`u = prob * (rightmost cum)`, the leftward walk ends without dereferencing a
missing left neighbour at a point `q` with left neighbour `lq`, adjacent in
the chain, such that `lq.cum <= u <= q.cum`; the proportion
`(u - lq.cum) / (q.cum - lq.cum)` lies in `[0, 1]` when `lq.cum < q.cum`; and
`invert` either stops in its guard or returns the working point with
`cum = u`, `f = 0`, `pl = lq` and `pr = q`. -/
theorem invert_walk_selects (m : Libm α) (fuel : Nat) (prob : α) (env : arms_state α)
    (p : POINT α) (l : List Nat) (a0 z : Nat)
    (hc : IsChain env.p l) (h0 : 0 ∈ l) (hf : l.length ≤ fuel) (h2 : 2 ≤ l.length)
    (ha0 : l.head? = some a0) (hz : l.getLast? = some z)
    (hcum0 : (env.p a0).cum = 0)
    (hmono : List.Chain' (fun a b => (env.p a).cum ≤ (env.p b).cum) l)
    (hp0 : 0 ≤ prob) (hp1 : prob < 1) :
    ∃ q lq, rightmost env.p fuel 0 = .ok z ∧
      invert_walk env.p (prob * (env.p z).cum) fuel z = .ok q ∧
      (env.p q).pl = some lq ∧ (∃ l1 l2, l = l1 ++ lq :: q :: l2) ∧
      (env.p lq).cum ≤ prob * (env.p z).cum ∧ prob * (env.p z).cum ≤ (env.p q).cum ∧
      ((env.p lq).cum < (env.p q).cum →
        0 ≤ (prob * (env.p z).cum - (env.p lq).cum) / ((env.p q).cum - (env.p lq).cum) ∧
        (prob * (env.p z).cum - (env.p lq).cum) / ((env.p q).cum - (env.p lq).cum) ≤ 1) ∧
      (invert m fuel prob env p = .error (.exit 1) ∨
        ∃ p1, invert m fuel prob env p = .ok p1 ∧ p1.cum = prob * (env.p z).cum ∧
          p1.f = 0 ∧ p1.pl = some lq ∧ p1.pr = some q) := by
  obtain ⟨-, hnd, hl⟩ := hc
  -- the walk to the rightmost point
  obtain ⟨k1, k2, hsplit⟩ := List.append_of_mem h0
  have hright : rightmost env.p fuel 0 = .ok z := by
    obtain ⟨prev, hl2⟩ := linked_suffix env.p (0 :: k2) k1 none (by rw [← hsplit]; exact hl)
    refine rightmost_chain env.p z k2 0 prev fuel hl2 ?_ ?_
    · rw [hsplit, List.getLast?_append_of_ne_nil _ (by simp)] at hz
      exact hz
    · have := congrArg List.length hsplit
      simp only [List.length_cons, List.length_append] at this
      omega
  obtain ⟨l1, b, hlb⟩ : ∃ l1 b, l = l1 ++ [b, z] := by
    rcases List.eq_nil_or_concat l with rfl | ⟨i1, z1, rfl⟩
    · simp at hz
    · have hz1 : z1 = z := by simpa using hz
      subst hz1
      rcases List.eq_nil_or_concat i1 with rfl | ⟨i2, b, rfl⟩
      · simp at h2
      · exact ⟨i2, b, by simp⟩
  subst hlb
  have hhead : (l1 ++ [b]).head? = some a0 := by
    have e : l1 ++ [b, z] = (l1 ++ [b]) ++ [z] := by simp
    rw [e, List.head?_append_of_ne_nil _ (by simp)] at ha0
    exact ha0
  -- the total is not negative
  have htot : 0 ≤ (env.p z).cum := by
    cases l1 with
    | nil =>
      simp only [List.nil_append, List.head?_cons, Option.some.injEq] at hhead
      subst hhead
      rw [← hcum0]
      exact cum_head_le env.p [z] b hmono z (by simp)
    | cons c l1 =>
      simp only [List.cons_append, List.head?_cons, Option.some.injEq] at hhead
      subst hhead
      rw [← hcum0]
      exact cum_head_le env.p (l1 ++ [b, z]) c hmono z (by simp)
  have hu : (env.p a0).cum ≤ prob * (env.p z).cum := by
    rw [hcum0]
    exact mul_nonneg hp0 htot
  obtain ⟨q, lq, hwalk, hpl, hlq, hq, -, hmemq⟩ :=
    invert_walk_chain env.p (prob * (env.p z).cum) a0 hu l1 b z [] fuel hl hhead
      (by simp only [List.length_append, List.length_cons, List.length_nil] at hf; omega)
  have hqu : prob * (env.p z).cum ≤ (env.p q).cum := by
    rcases hq with rfl | hq
    · have := mul_le_mul_of_nonneg_right hp1.le htot
      linarith
    · exact hq.le
  refine ⟨q, lq, hright, hwalk, hpl, chain_pl_adjacent env.p _ q lq hl hmemq hpl, hlq, hqu,
    ?_, ?_⟩
  · intro hpos
    have hden : 0 < (env.p q).cum - (env.p lq).cum := sub_pos.mpr hpos
    exact ⟨div_nonneg (sub_nonneg.mpr hlq) hden.le, (div_le_one hden).mpr (by linarith)⟩
  · unfold invert
    rw [hright]
    dsimp only
    rw [hwalk]
    dsimp only
    rw [hpl]
    dsimp only
    split_ifs
    all_goals
      rcases @invert_guard_cases α _ _ _ _ with hg | hg
      · exact Or.inl hg
      · exact Or.inr ⟨_, hg, rfl, rfl, rfl, rfl⟩

end WalkSelects

/-- Witness for C30: the chain `0, ..., 6` of `ex_arena`, with
`cum = 0, 1, 1, 2, 3, 3, 4`, at `prob = 1/2`. -/
theorem invert_walk_selects_witness :
    IsChain ex_env.p (List.range 7) ∧
    ∃ q lq, rightmost ex_env.p 7 0 = .ok 6 ∧
      invert_walk ex_env.p (1 / 2 * (ex_env.p 6).cum) 7 6 = .ok q ∧
      (ex_env.p q).pl = some lq ∧ (∃ l1 l2, List.range 7 = l1 ++ lq :: q :: l2) ∧
      (ex_env.p lq).cum ≤ 1 / 2 * (ex_env.p 6).cum ∧ 1 / 2 * (ex_env.p 6).cum ≤ (ex_env.p q).cum ∧
      ((ex_env.p lq).cum < (ex_env.p q).cum →
        0 ≤ (1 / 2 * (ex_env.p 6).cum - (ex_env.p lq).cum)
            / ((ex_env.p q).cum - (ex_env.p lq).cum) ∧
        (1 / 2 * (ex_env.p 6).cum - (ex_env.p lq).cum)
            / ((ex_env.p q).cum - (ex_env.p lq).cum) ≤ 1) ∧
      (invert ratLibm 7 (1 / 2) ex_env ex_work = .error (.exit 1) ∨
        ∃ p1, invert ratLibm 7 (1 / 2) ex_env ex_work = .ok p1 ∧
          p1.cum = 1 / 2 * (ex_env.p 6).cum ∧ p1.f = 0 ∧ p1.pl = some lq ∧ p1.pr = some q) := by
  have hc : IsChain ex_env.p (List.range 7) :=
    ⟨by decide, by decide, by simp [List.range, List.range.loop, Linked, ex_env, ex_arena]⟩
  exact ⟨hc, invert_walk_selects ratLibm 7 (1 / 2) ex_env ex_work (List.range 7) 0 6 hc
    (by decide) (by decide) (by decide) rfl rfl rfl
    (by norm_num [List.range, List.range.loop, ex_env, ex_arena])
    (by norm_num) (by norm_num)⟩

/-! ## The derived bounds -/

section DerivedBounds
variable {α : Type} [LinearOrderedField α]

/-- The macro `GSL_MIN` computes the minimum. -/
theorem GSL_MIN_eq (a b : α) : GSL_MIN a b = min a b := by
  unfold GSL_MIN
  split_ifs with h
  · exact (min_eq_left h.le).symm
  · exact (min_eq_right (not_lt.mp h)).symm

/-- The macro `GSL_MAX` computes the maximum. -/
theorem GSL_MAX_eq (a b : α) : GSL_MAX a b = max a b := by
  unfold GSL_MAX
  split_ifs with h
  · exact (max_eq_left h.le).symm
  · exact (max_eq_right (not_lt.mp h)).symm

/-- The smaller of a tenth and the tenfold of a number is at most the number. -/
theorem min_tenth_le (x : α) : min (x / 10) (x * 10) ≤ x := by
  rcases le_total 0 x with h | h
  · exact le_trans (min_le_left _ _) (by linarith)
  · exact le_trans (min_le_right _ _) (by linarith)

/-- The larger of a tenth and the tenfold of a number is at least the number. -/
theorem le_max_tenth (x : α) : x ≤ max (x / 10) (x * 10) := by
  rcases le_total 0 x with h | h
  · exact le_trans (by linarith) (le_max_right _ _)
  · exact le_trans (by linarith) (le_max_left _ _)

/-- If the abscissae lie strictly inside the bounds, `initial` does not report
error 1003. -/
theorem initial_ne_1003 (m : Libm α) (fuel : Nat) (mem : Nat → POINT α)
    (params : apop_arms_settings α) (env : arms_state α)
    (h : params.xinit 0 > params.xl ∧ params.xinit (params.ninit - 1) < params.xr)
    (pe : apop_arms_settings α × arms_state α) :
    initial m fuel mem params env ≠ .ok (1003, pe) := by
  intro hc
  have hne : ∀ c : Int, c ≠ 1003 →
      initial m fuel mem params env ≠ .ok (c, params, env) := by
    intro c hcc h1
    rw [hc] at h1
    simp only [Except.ok.injEq, Prod.mk.injEq] at h1
    exact hcc h1.1.symm
  rcases initial_cases m fuel mem params env with ⟨-, h1⟩ | ⟨-, -, h1⟩ | ⟨h3, -⟩ |
    ⟨-, h1⟩ | ⟨-, h1⟩ | ⟨-, h1⟩ | ⟨-, -, he⟩
  · exact hne 1001 (by decide) h1
  · exact hne 1002 (by decide) h1
  · exact h3 h
  · exact hne 1004 (by decide) h1
  · exact hne 1008 (by decide) h1
  · rw [h1] at hc
    exact absurd hc (by simp)
  · rw [he] at hc
    rcases initial_envelope_rc m fuel mem params pe.1 env pe.2 1003 hc with h3 | ⟨h3, -⟩
    · omega
    · omega

/-- C21: the derived bounds.  When the caller supplies a model but no bounds,
`apop_arms_settings_init` keeps the abscissae `xinit` and their number `ninit`
of the caller (the defaults `{-1, 0, 1}` and 3 for those not supplied) and
sets `xl = min (xinit[0]/10, xinit[0]*10) - 0.1` and
`xr = max (xinit[ninit-1]/10, xinit[ninit-1]*10) + 0.1`; for the default
abscissae `{-1, 0, 1}` this is `[-10.1, 10.1]`; for every `xinit` and `ninit`
that the caller supplies the derived bounds satisfy `xl < xinit[0]` and
`xinit[ninit-1] < xr`, so `initial` does not report error 1003 with them. -/
theorem derived_bounds (inp : apop_arms_settings_in α) (f : α → α) (hm : inp.model = some f)
    (hxl : inp.xl = none) (hxr : inp.xr = none) :
    ∃ out, apop_arms_settings_defaults inp = .ok out ∧
      out.xinit = inp.xinit.getD default_xinit ∧ out.ninit = inp.ninit.getD 3 ∧
      out.model = f ∧
      out.xl = min (out.xinit 0 / 10) (out.xinit 0 * 10) - 1 / 10 ∧
      out.xr = max (out.xinit (out.ninit - 1) / 10) (out.xinit (out.ninit - 1) * 10) + 1 / 10 ∧
      (∀ (xs : Nat → α) (n : Nat), inp.xinit = some xs → inp.ninit = some n →
        out.xinit = xs ∧ out.ninit = n ∧
        out.xl = min (xs 0 / 10) (xs 0 * 10) - 1 / 10 ∧
        out.xr = max (xs (n - 1) / 10) (xs (n - 1) * 10) + 1 / 10 ∧
        out.xl < xs 0 ∧ xs (n - 1) < out.xr) ∧
      (inp.xinit = none → inp.ninit = none →
        out.xinit 0 = -1 ∧ out.xinit 1 = 0 ∧ out.xinit 2 = 1 ∧ out.ninit = 3) ∧
      (inp.xinit = none → out.ninit = 3 → out.xl = -(101 / 10) ∧ out.xr = 101 / 10) ∧
      out.xl < out.xinit 0 ∧ out.xinit (out.ninit - 1) < out.xr ∧
      ∀ (m : Libm α) (fuel : Nat) (mem : Nat → POINT α) (st : arms_state α)
        (pe : apop_arms_settings α × arms_state α),
        initial m fuel mem out st ≠ .ok (1003, pe) := by
  have hl : ∀ x : α, min (x / 10) (x * 10) - 1 / 10 < x := by
    intro x
    have := min_tenth_le x
    linarith
  have hr : ∀ x : α, x < max (x / 10) (x * 10) + 1 / 10 := by
    intro x
    have := le_max_tenth x
    linarith
  have key : ∀ r, apop_arms_settings_defaults inp = r → ∃ out, r = .ok out ∧
      out.xinit = inp.xinit.getD default_xinit ∧ out.ninit = inp.ninit.getD 3 ∧
      out.model = f ∧
      out.xl = min (out.xinit 0 / 10) (out.xinit 0 * 10) - 1 / 10 ∧
      out.xr = max (out.xinit (out.ninit - 1) / 10) (out.xinit (out.ninit - 1) * 10) + 1 / 10 ∧
      (∀ (xs : Nat → α) (n : Nat), inp.xinit = some xs → inp.ninit = some n →
        out.xinit = xs ∧ out.ninit = n ∧
        out.xl = min (xs 0 / 10) (xs 0 * 10) - 1 / 10 ∧
        out.xr = max (xs (n - 1) / 10) (xs (n - 1) * 10) + 1 / 10 ∧
        out.xl < xs 0 ∧ xs (n - 1) < out.xr) ∧
      (inp.xinit = none → inp.ninit = none →
        out.xinit 0 = -1 ∧ out.xinit 1 = 0 ∧ out.xinit 2 = 1 ∧ out.ninit = 3) ∧
      (inp.xinit = none → out.ninit = 3 → out.xl = -(101 / 10) ∧ out.xr = 101 / 10) ∧
      out.xl < out.xinit 0 ∧ out.xinit (out.ninit - 1) < out.xr ∧
      ∀ (m : Libm α) (fuel : Nat) (mem : Nat → POINT α) (st : arms_state α)
        (pe : apop_arms_settings α × arms_state α),
        initial m fuel mem out st ≠ .ok (1003, pe) := by
    intro r hr
    unfold apop_arms_settings_defaults at hr
    rw [hm] at hr
    dsimp only at hr
    subst hr
    refine ⟨_, rfl, rfl, rfl, rfl, ?_, ?_, ?_, ?_, ?_, ?_, ?_, ?_⟩
    · simp only [apop_varad_setting, hxl, Option.getD_none, GSL_MIN_eq]
    · simp only [apop_varad_setting, hxr, Option.getD_none, GSL_MAX_eq]
    · intro xs n hx hn
      simp only [apop_varad_setting, hxl, hxr, hx, hn, Option.getD_none, Option.getD_some,
        GSL_MIN_eq, GSL_MAX_eq]
      exact ⟨trivial, trivial, trivial, trivial, hl _, hr _⟩
    · intro hx hn
      simp only [apop_varad_setting, hx, hn, Option.getD_none]
      exact ⟨rfl, rfl, rfl, trivial⟩
    · intro hx hn
      dsimp only at hn
      simp only [apop_varad_setting, hxl, hxr, hx, Option.getD_none, GSL_MIN_eq, GSL_MAX_eq]
      simp only [apop_varad_setting] at hn
      rw [hn]
      constructor
      · norm_num [default_xinit]
      · norm_num [default_xinit]
    · simp only [apop_varad_setting, hxl, Option.getD_none, GSL_MIN_eq]
      exact hl _
    · simp only [apop_varad_setting, hxr, Option.getD_none, GSL_MAX_eq]
      exact hr _
    · intro m fuel mem st pe
      apply initial_ne_1003
      simp only [apop_varad_setting, hxl, hxr, Option.getD_none, GSL_MIN_eq, GSL_MAX_eq]
      exact ⟨hl _, hr _⟩
  exact key _ rfl

end DerivedBounds

/-- Witness for C21: with the model, the four abscissae `1, 2, 3, 4` and
`ninit = 4` supplied, the settings keep these abscissae and get the bounds
`[min (1/10, 10) - 0.1, max (4/10, 40) + 0.1] = [0, 40.1]`. -/
theorem derived_bounds_witness :
    ∃ out, apop_arms_settings_defaults
        (⟨some (fun i => (i : ℚ) + 1), some 4, none, none, none, none, none, none, none,
          some (fun x => -(x * x) / 2)⟩ : apop_arms_settings_in ℚ) = .ok out ∧
      out.ninit = 4 ∧ out.xinit 0 = 1 ∧ out.xinit 3 = 4 ∧
      out.xl = 0 ∧ out.xr = 401 / 10 ∧ out.xl < out.xinit 0 ∧
      out.xinit (out.ninit - 1) < out.xr := by
  obtain ⟨out, h1, -, -, -, -, -, h4, -, -, h5, h6, -⟩ := derived_bounds
    (⟨some (fun i => (i : ℚ) + 1), some 4, none, none, none, none, none, none, none,
      some (fun x => -(x * x) / 2)⟩ : apop_arms_settings_in ℚ) _ rfl rfl rfl
  obtain ⟨e1, e2, e3, e4, -, -⟩ := h4 _ 4 rfl rfl
  refine ⟨out, h1, e2, ?_, ?_, ?_, ?_, h5, h6⟩
  · rw [e1]
    norm_num
  · rw [e1]
    norm_num
  · rw [e3]
    norm_num
  · rw [e4]
    norm_num

/-! ## The binary search of the PMF draw -/

/-- C22 (defect of the code): the draw from the PMF with weights `(1, 1)` at
the uniform value `d = 3/10`.  The CMF is `(1/2, 1)` and the right row is row
0, but the binary search, having stepped down to `current = 0`, evaluates
`cdf[current-1]`, a read outside `[0, size)`. -/
theorem pmf_draw_out_of_bounds :
    pmf_cdf (fun _ => (1 : ℚ)) 2 0 = 1 / 2 ∧ pmf_cdf (fun _ => (1 : ℚ)) 2 1 = 1 ∧
    pmf_draw_index (fun _ => (1 : ℚ)) 2 (3 / 10) 10 = .error (.bounds (2 ^ 64 - 1)) := by
  have c0 : pmf_cdf (fun _ => (1 : ℚ)) 2 0 = 1 / 2 := by norm_num [pmf_cdf, pmf_sums]
  have c1 : pmf_cdf (fun _ => (1 : ℚ)) 2 1 = 1 := by norm_num [pmf_cdf, pmf_sums]
  have p0 : size_t_pred 0 = 2 ^ 64 - 1 := by decide
  have p1 : size_t_pred 1 = 0 := by decide
  have hb : ¬ (2 ^ 64 - 1 < 2) := by decide
  have h1 : (1 : Nat) = (0 + 1) % 2 ^ 64 := by decide
  have r1 : pmf_read (pmf_cdf (fun _ => (1 : ℚ)) 2) 2 1 = .ok 1 := by
    unfold pmf_read
    rw [if_pos (by decide), c1]
  have r0 : pmf_read (pmf_cdf (fun _ => (1 : ℚ)) 2) 2 0 = .ok (1 / 2) := by
    unfold pmf_read
    rw [if_pos (by decide), c0]
  have rm : pmf_read (pmf_cdf (fun _ => (1 : ℚ)) 2) 2 (2 ^ 64 - 1)
      = .error (.bounds (2 ^ 64 - 1)) := by
    unfold pmf_read
    rw [if_neg hb]
  have s2 : pmf_search (pmf_cdf (fun _ => (1 : ℚ)) 2) 2 (3 / 10) 9 1 0 0
      = .error (.bounds (2 ^ 64 - 1)) := by
    rw [pmf_search, r0]
    dsimp only
    rw [if_neg (by norm_num), p0, rm]
  refine ⟨c0, c1, ?_⟩
  unfold pmf_draw_index
  dsimp only
  rw [if_neg (by decide), pmf_search, r1]
  dsimp only
  rw [if_neg (by norm_num), p1, r0]
  dsimp only
  rw [if_neg (by norm_num), if_pos h1]
  exact s2

/-! ## The multinomial logit log likelihood: the denominator -/

/-- The sum of the shifted exponentials is the shifted sum of the
exponentials. -/
theorem apop_vector_sum_shift (row : Nat → ℝ) (mx : ℝ) (n : Nat) :
    apop_vector_sum (fun k => Real.exp (row k + -mx)) n
      = Real.exp (-mx) * apop_vector_sum (fun k => Real.exp (row k)) n := by
  induction n with
  | zero => simp [apop_vector_sum]
  | succ n ih =>
    simp only [apop_vector_sum]
    rw [ih, Real.exp_add]
    ring

/-- The sum of exponentials is not negative. -/
theorem apop_vector_sum_exp_nonneg (row : Nat → ℝ) (n : Nat) :
    0 ≤ apop_vector_sum (fun k => Real.exp (row k)) n := by
  induction n with
  | zero => simp [apop_vector_sum]
  | succ n ih =>
    simp only [apop_vector_sum]
    exact add_nonneg ih (Real.exp_pos _).le

/-- The denominator of `multilogit_log_likelihood`, computed with the
subtract-the-max trick, is `ln (1 + sum_i e^{y_i})`. -/
theorem multilogit_denominator_eq (row : Nat → ℝ) (choicect : Nat) :
    multilogit_denominator (Libm.mk Real.exp Real.log Real.sqrt) row choicect
      = Real.log (1 + apop_vector_sum (fun k => Real.exp (row k)) choicect) := by
  unfold multilogit_denominator
  dsimp only
  rw [apop_vector_sum_shift, ← mul_add_one, Real.log_mul (Real.exp_pos _).ne',
    Real.log_exp, add_comm (apop_vector_sum _ _) 1]
  · ring
  · have := apop_vector_sum_exp_nonneg row choicect
    linarith

/-! ## The multinomial logit log likelihood -/

/-- C23 (defect of the code): one observation that chooses the numeraire
category (its value is `factor_list[0]`), with one other category whose
`x*beta` is 0.  The documented log likelihood is
`x*beta_0 - ln (e^{x*beta_0} + e^{x*beta_1}) = 0 - ln 2`; the code adds 1 for
the numeraire instead of 0 and returns `1 - ln 2`. -/
theorem multilogit_numeraire_adds_one :
    find_index (0 : ℝ) (fun i => (i : ℝ)) 1 = 0 ∧
    multilogit_numerator (fun _ => (0 : ℝ)) (fun i => (i : ℝ)) (fun _ _ => 0) 1 1 = 1 ∧
    multilogit_log_likelihood (Libm.mk Real.exp Real.log Real.sqrt)
      (fun _ => (0 : ℝ)) (fun i => (i : ℝ)) (fun _ _ => 0) 1 1 = 1 - Real.log 2 ∧
    (0 : ℝ) - Real.log (Real.exp 0 + Real.exp 0) = 0 - Real.log 2 := by
  have hf : find_index (0 : ℝ) (fun i => (i : ℝ)) 1 = 0 := by
    simp [find_index, find_index_from]
  have hn : multilogit_numerator (fun _ => (0 : ℝ)) (fun i => (i : ℝ)) (fun _ _ => 0) 1 1
      = 1 := by
    simp [multilogit_numerator, hf]
  refine ⟨hf, hn, ?_, ?_⟩
  · unfold multilogit_log_likelihood
    rw [hn]
    simp only [multilogit_subtract, multilogit_denominator, gsl_vector_max, apop_vector_sum]
    norm_num
  · norm_num

/-! ## The faults that each function can end with -/

section Faults
variable {α : Type} [LinearOrderedField α]

theorem bind_error {ε β γ : Type} (x : Except ε β) (f : β → Except ε γ) (e : ε)
    (h : (x >>= f) = .error e) : x = .error e ∨ ∃ a, x = .ok a ∧ f a = .error e := by
  cases x with
  | error e1 =>
    left
    simpa [bind, Except.bind] using h
  | ok a => exact Or.inr ⟨a, rfl, h⟩

theorem pure_ne_error {ε β : Type} (a : β) (e : ε) : (pure a : Except ε β) ≠ .error e := by
  simp [pure, Except.pure]

theorem deref_error (o : Option Nat) (e : Fault) (h : deref o = .error e) : e = .null := by
  unfold deref at h
  split at h
  · exact absurd h (by simp)
  · simpa using h.symm

omit [LinearOrderedField α] in
theorem leftmost_error (P : Nat → POINT α) (e : Fault) :
    ∀ (n q : Nat), leftmost P n q = .error e → e = .fuel := by
  intro n
  induction n with
  | zero =>
    intro q h
    simpa [leftmost] using h.symm
  | succ n ih =>
    intro q h
    unfold leftmost at h
    split at h
    · exact absurd h (by simp)
    · exact ih _ h

theorem cumulate_ymax_error (P : Nat → POINT α) (e : Fault) :
    ∀ (n : Nat) (q : Option Nat) (ym : α), cumulate_ymax P n q ym = .error e → e = .fuel := by
  intro n
  induction n with
  | zero =>
    intro q ym h
    cases q with
    | none => simp [cumulate_ymax] at h
    | some q => simpa [cumulate_ymax] using h.symm
  | succ n ih =>
    intro q ym h
    cases q with
    | none => simp [cumulate_ymax] at h
    | some q =>
      unfold cumulate_ymax at h
      exact ih _ _ h

theorem cumulate_ey_error (m : Libm α) (ymax : α) (e : Fault) :
    ∀ (n : Nat) (q : Option Nat) (P : Nat → POINT α),
      cumulate_ey m ymax n q P = .error e → e = .fuel := by
  intro n
  induction n with
  | zero =>
    intro q P h
    cases q with
    | none => simp [cumulate_ey] at h
    | some q => simpa [cumulate_ey] using h.symm
  | succ n ih =>
    intro q P h
    cases q with
    | none => simp [cumulate_ey] at h
    | some q =>
      unfold cumulate_ey at h
      exact ih _ _ h

theorem area_error (P : Nat → POINT α) (q : Nat) (e : Fault) (h : area P q = .error e) :
    e = .exit 1 := by
  unfold area at h
  split at h
  · simpa using h.symm
  · split_ifs at h

theorem cumulate_cum_error (e : Fault) :
    ∀ (n : Nat) (q : Option Nat) (P : Nat → POINT α),
      cumulate_cum n q P = .error e → e = .fuel ∨ e = .null ∨ e = .exit 1 := by
  intro n
  induction n with
  | zero =>
    intro q P h
    cases q with
    | none => simp [cumulate_cum] at h
    | some q =>
      left
      simpa [cumulate_cum] using h.symm
  | succ n ih =>
    intro q P h
    cases q with
    | none => simp [cumulate_cum] at h
    | some q =>
      unfold cumulate_cum at h
      split at h
      · rename_i e1 ha
        simp only [Except.error.injEq] at h
        subst h
        exact Or.inr (Or.inr (area_error P q _ ha))
      · split at h
        · exact Or.inr (Or.inl (by simpa using h.symm))
        · exact ih _ _ h

theorem cumulate_error (m : Libm α) (fuel : Nat) (env : arms_state α) (e : Fault)
    (h : cumulate m fuel env = .error e) : e = .fuel ∨ e = .null ∨ e = .exit 1 := by
  unfold cumulate at h
  split at h
  · rename_i e1 h1
    simp only [Except.error.injEq] at h
    subst h
    exact Or.inl (leftmost_error _ _ _ _ h1)
  · split at h
    · rename_i e1 h1
      simp only [Except.error.injEq] at h
      subst h
      exact Or.inl (cumulate_ymax_error _ _ _ _ _ h1)
    · split at h
      · rename_i e1 h1
        simp only [Except.error.injEq] at h
        subst h
        exact Or.inl (cumulate_ey_error _ _ _ _ _ _ h1)
      · dsimp only at h
        split at h
        · rename_i e1 h1
          simp only [Except.error.injEq] at h
          subst h
          exact cumulate_cum_error _ _ _ _ h1
        · exact absurd h (by simp)

theorem meet_gl_error (P : Nat → POINT α) (q : Nat) (e : Fault)
    (h : meet_gl P q = .error e) : e = .null := by
  unfold meet_gl at h
  split at h
  · exact absurd h (by simp)
  · split at h
    · simpa using h.symm
    · split at h
      · exact absurd h (by simp)
      · exact absurd h (by simp)

theorem meet_gr_error (P : Nat → POINT α) (q : Nat) (e : Fault)
    (h : meet_gr P q = .error e) : e = .null := by
  unfold meet_gr at h
  split at h
  · exact absurd h (by simp)
  · split at h
    · simpa using h.symm
    · split at h
      · exact absurd h (by simp)
      · exact absurd h (by simp)

theorem meet_check_error (q : Nat) (env : arms_state α) (x y : α) (e : Fault)
    (h : meet_check q env x y = .error e) : e = .error 32 := by
  unfold meet_check at h
  dsimp only at h
  split_ifs at h
  simpa using h.symm

theorem meet_store_error (q : Nat) (env : arms_state α) (il ir irl : Bool) (gl gr dl dr : α)
    (e : Fault) (h : meet_store q env il ir irl gl gr dl dr = .error e) :
    e = .null ∨ e = .error 31 ∨ e = .error 32 := by
  unfold meet_store at h
  dsimp only at h
  split_ifs at h
  · split at h
    · exact Or.inr (Or.inr (meet_check_error _ _ _ _ _ h))
    · exact Or.inl (by simpa using h.symm)
  · split at h
    · exact Or.inr (Or.inr (meet_check_error _ _ _ _ _ h))
    · exact Or.inl (by simpa using h.symm)
  · split at h
    · exact Or.inr (Or.inr (meet_check_error _ _ _ _ _ h))
    · exact Or.inl (by simpa using h.symm)
  · split at h
    · exact Or.inr (Or.inr (meet_check_error _ _ _ _ _ h))
    · exact Or.inl (by simpa using h.symm)
  · split at h
    · exact Or.inr (Or.inr (meet_check_error _ _ _ _ _ h))
    · exact Or.inl (by simpa using h.symm)
  · exact Or.inr (Or.inl (by simpa using h.symm))

/-- The faults of `meet`: error 30 exactly when the point is on-curve, else a
missing neighbour, error 31 or error 32. -/
theorem meet_error (q : Nat) (env : arms_state α) (params : apop_arms_settings α) (e : Fault)
    (h : meet q env params = .error e) :
    (e = .error 30 ∧ (env.p q).f ≠ 0) ∨ e = .null ∨ e = .error 31 ∨ e = .error 32 := by
  unfold meet at h
  dsimp only at h
  split_ifs at h with hf
  · exact Or.inl ⟨by simpa using h.symm, hf⟩
  · right
    split at h
    · rename_i e1 h1
      simp only [Except.error.injEq] at h
      subst h
      exact Or.inl (meet_gl_error _ _ _ h1)
    · split at h
      · rename_i e1 h1
        simp only [Except.error.injEq] at h
        subst h
        exact Or.inl (meet_gr_error _ _ _ h1)
      · split_ifs at h
        all_goals exact meet_store_error _ _ _ _ _ _ _ _ _ _ h

end Faults
section Faults2
variable {α : Type} [LinearOrderedField α]

omit [LinearOrderedField α] in
/-- The faults of the splice of `update`: a missing neighbour, or `exit (10)`
when not exactly one of the two neighbours of the candidate is on-curve. -/
theorem update_splice_error (P : Nat → POINT α) (p : POINT α) (qi mi : Nat) (e : Fault)
    (h : update_splice P p qi mi = .error e) :
    e = .null ∨ (e = .exit 10 ∧ ∃ l r, p.pl = some l ∧ p.pr = some r ∧
      ¬ ((P l).f ≠ 0 ∧ (P r).f = 0) ∧ ¬ ((P l).f = 0 ∧ (P r).f ≠ 0)) := by
  unfold update_splice at h
  rcases bind_error _ _ _ h with h1 | ⟨l, hl, h⟩
  · exact Or.inl (deref_error _ _ h1)
  rcases bind_error _ _ _ h with h1 | ⟨r, hr, h⟩
  · exact Or.inl (deref_error _ _ h1)
  have hpl : p.pl = some l := by
    unfold deref at hl
    split at hl
    · rename_i i hi
      simp only [Except.ok.injEq] at hl
      rw [hi, hl]
    · exact absurd hl (by simp)
  have hpr : p.pr = some r := by
    unfold deref at hr
    split at hr
    · rename_i i hi
      simp only [Except.ok.injEq] at hr
      rw [hi, hr]
    · exact absurd hr (by simp)
  split_ifs at h with c1 c2
  · rcases bind_error _ _ _ h with h1 | ⟨a, -, h⟩
    · exact Or.inl (deref_error _ _ h1)
    rcases bind_error _ _ _ h with h1 | ⟨b, -, h⟩
    · exact Or.inl (deref_error _ _ h1)
    exact absurd h (pure_ne_error _ _)
  · rcases bind_error _ _ _ h with h1 | ⟨a, -, h⟩
    · exact Or.inl (deref_error _ _ h1)
    rcases bind_error _ _ _ h with h1 | ⟨b, -, h⟩
    · exact Or.inl (deref_error _ _ h1)
    exact absurd h (pure_ne_error _ _)
  · refine Or.inr ⟨by simpa using h.symm, l, r, hpl, hpr, ?_, ?_⟩
    · rintro ⟨a1, a2⟩
      exact c1 ⟨a1, fun hc => hc a2⟩
    · rintro ⟨a1, a2⟩
      exact c2 ⟨fun hc => hc a1, a2⟩

theorem update_adjust_error (P : Nat → POINT α) (params : apop_arms_settings α) (qi : Nat)
    (e : Fault) (h : update_adjust P params qi = .error e) : e = .null := by
  unfold update_adjust at h
  rcases bind_error _ _ _ h with h1 | ⟨l, -, h⟩
  · exact deref_error _ _ h1
  rcases bind_error _ _ _ h with h1 | ⟨r, -, h⟩
  · exact deref_error _ _ h1
  dsimp only at h
  split_ifs at h
  all_goals exact absurd h (pure_ne_error _ _)

/-- The revision of the intersection points in `update` does not fail with
error 30 or `exit (10)` when the points that it passes to `meet` are not
on-curve. -/
theorem update_meets_error (env : arms_state α) (params : apop_arms_settings α) (qi : Nat)
    (e : Fault) (h : update_meets env params qi = .error e)
    (H1 : ∀ a, (env.p qi).pl = some a → (env.p a).f = 0)
    (H2 : ∀ b, (env.p qi).pr = some b → (env.p b).f = 0)
    (H3 : ∀ a a2 a3, (env.p qi).pl = some a → (env.p a).pl = some a2 →
      (env.p a2).pl = some a3 → (env.p a3).f = 0)
    (H4 : ∀ b b2 b3, (env.p qi).pr = some b → (env.p b).pr = some b2 →
      (env.p b2).pr = some b3 → (env.p b3).f = 0) :
    e ≠ .exit 10 ∧ e ≠ .error 30 := by
  have key : ∀ (q : Nat) (e1 : arms_state α) (e2 : Fault), MeetFrame env.p e1.p →
      (env.p q).f = 0 → meet q e1 params = .error e2 → e2 ≠ .exit 10 ∧ e2 ≠ .error 30 := by
    intro q e1 e2 hfr hq hm
    rcases meet_error q e1 params e2 hm with ⟨-, hf⟩ | hk | hk | hk
    · rw [(hfr q).2.2.1] at hf
      exact absurd hq hf
    · rw [hk]
      exact ⟨by decide, by decide⟩
    · rw [hk]
      exact ⟨by decide, by decide⟩
    · rw [hk]
      exact ⟨by decide, by decide⟩
  have hnull : (Fault.null ≠ .exit 10 ∧ Fault.null ≠ .error 30) := ⟨by decide, by decide⟩
  have dok : ∀ (o : Option Nat) (i : Nat), deref o = .ok i → o = some i := by
    intro o i hd
    unfold deref at hd
    split at hd
    · simp only [Except.ok.injEq] at hd
      rw [hd]
    · exact absurd hd (by simp)
  unfold update_meets at h
  rcases bind_error _ _ _ h with h1 | ⟨l, hl, h⟩
  · rw [deref_error _ _ h1]
    exact hnull
  have hl := dok _ _ hl
  rcases bind_error _ _ _ h with h1 | ⟨r1, hr1, h⟩
  · exact key l env e (meetFrame_refl _) (H1 l hl) h1
  have f1 := (meet_frame l env r1.2 params r1.1 hr1).2.2
  split_ifs at h
  · exact absurd h (pure_ne_error _ _)
  rcases bind_error _ _ _ h with h1 | ⟨r, hr, h⟩
  · rw [deref_error _ _ h1]
    exact hnull
  have hr := dok _ _ hr
  rw [(f1 qi).2.2.2.2.1] at hr
  rcases bind_error _ _ _ h with h1 | ⟨r2, hr2, h⟩
  · exact key r r1.2 e f1 (H2 r hr) h1
  have f2 := meetFrame_trans f1 (meet_frame r r1.2 r2.2 params r2.1 hr2).2.2
  split_ifs at h
  · exact absurd h (pure_ne_error _ _)
  rcases bind_error _ _ _ h with h1 | ⟨l2, hl2, h⟩
  · rw [deref_error _ _ h1]
    exact hnull
  have hl2 := dok _ _ hl2
  rw [(f2 qi).2.2.2.1] at hl2
  rcases bind_error _ _ _ h with h1 | ⟨r3, hr3, h⟩
  · split at h1
    · exact absurd h1 (pure_ne_error _ _)
    · rename_i ll hll
      rw [(f2 l2).2.2.2.1] at hll
      rcases bind_error _ _ _ h1 with h2 | ⟨lll, hlll, h1⟩
      · rw [deref_error _ _ h2]
        exact hnull
      · have hlll := dok _ _ hlll
        rw [(f2 ll).2.2.2.1] at hlll
        exact key lll r2.2 e f2 (H3 l2 ll lll hl2 hll hlll) h1
  have f3 : MeetFrame env.p r3.2.p := by
    split at hr3
    · have := pure_ok _ _ hr3
      rw [← this]
      exact f2
    · obtain ⟨lll, -, hr3⟩ := bind_ok _ _ _ hr3
      exact meetFrame_trans f2 (meet_frame lll r2.2 r3.2 params r3.1 hr3).2.2
  split_ifs at h
  · exact absurd h (pure_ne_error _ _)
  rcases bind_error _ _ _ h with h1 | ⟨rr0, hrr0, h⟩
  · rw [deref_error _ _ h1]
    exact hnull
  have hrr0 := dok _ _ hrr0
  rw [(f3 qi).2.2.2.2.1] at hrr0
  rcases bind_error _ _ _ h with h1 | ⟨r4, hr4, h⟩
  · split at h1
    · exact absurd h1 (pure_ne_error _ _)
    · rename_i rr hrr
      rw [(f3 rr0).2.2.2.2.1] at hrr
      rcases bind_error _ _ _ h1 with h2 | ⟨rrr, hrrr, h1⟩
      · rw [deref_error _ _ h2]
        exact hnull
      · have hrrr := dok _ _ hrrr
        rw [(f3 rr).2.2.2.2.1] at hrrr
        exact key rrr r3.2 e f3 (H4 rr0 rr rrr hrr0 hrr hrrr) h1
  split_ifs at h
  · exact absurd h (pure_ne_error _ _)
  · exact absurd h (pure_ne_error _ _)

/-- The intersection loop of `initial` does not fail with error 30 when the
points that it passes to `meet` are not on-curve. -/
theorem initial_meets_error (params : apop_arms_settings α) (e : Fault) :
    ∀ (n j : Nat) (env : arms_state α), (∀ k, k < n → (env.p (j + 2 * k)).f = 0) →
      initial_meets params n j env = .error e → e ≠ .error 30 := by
  intro n
  induction n with
  | zero =>
    intro j env _ h
    simp [initial_meets] at h
  | succ n ih =>
    intro j env hf h
    unfold initial_meets at h
    split at h
    · rename_i e1 h1
      simp only [Except.error.injEq] at h
      subst h
      rcases meet_error j env params _ h1 with ⟨-, hc⟩ | hk | hk | hk
      · exact absurd (hf 0 (by omega)) hc
      · rw [hk]
        decide
      · rw [hk]
        decide
      · rw [hk]
        decide
    · rename_i rc env1 h1
      split_ifs at h
      have fr := (meet_frame j env env1 params rc h1).2.2
      refine ih (j + 2) env1 ?_ h
      intro k hk
      rw [(fr _).2.2.1]
      have := hf (k + 1) (by omega)
      rwa [show j + 2 * (k + 1) = j + 2 + 2 * k by ring] at this

end Faults2
section SpliceShape
variable {α : Type} [LinearOrderedField α]

/-- The flags and links of the arena that `update` hands to the revision of
the intersection points: those of the arena after the splice. -/
theorem update_arena_shape (env : arms_state α) (p : POINT α) (params params1 : apop_arms_settings α)
    (P3 P4 : Nat → POINT α) (a b : Nat)
    (hpl : p.pl = some a) (hpr : p.pr = some b)
    (ha : a < env.cpoint) (hb : b < env.cpoint) (hab : a ≠ b)
    (hs : update_splice
        (Function.update
          (Function.update env.p env.cpoint { env.p env.cpoint with x := p.x, y := p.y, f := 1 })
          (env.cpoint + 1)
          { (Function.update env.p env.cpoint
              { env.p env.cpoint with x := p.x, y := p.y, f := 1 }) (env.cpoint + 1) with f := 0 })
        p env.cpoint (env.cpoint + 1) = .ok P3)
    (hadj : update_adjust P3 params env.cpoint = .ok (P4, params1)) :
    ∃ s1 s2, ((s1 = env.cpoint + 1 ∧ s2 = env.cpoint ∧ (env.p a).f ≠ 0 ∧ (env.p b).f = 0 ∧
        (P4 s1).f = 0 ∧ (P4 s2).f ≠ 0) ∨
      (s1 = env.cpoint ∧ s2 = env.cpoint + 1 ∧ (env.p a).f = 0 ∧ (env.p b).f ≠ 0 ∧
        (P4 s1).f ≠ 0 ∧ (P4 s2).f = 0)) ∧
      (∀ i, i ≠ s1 → i ≠ s2 → (P4 i).f = (env.p i).f) ∧
      (∀ i, i ≠ a → i ≠ b → i ≠ s1 → i ≠ s2 →
        (P4 i).pl = (env.p i).pl ∧ (P4 i).pr = (env.p i).pr) ∧
      (P4 a).pl = (env.p a).pl ∧ (P4 a).pr = some s1 ∧
      (P4 s1).pl = some a ∧ (P4 s1).pr = some s2 ∧
      (P4 s2).pl = some s1 ∧ (P4 s2).pr = some b ∧
      (P4 b).pl = some s2 ∧ (P4 b).pr = (env.p b).pr := by
  obtain ⟨x4, y4, hP4⟩ := update_adjust_ok _ _ _ _ _ hadj
  have hqm : env.cpoint ≠ env.cpoint + 1 := by omega
  have hlq : a ≠ env.cpoint := by omega
  have hlm : a ≠ env.cpoint + 1 := by omega
  have hrq : b ≠ env.cpoint := by omega
  have hrm : b ≠ env.cpoint + 1 := by omega
  have hsp := update_splice_ok _ _ p _ _ a b hpl hpr hqm hlq hlm hrq hrm hab hs
  have hsh : SameShape P3 P4 := by
    rw [hP4]
    exact sameShape_update_xy _ _ _ _
  rcases hsp with ⟨fa, fb, hP3⟩ | ⟨fa, fb, hP3⟩
  · refine ⟨env.cpoint + 1, env.cpoint, Or.inl ⟨rfl, rfl, ?_, ?_, ?_, ?_⟩, ?_, ?_, ?_⟩
    · simpa [Function.update_noteq hlq, Function.update_noteq hlm] using fa
    · simpa [Function.update_noteq hrq, Function.update_noteq hrm] using fb
    · rw [(hsh _).1, hP3]
      simp [Function.update_noteq hqm.symm, Function.update_noteq hlm.symm,
        Function.update_noteq hrm.symm]
    · rw [(hsh _).1, hP3]
      simp [Function.update_noteq hqm, Function.update_noteq hlq.symm,
        Function.update_noteq hrq.symm]
    · intro i h1 h2
      rw [(hsh _).1, hP3]
      simp only [Function.update_apply]
      split_ifs <;> simp_all
    · intro i h1 h2 h3 h4
      rw [(hsh _).2.1, (hsh _).2.2, hP3]
      simp [Function.update_noteq h1, Function.update_noteq h2, Function.update_noteq h3,
        Function.update_noteq h4]
    · rw [(hsh _).2.1, (hsh _).2.2, (hsh _).2.1, (hsh _).2.2, (hsh _).2.1, (hsh _).2.2,
        (hsh _).2.1, (hsh _).2.2, hP3]
      simp [Function.update_noteq hqm, Function.update_noteq hqm.symm,
        Function.update_noteq hlq, Function.update_noteq hlq.symm,
        Function.update_noteq hlm, Function.update_noteq hlm.symm,
        Function.update_noteq hrq, Function.update_noteq hrq.symm,
        Function.update_noteq hrm, Function.update_noteq hrm.symm,
        Function.update_noteq hab, Function.update_noteq hab.symm]
  · refine ⟨env.cpoint, env.cpoint + 1, Or.inr ⟨rfl, rfl, ?_, ?_, ?_, ?_⟩, ?_, ?_, ?_⟩
    · simpa [Function.update_noteq hlq, Function.update_noteq hlm] using fa
    · simpa [Function.update_noteq hrq, Function.update_noteq hrm] using fb
    · rw [(hsh _).1, hP3]
      simp [Function.update_noteq hqm, Function.update_noteq hlq.symm,
        Function.update_noteq hrq.symm]
    · rw [(hsh _).1, hP3]
      simp [Function.update_noteq hqm.symm, Function.update_noteq hlm.symm,
        Function.update_noteq hrm.symm]
    · intro i h1 h2
      rw [(hsh _).1, hP3]
      simp only [Function.update_apply]
      split_ifs <;> simp_all
    · intro i h1 h2 h3 h4
      rw [(hsh _).2.1, (hsh _).2.2, hP3]
      simp [Function.update_noteq h1, Function.update_noteq h2, Function.update_noteq h3,
        Function.update_noteq h4]
    · rw [(hsh _).2.1, (hsh _).2.2, (hsh _).2.1, (hsh _).2.2, (hsh _).2.1, (hsh _).2.2,
        (hsh _).2.1, (hsh _).2.2, hP3]
      simp [Function.update_noteq hqm, Function.update_noteq hqm.symm,
        Function.update_noteq hlq, Function.update_noteq hlq.symm,
        Function.update_noteq hlm, Function.update_noteq hlm.symm,
        Function.update_noteq hrq, Function.update_noteq hrq.symm,
        Function.update_noteq hrm, Function.update_noteq hrm.symm,
        Function.update_noteq hab, Function.update_noteq hab.symm]

omit [LinearOrderedField α] in
/-- In an alternating chain the flags of a point and of its left neighbour
differ, and the left neighbour is a point of the chain. -/
theorem alt_pl_flag (P : Nat → POINT α) (l : List Nat) (a b : Nat)
    (hc : IsChain P l) (hal : Alternating P l) (ha : a ∈ l) (hb : (P a).pl = some b) :
    b ∈ l ∧ (((P b).f ≠ 0 ∧ (P a).f = 0) ∨ ((P b).f = 0 ∧ (P a).f ≠ 0)) := by
  obtain ⟨l1, l2, rfl⟩ := chain_pl_adjacent P l a b hc.2.2 ha hb
  have := hal.2.2
  rw [List.chain'_append_cons_cons] at this
  exact ⟨by simp, this.2.1⟩

omit [LinearOrderedField α] in
/-- In an alternating chain the flags of a point and of its right neighbour
differ, and the right neighbour is a point of the chain. -/
theorem alt_pr_flag (P : Nat → POINT α) (l : List Nat) (a b : Nat)
    (hc : IsChain P l) (hal : Alternating P l) (ha : a ∈ l) (hb : (P a).pr = some b) :
    b ∈ l ∧ (((P a).f ≠ 0 ∧ (P b).f = 0) ∨ ((P a).f = 0 ∧ (P b).f ≠ 0)) := by
  obtain ⟨l1, l2, rfl⟩ := chain_pr_adjacent P l a b hc.2.2 ha hb
  have := hal.2.2
  rw [List.chain'_append_cons_cons] at this
  exact ⟨by simp, this.2.1⟩

omit [LinearOrderedField α] in
/-- The walk to the rightmost point stays in the chain. -/
theorem rightmost_mem (P : Nat → POINT α) (l : List Nat) (hl : Linked P none l) (z : Nat) :
    ∀ (n q : Nat), q ∈ l → rightmost P n q = .ok z → z ∈ l := by
  intro n
  induction n with
  | zero =>
    intro q _ h
    simp [rightmost] at h
  | succ n ih =>
    intro q hq h
    unfold rightmost at h
    split at h
    · simp only [Except.ok.injEq] at h
      rw [← h]
      exact hq
    · rename_i r hr
      obtain ⟨l1, l2, rfl⟩ := chain_pr_adjacent P l q r hl hq hr
      exact ih r (by simp) h

/-- The walk of `invert` stays in the chain. -/
theorem invert_walk_mem (P : Nat → POINT α) (u : α) (l : List Nat) (hl : Linked P none l)
    (q1 : Nat) :
    ∀ (n q : Nat), q ∈ l → invert_walk P u n q = .ok q1 → q1 ∈ l := by
  intro n
  induction n with
  | zero =>
    intro q _ h
    simp [invert_walk] at h
  | succ n ih =>
    intro q hq h
    unfold invert_walk at h
    split at h
    · exact absurd h (by simp)
    · rename_i b hb
      split_ifs at h
      · obtain ⟨l1, l2, rfl⟩ := chain_pl_adjacent P l q b hl hq hb
        exact ih b (by simp) h
      · simp only [Except.ok.injEq] at h
        rw [← h]
        exact hq

/-- The neighbours that `invert` gives to the working point are the selected
point and its left neighbour. -/
theorem invert_ok_fields (m : Libm α) (fuel : Nat) (prob : α) (env : arms_state α)
    (p p1 : POINT α) (h : invert m fuel prob env p = .ok p1) :
    ∃ q0 q lq, rightmost env.p fuel 0 = .ok q0 ∧
      invert_walk env.p (prob * (env.p q0).cum) fuel q0 = .ok q ∧
      (env.p q).pl = some lq ∧ p1.pl = some lq ∧ p1.pr = some q := by
  have hg : ∀ (xl xr : α) (p2 : POINT α), invert_guard xl xr p2 = .ok p1 → p1 = p2 := by
    intro xl xr p2 hh
    unfold invert_guard at hh
    split_ifs at hh
    simpa using hh.symm
  unfold invert at h
  split at h
  · exact absurd h (by simp)
  · rename_i q0 h0
    dsimp only at h
    split at h
    · exact absurd h (by simp)
    · rename_i q hq
      split at h
      · exact absurd h (by simp)
      · rename_i lq hlq
        refine ⟨q0, q, lq, h0, hq, hlq, ?_⟩
        split_ifs at h
        all_goals
          have := hg _ _ _ h
          rw [this]
          exact ⟨rfl, rfl⟩

end SpliceShape
section Unreachable
variable {α : Type} [LinearOrderedField α]

/-- The function `initial` does not fail with error 30: the points that it
passes to `meet` are those at the even positions, which it has flagged as not
on-curve. -/
theorem initial_no_error_30 (m : Libm α) (fuel : Nat) (mem : Nat → POINT α)
    (params : apop_arms_settings α) (env : arms_state α) :
    initial m fuel mem params env ≠ .error (.error 30) := by
  intro hc
  have hok : ∀ v, initial m fuel mem params env ≠ .ok v := by
    intro v h1
    rw [hc] at h1
    exact absurd h1 (by simp)
  have hvalid : (3 ≤ params.ninit ∧ 2 * params.ninit + 1 ≤ params.npoint ∧
      (params.xinit 0 > params.xl ∧ params.xinit (params.ninit - 1) < params.xr) ∧
      initial_ordered params.xinit params.ninit = true ∧ 0 ≤ params.convex) ∧
      initial m fuel mem params env = initial_envelope m fuel mem params env := by
    rcases initial_cases m fuel mem params env with ⟨-, h1⟩ | ⟨-, -, h1⟩ | ⟨-, h1⟩ |
      ⟨-, h1⟩ | ⟨-, h1⟩ | ⟨-, h1⟩ | ⟨hv, -, he⟩
    · exact absurd h1 (hok _)
    · exact absurd h1 (hok _)
    · exact absurd h1 (hok _)
    · exact absurd h1 (hok _)
    · exact absurd h1 (hok _)
    · rw [h1] at hc
      exact absurd hc (by simp)
    · exact ⟨hv, he⟩
  obtain ⟨⟨h1, h2, h3, h4, h5⟩, he⟩ := hvalid
  rw [he] at hc
  obtain ⟨-, hA⟩ := initial_arena_spec mem params (by omega)
  unfold initial_envelope at hc
  dsimp only at hc
  split at hc
  · rename_i e1 he
    simp only [Except.error.injEq] at hc
    subst hc
    refine initial_meets_error _ _ (params.ninit + 1) 0 _ ?_ he rfl
    intro k hk
    obtain ⟨-, -, a3, -⟩ := hA (0 + 2 * k) (by omega)
    dsimp only
    rw [a3, if_neg (by omega)]
  · split_ifs at hc
    split at hc
    · rename_i e1 he
      simp only [Except.error.injEq] at hc
      subst hc
      rcases cumulate_error _ _ _ _ he with hk | hk | hk
      · exact absurd hk (by decide)
      · exact absurd hk (by decide)
      · exact absurd hk (by decide)
    · exact absurd hc (by simp)

/-- A call of `update` whose candidate lies between two adjacent points of an
alternating chain does not end in `exit (10)` or error 30. -/
theorem update_error_kinds (m : Libm α) (fuel : Nat) (env : arms_state α) (p : POINT α)
    (params : apop_arms_settings α) (l1 l2 : List Nat) (a b : Nat)
    (hc : IsChain env.p (l1 ++ a :: b :: l2)) (hal : Alternating env.p (l1 ++ a :: b :: l2))
    (hlt : ∀ s, s ∈ l1 ++ a :: b :: l2 → s < env.cpoint)
    (hpl : p.pl = some a) (hpr : p.pr = some b) (e : Fault)
    (h : update m fuel env p params = .error e) : e ≠ .exit 10 ∧ e ≠ .error 30 := by
  have hnull : (Fault.null ≠ .exit 10 ∧ Fault.null ≠ .error 30) := ⟨by decide, by decide⟩
  have ha : a < env.cpoint := hlt a (by simp)
  have hb : b < env.cpoint := hlt b (by simp)
  have hab : a ≠ b := by
    have := hc.2.1
    rw [List.nodup_append] at this
    have h2 := this.2.1
    simp only [List.nodup_cons, List.mem_cons, not_or] at h2
    exact h2.1.1
  have hflag : ((env.p a).f ≠ 0 ∧ (env.p b).f = 0) ∨ ((env.p a).f = 0 ∧ (env.p b).f ≠ 0) := by
    have := hal.2.2
    rw [List.chain'_append_cons_cons] at this
    exact this.2.1
  unfold update at h
  split_ifs at h with hne
  rcases bind_error _ _ _ h with h1 | ⟨P3, hs, h⟩
  · rcases update_splice_error _ _ _ _ _ h1 with hk | ⟨-, l, r, e1, e2, n1, n2⟩
    · rw [hk]
      exact hnull
    · rw [hpl] at e1
      rw [hpr] at e2
      simp only [Option.some.injEq] at e1 e2
      subst e1 e2
      have hlq : a ≠ env.cpoint := by omega
      have hlm : a ≠ env.cpoint + 1 := by omega
      have hrq : b ≠ env.cpoint := by omega
      have hrm : b ≠ env.cpoint + 1 := by omega
      simp only [Function.update_noteq hlq, Function.update_noteq hlm,
        Function.update_noteq hrq, Function.update_noteq hrm] at n1 n2
      rcases hflag with hf | hf
      · exact absurd hf n1
      · exact absurd hf n2
  rcases bind_error _ _ _ h with h1 | ⟨adj, hadj, h⟩
  · rw [update_adjust_error _ _ _ _ h1]
    exact hnull
  rcases bind_error _ _ _ h with h1 | ⟨rv, hrv, h⟩
  · obtain ⟨s1, s2, hcase, hf, hfr, e1, e2, e3, e4, e5, e6, e7, e8⟩ :=
      update_arena_shape env p params adj.2 P3 adj.1 a b hpl hpr ha hb hab hs hadj
    have hs1 : s1 ∉ l1 ++ a :: b :: l2 := by
      intro hc1
      have := hlt s1 hc1
      rcases hcase with ⟨k, -⟩ | ⟨k, -⟩ <;> omega
    have hs2 : s2 ∉ l1 ++ a :: b :: l2 := by
      intro hc1
      have := hlt s2 hc1
      rcases hcase with ⟨-, k, -⟩ | ⟨-, k, -⟩ <;> omega
    have h12 : s1 ≠ s2 := by
      rcases hcase with ⟨k1, k2, -⟩ | ⟨k1, k2, -⟩ <;> omega
    have hchain : IsChain adj.1 (l1 ++ a :: s1 :: s2 :: b :: l2) :=
      ⟨by simp, nodup_insert a b s1 s2 l1 l2 hc.2.1 hs1 hs2 h12,
        linked_insert env.p adj.1 a b s1 s2 l2 l1 none hc.2.2 hc.2.1 hs1 hs2 hfr
          e1 e2 e3 e4 e5 e6 e7 e8⟩
    have halt2 : Alternating adj.1 (l1 ++ a :: s1 :: s2 :: b :: l2) := by
      refine alternating_insert env.p adj.1 a b s1 s2 l1 l2 hal ?_ ?_
      · intro i hi
        exact hf i (fun hc1 => hs1 (hc1 ▸ hi)) (fun hc1 => hs2 (hc1 ▸ hi))
      · rcases hcase with ⟨-, -, k1, k2, k3, k4⟩ | ⟨-, -, k1, k2, k3, k4⟩
        · exact Or.inl ⟨k1, k3, k4, k2⟩
        · exact Or.inr ⟨k1, k3, k4, k2⟩
    have hq : env.cpoint ∈ l1 ++ a :: s1 :: s2 :: b :: l2 ∧ (adj.1 env.cpoint).f ≠ 0 := by
      rcases hcase with ⟨-, k2, -, -, -, k6⟩ | ⟨k1, -, -, -, k5, -⟩
      · rw [← k2]
        exact ⟨by simp, k6⟩
      · rw [← k1]
        exact ⟨by simp, k5⟩
    -- the flags one step and three steps away from the new point
    have stepl : ∀ x y, x ∈ l1 ++ a :: s1 :: s2 :: b :: l2 → (adj.1 x).pl = some y →
        y ∈ l1 ++ a :: s1 :: s2 :: b :: l2 ∧ ((adj.1 x).f ≠ 0 → (adj.1 y).f = 0) ∧
          ((adj.1 x).f = 0 → (adj.1 y).f ≠ 0) := by
      intro x y hx hy
      obtain ⟨g1, g2⟩ := alt_pl_flag adj.1 _ x y hchain halt2 hx hy
      refine ⟨g1, ?_, ?_⟩
      · intro hfx
        rcases g2 with ⟨-, k⟩ | ⟨k, -⟩
        · exact absurd k hfx
        · exact k
      · intro hfx
        rcases g2 with ⟨k, -⟩ | ⟨-, k⟩
        · exact k
        · exact absurd hfx k
    have stepr : ∀ x y, x ∈ l1 ++ a :: s1 :: s2 :: b :: l2 → (adj.1 x).pr = some y →
        y ∈ l1 ++ a :: s1 :: s2 :: b :: l2 ∧ ((adj.1 x).f ≠ 0 → (adj.1 y).f = 0) ∧
          ((adj.1 x).f = 0 → (adj.1 y).f ≠ 0) := by
      intro x y hx hy
      obtain ⟨g1, g2⟩ := alt_pr_flag adj.1 _ x y hchain halt2 hx hy
      refine ⟨g1, ?_, ?_⟩
      · intro hfx
        rcases g2 with ⟨-, k⟩ | ⟨k, -⟩
        · exact k
        · exact absurd k hfx
      · intro hfx
        rcases g2 with ⟨k, -⟩ | ⟨-, k⟩
        · exact absurd hfx k
        · exact k
    refine update_meets_error _ _ _ _ h1 ?_ ?_ ?_ ?_
    · intro x hx
      exact (stepl _ _ hq.1 hx).2.1 hq.2
    · intro x hx
      exact (stepr _ _ hq.1 hx).2.1 hq.2
    · intro x x2 x3 hx hx2 hx3
      obtain ⟨m1, f1, -⟩ := stepl _ _ hq.1 hx
      obtain ⟨m2, -, f2⟩ := stepl _ _ m1 hx2
      obtain ⟨-, f3, -⟩ := stepl _ _ m2 hx3
      exact f3 (f2 (f1 hq.2))
    · intro x x2 x3 hx hx2 hx3
      obtain ⟨m1, f1, -⟩ := stepr _ _ hq.1 hx
      obtain ⟨m2, -, f2⟩ := stepr _ _ m1 hx2
      obtain ⟨-, f3, -⟩ := stepr _ _ m2 hx3
      exact f3 (f2 (f1 hq.2))
  split_ifs at h
  · exact absurd h (pure_ne_error _ _)
  · rcases bind_error _ _ _ h with h1 | ⟨env2, -, h⟩
    · rcases cumulate_error _ _ _ _ h1 with hk | hk | hk
      · rw [hk]
        exact ⟨by decide, by decide⟩
      · rw [hk]
        exact ⟨by decide, by decide⟩
      · rw [hk]
        exact ⟨by decide, by decide⟩
    · exact absurd h (pure_ne_error _ _)

/-- C28: `exit (10)` of `update` and error 30 of `meet` are unreachable.  The
function `initial` never fails with error 30.  On an envelope (a chain `l`
holding slot 0, all of whose slots are in use) with alternating on-curve
flags, a candidate returned by `invert` has for `pl`, `pr` two adjacent points
of the chain of which exactly one is on-curve, and `update` on a point with
these neighbours ends neither in `exit (10)` nor in error 30. -/
theorem update_invariant_faults_unreachable (m : Libm α) (fuel : Nat) :
    (∀ (mem : Nat → POINT α) (params : apop_arms_settings α) (env : arms_state α),
      initial m fuel mem params env ≠ .error (.error 30)) ∧
    (∀ (env : arms_state α) (p p1 : POINT α) (prob : α) (l : List Nat),
      IsChain env.p l → Alternating env.p l → 0 ∈ l → (∀ s, s ∈ l → s < env.cpoint) →
      invert m fuel prob env p = .ok p1 →
      ∃ a b l1 l2, p1.pl = some a ∧ p1.pr = some b ∧ l = l1 ++ a :: b :: l2 ∧
        (((env.p a).f ≠ 0 ∧ (env.p b).f = 0) ∨ ((env.p a).f = 0 ∧ (env.p b).f ≠ 0)) ∧
        ∀ (p2 : POINT α) (params : apop_arms_settings α), p2.pl = p1.pl → p2.pr = p1.pr →
          update m fuel env p2 params ≠ .error (.exit 10) ∧
          update m fuel env p2 params ≠ .error (.error 30)) := by
  refine ⟨fun mem params env => initial_no_error_30 m fuel mem params env, ?_⟩
  intro env p p1 prob l hc hal h0 hlt hinv
  obtain ⟨q0, q, lq, hr, hw, hpl, e1, e2⟩ := invert_ok_fields m fuel prob env p p1 hinv
  have hq0 := rightmost_mem env.p l hc.2.2 q0 fuel 0 h0 hr
  have hq := invert_walk_mem env.p _ l hc.2.2 q fuel q0 hq0 hw
  obtain ⟨l1, l2, hl⟩ := chain_pl_adjacent env.p l q lq hc.2.2 hq hpl
  subst hl
  have hflag := hal.2.2
  rw [List.chain'_append_cons_cons] at hflag
  refine ⟨lq, q, l1, l2, e1, e2, rfl, hflag.2.1, ?_⟩
  intro p2 params h1 h2
  constructor
  · intro hu
    exact (update_error_kinds m fuel env p2 params l1 l2 lq q hc hal hlt (h1.trans e1)
      (h2.trans e2) _ hu).1 rfl
  · intro hu
    exact (update_error_kinds m fuel env p2 params l1 l2 lq q hc hal hlt (h1.trans e1)
      (h2.trans e2) _ hu).2 rfl

end Unreachable

/-- Witness for C28: on the envelope `ex_env9` the candidate that `invert`
returns at `prob = 1/2` lies between two adjacent points, and `update` on it
ends neither in `exit (10)` nor in error 30. -/
theorem update_invariant_faults_unreachable_witness :
    ∃ p1 a b, invert ratLibm 10 (1 / 2) ex_env9 ex_work = .ok p1 ∧
      p1.pl = some a ∧ p1.pr = some b ∧
      update ratLibm 10 ex_env9 { p1 with f := 1 } ex_settings ≠ .error (.exit 10) ∧
      update ratLibm 10 ex_env9 { p1 with f := 1 } ex_settings ≠ .error (.error 30) := by
  obtain ⟨p1, hv, -⟩ :=
    ok_of_check (invert ratLibm 10 (1 / 2) ex_env9 ex_work) (fun _ => true)
      (by with_unfolding_all rfl)
  obtain ⟨a, b, l1, l2, h1, h2, -, -, h5⟩ :=
    (update_invariant_faults_unreachable ratLibm 10).2 ex_env9 ex_work p1 (1 / 2)
      (List.range 7)
      (by simp [IsChain, Linked, List.range, List.range.loop, ex_env9, ex_env, ex_arena])
      (by simp [Alternating, List.range, List.range.loop, ex_env9, ex_env, ex_arena])
      (by decide)
      (by simp [ex_env9, ex_env])
      hv
  exact ⟨p1, a, b, hv, h1, h2, h5 { p1 with f := 1 } ex_settings rfl rfl⟩

/-! ## The order of the abscissae along the envelope -/

section Order
variable {α : Type} [LinearOrderedField α]

/-- A chain with alternating flags is non-decreasing in `x` when each of its
intersection points is in order with its neighbours. -/
theorem xsorted_of_local (P : Nat → POINT α) (l : List Nat) (hc : IsChain P l)
    (hal : Alternating P l) (h : ∀ X, X ∈ l → (P X).f = 0 → LocalOrder P X) :
    XSorted P l := by
  unfold XSorted
  rw [List.chain'_iff_get]
  intro i hi
  have halt := hal.2.2
  rw [List.chain'_iff_get] at halt
  have hi0 : i < l.length := by omega
  have hi1 : i + 1 < l.length := by omega
  have g0 : l[i]? = some (l.get ⟨i, hi0⟩) := by simp [List.getElem?_eq_getElem hi0]
  have g1 : l[i + 1]? = some (l.get ⟨i + 1, hi1⟩) := by simp [List.getElem?_eq_getElem hi1]
  rcases halt i hi with ⟨-, hv⟩ | ⟨hu, -⟩
  · have hlo := h _ (List.get_mem l (i + 1) hi1) hv
    have hpl := (linked_getElem P l none (i + 1) _ hc.2.2 g1).1
    rw [if_neg (by omega), Nat.add_sub_cancel, g0] at hpl
    exact hlo.1 _ hpl
  · have hlo := h _ (List.get_mem l i hi0) hu
    have hpr := (linked_getElem P l none i _ hc.2.2 g0).2
    rw [g1] at hpr
    exact hlo.2 _ hpr

omit [LinearOrderedField α] in
theorem chain'_middle (l1 l2 : List Nat) (a b : Nat)
    (R : Nat → Nat → Prop) (h : List.Chain' R (l1 ++ a :: b :: l2)) : R a b := by
  rw [List.chain'_append_cons_cons] at h
  exact h.2.1

/-- In a chain that is non-decreasing in `x` every point is in order with its
neighbours. -/
theorem local_of_xsorted (P : Nat → POINT α) (l : List Nat) (hc : IsChain P l)
    (hx : XSorted P l) (X : Nat) (hX : X ∈ l) : LocalOrder P X := by
  constructor
  · intro a ha
    obtain ⟨l1, l2, rfl⟩ := chain_pl_adjacent P l X a hc.2.2 hX ha
    exact chain'_middle l1 l2 a X _ hx
  · intro b hb
    obtain ⟨l1, l2, rfl⟩ := chain_pr_adjacent P l X b hc.2.2 hX hb
    exact chain'_middle l1 l2 X b _ hx

/-- A call of `meet` that returns 0 puts its point in order with its
neighbours, and keeps every other intersection point of the chain that was in
order so. -/
theorem meet_local_step (Y : Nat) (env env1 : arms_state α) (params : apop_arms_settings α)
    (l : List Nat) (hm : meet Y env params = .ok (0, env1)) (hc : IsChain env.p l)
    (hal : Alternating env.p l) (X : Nat) (hX : X ∈ l)
    (hf : (env.p X).f = 0) (h : X = Y ∨ LocalOrder env.p X) : LocalOrder env1.p X := by
  obtain ⟨hfY, hcase⟩ := meet_ok Y env env1 params 0 hm
  obtain ⟨x, y, he⟩ : ∃ x y,
      env1 = { env with p := Function.update env.p Y { env.p Y with x := x, y := y } } := by
    rcases hcase with ⟨-, hh⟩ | ⟨hh, -⟩
    · exact hh
    · exact absurd hh (by decide)
  -- the neighbours of an intersection point are on-curve, so they are not `Y`
  have hnl : ∀ a, (env.p X).pl = some a → a ≠ Y := by
    intro a ha hay
    rcases (alt_pl_flag env.p l X a hc hal hX ha).2 with ⟨h1, -⟩ | ⟨-, h2⟩
    · rw [hay] at h1
      exact h1 hfY
    · exact h2 hf
  have hnr : ∀ b, (env.p X).pr = some b → b ≠ Y := by
    intro b hb hby
    rcases (alt_pr_flag env.p l X b hc hal hX hb).2 with ⟨h1, -⟩ | ⟨-, h2⟩
    · exact h1 hf
    · rw [hby] at h2
      exact h2 hfY
  have hlinks : (env1.p X).pl = (env.p X).pl ∧ (env1.p X).pr = (env.p X).pr := by
    rw [he]
    dsimp only
    by_cases hXY : X = Y
    · subst hXY
      rw [Function.update_same]
      exact ⟨rfl, rfl⟩
    · rw [Function.update_noteq hXY]
      exact ⟨rfl, rfl⟩
  have hother : ∀ a, a ≠ Y → (env1.p a).x = (env.p a).x := by
    intro a ha
    rw [he]
    dsimp only
    rw [Function.update_noteq ha]
  by_cases hXY : X = Y
  · subst hXY
    obtain ⟨b1, b2, -⟩ := meet_ok_x X env env1 params hm
    constructor
    · intro a ha
      rw [hlinks.1] at ha
      rw [hother a (hnl a ha)]
      exact b1 a ha
    · intro b hb
      rw [hlinks.2] at hb
      rw [hother b (hnr b hb)]
      exact b2 b hb
  · rcases h with h | h
    · exact absurd h hXY
    · constructor
      · intro a ha
        rw [hlinks.1] at ha
        rw [hother a (hnl a ha), hother X hXY]
        exact h.1 a ha
      · intro b hb
        rw [hlinks.2] at hb
        rw [hother b (hnr b hb), hother X hXY]
        exact h.2 b hb

/-- A call of `meet` that returns keeps the chain and its flags. -/
theorem meet_keeps_chain (Y : Nat) (env env1 : arms_state α) (params : apop_arms_settings α)
    (rc : Int) (l : List Nat) (hm : meet Y env params = .ok (rc, env1)) (hc : IsChain env.p l)
    (hal : Alternating env.p l) :
    IsChain env1.p l ∧ Alternating env1.p l ∧ ∀ i, (env1.p i).f = (env.p i).f := by
  have fr := (meet_frame Y env env1 params rc hm).2.2
  exact ⟨sameShape_isChain (meetFrame_sameShape fr) l hc,
    sameShape_alternating (meetFrame_sameShape fr) l hal, fun i => (fr i).2.2.1⟩

/-- The intersection loop of `initial`, when it returns 0, puts every point
that it has met in order with its neighbours. -/
theorem initial_meets_local (params : apop_arms_settings α) (l : List Nat) :
    ∀ (n j : Nat) (env env1 : arms_state α), IsChain env.p l → Alternating env.p l →
      initial_meets params n j env = .ok (0, env1) →
      ∀ X, X ∈ l → (env.p X).f = 0 → ((∃ k, k < n ∧ X = j + 2 * k) ∨ LocalOrder env.p X) →
        LocalOrder env1.p X := by
  intro n
  induction n with
  | zero =>
    intro j env env1 _ _ h X _ _ hX
    simp only [initial_meets, Except.ok.injEq, Prod.mk.injEq, true_and] at h
    rw [← h]
    rcases hX with ⟨k, hk, -⟩ | hX
    · exact absurd hk (by omega)
    · exact hX
  | succ n ih =>
    intro j env env1 hc hal h X hXl hf hX
    unfold initial_meets at h
    split at h
    · exact absurd h (by simp)
    · rename_i rc e1 hm
      split_ifs at h with hrc
      · simp only [Except.ok.injEq, Prod.mk.injEq] at h
        exact absurd h.1 (by decide)
      · have hrc0 : rc = 0 := not_not.mp hrc
        subst hrc0
        obtain ⟨hc1, hal1, hfl⟩ := meet_keeps_chain j env e1 params 0 l hm hc hal
        refine ih (j + 2) e1 env1 hc1 hal1 h X hXl (by rw [hfl]; exact hf) ?_
        rcases hX with ⟨k, hk, hXk⟩ | hX
        · cases k with
          | zero =>
            right
            exact meet_local_step j env e1 params l hm hc hal X hXl hf (Or.inl (by simpa using hXk))
          | succ k =>
            left
            exact ⟨k, by omega, by rw [hXk]; ring⟩
        · right
          exact meet_local_step j env e1 params l hm hc hal X hXl hf (Or.inr hX)

end Order
section InitialOrder
variable {α : Type} [LinearOrderedField α]

omit [LinearOrderedField α] in
/-- An arena whose slots `0, ..., 2N` are linked in this order, with the odd
slots flagged on-curve, is an alternating chain. -/
theorem chain_of_spec (P : Nat → POINT α) (N : Nat)
    (h : ∀ i, i ≤ 2 * N →
      (P i).pl = (if i = 0 then none else some (i - 1)) ∧
      (P i).pr = (if i = 2 * N then none else some (i + 1)) ∧
      (P i).f = (if i % 2 ≠ 0 then 1 else 0)) :
    IsChain P (List.range (2 * N + 1)) ∧ Alternating P (List.range (2 * N + 1)) := by
  constructor
  · refine ⟨by simp, List.nodup_range _, ?_⟩
    rw [List.range_eq_range']
    have := linked_range' P (2 * N + 1) (2 * N + 1) 0 (by omega)
      (fun i _ hi => by
        obtain ⟨a1, a2, -⟩ := h i (by omega)
        refine ⟨a1, ?_⟩
        rw [a2]
        by_cases hiN : i = 2 * N
        · rw [if_pos hiN, if_pos (by omega)]
        · rw [if_neg hiN, if_neg (by omega)])
    simpa using this
  · refine ⟨?_, ?_, ?_⟩
    · intro a ha
      have : a = 0 := by
        rw [List.range_succ_eq_map] at ha
        simpa using ha.symm
      subst this
      rw [(h 0 (by omega)).2.2, if_neg (by omega)]
    · intro a ha
      have : a = 2 * N := by
        rw [List.range_succ, List.getLast?_append_of_ne_nil _ (by simp)] at ha
        simpa using ha.symm
      subst this
      rw [(h (2 * N) (le_refl _)).2.2, if_neg (by omega)]
    · rw [List.chain'_iff_get]
      intro i hi
      simp only [List.length_range] at hi
      simp only [List.get_eq_getElem, List.getElem_range]
      rw [(h i (by omega)).2.2, (h (i + 1) (by omega)).2.2]
      by_cases hodd : i % 2 ≠ 0
      · rw [if_pos hodd, if_neg (by omega)]
        exact Or.inl ⟨by decide, rfl⟩
      · rw [if_neg hodd, if_pos (by omega)]
        exact Or.inr ⟨rfl, by decide⟩

/-- The envelope built by `initial_envelope` is non-decreasing in `x`. -/
theorem initial_envelope_sorted (m : Libm α) (fuel : Nat) (mem : Nat → POINT α)
    (params params1 : apop_arms_settings α) (env env1 : arms_state α)
    (hn : 1 ≤ params.ninit)
    (h : initial_envelope m fuel mem params env = .ok (0, params1, env1)) :
    XSorted env1.p (List.range (2 * params.ninit + 1)) := by
  obtain ⟨-, hA⟩ := initial_arena_spec mem params hn
  have hspec := chain_of_spec _ params.ninit
    (fun i hi => ⟨(hA i hi).1, (hA i hi).2.1, (hA i hi).2.2.1⟩)
  unfold initial_envelope at h
  dsimp only at h
  split at h
  · exact absurd h (by simp)
  · rename_i rc1 env2 hm
    split at h
    · simp only [Except.ok.injEq, Prod.mk.injEq] at h
      exact absurd h.1 (by decide)
    · rename_i hrc
      have hrc0 : rc1 = 0 := not_not.mp hrc
      subst hrc0
      split at h
      · exact absurd h (by simp)
      · rename_i env3 hcu
        obtain ⟨-, hcf⟩ := cumulate_frame _ _ _ _ hcu
        obtain ⟨-, -, hmf⟩ := initial_meets_frame _ _ _ _ _ _ hm
        simp only [Except.ok.injEq, Prod.mk.injEq, true_and] at h
        obtain ⟨-, h2⟩ := h
        subst h2
        have hc2 := sameShape_isChain (meetFrame_sameShape hmf) _ hspec.1
        have hal2 := sameShape_alternating (meetFrame_sameShape hmf) _ hspec.2
        have hlo : ∀ X, X ∈ List.range (2 * params.ninit + 1) → (env2.p X).f = 0 →
            LocalOrder env2.p X := by
          intro X hX hf
          have hX2 : X < 2 * params.ninit + 1 := by simpa using hX
          have hf0 := hf
          rw [(hmf X).2.2.1] at hf0
          dsimp only at hf0
          refine initial_meets_local _ _ _ _ _ _ hspec.1 hspec.2 hm X hX hf0 (Or.inl ?_)
          have hev : X % 2 = 0 := by
            by_contra hodd
            rw [(hA X (by omega)).2.2.1, if_pos hodd] at hf0
            exact absurd hf0 (by decide)
          exact ⟨X / 2, by omega, by omega⟩
        have hx2 := xsorted_of_local env2.p _ hc2 hal2 hlo
        unfold XSorted at hx2 ⊢
        refine List.Chain'.imp ?_ hx2
        intro a b hab
        show (env3.p a).x ≤ (env3.p b).x
        rw [(hcf a).1, (hcf b).1]
        exact hab

end InitialOrder
section UpdateOrder
variable {α : Type} [LinearOrderedField α]

/-- The splice and the adjustment of `update` write `x` only in the slot of the
new point. -/
theorem update_arena_x (env : arms_state α) (p : POINT α) (params params1 : apop_arms_settings α)
    (P3 P4 : Nat → POINT α) (a b : Nat)
    (hpl : p.pl = some a) (hpr : p.pr = some b)
    (ha : a < env.cpoint) (hb : b < env.cpoint) (hab : a ≠ b)
    (hs : update_splice
        (Function.update
          (Function.update env.p env.cpoint { env.p env.cpoint with x := p.x, y := p.y, f := 1 })
          (env.cpoint + 1)
          { (Function.update env.p env.cpoint
              { env.p env.cpoint with x := p.x, y := p.y, f := 1 }) (env.cpoint + 1) with f := 0 })
        p env.cpoint (env.cpoint + 1) = .ok P3)
    (hadj : update_adjust P3 params env.cpoint = .ok (P4, params1)) :
    ∀ i, i ≠ env.cpoint → (P4 i).x = (env.p i).x := by
  obtain ⟨x4, y4, hP4⟩ := update_adjust_ok _ _ _ _ _ hadj
  have hqm : env.cpoint ≠ env.cpoint + 1 := by omega
  have hlq : a ≠ env.cpoint := by omega
  have hlm : a ≠ env.cpoint + 1 := by omega
  have hrq : b ≠ env.cpoint := by omega
  have hrm : b ≠ env.cpoint + 1 := by omega
  have hsp := update_splice_ok _ _ p _ _ a b hpl hpr hqm hlq hlm hrq hrm hab hs
  intro i hi
  rw [hP4, Function.update_noteq hi]
  rcases hsp with ⟨-, -, hP3⟩ | ⟨-, -, hP3⟩
  · rw [hP3]
    simp only [Function.update_apply]
    split_ifs <;> simp_all
  · rw [hP3]
    simp only [Function.update_apply]
    split_ifs <;> simp_all

/-- The revision of the intersection points in `update`, when it reports no
violation, puts the two neighbours of the new point in order with their
neighbours, and keeps every other intersection point of the chain that was in
order so. -/
theorem update_meets_local (env env2 : arms_state α) (params : apop_arms_settings α)
    (qi : Nat) (l : List Nat) (h : update_meets env params qi = .ok (false, env2))
    (hc : IsChain env.p l) (hal : Alternating env.p l) (hq : qi ∈ l) (X : Nat) (hX : X ∈ l) (hf : (env.p X).f = 0)
    (hX3 : (env.p qi).pl = some X ∨ (env.p qi).pr = some X ∨ LocalOrder env.p X) :
    LocalOrder env2.p X := by
  have dok : ∀ (o : Option Nat) (i : Nat), deref o = .ok i → o = some i := by
    intro o i hd
    unfold deref at hd
    split at hd
    · simp only [Except.ok.injEq] at hd
      rw [hd]
    · exact absurd hd (by simp)
  -- one call of `meet` on a point of the chain
  have step : ∀ (Y : Nat) (e1 e2 : arms_state α) (rc : Int),
      meet Y e1 params = .ok (rc, e2) → rc = 0 → MeetFrame env.p e1.p → Y ∈ l →
      MeetFrame env.p e2.p ∧ ((X = Y ∨ LocalOrder e1.p X) → LocalOrder e2.p X) := by
    intro Y e1 e2 rc hm hrc hfr hY
    subst hrc
    have hc1 := sameShape_isChain (meetFrame_sameShape hfr) l hc
    have hal1 := sameShape_alternating (meetFrame_sameShape hfr) l hal
    refine ⟨meetFrame_trans hfr (meet_frame Y e1 e2 params 0 hm).2.2, ?_⟩
    intro hh
    exact meet_local_step Y e1 e2 params l hm hc1 hal1 X hX
      (by rw [(hfr X).2.2.1]; exact hf) hh
  unfold update_meets at h
  obtain ⟨a, ha, h⟩ := bind_ok _ _ _ h
  have ha := dok _ _ ha
  have hal_mem := (alt_pl_flag env.p l qi a hc hal hq ha).1
  obtain ⟨r1, hr1, h⟩ := bind_ok _ _ _ h
  split_ifs at h with c1
  · have := pure_ok _ _ h
    simp only [Prod.mk.injEq] at this
    exact absurd this.1 (by decide)
  obtain ⟨f1, s1⟩ := step a env r1.2 r1.1 hr1 (not_not.mp c1) (meetFrame_refl _) hal_mem
  obtain ⟨b, hb, h⟩ := bind_ok _ _ _ h
  have hb := dok _ _ hb
  rw [(f1 qi).2.2.2.2.1] at hb
  have hb_mem := (alt_pr_flag env.p l qi b hc hal hq hb).1
  obtain ⟨r2, hr2, h⟩ := bind_ok _ _ _ h
  split_ifs at h with c2
  · have := pure_ok _ _ h
    simp only [Prod.mk.injEq] at this
    exact absurd this.1 (by decide)
  obtain ⟨f2, s2⟩ := step b r1.2 r2.2 r2.1 hr2 (not_not.mp c2) f1 hb_mem
  have lo2 : LocalOrder r2.2.p X := by
    rcases hX3 with hx | hx | hx
    · rw [ha] at hx
      simp only [Option.some.injEq] at hx
      exact s2 (Or.inr (s1 (Or.inl hx.symm)))
    · rw [hb] at hx
      simp only [Option.some.injEq] at hx
      exact s2 (Or.inl hx.symm)
    · exact s2 (Or.inr (s1 (Or.inr hx)))
  obtain ⟨a', ha', h⟩ := bind_ok _ _ _ h
  have ha' := dok _ _ ha'
  rw [(f2 qi).2.2.2.1, ha] at ha'
  simp only [Option.some.injEq] at ha'
  subst ha'
  obtain ⟨r3, hr3, h⟩ := bind_ok _ _ _ h
  have f3s : MeetFrame env.p r3.2.p ∧ LocalOrder r3.2.p X ∧ r3.1 = 0 := by
    split_ifs at h with c3
    · have := pure_ok _ _ h
      simp only [Prod.mk.injEq] at this
      exact absurd this.1 (by decide)
    · split at hr3
      · have := pure_ok _ _ hr3
        rw [← this]
        exact ⟨f2, lo2, rfl⟩
      · rename_i a2 ha2
        rw [(f2 a).2.2.2.1] at ha2
        obtain ⟨a3, ha3, hr3⟩ := bind_ok _ _ _ hr3
        have ha3 := dok _ _ ha3
        rw [(f2 a2).2.2.2.1] at ha3
        have m2 := (alt_pl_flag env.p l a a2 hc hal hal_mem ha2).1
        have m3 := (alt_pl_flag env.p l a2 a3 hc hal m2 ha3).1
        obtain ⟨f3, s3⟩ := step a3 r2.2 r3.2 r3.1 hr3 (not_not.mp c3) f2 m3
        exact ⟨f3, s3 (Or.inr lo2), not_not.mp c3⟩
  obtain ⟨f3, lo3, c3⟩ := f3s
  rw [if_neg (by rw [c3]; exact fun hh => hh rfl)] at h
  obtain ⟨b', hb', h⟩ := bind_ok _ _ _ h
  have hb' := dok _ _ hb'
  rw [(f3 qi).2.2.2.2.1, hb] at hb'
  simp only [Option.some.injEq] at hb'
  subst hb'
  obtain ⟨r4, hr4, h⟩ := bind_ok _ _ _ h
  split_ifs at h with c4
  · have := pure_ok _ _ h
    simp only [Prod.mk.injEq] at this
    exact absurd this.1 (by decide)
  · have h4 := pure_ok _ _ h
    simp only [Prod.mk.injEq, true_and] at h4
    rw [← h4]
    split at hr4
    · have := pure_ok _ _ hr4
      rw [← this]
      exact lo3
    · rename_i b2 hb2
      rw [(f3 b).2.2.2.2.1] at hb2
      obtain ⟨b3, hb3, hr4⟩ := bind_ok _ _ _ hr4
      have hb3 := dok _ _ hb3
      rw [(f3 b2).2.2.2.2.1] at hb3
      have m2 := (alt_pr_flag env.p l b b2 hc hal hb_mem hb2).1
      have m3 := (alt_pr_flag env.p l b2 b3 hc hal m2 hb3).1
      obtain ⟨-, s4⟩ := step b3 r3.2 r4.2 r4.1 hr4 (not_not.mp c4) f3 m3
      exact s4 (Or.inr lo3)

end UpdateOrder
section UpdateOrder2
variable {α : Type} [LinearOrderedField α]

/-- A call of `update` that returns 0 on a chain that is non-decreasing in `x`
leaves a chain that is non-decreasing in `x`, with the same end points at the
same abscissae. -/
theorem update_sorted (m : Libm α) (fuel : Nat) (env env1 : arms_state α) (p : POINT α)
    (params params1 : apop_arms_settings α) (l1 l2 : List Nat) (a b : Nat)
    (hc : IsChain env.p (l1 ++ a :: b :: l2)) (hal : Alternating env.p (l1 ++ a :: b :: l2))
    (hx : XSorted env.p (l1 ++ a :: b :: l2))
    (hlt : ∀ s, s ∈ l1 ++ a :: b :: l2 → s < env.cpoint)
    (hpl : p.pl = some a) (hpr : p.pr = some b)
    (h : update m fuel env p params = .ok (0, env1, params1)) :
    ∃ l, (l = l1 ++ a :: b :: l2 ∨
        l = l1 ++ a :: (env.cpoint + 1) :: env.cpoint :: b :: l2 ∨
        l = l1 ++ a :: env.cpoint :: (env.cpoint + 1) :: b :: l2) ∧
      IsChain env1.p l ∧ Alternating env1.p l ∧ XSorted env1.p l ∧
      (∀ s, s ∈ l → s < env1.cpoint) ∧
      (∀ i, i ∈ l1 ++ a :: b :: l2 → ((env.p i).pl = none ∨ (env.p i).pr = none) →
        (env1.p i).x = (env.p i).x ∧
          ((env1.p i).pl = none ∨ (env1.p i).pr = none)) := by
  by_cases hne : ¬ (p.f ≠ 0) ∨ ((env.cpoint : Int) > (env.npoint : Int) - 2)
  · unfold update at h
    rw [if_pos hne] at h
    simp only [Except.ok.injEq, Prod.mk.injEq, true_and] at h
    rw [← h.1]
    exact ⟨_, Or.inl rfl, hc, hal, hx, hlt, fun i _ hi => ⟨rfl, hi⟩⟩
  have ha : a < env.cpoint := hlt a (by simp)
  have hb : b < env.cpoint := hlt b (by simp)
  have hab : a ≠ b := by
    have := hc.2.1
    rw [List.nodup_append] at this
    have h2 := this.2.1
    simp only [List.nodup_cons, List.mem_cons, not_or] at h2
    exact h2.1.1
  obtain ⟨P3, P4, env2, bb, hs, hadj, hm, hcase⟩ :=
    update_ok m fuel env env1 p params params1 0 hne h
  have hcum : bb = false ∧ cumulate m fuel env2 = .ok env1 := by
    rcases hcase with ⟨-, h1, -⟩ | ⟨h1, -, h3⟩
    · exact absurd h1 (by decide)
    · exact ⟨h1, h3⟩
  obtain ⟨hbb, hcum⟩ := hcum
  subst hbb
  obtain ⟨s1, s2, hcs, hf, hfr, e1, e2, e3, e4, e5, e6, e7, e8⟩ :=
    update_arena_shape env p params params1 P3 P4 a b hpl hpr ha hb hab hs hadj
  have hxs := update_arena_x env p params params1 P3 P4 a b hpl hpr ha hb hab hs hadj
  have hs1 : s1 ∉ l1 ++ a :: b :: l2 := by
    intro hc1
    have := hlt s1 hc1
    rcases hcs with ⟨k, -⟩ | ⟨k, -⟩ <;> omega
  have hs2 : s2 ∉ l1 ++ a :: b :: l2 := by
    intro hc1
    have := hlt s2 hc1
    rcases hcs with ⟨-, k, -⟩ | ⟨-, k, -⟩ <;> omega
  have h12 : s1 ≠ s2 := by
    rcases hcs with ⟨k1, k2, -⟩ | ⟨k1, k2, -⟩ <;> omega
  have hchain : IsChain P4 (l1 ++ a :: s1 :: s2 :: b :: l2) :=
    ⟨by simp, nodup_insert a b s1 s2 l1 l2 hc.2.1 hs1 hs2 h12,
      linked_insert env.p P4 a b s1 s2 l2 l1 none hc.2.2 hc.2.1 hs1 hs2 hfr
        e1 e2 e3 e4 e5 e6 e7 e8⟩
  have halt2 : Alternating P4 (l1 ++ a :: s1 :: s2 :: b :: l2) := by
    refine alternating_insert env.p P4 a b s1 s2 l1 l2 hal ?_ ?_
    · intro i hi
      exact hf i (fun hc1 => hs1 (hc1 ▸ hi)) (fun hc1 => hs2 (hc1 ▸ hi))
    · rcases hcs with ⟨-, -, k1, k2, k3, k4⟩ | ⟨-, -, k1, k2, k3, k4⟩
      · exact Or.inl ⟨k1, k3, k4, k2⟩
      · exact Or.inr ⟨k1, k3, k4, k2⟩
  have hq : env.cpoint ∈ l1 ++ a :: s1 :: s2 :: b :: l2 := by
    rcases hcs with ⟨-, k2, -⟩ | ⟨k1, -⟩
    · rw [← k2]
      simp
    · rw [← k1]
      simp
  have hold : ∀ X, X ∈ l1 ++ a :: s1 :: s2 :: b :: l2 → X ≠ s1 → X ≠ s2 →
      X ∈ l1 ++ a :: b :: l2 := by
    intro X hX n1 n2
    simp only [List.mem_append, List.mem_cons] at hX ⊢
    tauto
  have hqold : ∀ X, X ∈ l1 ++ a :: b :: l2 → X ≠ env.cpoint := by
    intro X hX hXq
    have := hlt X hX
    omega
  obtain ⟨hsc, -, hmf⟩ := update_meets_frame _ _ _ _ _ hm
  obtain ⟨hsc2, hcf⟩ := cumulate_frame _ _ _ _ hcum
  -- every intersection point of the new chain ends up in order
  have hlo : ∀ X, X ∈ l1 ++ a :: s1 :: s2 :: b :: l2 → (env2.p X).f = 0 →
      LocalOrder env2.p X := by
    intro X hX hfX
    have hfX4 : (P4 X).f = 0 := by
      rw [← (hmf X).2.2.1]
      exact hfX
    refine update_meets_local _ env2 params1 env.cpoint _ hm hchain halt2 hq X hX hfX4 ?_
    dsimp only
    by_cases c1 : X = s1
    · subst c1
      rcases hcs with ⟨-, k2, -⟩ | ⟨-, -, -, -, k5, -⟩
      · rw [← k2]
        exact Or.inl e5
      · exact absurd hfX4 k5
    by_cases c2 : X = s2
    · subst c2
      rcases hcs with ⟨-, -, -, -, -, k6⟩ | ⟨k1, -⟩
      · exact absurd hfX4 k6
      · rw [← k1]
        exact Or.inr (Or.inl e4)
    have hXold := hold X hX c1 c2
    have hfXe : (env.p X).f = 0 := by
      rw [← hf X c1 c2]
      exact hfX4
    by_cases c3 : X = a
    · subst c3
      rcases hcs with ⟨-, -, k3, -⟩ | ⟨k1, -⟩
      · exact absurd hfXe k3
      · rw [← k1]
        exact Or.inl e3
    by_cases c4 : X = b
    · subst c4
      rcases hcs with ⟨-, k2, -⟩ | ⟨-, -, -, k4, -⟩
      · rw [← k2]
        exact Or.inr (Or.inl e6)
      · exact absurd hfXe k4
    right
    right
    have hloe := local_of_xsorted env.p _ hc hx X hXold
    obtain ⟨g1, g2⟩ := hfr X c3 c4 c1 c2
    constructor
    · intro a' ha'
      rw [g1] at ha'
      have hm' := (alt_pl_flag env.p _ X a' hc hal hXold ha').1
      rw [hxs a' (hqold a' hm'), hxs X (hqold X hXold)]
      exact hloe.1 a' ha'
    · intro b' hb'
      rw [g2] at hb'
      have hm' := (alt_pr_flag env.p _ X b' hc hal hXold hb').1
      rw [hxs b' (hqold b' hm'), hxs X (hqold X hXold)]
      exact hloe.2 b' hb'
  have hc2 := sameShape_isChain (meetFrame_sameShape hmf) _ hchain
  have hal2 := sameShape_alternating (meetFrame_sameShape hmf) _ halt2
  have hx2 := xsorted_of_local env2.p _ hc2 hal2 hlo
  have hcp : env1.cpoint = env.cpoint + 2 := hsc2.1.trans hsc.1
  refine ⟨l1 ++ a :: s1 :: s2 :: b :: l2, ?_, sameShape_isChain (cumFrame_sameShape hcf) _ hc2,
    sameShape_alternating (cumFrame_sameShape hcf) _ hal2, ?_, ?_, ?_⟩
  · rcases hcs with ⟨k1, k2, -⟩ | ⟨k1, k2, -⟩
    · rw [k1, k2]
      exact Or.inr (Or.inl rfl)
    · rw [k1, k2]
      exact Or.inr (Or.inr rfl)
  · unfold XSorted at hx2 ⊢
    refine List.Chain'.imp ?_ hx2
    intro u v huv
    rw [(hcf u).1, (hcf v).1]
    exact huv
  · intro s hs
    rw [hcp]
    by_cases c1 : s = s1
    · rcases hcs with ⟨k, -⟩ | ⟨k, -⟩ <;> omega
    by_cases c2 : s = s2
    · rcases hcs with ⟨-, k, -⟩ | ⟨-, k, -⟩ <;> omega
    have := hlt s (hold s hs c1 c2)
    omega
  · intro i hi hbd
    have hiq := hqold i hi
    have his1 : i ≠ s1 := fun hh => hs1 (hh ▸ hi)
    have his2 : i ≠ s2 := fun hh => hs2 (hh ▸ hi)
    have hapr : (env.p a).pr = some b := by
      have := (linked_pr env.p a (b :: l2) l1 none hc.2.2).1
      simpa using this
    have hbpl : (env.p b).pl = some a := linked_pl env.p a b l2 l1 none hc.2.2
    have hbd4 : (P4 i).pl = none ∨ (P4 i).pr = none := by
      by_cases c3 : i = a
      · subst c3
        rcases hbd with hh | hh
        · exact Or.inl (e1.trans hh)
        · rw [hapr] at hh
          exact absurd hh (by simp)
      by_cases c4 : i = b
      · subst c4
        rcases hbd with hh | hh
        · rw [hbpl] at hh
          exact absurd hh (by simp)
        · exact Or.inr (e8.trans hh)
      obtain ⟨g1, g2⟩ := hfr i c3 c4 his1 his2
      rcases hbd with hh | hh
      · exact Or.inl (g1.trans hh)
      · exact Or.inr (g2.trans hh)
    refine ⟨?_, ?_⟩
    · rw [(hcf i).1, (hmf i).2.2.2.2.2.2 hbd4]
      exact hxs i hiq
    · rw [(hcf i).2.2.2.1, (hcf i).2.2.2.2, (hmf i).2.2.2.1, (hmf i).2.2.2.2.1]
      exact hbd4

end UpdateOrder2

section EnvelopeOrder
variable {α : Type} [LinearOrderedField α]

/-- C15 (amended): the envelope is non-decreasing in `x`, not strictly
increasing.  Whenever `initial` returns 0, the chain `0, ..., 2*ninit` is
non-decreasing in `x` when read from the leftmost to the rightmost point; and
whenever `update` returns 0 on an alternating chain that is non-decreasing in
`x`, where the candidate's `pl`, `pr` are adjacent points `a`, `b` of it, the
chain it leaves is again non-decreasing in `x`: each point's `x` is at least
its left neighbour's `x`. -/
theorem envelope_nondecreasing (m : Libm α) (fuel : Nat) :
    (∀ (mem : Nat → POINT α) (params params1 : apop_arms_settings α)
      (env env1 : arms_state α),
      initial m fuel mem params env = .ok (0, params1, env1) →
      IsChain env1.p (List.range (2 * params.ninit + 1)) ∧
      XSorted env1.p (List.range (2 * params.ninit + 1)) ∧
      ∀ i a, i ∈ List.range (2 * params.ninit + 1) → (env1.p i).pl = some a →
        (env1.p a).x ≤ (env1.p i).x) ∧
    (∀ (env env1 : arms_state α) (p : POINT α) (params params1 : apop_arms_settings α)
      (l1 l2 : List Nat) (a b : Nat),
      IsChain env.p (l1 ++ a :: b :: l2) → Alternating env.p (l1 ++ a :: b :: l2) →
      XSorted env.p (l1 ++ a :: b :: l2) →
      (∀ s ∈ l1 ++ a :: b :: l2, s < env.cpoint) →
      p.pl = some a → p.pr = some b →
      update m fuel env p params = .ok (0, env1, params1) →
      ∃ l, (l = l1 ++ a :: b :: l2 ∨
          l = l1 ++ a :: (env.cpoint + 1) :: env.cpoint :: b :: l2 ∨
          l = l1 ++ a :: env.cpoint :: (env.cpoint + 1) :: b :: l2) ∧
        IsChain env1.p l ∧ XSorted env1.p l ∧
        ∀ i c, i ∈ l → (env1.p i).pl = some c → (env1.p c).x ≤ (env1.p i).x) := by
  constructor
  · intro mem params params1 env env1 h
    rcases initial_ok_cases _ _ _ _ _ _ _ _ h with ⟨hc, -, -⟩ | ⟨hv, he⟩
    · simp at hc
    have hch := (initial_chain_flags m fuel mem params params1 env env1 h).2.1
    have hxs := initial_envelope_sorted m fuel mem params params1 env env1 (by omega) he
    exact ⟨hch, hxs, fun i a hi ha => (local_of_xsorted env1.p _ hch hxs i hi).1 a ha⟩
  · intro env env1 p params params1 l1 l2 a b hc hal hx hlt hpl hpr h
    obtain ⟨l, hl, h1, -, h3, -, -⟩ :=
      update_sorted m fuel env env1 p params params1 l1 l2 a b hc hal hx hlt hpl hpr h
    exact ⟨l, hl, h1, h3, fun i c hi hc1 => (local_of_xsorted env1.p _ h1 h3 i hi).1 c hc1⟩

end EnvelopeOrder

/-- Witness for C15: inserting `ex_new` between slots 3 and 4 of the envelope
`ex_env9` (chain `0, ..., 6`, abscissae `-2, -1, -1, 0, 1, 1, 2`) succeeds and
leaves a chain that is non-decreasing in `x`. -/
theorem envelope_nondecreasing_witness :
    ∃ env1 params1 l, update ratLibm 10 ex_env9 ex_new ex_settings = .ok (0, env1, params1) ∧
      IsChain env1.p l ∧ XSorted env1.p l := by
  obtain ⟨⟨rc, env1, params1⟩, hv, hc⟩ :=
    ok_of_check (update ratLibm 10 ex_env9 ex_new ex_settings) (fun v => decide (v.1 = 0))
      (by with_unfolding_all rfl)
  have hrc : rc = 0 := by simpa using hc
  subst hrc
  obtain ⟨l, -, h1, h2, -⟩ := (envelope_nondecreasing ratLibm 10).2 ex_env9 env1 ex_new
    ex_settings params1 [0, 1, 2] [5, 6] 3 4
    (by simp [IsChain, Linked, ex_env9, ex_env, ex_arena])
    (by simp [Alternating, ex_env9, ex_env, ex_arena])
    (by norm_num [XSorted, ex_env9, ex_env, ex_arena])
    (by simp [ex_env9, ex_env])
    rfl rfl hv
  exact ⟨env1, params1, l, hv, h1, h2⟩

/-! ## The samples lie within the bounds -/

section SampleBounds
variable {α : Type} [LinearOrderedField α]

/-- Along a chain that is non-decreasing in `x`, every abscissa lies between
those of the first and of the last point. -/
theorem xsorted_bounds (P : Nat → POINT α) (l : List Nat) (hx : XSorted P l) (a b i : Nat)
    (ha : l.head? = some a) (hb : l.getLast? = some b) (hi : i ∈ l) :
    (P a).x ≤ (P i).x ∧ (P i).x ≤ (P b).x := by
  haveI : IsTrans Nat (fun a b => (P a).x ≤ (P b).x) :=
    ⟨fun _ _ _ h1 h2 => le_trans h1 h2⟩
  have hp : List.Pairwise (fun a b => (P a).x ≤ (P b).x) l := List.chain'_iff_pairwise.1 hx
  constructor
  · cases l with
    | nil => simp at hi
    | cons c t =>
      simp only [List.head?_cons, Option.some.injEq] at ha
      subst ha
      rcases List.mem_cons.1 hi with rfl | hit
      · exact le_refl _
      · exact (List.pairwise_cons.1 hp).1 i hit
  · rcases List.eq_nil_or_concat l with rfl | ⟨t, z, rfl⟩
    · simp at hi
    · simp only [List.concat_eq_append, List.getLast?_append_of_ne_nil _ (List.cons_ne_nil z []),
        List.getLast?_singleton, Option.some.injEq] at hb
      subst hb
      rw [List.concat_eq_append] at hp hi
      rcases List.mem_append.1 hi with hit | hiz
      · exact (List.pairwise_append.1 hp).2.2 i hit z (by simp)
      · simp only [List.mem_singleton] at hiz
        rw [hiz]

/-- The working point that `invert` returns lies between the two points that it
gets as neighbours. -/
theorem invert_ok_bounds (m : Libm α) (fuel : Nat) (prob : α) (env : arms_state α)
    (p p1 : POINT α) (h : invert m fuel prob env p = .ok p1) :
    ∃ q0 q lq, rightmost env.p fuel 0 = .ok q0 ∧
      invert_walk env.p (prob * (env.p q0).cum) fuel q0 = .ok q ∧
      (env.p q).pl = some lq ∧ p1.pl = some lq ∧ p1.pr = some q ∧
      (env.p lq).x ≤ p1.x ∧ p1.x ≤ (env.p q).x := by
  have hg : ∀ (xl xr : α) (p2 : POINT α), invert_guard xl xr p2 = .ok p1 →
      p1 = p2 ∧ xl ≤ p2.x ∧ p2.x ≤ xr := by
    intro xl xr p2 hh
    unfold invert_guard at hh
    split_ifs at hh with hc
    simp only [Except.ok.injEq] at hh
    rw [not_or, not_lt, not_lt] at hc
    exact ⟨hh.symm, hc.1, hc.2⟩
  unfold invert at h
  split at h
  · exact absurd h (by simp)
  · rename_i q0 h0
    dsimp only at h
    split at h
    · exact absurd h (by simp)
    · rename_i q hq
      split at h
      · exact absurd h (by simp)
      · rename_i lq hlq
        refine ⟨q0, q, lq, h0, hq, hlq, ?_⟩
        split_ifs at h with hz
        · obtain ⟨e, -, -⟩ := hg _ _ _ h
          rw [e]
          exact ⟨rfl, rfl, le_of_eq hz, le_refl _⟩
        all_goals
          obtain ⟨e, e1, e2⟩ := hg _ _ _ h
          rw [e]
          exact ⟨rfl, rfl, e1, e2⟩

/-- The bounds and the Metropolis flag of the settings are not written by
`update`. -/
theorem update_params (m : Libm α) (fuel : Nat) (env env1 : arms_state α) (p : POINT α)
    (params params1 : apop_arms_settings α) (rc : Int)
    (h : update m fuel env p params = .ok (rc, env1, params1)) :
    params1.xl = params.xl ∧ params1.xr = params.xr ∧ params1.do_metro = params.do_metro := by
  have hadj : ∀ (P P1 : Nat → POINT α) (ps : apop_arms_settings α) (qi : Nat),
      update_adjust P params qi = .ok (P1, ps) →
      ps.xl = params.xl ∧ ps.xr = params.xr ∧ ps.do_metro = params.do_metro := by
    intro P P1 ps qi h
    unfold update_adjust at h
    obtain ⟨l, -, h⟩ := bind_ok _ _ _ h
    obtain ⟨r, -, h⟩ := bind_ok _ _ _ h
    dsimp only at h
    split at h
    · have := pure_ok _ _ h
      simp only [Prod.mk.injEq] at this
      rw [← this.2, perfunc_snd]
      exact ⟨rfl, rfl, rfl⟩
    · split at h
      · have := pure_ok _ _ h
        simp only [Prod.mk.injEq] at this
        rw [← this.2, perfunc_snd]
        exact ⟨rfl, rfl, rfl⟩
      · have := pure_ok _ _ h
        simp only [Prod.mk.injEq] at this
        rw [← this.2]
        exact ⟨rfl, rfl, rfl⟩
  unfold update at h
  split at h
  · simp only [Except.ok.injEq, Prod.mk.injEq] at h
    rw [← h.2.2]
    exact ⟨rfl, rfl, rfl⟩
  · obtain ⟨P3, -, h⟩ := bind_ok _ _ _ h
    obtain ⟨adj, hadj1, h⟩ := bind_ok _ _ _ h
    obtain ⟨rv, hrv, h⟩ := bind_ok _ _ _ h
    have hn := hadj _ _ _ _ hadj1
    split at h
    · have := pure_ok _ _ h
      simp only [Prod.mk.injEq] at this
      rw [← this.2.2]
      exact hn
    · obtain ⟨env2, -, h⟩ := bind_ok _ _ _ h
      have := pure_ok _ _ h
      simp only [Prod.mk.injEq] at this
      rw [← this.2.2]
      exact hn

/-- The cached previous iterate is not written by an `update` that returns 0. -/
theorem update_metro_xprev (m : Libm α) (fuel : Nat) (env env1 : arms_state α) (p : POINT α)
    (params params1 : apop_arms_settings α)
    (h : update m fuel env p params = .ok (0, env1, params1)) :
    env1.metro_xprev = env.metro_xprev := by
  by_cases hne : ¬ (p.f ≠ 0) ∨ ((env.cpoint : Int) > (env.npoint : Int) - 2)
  · unfold update at h
    rw [if_pos hne] at h
    simp only [Except.ok.injEq, Prod.mk.injEq, true_and] at h
    rw [← h.1]
  obtain ⟨P3, P4, env2, bb, -, -, hm, hcase⟩ :=
    update_ok m fuel env env1 p params params1 0 hne h
  rcases hcase with ⟨-, h1, -⟩ | ⟨-, -, hcum⟩
  · exact absurd h1 (by decide)
  obtain ⟨hsc, -, -⟩ := update_meets_frame _ _ _ _ _ hm
  obtain ⟨hsc2, -⟩ := cumulate_frame _ _ _ _ hcum
  exact hsc2.2.2.2.1.trans hsc.2.2.2.1

end SampleBounds

section SampleBounds2
variable {α : Type} [LinearOrderedField α]

omit [LinearOrderedField α] in
/-- The first and the last slot of a chain do not change when two slots are put
between two adjacent ones. -/
theorem insert_head_last (l1 l2 t : List Nat) (a b : Nat) :
    (l1 ++ a :: (t ++ b :: l2)).head? = (l1 ++ a :: b :: l2).head? ∧
    (l1 ++ a :: (t ++ b :: l2)).getLast? = (l1 ++ a :: b :: l2).getLast? := by
  constructor
  · cases l1 <;> simp
  · have e1 : l1 ++ a :: (t ++ b :: l2) = (l1 ++ a :: t) ++ b :: l2 := by simp
    have e2 : l1 ++ a :: b :: l2 = (l1 ++ [a]) ++ b :: l2 := by simp
    rw [e1, e2, List.getLast?_append_of_ne_nil _ (List.cons_ne_nil b l2),
      List.getLast?_append_of_ne_nil _ (List.cons_ne_nil b l2)]

/-- The invariant only reads the arena, `cpoint`, the cached previous iterate,
the bounds and the Metropolis flag. -/
theorem envelopeInv_congr (params params1 : apop_arms_settings α) (env env1 : arms_state α)
    (l : List Nat) (h : EnvelopeInv params env l) (hp : env1.p = env.p)
    (hc : env1.cpoint = env.cpoint) (hxl : params1.xl = params.xl)
    (hxr : params1.xr = params.xr) (hdm : params1.do_metro = params.do_metro)
    (hm : params.do_metro ≠ 0 → params.xl ≤ env1.metro_xprev ∧ env1.metro_xprev ≤ params.xr) :
    EnvelopeInv params1 env1 l := by
  obtain ⟨h1, h2, h3, h4, h5, h6, h7, -⟩ := h
  unfold EnvelopeInv
  rw [hp, hc, hxl, hxr, hdm]
  exact ⟨h1, h2, h3, h4, h5, h6, h7, hm⟩

/-- An `update` that returns 0 keeps the invariant. -/
theorem update_inv (m : Libm α) (fuel : Nat) (env env1 : arms_state α) (p : POINT α)
    (params params1 : apop_arms_settings α) (l1 l2 : List Nat) (a b : Nat)
    (hinv : EnvelopeInv params env (l1 ++ a :: b :: l2))
    (hpl : p.pl = some a) (hpr : p.pr = some b)
    (h : update m fuel env p params = .ok (0, env1, params1)) :
    ∃ l, EnvelopeInv params1 env1 l := by
  obtain ⟨h1, h2, h3, h4, h5, h6, h7, h8⟩ := hinv
  obtain ⟨l, hl, g1, g2, g3, g4, g5⟩ :=
    update_sorted m fuel env env1 p params params1 l1 l2 a b h1 h2 h3 h5 hpl hpr h
  obtain ⟨exl, exr, edm⟩ := update_params m fuel env env1 p params params1 0 h
  have emx := update_metro_xprev m fuel env env1 p params params1 h
  have hsub : ∀ s, s ∈ l1 ++ a :: b :: l2 → s ∈ l := by
    intro s hs
    rcases hl with rfl | rfl | rfl
    · exact hs
    · simp only [List.mem_append, List.mem_cons] at hs ⊢
      tauto
    · simp only [List.mem_append, List.mem_cons] at hs ⊢
      tauto
  have hhl : l.head? = (l1 ++ a :: b :: l2).head? ∧
      l.getLast? = (l1 ++ a :: b :: l2).getLast? := by
    rcases hl with rfl | rfl | rfl
    · exact ⟨rfl, rfl⟩
    · exact insert_head_last l1 l2 [env.cpoint + 1, env.cpoint] a b
    · exact insert_head_last l1 l2 [env.cpoint, env.cpoint + 1] a b
  refine ⟨l, g1, g2, g3, hsub 0 h4, g4, ?_, ?_, ?_⟩
  · intro c hc
    rw [hhl.1] at hc
    have hmem : c ∈ l1 ++ a :: b :: l2 := List.mem_of_mem_head? hc
    have hnone : (env.p c).pl = none := by
      have hlk := h1.2.2
      cases hq : l1 ++ a :: b :: l2 with
      | nil => rw [hq] at hc; simp at hc
      | cons c0 t =>
        rw [hq] at hc hlk
        simp only [List.head?_cons, Option.some.injEq] at hc
        subst hc
        exact hlk.1
    rw [(g5 c hmem (Or.inl hnone)).1, exl]
    exact h6 c hc
  · intro c hc
    rw [hhl.2] at hc
    have hmem : c ∈ l1 ++ a :: b :: l2 := List.mem_of_mem_getLast? hc
    have hnone : (env.p c).pr = none := by
      rcases List.eq_nil_or_concat (l1 ++ a :: b :: l2) with hq | ⟨t, z, hq⟩
      · rw [hq] at hmem; simp at hmem
      · have hlk := h1.2.2
        rw [hq, List.concat_eq_append] at hc hlk
        rw [List.getLast?_append_of_ne_nil _ (List.cons_ne_nil z [])] at hc
        simp only [List.getLast?_singleton, Option.some.injEq] at hc
        subst hc
        have := (linked_pr env.p z [] t none hlk).1
        simpa using this
    rw [(g5 c hmem (Or.inr hnone)).1, exr]
    exact h7 c hc
  · intro hd
    rw [edm] at hd
    rw [exl, exr, emx]
    exact h8 hd

end SampleBounds2

section SampleBounds3
variable {α : Type} [LinearOrderedField α]

/-- A call of `test` that returns 0 or 1 keeps the invariant, and leaves a
working point inside `[xl, xr]` if it was given one. -/
theorem test_inv (m : Libm α) (fuel : Nat) (r r1 : Rng α) (env env1 : arms_state α)
    (p p1 : POINT α) (params params1 : apop_arms_settings α) (rc : Int)
    (l1 l2 : List Nat) (a b : Nat)
    (hinv : EnvelopeInv params env (l1 ++ a :: b :: l2))
    (hpl : p.pl = some a) (hpr : p.pr = some b)
    (hpx : params.xl ≤ p.x ∧ p.x ≤ params.xr) (hrc : rc ≠ -1)
    (h : test m fuel r env p params = .ok (rc, r1, env1, p1, params1)) :
    (∃ l, EnvelopeInv params1 env1 l) ∧ params1.xl = params.xl ∧ params1.xr = params.xr ∧
      (params.xl ≤ p1.x ∧ p1.x ≤ params.xr) := by
  unfold test at h
  split at h
  · rename_i l0 rt0 hl0 hr0
    dsimp only at h
    split at h
    · simp only [Except.ok.injEq, Prod.mk.injEq] at h
      obtain ⟨-, -, e1, e2, e3⟩ := h
      subst e1 e2 e3
      exact ⟨⟨_, hinv⟩, rfl, rfl, hpx⟩
    · split at h
      · split at h
        · exact absurd h (by simp)
        · rename_i rcu envu paramsu hu
          split at h
          · simp only [Except.ok.injEq, Prod.mk.injEq] at h
            exact absurd h.1.symm hrc
          · rename_i hrcu
            have hrcu0 : rcu = 0 := not_not.mp hrcu
            subst hrcu0
            simp only [Except.ok.injEq, Prod.mk.injEq] at h
            obtain ⟨-, -, e1, e2, e3⟩ := h
            subst e1 e2 e3
            have hinv2 : EnvelopeInv (perfunc params p.x).2 env (l1 ++ a :: b :: l2) :=
              envelopeInv_congr params _ env env _ hinv rfl rfl rfl rfl rfl hinv.2.2.2.2.2.2.2
            obtain ⟨exl, exr, -⟩ := update_params m fuel env _ _ _ _ 0 hu
            have key : ∀ pp : POINT α,
                update m fuel env pp (perfunc params p.x).2 = .ok (0, envu, paramsu) →
                pp.pl = some a → pp.pr = some b → ∃ l, EnvelopeInv paramsu envu l :=
              fun pp hu1 g1 g2 => update_inv m fuel env envu pp _ paramsu l1 l2 a b hinv2 g1 g2 hu1
            exact ⟨key _ hu hpl hpr, exl, exr, hpx⟩
      · rename_i hbr
        have hdm : params.do_metro ≠ 0 := by
          intro hc
          exact hbr (Or.inl (not_not.mpr hc))
        have hmx := hinv.2.2.2.2.2.2.2 hdm
        obtain ⟨q0, ql, qr, h0, h1, h2⟩ := test_metro_ok _ _ _ _ _ _ _ _ h
        rw [test_metro_eq m fuel _ env p _ _ q0 ql qr h0 h1 h2] at h
        simp only [Except.ok.injEq, Prod.mk.injEq] at h
        obtain ⟨-, -, e1, e2, e3⟩ := h
        subst e1 e2 e3
        refine ⟨?_, rfl, rfl, ?_⟩
        · split
          · exact ⟨_, envelopeInv_congr params _ env env _ hinv rfl rfl rfl rfl rfl
              hinv.2.2.2.2.2.2.2⟩
          · exact ⟨_, envelopeInv_congr params _ env _ _ hinv rfl rfl rfl rfl rfl
              (fun _ => hpx)⟩
        · split
          · exact hmx
          · exact hpx
  · exact absurd h (by simp)

/-- One pass through the loop body of `apop_arms_draw` in which `test` returns
0 or 1 keeps the invariant, and leaves a working point inside `[xl, xr]`. -/
theorem draw_attempt_inv (m : Libm α) (fuel : Nat) (r r1 : Rng α)
    (state state1 : arms_state α) (pwork pw1 : POINT α)
    (params params1 : apop_arms_settings α) (rc : Int) (l : List Nat)
    (hinv : EnvelopeInv params state l) (hrc : rc ≠ -1)
    (h : draw_attempt m fuel r state pwork params = .ok (rc, r1, state1, pw1, params1)) :
    (∃ l1, EnvelopeInv params1 state1 l1) ∧ params1.xl = params.xl ∧
      params1.xr = params.xr ∧ (params.xl ≤ pw1.x ∧ pw1.x ≤ params.xr) := by
  obtain ⟨pw, hi, ht⟩ := draw_attempt_ok _ _ _ _ _ _ _ _ _ _ _ h
  obtain ⟨q0, q, lq, hr, hw, hlq, hpl, hpr, hx1, hx2⟩ := invert_ok_bounds _ _ _ _ _ _ hi
  have hlk := hinv.1.2.2
  have hq0 : q0 ∈ l := rightmost_mem state.p l hlk q0 fuel 0 hinv.2.2.2.1 hr
  have hq : q ∈ l := invert_walk_mem state.p _ l hlk q fuel q0 hq0 hw
  obtain ⟨l1, l2, rfl⟩ := chain_pl_adjacent state.p l q lq hlk hq hlq
  have hne : l1 ++ lq :: q :: l2 ≠ [] := by simp
  obtain ⟨a0, ha0⟩ : ∃ a0, (l1 ++ lq :: q :: l2).head? = some a0 := by
    cases l1 <;> simp
  obtain ⟨z, hz⟩ : ∃ z, (l1 ++ lq :: q :: l2).getLast? = some z :=
    ⟨_, List.getLast?_eq_getLast _ hne⟩
  have hb1 := xsorted_bounds state.p _ hinv.2.2.1 a0 z lq ha0 hz (by simp)
  have hb2 := xsorted_bounds state.p _ hinv.2.2.1 a0 z q ha0 hz (by simp)
  rw [hinv.2.2.2.2.2.1 a0 ha0] at hb1
  rw [hinv.2.2.2.2.2.2.1 z hz] at hb2
  exact test_inv m fuel _ r1 state state1 pw pw1 params params1 rc l1 l2 lq q hinv hpl hpr
    ⟨le_trans hb1.1 hx1, le_trans hx2 hb2.2⟩ hrc ht

/-- Every run of the loop of `apop_arms_draw` keeps the invariant, and what it
writes to `*out` lies inside `[xl, xr]`. -/
theorem draw_loop_inv (m : Libm α) (fuel : Nat) (k msamp : Nat) (r : Rng α)
    (state : arms_state α) (pwork : POINT α) (params : apop_arms_settings α)
    (res : DrawResult α) (l : List Nat) (hinv : EnvelopeInv params state l)
    (h : apop_arms_draw_loop m fuel k msamp r state pwork params = .ok res) :
    (∃ l1, EnvelopeInv res.params res.state l1) ∧ res.params.xl = params.xl ∧
      res.params.xr = params.xr ∧
      ∀ x, res.out = some x → params.xl ≤ x ∧ x ≤ params.xr := by
  induction k generalizing msamp r state pwork params l with
  | zero =>
    unfold apop_arms_draw_loop at h
    exact absurd h (by simp)
  | succ k ih =>
    unfold apop_arms_draw_loop at h
    split at h
    · exact absurd h (by simp)
    · rename_i i r2 state1 pw1 params1 ha
      split at h
      · rename_i hi1
        have hc := draw_attempt_inv m fuel _ _ _ _ _ _ _ _ _ l hinv
          (by rw [hi1]; decide) ha
        simp only [Except.ok.injEq] at h
        rw [← h]
        refine ⟨hc.1, hc.2.1, hc.2.2.1, ?_⟩
        intro x hx
        simp only [Option.some.injEq] at hx
        rw [← hx]
        exact hc.2.2.2
      · split at h
        · exact absurd h (by simp)
        · rename_i hi0
          have hi00 : i = 0 := not_not.mp hi0
          have hc := draw_attempt_inv m fuel _ _ _ _ _ _ _ _ _ l hinv
            (by rw [hi00]; decide) ha
          split at h
          · obtain ⟨l1, hl1⟩ := hc.1
            have := ih _ _ _ _ _ _ hl1 h
            rw [hc.2.1, hc.2.2.1] at this
            exact this
          · simp only [Except.ok.injEq] at h
            rw [← h]
            exact ⟨hc.1, hc.2.1, hc.2.2.1, fun x hx => absurd hx (by simp)⟩

/-- The invariant holds when `apop_arms_settings_init` returns, provided that
the previous iterate supplied under Metropolis lies inside `[xl, xr]`. -/
theorem settings_init_inv (m : Libm α) (fuel : Nat) (mem : Nat → POINT α)
    (st0 state : arms_state α) (out params : apop_arms_settings α)
    (hx : out.do_metro ≠ 0 → out.xl ≤ out.xprev ∧ out.xprev ≤ out.xr)
    (h : apop_arms_settings_init m fuel mem st0 out = .ok (some (params, state))) :
    EnvelopeInv params state (List.range (2 * out.ninit + 1)) ∧ params.xl = out.xl ∧
      params.xr = out.xr := by
  unfold apop_arms_settings_init at h
  split at h
  · exact absurd h (by simp)
  · rename_i err out1 st hi
    split at h
    · exact absurd h (by simp)
    · rename_i herr
      have herr0 : err = 0 := not_not.mp herr
      subst herr0
      rcases initial_ok_cases _ _ _ _ _ _ _ _ hi with ⟨hc, -, -⟩ | ⟨hv, he⟩
      · simp at hc
      obtain ⟨hp, hcp, hS⟩ := initial_envelope_shape m fuel mem out out1 st0 st (by omega) he
      have hspec := chain_of_spec st.p out.ninit
        (fun i hi => ⟨(hS i hi).1, (hS i hi).2.1, (hS i hi).2.2.1⟩)
      have hxs := initial_envelope_sorted m fuel mem out out1 st0 st (by omega) he
      have hbase : EnvelopeInv { out1 with do_metro := 0 } st (List.range (2 * out.ninit + 1)) := by
        refine ⟨hspec.1, hspec.2, hxs, by simp, ?_, ?_, ?_, fun hd => absurd rfl hd⟩
        · intro s hs
          rw [hcp]
          simpa using hs
        · intro a ha
          have : a = 0 := by
            rw [List.range_succ_eq_map] at ha
            simpa using ha.symm
          subst this
          rw [(hS 0 (by omega)).2.2.2.1 rfl, hp]
        · intro b hb
          have : b = 2 * out.ninit := by
            rw [List.range_succ, List.getLast?_append_of_ne_nil _ (by simp)] at hb
            simpa using hb.symm
          subst this
          rw [(hS (2 * out.ninit) (le_refl _)).2.2.2.2.1 rfl, hp]
      have hxl : out1.xl = out.xl := by rw [hp]
      have hxr : out1.xr = out.xr := by rw [hp]
      have hdm : out1.do_metro = out.do_metro := by rw [hp]
      obtain ⟨b1, b2, b3, b4, b5, b6, b7, -⟩ := hbase
      split at h
      · simp only [Except.ok.injEq, Option.some.injEq, Prod.mk.injEq] at h
        obtain ⟨e1, e2⟩ := h
        subst e1 e2
        refine ⟨⟨b1, b2, b3, b4, b5, b6, b7, ?_⟩, hxl, hxr⟩
        intro hd
        have := hx (by rw [← hdm]; exact hd)
        show out1.xl ≤ out1.xprev ∧ out1.xprev ≤ out1.xr
        rw [hp]
        exact this
      · rename_i hd0
        simp only [Except.ok.injEq, Option.some.injEq, Prod.mk.injEq] at h
        obtain ⟨e1, e2⟩ := h
        subst e1 e2
        exact ⟨⟨b1, b2, b3, b4, b5, b6, b7, fun hd => absurd hd hd0⟩, hxl, hxr⟩

end SampleBounds3

section MetroExample
variable {α : Type} [LinearOrderedField α]

/-- The points that the first loops of `initial` set up from `metro_settings`. -/
theorem metro_points :
    initial_points 5 1 0
      (Function.update (blank_mem : Nat → POINT α) 0
        { (blank_mem 0 : POINT α) with x := -2, f := 0, pl := none, pr := some 1 })
      { (metro_settings : apop_arms_settings α) with neval := 0 } =
    (fun i => match i with
      | 0 => ⟨-2, 0, 0, 0, 0, none, some 1⟩
      | 1 => ⟨-1, 0, 0, 0, 1, some 0, some 2⟩
      | 2 => ⟨0, 0, 0, 0, 0, some 1, some 3⟩
      | 3 => ⟨0, 0, 0, 0, 1, some 2, some 4⟩
      | 4 => ⟨0, 0, 0, 0, 0, some 3, some 5⟩
      | 5 => ⟨1, 0, 0, 0, 1, some 4, some 6⟩
      | _ => blank_point, { (metro_settings : apop_arms_settings α) with neval := 3 }) := by
  simp only [initial_points, perfunc, metro_settings, blank_mem, blank_point]
  norm_num
  funext i
  rcases i with _ | _ | _ | _ | _ | _ | i
  all_goals simp [Function.update_apply, blank_mem, blank_point]

/-- On `metro_settings` the body of `initial` builds the arena `metro_arena`
and hands it to `cumulate`. -/
theorem metro_initial_envelope (m : Libm α) :
    initial_envelope m 10 blank_mem (metro_settings : apop_arms_settings α) blank_state =
      match cumulate m 10 ⟨0, 7, metro_arena, 0, 0, 0, 0⟩ with
      | .error e => .error e
      | .ok env3 => .ok (0, { (metro_settings : apop_arms_settings α) with neval := 3 },
          { env3 with cpoint := 7 }) := by
  have hp := @metro_points α _
  unfold initial_envelope
  simp only [metro_settings, blank_state] at hp ⊢
  norm_num
  rw [hp]
  simp [initial_meets, meet, meet_gl, meet_gr, meet_grl, meet_store, meet_check, meet_floor,
    meet_width, Function.update_apply, YEPS]
  norm_num
  generalize hP : Function.update (Function.update _ 4 _) 6 _ = P
  have hPa : P = metro_arena := by
    rw [← hP]
    funext i
    rcases i with _ | _ | _ | _ | _ | _ | _ | i
    all_goals simp [Function.update_apply, metro_arena, blank_point]
  subst hPa
  rfl

/-- A first pass through the loop of `apop_arms_draw` in which `test` returns 1
ends the call. -/
theorem draw_first_accept (m : Libm α) (fuel : Nat) (r r2 : Rng α)
    (state state1 : arms_state α) (pwork pw1 : POINT α)
    (params params1 : apop_arms_settings α)
    (h : draw_attempt m fuel r state pwork params = .ok (1, r2, state1, pw1, params1)) :
    apop_arms_draw m fuel r state pwork params
      = .ok ⟨some pw1.x, 0, r2, state1, params1⟩ := by
  unfold apop_arms_draw
  show apop_arms_draw_loop m fuel (9999 + 1) 0 r state pwork params = _
  unfold apop_arms_draw_loop
  rw [h]
  simp

end MetroExample

/-- The envelope that `cumulate` computes from `metro_arena`. -/
theorem metro_cumulate :
    ∃ P : Nat → POINT ℝ, cumulate (Libm.mk Real.exp Real.log Real.sqrt) 10
        (⟨0, 7, metro_arena, 0, 0, 0, 0⟩ : arms_state ℝ) = .ok ⟨0, 7, P, 1 / 10, 0, 0, 0⟩ ∧
      (∀ i, (P i).x = (metro_arena i : POINT ℝ).x ∧ (P i).y = (metro_arena i : POINT ℝ).y ∧
        (P i).pl = (metro_arena i : POINT ℝ).pl ∧ (P i).pr = (metro_arena i : POINT ℝ).pr) ∧
      (P 0).ey = Real.exp (499 / 10) ∧ (P 1).ey = Real.exp (499 / 10) ∧ (P 0).cum = 0 ∧
      0 < (P 1).cum ∧ 0 < (P 2).cum ∧ 0 < (P 3).cum ∧ 0 < (P 4).cum ∧ 0 < (P 5).cum := by
  have habs : ¬ (|(1 / 10 : ℝ)| < 1 / 10) := by
    rw [abs_of_pos (by norm_num)]
    exact lt_irrefl _
  have hE : (0 : ℝ) < Real.exp (499 / 10) := Real.exp_pos _
  have hEF : Real.exp (499 / 10) < Real.exp 50 := Real.exp_lt_exp.mpr (by norm_num)
  have h : ∀ r, cumulate (Libm.mk Real.exp Real.log Real.sqrt) 10
        (⟨0, 7, metro_arena, 0, 0, 0, 0⟩ : arms_state ℝ) = r →
      ∃ P : Nat → POINT ℝ, r = .ok ⟨0, 7, P, 1 / 10, 0, 0, 0⟩ ∧
      (∀ i, (P i).x = (metro_arena i : POINT ℝ).x ∧ (P i).y = (metro_arena i : POINT ℝ).y ∧
        (P i).pl = (metro_arena i : POINT ℝ).pl ∧ (P i).pr = (metro_arena i : POINT ℝ).pr) ∧
      (P 0).ey = Real.exp (499 / 10) ∧ (P 1).ey = Real.exp (499 / 10) ∧ (P 0).cum = 0 ∧
      0 < (P 1).cum ∧ 0 < (P 2).cum ∧ 0 < (P 3).cum ∧ 0 < (P 4).cum ∧ 0 < (P 5).cum := by
    intro r hr
    simp [cumulate, leftmost, cumulate_ymax, cumulate_ey, cumulate_cum, area, expshift,
      metro_arena, YCEIL, YEPS, Function.update_apply] at hr
    norm_num at hr
    rw [if_neg habs, if_neg habs] at hr
    dsimp only at hr
    subst hr
    refine ⟨_, rfl, ?_, ?_, ?_, ?_, ?_, ?_, ?_, ?_, ?_⟩
    · intro i
      rcases i with _ | _ | _ | _ | _ | _ | _ | i
      all_goals simp [Function.update_apply, metro_arena]
    all_goals simp only [Function.update_apply]
    all_goals norm_num
    all_goals nlinarith
  exact h _ rfl

section SampleBounds4
variable {α : Type} [LinearOrderedField α]

/-- C1 (amended): every produced sample lies within `[xl, xr]`, provided that
under Metropolis the supplied previous iterate `xprev` lies within `[xl, xr]`.
When `apop_arms_settings_init` returns a state (so `initial` has accepted the
configuration) for settings whose `xprev` lies in `[xl, xr]` if `do_metro` is
set, the state satisfies the invariant `EnvelopeInv`; every call of
`apop_arms_draw` on a state satisfying the invariant, for every log density and
every sequence of uniform draws, leaves a state satisfying it, does not change
`xl` and `xr`, and what it writes to `*out` (the candidate, or the cached
previous iterate on the Metropolis "do not move" path) lies in `[xl, xr]`; in
particular this holds for the first draw after the initialisation. -/
theorem samples_within_bounds (m : Libm α) (fuel : Nat) :
    (∀ (mem : Nat → POINT α) (st0 state : arms_state α) (out params : apop_arms_settings α),
      (out.do_metro ≠ 0 → out.xl ≤ out.xprev ∧ out.xprev ≤ out.xr) →
      apop_arms_settings_init m fuel mem st0 out = .ok (some (params, state)) →
      params.xl = out.xl ∧ params.xr = out.xr ∧ ∃ l, EnvelopeInv params state l) ∧
    (∀ (r : Rng α) (state : arms_state α) (pwork : POINT α) (params : apop_arms_settings α)
      (res : DrawResult α) (l : List Nat),
      EnvelopeInv params state l →
      apop_arms_draw m fuel r state pwork params = .ok res →
      (∀ x, res.out = some x → params.xl ≤ x ∧ x ≤ params.xr) ∧
      res.params.xl = params.xl ∧ res.params.xr = params.xr ∧
      ∃ l1, EnvelopeInv res.params res.state l1) ∧
    (∀ (mem : Nat → POINT α) (st0 state : arms_state α) (out params : apop_arms_settings α)
      (r : Rng α) (pwork : POINT α) (res : DrawResult α) (x : α),
      (out.do_metro ≠ 0 → out.xl ≤ out.xprev ∧ out.xprev ≤ out.xr) →
      apop_arms_settings_init m fuel mem st0 out = .ok (some (params, state)) →
      apop_arms_draw m fuel r state pwork params = .ok res →
      res.out = some x → out.xl ≤ x ∧ x ≤ out.xr) := by
  refine ⟨?_, ?_, ?_⟩
  · intro mem st0 state out params hx h
    obtain ⟨h1, h2, h3⟩ := settings_init_inv m fuel mem st0 state out params hx h
    exact ⟨h2, h3, _, h1⟩
  · intro r state pwork params res l hinv h
    obtain ⟨h1, h2, h3, h4⟩ :=
      draw_loop_inv m fuel 10000 0 r state pwork params res l hinv h
    exact ⟨h4, h2, h3, h1⟩
  · intro mem st0 state out params r pwork res x hx h hd hres
    obtain ⟨h1, h2, h3⟩ := settings_init_inv m fuel mem st0 state out params hx h
    obtain ⟨-, -, -, h4⟩ := draw_loop_inv m fuel 10000 0 r state pwork params res _ h1 hd
    have := h4 x hres
    rw [h2, h3] at this
    exact this

end SampleBounds4

/-- Witness for C1: on the envelope `ex_env` (abscissae `-2, -1, -1, 0, 1, 1, 2`,
bounds `[-2, 2]`) with Metropolis enabled and the cached previous iterate 0,
a draw with all uniform draws equal to `1/2` produces a sample, and it lies in
`[-2, 2]`. -/
theorem samples_within_bounds_witness :
    ∃ res x,
      apop_arms_draw ratLibm 10 ⟨fun _ => 1 / 2, 0⟩ ex_env ex_point
        { ex_settings with do_metro := 1 } = .ok res ∧
      res.out = some x ∧ -2 ≤ x ∧ x ≤ 2 := by
  obtain ⟨⟨i, r2, state1, pw1, params1⟩, hd, hc⟩ :=
    ok_of_check
      (draw_attempt ratLibm 10 ⟨fun _ => 1 / 2, 0⟩ ex_env ex_point
        { ex_settings with do_metro := 1 })
      (fun out => decide (out.1 = 1))
      (by with_unfolding_all rfl)
  have hi : i = 1 := by simpa using hc
  subst hi
  have hdraw := draw_first_accept _ _ _ _ _ _ _ _ _ _ hd
  have := ((samples_within_bounds ratLibm 10).2.1 ⟨fun _ => 1 / 2, 0⟩ ex_env ex_point
    { ex_settings with do_metro := 1 } _ (List.range 7)
    ⟨by simp [IsChain, Linked, List.range, List.range.loop, ex_env, ex_arena],
      by simp [Alternating, List.range, List.range.loop, ex_env, ex_arena],
      by norm_num [XSorted, List.range, List.range.loop, ex_env, ex_arena],
      by simp, by simp [ex_env],
      by simp [List.range, List.range.loop, ex_env, ex_arena, ex_settings],
      by simp [List.range, List.range.loop, ex_env, ex_arena, ex_settings],
      fun _ => by norm_num [ex_env, ex_settings]⟩ hdraw).1 pw1.x rfl
  exact ⟨_, pw1.x, hdraw, rfl, this⟩

/-- Counterexample for C1 as stated: a valid configuration (abscissae
`-1, 0, 1` strictly inside the bounds `[-2, 2]`, `convex = 0`, room for 7
points) with Metropolis enabled and the previous iterate `xprev = -5`, a log
density that is 100 left of `-3` and 0 elsewhere, and the uniform draws
`0, exp (-1), 1/2`.  `apop_arms_settings_init` succeeds, and the first call of
`apop_arms_draw` takes the Metropolis "do not move" path and writes `-5`,
which lies outside `[xl, xr] = [-2, 2]`. -/
theorem samples_outside_counterexample :
    (3 ≤ (metro_settings : apop_arms_settings ℝ).ninit ∧
      initial_ordered (metro_settings : apop_arms_settings ℝ).xinit 3 = true ∧
      (metro_settings : apop_arms_settings ℝ).xl < (metro_settings : apop_arms_settings ℝ).xinit 0 ∧
      (metro_settings : apop_arms_settings ℝ).xinit 2 < (metro_settings : apop_arms_settings ℝ).xr ∧
      0 ≤ (metro_settings : apop_arms_settings ℝ).convex ∧
      2 * 3 + 1 ≤ (metro_settings : apop_arms_settings ℝ).npoint) ∧
    (0 < Real.exp (-1) ∧ Real.exp (-1) < 1) ∧
    ∃ params state res,
      apop_arms_settings_init (Libm.mk Real.exp Real.log Real.sqrt) 10 blank_mem blank_state
        (metro_settings : apop_arms_settings ℝ) = .ok (some (params, state)) ∧
      apop_arms_draw (Libm.mk Real.exp Real.log Real.sqrt) 10
        ⟨fun i => if i = 0 then 0 else if i = 1 then Real.exp (-1) else 1 / 2, 0⟩
        state blank_point params = .ok res ∧
      res.out = some (-5) ∧ ¬ ((metro_settings : apop_arms_settings ℝ).xl ≤ -5) := by
  obtain ⟨P, hc, hfr, he0, he1, hc0, h1, h2, h3, h4, h5⟩ := metro_cumulate
  have hx : ∀ i, (P i).x = (metro_arena i : POINT ℝ).x := fun i => (hfr i).1
  have hy : ∀ i, (P i).y = (metro_arena i : POINT ℝ).y := fun i => (hfr i).2.1
  have hpl : ∀ i, (P i).pl = (metro_arena i : POINT ℝ).pl := fun i => (hfr i).2.2.1
  have hpr : ∀ i, (P i).pr = (metro_arena i : POINT ℝ).pr := fun i => (hfr i).2.2.2
  have hord : initial_ordered (metro_settings : apop_arms_settings ℝ).xinit 3 = true := by
    simp [initial_ordered, metro_settings, List.range']
  have hinit : initial (Libm.mk Real.exp Real.log Real.sqrt) 10 blank_mem
      (metro_settings : apop_arms_settings ℝ) blank_state =
      .ok (0, { (metro_settings : apop_arms_settings ℝ) with neval := 3 },
        ⟨7, 7, P, 1 / 10, 0, 0, 0⟩) := by
    rw [initial_of_valid _ _ _ _ _ (by decide) (by decide) (by decide)
      (by norm_num [metro_settings])
      hord (by norm_num [metro_settings]), metro_initial_envelope, hc]
  have hset : apop_arms_settings_init (Libm.mk Real.exp Real.log Real.sqrt) 10 blank_mem
      blank_state (metro_settings : apop_arms_settings ℝ) =
      .ok (some ({ (metro_settings : apop_arms_settings ℝ) with neval := 4 },
        ⟨7, 7, P, 1 / 10, 0, -5, 100⟩)) := by
    unfold apop_arms_settings_init
    rw [hinit]
    simp [perfunc, metro_settings]
    norm_num
  have hr : rightmost P 10 0 = .ok 6 := by
    simp [rightmost, hpr, metro_arena]
  have hw : invert_walk P (0 * (P 6).cum) 10 6 = .ok 1 := by
    simp [invert_walk, hpl, metro_arena, h1, h2, h3, h4, h5, hc0]
  have hinv : invert (Libm.mk Real.exp Real.log Real.sqrt) 10 0
      (⟨7, 7, P, 1 / 10, 0, -5, 100⟩ : arms_state ℝ) blank_point =
      .ok ⟨-2, 0, Real.exp (499 / 10), 0, 0, some 0, some 1⟩ := by
    have key : ∀ r, invert (Libm.mk Real.exp Real.log Real.sqrt) 10 0
        (⟨7, 7, P, 1 / 10, 0, -5, 100⟩ : arms_state ℝ) blank_point = r →
        r = .ok ⟨-2, 0, Real.exp (499 / 10), 0, 0, some 0, some 1⟩ := by
      intro r hr1
      unfold invert at hr1
      dsimp only at hr1
      rw [hr] at hr1
      dsimp only at hr1
      rw [hw] at hr1
      simp [hpl, hx, hy, metro_arena, he0, he1, hc0, invert_guard, YEPS, EYEPS, logshift, YCEIL,
        blank_point] at hr1
      norm_num at hr1
      exact hr1.symm
    exact key _ rfl
  have hl : leftmost P 10 0 = .ok 0 := by
    simp [leftmost, hpl, metro_arena]
  have htw : test_walk P (-5) 10 0 = .ok 0 := by
    simp [test_walk, hpr, hx, metro_arena]
  have hlog : Real.log (Real.exp (-1) * Real.exp (499 / 10)) = 489 / 10 := by
    rw [← Real.exp_add, Real.log_exp]
    norm_num
  have hacc : test_accept (Libm.mk Real.exp Real.log Real.sqrt) 0 0 100
      ((P 0).y + ((-5 - (P 0).x) / ((P 1).x - (P 0).x)) * ((P 1).y - (P 0).y)) = 0 := by
    rw [test_accept_eq, hx, hy, hx, hy]
    simp only [metro_arena]
    norm_num [YCEIL]
  have hatt : ∀ r, draw_attempt (Libm.mk Real.exp Real.log Real.sqrt) 10
      ⟨fun i => if i = 0 then 0 else if i = 1 then Real.exp (-1) else 1 / 2, 0⟩
      (⟨7, 7, P, 1 / 10, 0, -5, 100⟩ : arms_state ℝ) blank_point
      { (metro_settings : apop_arms_settings ℝ) with neval := 4 } = r →
      ∃ r2 state1 pw1 params1, r = .ok (1, r2, state1, pw1, params1) ∧ pw1.x = -5 := by
    intro r hr1
    unfold draw_attempt sample at hr1
    simp only [gsl_rng_uniform, if_true] at hr1
    rw [hinv] at hr1
    dsimp only at hr1
    rw [test_no_squeeze _ _ _ _ _ _ 0 1 rfl rfl (fun ys h => by
      rw [test_squeeze_metro _ _ _ _ _ (by simp [metro_settings])] at h
      exact absurd h (by simp))] at hr1
    simp only [gsl_rng_uniform, logshift, perfunc, metro_settings, hlog, YCEIL] at hr1
    norm_num at hr1
    rw [hlog, if_neg (by norm_num)] at hr1
    rw [test_metro_eq _ 10 _ _ _ _ _ 0 0 1 hl htw (by rw [hpr]; rfl)] at hr1
    dsimp only [gsl_rng_uniform] at hr1
    rw [hacc] at hr1
    norm_num at hr1
    subst hr1
    exact ⟨_, _, _, _, rfl, rfl⟩
  obtain ⟨r2, state1, pw1, params1, hd, hpx⟩ := hatt _ rfl
  have hdraw := draw_first_accept _ _ _ _ _ _ _ _ _ _ hd
  refine ⟨⟨by decide, hord, by norm_num [metro_settings], by norm_num [metro_settings],
    by norm_num [metro_settings], by decide⟩, ⟨Real.exp_pos _, ?_⟩, _, _, _, hset, hdraw, ?_, ?_⟩
  · have := Real.exp_lt_exp.mpr (show (-1 : ℝ) < 0 by norm_num)
    rwa [Real.exp_zero] at this
  · show some pw1.x = some (-5)
    rw [hpx]
  · norm_num [metro_settings]

/-- Counterexample for C15 as stated: `initial` on `metro_settings` (abscissae
`-1, 0, 1` inside the bounds `[-2, 2]`, a log density that is 0 on `[-3, ∞)`)
returns 0, and the intersection point in slot 2 has the same `x = -1` as its
left neighbour, the on-curve point in slot 1: the envelope is not strictly
increasing in `x`. -/
theorem envelope_strict_counterexample :
    ∃ params1 env1, initial (Libm.mk Real.exp Real.log Real.sqrt) 10 blank_mem
        (metro_settings : apop_arms_settings ℝ) blank_state = .ok (0, params1, env1) ∧
      (env1.p 2).pl = some 1 ∧ (env1.p 1).x = -1 ∧ (env1.p 2).x = -1 ∧
      ¬ ((env1.p 1).x < (env1.p 2).x) := by
  obtain ⟨P, hc, hfr, -⟩ := metro_cumulate
  have hord : initial_ordered (metro_settings : apop_arms_settings ℝ).xinit 3 = true := by
    simp [initial_ordered, metro_settings, List.range']
  have hinit : initial (Libm.mk Real.exp Real.log Real.sqrt) 10 blank_mem
      (metro_settings : apop_arms_settings ℝ) blank_state =
      .ok (0, { (metro_settings : apop_arms_settings ℝ) with neval := 3 },
        ⟨7, 7, P, 1 / 10, 0, 0, 0⟩) := by
    rw [initial_of_valid _ _ _ _ _ (by decide) (by decide) (by decide)
      (by norm_num [metro_settings])
      hord (by norm_num [metro_settings]), metro_initial_envelope, hc]
  have h1 : (P 1).x = -1 := (hfr 1).1
  have h2 : (P 2).x = -1 := (hfr 2).1
  refine ⟨_, _, hinit, (hfr 2).2.2.1, h1, h2, ?_⟩
  show ¬ ((P 1).x < (P 2).x)
  rw [h1, h2]
  exact lt_irrefl _

/-! ## `meet`: the intersection stays in its interval -/

section Interior
variable {α : Type} [LinearOrderedField α]

/-- The route of `meet` to its final case distinction: at a point that is not
on-curve and whose gradients can be read, `meet` either reports a violation
(return code 1, state untouched) or continues to `meet_store` with gradients
`gl`, `gr` and the floored d-values computed from them. -/
theorem meet_to_store (q : Nat) (env : arms_state α) (params : apop_arms_settings α)
    (ogl ogr : Option α) (hf : (env.p q).f = 0)
    (hgl : meet_gl env.p q = .ok ogl) (hgr : meet_gr env.p q = .ok ogr) :
    meet q env params = .ok (1, env) ∨
    ∃ gl gr : α,
      meet q env params = meet_store q env ogl.isSome ogr.isSome (meet_grl env.p q).isSome gl gr
        (if ogr.isSome && (meet_grl env.p q).isSome
          then meet_floor (((meet_grl env.p q).getD 0 - gr) * meet_width env.p q) else 0)
        (if ogl.isSome && (meet_grl env.p q).isSome
          then meet_floor ((gl - (meet_grl env.p q).getD 0) * meet_width env.p q) else 0) := by
  unfold meet
  dsimp only
  rw [if_neg (by simp [hf]), hgl, hgr]
  dsimp only
  split
  · exact Or.inl rfl
  · split
    · exact Or.inl rfl
    · exact Or.inr ⟨_, _, rfl⟩

/-- The final case distinction of `meet` at an interior point whose neighbours
are in order, with d-values `>= YEPS`: the point stored lies in the interval,
so the test for error 32 passes. -/
theorem meet_store_interior (q l r : Nat) (env : arms_state α) (il ir : Bool) (gl gr dl dr : α)
    (hl : (env.p q).pl = some l) (hr : (env.p q).pr = some r)
    (hx : (env.p l).x ≤ (env.p r).x) (hdl : ir = true → YEPS ≤ dl)
    (hdr : il = true → YEPS ≤ dr) :
    (il = true ∧ ir = true ∧ meet_store q env il ir true gl gr dl dr
      = .ok (0, { env with p := Function.update env.p q { env.p q with
          x := (dl * (env.p r).x + dr * (env.p l).x) / (dl + dr),
          y := (dl * (env.p r).y + dr * (env.p l).y + dl * dr) / (dl + dr) } })) ∨
    (il = true ∧ ir = false ∧ meet_store q env il ir true gl gr dl dr
      = .ok (0, { env with p := Function.update env.p q { env.p q with
          x := (env.p r).x, y := (env.p r).y + dr } })) ∨
    (il = false ∧ ir = true ∧ meet_store q env il ir true gl gr dl dr
      = .ok (0, { env with p := Function.update env.p q { env.p q with
          x := (env.p l).x, y := (env.p l).y + dl } })) ∨
    (il = false ∧ ir = false ∧ meet_store q env il ir true gl gr dl dr = .error (.error 31)) := by
  cases il <;> cases ir
  · right; right; right
    refine ⟨rfl, rfl, ?_⟩
    unfold meet_store
    simp
  · right; right; left
    refine ⟨rfl, rfl, ?_⟩
    have e : meet_store q env false true true gl gr dl dr
        = meet_check q env (env.p l).x ((env.p l).y + dl) := by
      unfold meet_store
      simp [hl]
    rw [e]
    exact meet_check_pass q l r env _ _ hl hr (le_refl _) hx
  · right; left
    refine ⟨rfl, rfl, ?_⟩
    have e : meet_store q env true false true gl gr dl dr
        = meet_check q env (env.p r).x ((env.p r).y + dr) := by
      unfold meet_store
      simp [hr]
    rw [e]
    exact meet_check_pass q l r env _ _ hl hr hx (le_refl _)
  · left
    refine ⟨rfl, rfl, ?_⟩
    have h1 := lt_of_lt_of_le YEPS_pos (hdl rfl)
    have h2 := lt_of_lt_of_le YEPS_pos (hdr rfl)
    have hs : 0 < dl + dr := add_pos h1 h2
    have e : meet_store q env true true true gl gr dl dr
        = meet_check q env ((dl * (env.p r).x + dr * (env.p l).x) / (dl + dr))
          ((dl * (env.p r).y + dr * (env.p l).y + dl * dr) / (dl + dr)) := by
      unfold meet_store
      simp [hl, hr]
    rw [e]
    refine meet_check_pass q l r env _ _ hl hr ?_ ?_
    · rw [le_div_iff₀ hs]
      nlinarith
    · rw [div_le_iff₀ hs]
      nlinarith


end Interior
section Interior2
variable {α : Type} [LinearOrderedField α]

/-- The outcomes of `meet` at an interior point `q` whose neighbours `l`, `r`
are in order: a fault other than error 32, a violation (return code 1), or a
point stored inside the interval, by one of the three formulas of the final
case distinction, with d-values `>= YEPS` where they are used. -/
theorem meet_interior_cases (q l r : Nat) (env : arms_state α) (params : apop_arms_settings α)
    (hl : (env.p q).pl = some l) (hr : (env.p q).pr = some r)
    (hx : (env.p l).x ≤ (env.p r).x) :
    (∃ e, meet q env params = .error e ∧ e ≠ .error 32) ∨
    meet q env params = .ok (1, env) ∨
    ∃ (ogl ogr : Option α) (gl gr dl dr : α),
      (env.p q).f = 0 ∧ meet_gl env.p q = .ok ogl ∧ meet_gr env.p q = .ok ogr ∧
      meet q env params = meet_store q env ogl.isSome ogr.isSome true gl gr dl dr ∧
      dl = (if ogr.isSome then meet_floor ((((env.p r).y - (env.p l).y)
        / ((env.p r).x - (env.p l).x) - gr) * ((env.p r).x - (env.p l).x)) else 0) ∧
      dr = (if ogl.isSome then meet_floor ((gl - ((env.p r).y - (env.p l).y)
        / ((env.p r).x - (env.p l).x)) * ((env.p r).x - (env.p l).x)) else 0) ∧
      (ogr.isSome = true → YEPS ≤ dl) ∧ (ogl.isSome = true → YEPS ≤ dr) ∧
      ((ogl.isSome = true ∧ ogr.isSome = true ∧ meet q env params
          = .ok (0, { env with p := Function.update env.p q { env.p q with
              x := (dl * (env.p r).x + dr * (env.p l).x) / (dl + dr),
              y := (dl * (env.p r).y + dr * (env.p l).y + dl * dr) / (dl + dr) } })) ∨
        (ogl.isSome = true ∧ ogr.isSome = false ∧ meet q env params
          = .ok (0, { env with p := Function.update env.p q { env.p q with
              x := (env.p r).x, y := (env.p r).y + dr } })) ∨
        (ogl.isSome = false ∧ ogr.isSome = true ∧ meet q env params
          = .ok (0, { env with p := Function.update env.p q { env.p q with
              x := (env.p l).x, y := (env.p l).y + dl } }))) := by
  by_cases hf : (env.p q).f = 0
  swap
  · left
    refine ⟨.error 30, ?_, by decide⟩
    unfold meet
    dsimp only
    rw [if_pos hf]
  cases hgl : meet_gl env.p q with
  | error e =>
    left
    refine ⟨e, ?_, ?_⟩
    · unfold meet
      dsimp only
      rw [if_neg (by simp [hf]), hgl]
    · rw [meet_gl_error _ _ _ hgl]
      decide
  | ok ogl =>
    cases hgr : meet_gr env.p q with
    | error e =>
      left
      refine ⟨e, ?_, ?_⟩
      · unfold meet
        dsimp only
        rw [if_neg (by simp [hf]), hgl, hgr]
      · rw [meet_gr_error _ _ _ hgr]
        decide
    | ok ogr =>
      have hgrl : meet_grl env.p q
          = some (((env.p r).y - (env.p l).y) / ((env.p r).x - (env.p l).x)) := by
        unfold meet_grl
        rw [hl, hr]
      have hw : meet_width env.p q = (env.p r).x - (env.p l).x := by
        unfold meet_width
        rw [hl, hr]
      rcases meet_to_store q env params ogl ogr hf hgl hgr with h1 | ⟨gl, gr, hs⟩
      · exact Or.inr (Or.inl h1)
      rw [hgrl, hw] at hs
      simp only [Option.isSome_some, Bool.and_true, Option.getD_some] at hs
      have hdl : ogr.isSome = true → YEPS ≤ (if ogr.isSome = true
          then meet_floor ((((env.p r).y - (env.p l).y) / ((env.p r).x - (env.p l).x) - gr)
            * ((env.p r).x - (env.p l).x)) else 0) := by
        intro hh
        rw [if_pos hh]
        exact meet_floor_ge _
      have hdr : ogl.isSome = true → YEPS ≤ (if ogl.isSome = true
          then meet_floor ((gl - ((env.p r).y - (env.p l).y) / ((env.p r).x - (env.p l).x))
            * ((env.p r).x - (env.p l).x)) else 0) := by
        intro hh
        rw [if_pos hh]
        exact meet_floor_ge _
      rcases meet_store_interior q l r env ogl.isSome ogr.isSome gl gr _ _ hl hr hx hdl hdr
        with ⟨a1, a2, a3⟩ | ⟨a1, a2, a3⟩ | ⟨a1, a2, a3⟩ | ⟨a1, a2, a3⟩
      · exact Or.inr (Or.inr ⟨ogl, ogr, gl, gr, _, _, hf, rfl, rfl, hs, rfl, rfl, hdl, hdr,
          Or.inl ⟨a1, a2, hs.trans a3⟩⟩)
      · exact Or.inr (Or.inr ⟨ogl, ogr, gl, gr, _, _, hf, rfl, rfl, hs, rfl, rfl, hdl, hdr,
          Or.inr (Or.inl ⟨a1, a2, hs.trans a3⟩)⟩)
      · exact Or.inr (Or.inr ⟨ogl, ogr, gl, gr, _, _, hf, rfl, rfl, hs, rfl, rfl, hdl, hdr,
          Or.inr (Or.inr ⟨a1, a2, hs.trans a3⟩)⟩)
      · exact Or.inl ⟨.error 31, hs.trans a3, by decide⟩

end Interior2
section Interior3
variable {α : Type} [LinearOrderedField α]

/-- C31: `meet` never places an intersection outside its interval.  At an
interior point `q` (both neighbours `l = q.pl`, `r = q.pr` exist) with
`l.x <= r.x`, `meet` does not stop with error 32, and whenever it returns 0
the point is not on-curve and the stored `x` satisfies `l.x <= q.x <= r.x`:
with a gradient on both sides it is the convex combination
`(dl * r.x + dr * l.x) / (dl + dr)` with the d-values `dl, dr >= YEPS` that
`meet` hands to its final case distinction; with a gradient on the left only
it is `r.x`, with a gradient on the right only it is `l.x`.  At a point with
a missing neighbour (one of the two end points) a call that returns 0 leaves
`x` unchanged. -/
theorem meet_within_interval (q : Nat) (env : arms_state α) (params : apop_arms_settings α) :
    (∀ l r, (env.p q).pl = some l → (env.p q).pr = some r → (env.p l).x ≤ (env.p r).x →
      meet q env params ≠ .error (.error 32) ∧
      ∀ env1, meet q env params = .ok (0, env1) →
        (env.p q).f = 0 ∧ (env.p l).x ≤ (env1.p q).x ∧ (env1.p q).x ≤ (env.p r).x ∧
        ∃ (ogl ogr : Option α) (gl gr dl dr : α),
          meet_gl env.p q = .ok ogl ∧ meet_gr env.p q = .ok ogr ∧
          meet q env params = meet_store q env ogl.isSome ogr.isSome true gl gr dl dr ∧
          (ogl.isSome = true ∧ ogr.isSome = true → YEPS ≤ dl ∧ YEPS ≤ dr ∧
            (env1.p q).x = (dl * (env.p r).x + dr * (env.p l).x) / (dl + dr)) ∧
          (ogl.isSome = true ∧ ogr.isSome = false → (env1.p q).x = (env.p r).x) ∧
          (ogl.isSome = false ∧ ogr.isSome = true → (env1.p q).x = (env.p l).x) ∧
          (ogl.isSome = true ∨ ogr.isSome = true)) ∧
    ((env.p q).pl = none ∨ (env.p q).pr = none →
      ∀ env1, meet q env params = .ok (0, env1) → (env1.p q).x = (env.p q).x) := by
  constructor
  · intro l r hl hr hx
    rcases meet_interior_cases q l r env params hl hr hx with
      ⟨e, he, hne⟩ | h1 | ⟨ogl, ogr, gl, gr, dl, dr, hf, hgl, hgr, hs, -, -, hdl, hdr, hc⟩
    · refine ⟨?_, ?_⟩
      · rw [he]
        intro hh
        simp only [Except.error.injEq] at hh
        exact hne hh
      · intro env1 h
        rw [he] at h
        exact absurd h (by simp)
    · refine ⟨by rw [h1]; simp, ?_⟩
      intro env1 h
      rw [h1] at h
      simp only [Except.ok.injEq, Prod.mk.injEq] at h
      exact absurd h.1 (by decide)
    · have hb := meet_ok_x q env
      rcases hc with ⟨a1, a2, a3⟩ | ⟨a1, a2, a3⟩ | ⟨a1, a2, a3⟩
      all_goals
        refine ⟨by rw [a3]; simp, ?_⟩
        intro env1 h
        have hbx := hb env1 params h
        refine ⟨hf, hbx.1 l hl, hbx.2.1 r hr, ogl, ogr, gl, gr, dl, dr, hgl, hgr, hs, ?_⟩
        rw [a3] at h
        simp only [Except.ok.injEq, Prod.mk.injEq, true_and] at h
        rw [← h]
        simp only [Function.update_same]
        rw [a1, a2]
        simp [hdl, hdr, a1, a2]
  · intro hb env1 h
    exact (meet_ok_x q env env1 params h).2.2 hb

/-- C32: the envelope dominates the chord between on-curve neighbours.  At an
interior point `q` with `l.x < r.x` (`l = q.pl`, `r = q.pr`) on which `meet`
returns 0, the stored `q.y` exceeds the height at the stored `q.x` of the
straight line through `(l.x, l.y)` and `(r.x, r.y)`: by exactly
`dl * dr / (dl + dr) >= YEPS / 2` with a gradient on both sides, by
`dr >= YEPS` with a gradient on the left only and by `dl >= YEPS` with a
gradient on the right only, where `dl`, `dr` are the floored d-values that
`meet` hands to its final case distinction. -/
theorem meet_dominates_chord (q l r : Nat) (env env1 : arms_state α)
    (params : apop_arms_settings α)
    (hl : (env.p q).pl = some l) (hr : (env.p q).pr = some r)
    (hx : (env.p l).x < (env.p r).x) (h : meet q env params = .ok (0, env1)) :
    ∃ (ogl ogr : Option α) (gl gr dl dr : α),
      meet_gl env.p q = .ok ogl ∧ meet_gr env.p q = .ok ogr ∧
      meet q env params = meet_store q env ogl.isSome ogr.isSome true gl gr dl dr ∧
      dl = (if ogr.isSome then meet_floor ((((env.p r).y - (env.p l).y)
        / ((env.p r).x - (env.p l).x) - gr) * ((env.p r).x - (env.p l).x)) else 0) ∧
      dr = (if ogl.isSome then meet_floor ((gl - ((env.p r).y - (env.p l).y)
        / ((env.p r).x - (env.p l).x)) * ((env.p r).x - (env.p l).x)) else 0) ∧
      (ogl.isSome = true ∧ ogr.isSome = true → YEPS ≤ dl ∧ YEPS ≤ dr ∧
        (env1.p q).y - ((env.p l).y + ((env.p r).y - (env.p l).y)
          / ((env.p r).x - (env.p l).x) * ((env1.p q).x - (env.p l).x))
          = dl * dr / (dl + dr) ∧ YEPS / 2 ≤ dl * dr / (dl + dr)) ∧
      (ogl.isSome = true ∧ ogr.isSome = false → YEPS ≤ dr ∧
        (env1.p q).y - ((env.p l).y + ((env.p r).y - (env.p l).y)
          / ((env.p r).x - (env.p l).x) * ((env1.p q).x - (env.p l).x)) = dr) ∧
      (ogl.isSome = false ∧ ogr.isSome = true → YEPS ≤ dl ∧
        (env1.p q).y - ((env.p l).y + ((env.p r).y - (env.p l).y)
          / ((env.p r).x - (env.p l).x) * ((env1.p q).x - (env.p l).x)) = dl) ∧
      (ogl.isSome = true ∨ ogr.isSome = true) := by
  have hD : (env.p r).x - (env.p l).x ≠ 0 := (sub_pos.mpr hx).ne'
  rcases meet_interior_cases q l r env params hl hr hx.le with
    ⟨e, he, -⟩ | h1 | ⟨ogl, ogr, gl, gr, dl, dr, -, hgl, hgr, hs, edl, edr, hdl, hdr, hc⟩
  · rw [he] at h
    exact absurd h (by simp)
  · rw [h1] at h
    simp only [Except.ok.injEq, Prod.mk.injEq] at h
    exact absurd h.1 (by decide)
  refine ⟨ogl, ogr, gl, gr, dl, dr, hgl, hgr, hs, edl, edr, ?_⟩
  rcases hc with ⟨a1, a2, a3⟩ | ⟨a1, a2, a3⟩ | ⟨a1, a2, a3⟩
  · rw [a3] at h
    simp only [Except.ok.injEq, Prod.mk.injEq, true_and] at h
    rw [← h]
    simp only [Function.update_same]
    have h1 := hdl a2
    have h2 := hdr a1
    have p1 := lt_of_lt_of_le YEPS_pos h1
    have p2 := lt_of_lt_of_le YEPS_pos h2
    have hs0 : dl + dr ≠ 0 := (add_pos p1 p2).ne'
    refine ⟨fun _ => ⟨h1, h2, ?_, ?_⟩, ?_, ?_, Or.inl a1⟩
    · field_simp
      ring
    · rw [le_div_iff₀ (add_pos p1 p2)]
      have hy : (0 : α) ≤ YEPS := YEPS_pos.le
      nlinarith [mul_nonneg (sub_nonneg.mpr h1) (sub_nonneg.mpr h2),
        mul_nonneg hy (sub_nonneg.mpr h1), mul_nonneg hy (sub_nonneg.mpr h2)]
    · intro hh
      rw [a2] at hh
      exact absurd hh.2 (by simp)
    · intro hh
      rw [a1] at hh
      exact absurd hh.1 (by simp)
  · rw [a3] at h
    simp only [Except.ok.injEq, Prod.mk.injEq, true_and] at h
    rw [← h]
    simp only [Function.update_same]
    refine ⟨?_, fun _ => ⟨hdr a1, ?_⟩, ?_, Or.inl a1⟩
    · intro hh
      rw [a2] at hh
      exact absurd hh.2 (by simp)
    · field_simp
    · intro hh
      rw [a1] at hh
      exact absurd hh.1 (by simp)
  · rw [a3] at h
    simp only [Except.ok.injEq, Prod.mk.injEq, true_and] at h
    rw [← h]
    simp only [Function.update_same]
    refine ⟨?_, ?_, fun _ => ⟨hdl a2, ?_⟩, Or.inr a2⟩
    · intro hh
      rw [a1] at hh
      exact absurd hh.1 (by simp)
    · intro hh
      rw [a1] at hh
      exact absurd hh.1 (by simp)
    · simp

end Interior3
/-- Witness for C31: the intersection point in slot 3 of `cross_arena`, between
the points at `x = -1` and `x = 1`; `meet` returns 0 and stores an `x` in
`[-1, 1]`. -/
theorem meet_within_interval_witness :
    ∃ env1, meet 3 (cross_env : arms_state ℚ) ex_settings = .ok (0, env1) ∧
      meet 3 (cross_env : arms_state ℚ) ex_settings ≠ .error (.error 32) ∧
      -1 ≤ (env1.p 3).x ∧ (env1.p 3).x ≤ 1 := by
  obtain ⟨⟨rc, env1⟩, hv, hc⟩ :=
    ok_of_check (meet 3 (cross_env : arms_state ℚ) ex_settings) (fun v => decide (v.1 = 0))
      (by with_unfolding_all rfl)
  have hrc : rc = 0 := by simpa using hc
  subst hrc
  obtain ⟨h1, h2⟩ := (meet_within_interval 3 (cross_env : arms_state ℚ) ex_settings).1 2 4
    rfl rfl (by norm_num [cross_env, cross_arena])
  obtain ⟨-, b1, b2, -⟩ := h2 env1 hv
  exact ⟨env1, hv, h1, b1, b2⟩

/-- Witness for C32: the intersection point in slot 3 of `cross_arena`, between
the points `(-1, -1)` and `(1, -1)`, with a gradient on both sides; the height
that `meet` stores exceeds the chord by at least `YEPS / 2`. -/
theorem meet_dominates_chord_witness :
    ∃ env1, meet 3 (cross_env : arms_state ℚ) ex_settings = .ok (0, env1) ∧
      ((cross_env : arms_state ℚ).p 2).x < ((cross_env : arms_state ℚ).p 4).x ∧
      YEPS / 2 ≤ (env1.p 3).y - (((cross_env : arms_state ℚ).p 2).y
        + (((cross_env : arms_state ℚ).p 4).y - ((cross_env : arms_state ℚ).p 2).y)
          / (((cross_env : arms_state ℚ).p 4).x - ((cross_env : arms_state ℚ).p 2).x)
          * ((env1.p 3).x - ((cross_env : arms_state ℚ).p 2).x)) := by
  obtain ⟨⟨rc, env1⟩, hv, hc⟩ :=
    ok_of_check (meet 3 (cross_env : arms_state ℚ) ex_settings) (fun v => decide (v.1 = 0))
      (by with_unfolding_all rfl)
  have hrc : rc = 0 := by simpa using hc
  subst hrc
  have hx : ((cross_env : arms_state ℚ).p 2).x < ((cross_env : arms_state ℚ).p 4).x := by
    norm_num [cross_env, cross_arena]
  have hgl : meet_gl (cross_env : arms_state ℚ).p 3 = .ok (some 4) := by
    norm_num [meet_gl, cross_env, cross_arena]
  have hgr : meet_gr (cross_env : arms_state ℚ).p 3 = .ok (some (-4)) := by
    norm_num [meet_gr, cross_env, cross_arena]
  obtain ⟨ogl, ogr, gl, gr, dl, dr, e1, e2, -, -, -, h2, -⟩ :=
    meet_dominates_chord 3 2 4 (cross_env : arms_state ℚ) env1 ex_settings rfl rfl hx hv
  rw [hgl] at e1
  rw [hgr] at e2
  simp only [Except.ok.injEq] at e1 e2
  subst e1 e2
  obtain ⟨-, -, h3, h4⟩ := h2 ⟨rfl, rfl⟩
  refine ⟨env1, hv, hx, ?_⟩
  rw [h3]
  exact h4

/-! ## The chain covers the allocated part of the arena -/

section ArenaWalks
variable {α : Type} [LinearOrderedField α]

end ArenaWalks

section ArenaChain1
variable {α : Type} [LinearOrderedField α]

end ArenaChain1

section ArenaChain2
variable {α : Type} [LinearOrderedField α]

end ArenaChain2

section Relaxation2
variable {α : Type} [LinearOrderedField α]

/-- The interval of a point whose neighbours are in order has a width that is
not negative. -/
theorem meet_width_nonneg (P : Nat → POINT α) (q : Nat)
    (hord : ∀ a b, (P q).pl = some a → (P q).pr = some b → (P a).x ≤ (P b).x) :
    0 ≤ meet_width P q := by
  unfold meet_width
  split
  · rename_i a b ha hb
    exact sub_nonneg.mpr (hord a b ha hb)
  · exact le_refl _

/-- In a chain that is non-decreasing in `x` the two neighbours of every point
are in order. -/
theorem xsorted_neighbours (P : Nat → POINT α) (l : List Nat) (hc : IsChain P l)
    (hx : XSorted P l) (q : Nat) (hq : q ∈ l) :
    ∀ a b, (P q).pl = some a → (P q).pr = some b → (P a).x ≤ (P b).x := by
  intro a b ha hb
  obtain ⟨h1, h2⟩ := local_of_xsorted P l hc hx q hq
  exact le_trans (h1 a ha) (h2 b hb)

/-- C26: the relaxation of the gradients in `meet`, with Metropolis enabled and
`convex >= 0`, at a point `q` that is not on-curve and whose two neighbours are
in the order of the envelope (`q.pl.x <= q.pr.x`, as at every point of an
envelope that is non-decreasing in `x`).  The call continues to the case
distinction `meet_store` with gradients `gl`, `gr` and floored d-values
computed from them.  If the left gradient `g0` is below the central gradient
`grl`, then `gl = g0 + (1 + convex) * (grl - g0)` and
`gl - grl = convex * (grl - g0)`; otherwise `gl = g0`; in both cases
`gl >= grl`.  Symmetrically `gr <= grl`.  Hence the d-values are `>= 0` before
the flooring and `>= YEPS` after it. -/
theorem meet_relaxation (q : Nat) (env : arms_state α) (params : apop_arms_settings α)
    (ogl ogr : Option α) (hf : (env.p q).f = 0) (hm : params.do_metro ≠ 0)
    (hc : 0 ≤ env.convex)
    (hord : ∀ a b, (env.p q).pl = some a → (env.p q).pr = some b →
      (env.p a).x ≤ (env.p b).x)
    (hgl : meet_gl env.p q = .ok ogl) (hgr : meet_gr env.p q = .ok ogr) :
    ∃ gl gr : α,
      meet q env params = meet_store q env ogl.isSome ogr.isSome (meet_grl env.p q).isSome gl gr
        (if ogr.isSome && (meet_grl env.p q).isSome
          then meet_floor (((meet_grl env.p q).getD 0 - gr) * meet_width env.p q) else 0)
        (if ogl.isSome && (meet_grl env.p q).isSome
          then meet_floor ((gl - (meet_grl env.p q).getD 0) * meet_width env.p q) else 0) ∧
      (∀ g0 grl, ogl = some g0 → meet_grl env.p q = some grl →
        (g0 < grl → gl = g0 + (1 + env.convex) * (grl - g0) ∧
          gl - grl = env.convex * (grl - g0)) ∧
        (¬ g0 < grl → gl = g0) ∧ grl ≤ gl ∧
        0 ≤ (gl - grl) * meet_width env.p q ∧
        YEPS ≤ meet_floor ((gl - grl) * meet_width env.p q)) ∧
      (∀ g0 grl, ogr = some g0 → meet_grl env.p q = some grl →
        (g0 > grl → gr = g0 + (1 + env.convex) * (grl - g0) ∧
          grl - gr = env.convex * (g0 - grl)) ∧
        (¬ g0 > grl → gr = g0) ∧ gr ≤ grl ∧
        0 ≤ (grl - gr) * meet_width env.p q ∧
        YEPS ≤ meet_floor ((grl - gr) * meet_width env.p q)) := by
  have hd : decide (params.do_metro = 0) = false := decide_eq_false hm
  have hw : 0 ≤ meet_width env.p q := meet_width_nonneg env.p q hord
  refine ⟨if (meet_grl env.p q).isSome && ogl.isSome
        && decide (ogl.getD 0 < (meet_grl env.p q).getD 0)
      then ogl.getD 0 + (1 + env.convex) * ((meet_grl env.p q).getD 0 - ogl.getD 0)
      else ogl.getD 0,
    if (meet_grl env.p q).isSome && ogr.isSome
        && decide (ogr.getD 0 > (meet_grl env.p q).getD 0)
      then ogr.getD 0 + (1 + env.convex) * ((meet_grl env.p q).getD 0 - ogr.getD 0)
      else ogr.getD 0, ?_, ?_, ?_⟩
  · unfold meet
    dsimp only
    rw [if_neg (by simp [hf]), hgl, hgr]
    dsimp only
    rw [hd]
    simp only [Bool.and_false, Bool.false_eq_true, if_false]
  · intro g0 grl h1 h2
    subst h1
    rw [h2]
    simp only [Option.isSome_some, Bool.true_and, Option.getD_some, decide_eq_true_eq]
    by_cases hv : g0 < grl
    · rw [if_pos hv]
      have hp : 0 ≤ env.convex * (grl - g0) := mul_nonneg hc (sub_nonneg.mpr hv.le)
      have he : g0 + (1 + env.convex) * (grl - g0) - grl = env.convex * (grl - g0) := by ring
      have hge : grl ≤ g0 + (1 + env.convex) * (grl - g0) := by linarith
      exact ⟨fun _ => ⟨rfl, he⟩, fun h => absurd hv h, hge,
        mul_nonneg (sub_nonneg.mpr hge) hw, meet_floor_ge _⟩
    · rw [if_neg hv]
      have hge : grl ≤ g0 := not_lt.mp hv
      exact ⟨fun h => absurd h hv, fun _ => rfl, hge,
        mul_nonneg (sub_nonneg.mpr hge) hw, meet_floor_ge _⟩
  · intro g0 grl h1 h2
    subst h1
    rw [h2]
    simp only [Option.isSome_some, Bool.true_and, Option.getD_some, decide_eq_true_eq]
    by_cases hv : g0 > grl
    · rw [if_pos hv]
      have hp : 0 ≤ env.convex * (g0 - grl) := mul_nonneg hc (sub_nonneg.mpr hv.le)
      have he : grl - (g0 + (1 + env.convex) * (grl - g0)) = env.convex * (g0 - grl) := by ring
      have hge : g0 + (1 + env.convex) * (grl - g0) ≤ grl := by linarith
      exact ⟨fun _ => ⟨rfl, he⟩, fun h => absurd hv h, hge,
        mul_nonneg (sub_nonneg.mpr hge) hw, meet_floor_ge _⟩
    · rw [if_neg hv]
      have hge : g0 ≤ grl := not_lt.mp hv
      exact ⟨fun h => absurd h hv, fun _ => rfl, hge,
        mul_nonneg (sub_nonneg.mpr hge) hw, meet_floor_ge _⟩

end Relaxation2

/-- Witness for C26: in the chain `relax_arena`, ordered in `x`, the
intersection point in slot 4 has left gradient 0 below the central gradient 1;
with Metropolis enabled and `convex = 1` the left gradient is relaxed to 2 and
the d-value is `(2 - 1) * (1 - 0) = 1` before the flooring. -/
theorem meet_relaxation_witness :
    IsChain (relax_env : arms_state ℚ).p (List.range 7) ∧
    XSorted (relax_env : arms_state ℚ).p (List.range 7) ∧
    ∃ gl gr : ℚ,
      meet 4 (relax_env : arms_state ℚ) two_settings
        = meet_store 4 relax_env true false true gl gr 0
            (meet_floor ((gl - 1) * meet_width relax_env.p 4)) ∧
      gl = 2 ∧ gl - 1 = (relax_env : arms_state ℚ).convex * (1 - 0) ∧
      (gl - 1) * meet_width (relax_env : arms_state ℚ).p 4 = 1 ∧
      0 ≤ (gl - 1) * meet_width (relax_env : arms_state ℚ).p 4 := by
  have hchain : IsChain (relax_env : arms_state ℚ).p (List.range 7) :=
    ⟨by decide, by decide, by simp [List.range, List.range.loop, Linked, relax_env, relax_arena]⟩
  have hsorted : XSorted (relax_env : arms_state ℚ).p (List.range 7) := by
    norm_num [XSorted, List.range, List.range.loop, relax_env, relax_arena]
  have hgl : meet_gl (relax_env : arms_state ℚ).p 4 = .ok (some 0) := by
    norm_num [meet_gl, relax_env, relax_arena]
  have hgr : meet_gr (relax_env : arms_state ℚ).p 4 = .ok none := by
    norm_num [meet_gr, relax_env, relax_arena]
  have hgrl : meet_grl (relax_env : arms_state ℚ).p 4 = some 1 := by
    norm_num [meet_grl, relax_env, relax_arena]
  have hwd : meet_width (relax_env : arms_state ℚ).p 4 = 1 := by
    norm_num [meet_width, relax_env, relax_arena]
  obtain ⟨gl, gr, h1, h2, -⟩ := meet_relaxation 4 (relax_env : arms_state ℚ) two_settings
    (some 0) none rfl (by decide) (by norm_num [relax_env])
    (xsorted_neighbours _ _ hchain hsorted 4 (by decide)) hgl hgr
  rw [hgrl] at h1
  obtain ⟨a1, -, -, a4, -⟩ := h2 0 1 rfl hgrl
  have hgl2 : gl = 2 := by
    rw [(a1 (by norm_num)).1]
    norm_num [relax_env]
  refine ⟨hchain, hsorted, gl, gr, ?_, hgl2, (a1 (by norm_num)).2, ?_, a4⟩
  · simpa using h1
  · rw [hgl2, hwd]
    norm_num

/-! ## `invert`: the selected segment has positive length -/

section Nondegenerate
variable {α : Type} [LinearOrderedField α]

end Nondegenerate

section SegmentReach
variable {α : Type} [LinearOrderedField α]

/-- What `cumulate` has returned satisfies the relation between `cum` and the
areas along the chain. -/
theorem cumulate_segment (m : Libm α) (hmono : Monotone m.exp) (hpos : ∀ t, 0 ≤ m.exp t)
    (fuel : Nat) (env2 env1 : arms_state α) (l : List Nat)
    (hcu : cumulate m fuel env2 = .ok env1) (hc : IsChain env1.p l) (h0 : 0 ∈ l)
    (hx : XSorted env1.p l) (hf : l.length ≤ fuel) :
    (∀ a, l.head? = some a → (env1.p a).cum = 0) ∧
    List.Chain' (fun a b => ∃ ar, area env1.p b = .ok ar ∧ 0 ≤ ar ∧
      (env1.p b).cum = (env1.p a).cum + ar) l := by
  obtain ⟨-, hcf⟩ := cumulate_frame m fuel env2 env1 hcu
  have hsh : SameShape env1.p env2.p := fun i =>
    ⟨(hcf i).2.2.1.symm, (hcf i).2.2.2.1.symm, (hcf i).2.2.2.2.symm⟩
  have hc2 : IsChain env2.p l := sameShape_isChain hsh l hc
  have hx2 : XSorted env2.p l := by
    unfold XSorted at hx ⊢
    refine List.Chain'.imp ?_ hx
    intro u v huv
    rw [← (hcf u).1, ← (hcf v).1]
    exact huv
  cases l with
  | nil => exact absurd rfl hc.1
  | cons a0 t =>
    obtain ⟨env1', ar, hcu', -, hc0, hch, -⟩ :=
      cumulate_chain_nonneg m hmono hpos fuel env2 a0 t hc2 h0 hx2 hf
    rw [hcu] at hcu'
    simp only [Except.ok.injEq] at hcu'
    subst hcu'
    refine ⟨?_, ?_⟩
    · intro a ha
      simp only [List.head?_cons, Option.some.injEq] at ha
      subst ha
      exact hc0
    · unfold List.Chain'
      refine List.Chain.imp ?_ hch
      intro u v huv
      exact ⟨ar v, huv.1, huv.2.1, huv.2.2.1⟩

/-- The envelope that `initial` builds satisfies `SegmentInv`: its last piece
runs from the last abscissa `xinit[ninit-1]` to the right bound `xr`. -/
theorem initial_segment_inv (m : Libm α) (hmono : Monotone m.exp) (hpos : ∀ t, 0 ≤ m.exp t)
    (fuel : Nat) (mem : Nat → POINT α)
    (params params1 : apop_arms_settings α) (env env1 : arms_state α)
    (hfuel : 2 * params.ninit + 1 ≤ fuel)
    (h : initial m fuel mem params env = .ok (0, params1, env1)) :
    SegmentInv env1 (List.range (2 * params.ninit + 1)) := by
  obtain ⟨-, hchain, -, -⟩ := initial_chain_flags m fuel mem params params1 env env1 h
  rcases initial_ok_cases _ _ _ _ _ _ _ _ h with ⟨hc, -, -⟩ | ⟨hv, he⟩
  · simp at hc
  have hn : 1 ≤ params.ninit := by omega
  have hsorted := initial_envelope_sorted m fuel mem params params1 env env1 hn he
  obtain ⟨-, -, hS⟩ := initial_envelope_shape m fuel mem params params1 env env1 hn he
  have hcu : ∃ env2, cumulate m fuel env2 = .ok { env1 with cpoint := env2.cpoint } ∧
      True := by
    unfold initial_envelope at he
    dsimp only at he
    split at he
    · exact absurd he (by simp)
    · rename_i rc env2 hm
      split_ifs at he
      · simp only [Except.ok.injEq, Prod.mk.injEq] at he
        exact absurd he.1 (by decide)
      · split at he
        · exact absurd he (by simp)
        · rename_i env3 hc3
          simp only [Except.ok.injEq, Prod.mk.injEq] at he
          refine ⟨env2, ?_, trivial⟩
          rw [hc3, ← he.2.2]
          have := (cumulate_frame m fuel env2 env3 hc3).1.1
          rw [← this]
  obtain ⟨env2, hcu, -⟩ := hcu
  have h0 : 0 ∈ List.range (2 * params.ninit + 1) := by
    rw [List.mem_range]
    omega
  obtain ⟨c0, cch⟩ := cumulate_segment m hmono hpos fuel env2 { env1 with cpoint := env2.cpoint }
    (List.range (2 * params.ninit + 1)) hcu hchain h0 hsorted (by rw [List.length_range]; exact hfuel)
  refine ⟨hchain, h0, c0, cch, 2 * params.ninit, 2 * params.ninit - 1, ?_, ?_, ?_⟩
  · rw [List.getLast?_range]
    simp
  · obtain ⟨a1, -⟩ := hS (2 * params.ninit) (le_refl _)
    rw [a1, if_neg (by omega)]
  · obtain ⟨-, -, -, -, a5, -⟩ := hS (2 * params.ninit) (le_refl _)
    obtain ⟨-, -, -, -, -, a6⟩ := hS (2 * params.ninit - 1) (by omega)
    rw [a5 rfl, (a6 (by omega)).1]
    have hdiv : (2 * params.ninit - 1) / 2 = params.ninit - 1 := by omega
    rw [hdiv]
    exact hv.2.2.1.2

end SegmentReach

section AdjustUpper
variable {α : Type} [LinearOrderedField α]

/-- After the adjustment of `update` the point `q` lies at or to the left of
`XEPS * ql.x + (1 - XEPS) * qr.x`. -/
theorem update_adjust_upper (P P4 : Nat → POINT α) (params params1 : apop_arms_settings α)
    (qi l r ql qr : Nat) (hl : (P qi).pl = some l) (hr : (P qi).pr = some r)
    (hql : ql = (match (P l).pl with
      | some ll => ll
      | none => l))
    (hqr : qr = (match (P r).pr with
      | some rr => rr
      | none => r))
    (hx : (P ql).x ≤ (P qr).x)
    (h : update_adjust P params qi = .ok (P4, params1)) :
    (P4 qi).x ≤ XEPS * (P ql).x + (1 - XEPS) * (P qr).x := by
  have hlohi : (1 - XEPS) * (P ql).x + XEPS * (P qr).x
      ≤ XEPS * (P ql).x + (1 - XEPS) * (P qr).x := by
    have h2 : (0 : α) ≤ 1 - 2 * XEPS := by norm_num [XEPS]
    have := mul_nonneg h2 (sub_nonneg.mpr hx)
    linarith
  have hu : update_adjust P params qi =
      (if (P qi).x < (1 - XEPS) * (P ql).x + XEPS * (P qr).x then
        .ok (Function.update P qi
          { P qi with x := (1 - XEPS) * (P ql).x + XEPS * (P qr).x,
                      y := params.model ((1 - XEPS) * (P ql).x + XEPS * (P qr).x) },
          { params with neval := params.neval + 1 })
      else if (P qi).x > XEPS * (P ql).x + (1 - XEPS) * (P qr).x then
        .ok (Function.update P qi
          { P qi with x := XEPS * (P ql).x + (1 - XEPS) * (P qr).x,
                      y := params.model (XEPS * (P ql).x + (1 - XEPS) * (P qr).x) },
          { params with neval := params.neval + 1 })
      else .ok (P, params)) := by
    unfold update_adjust
    rw [hl, hr, hql, hqr]
    rfl
  rw [hu] at h
  by_cases h1 : (P qi).x < (1 - XEPS) * (P ql).x + XEPS * (P qr).x
  · rw [if_pos h1] at h
    simp only [Except.ok.injEq, Prod.mk.injEq] at h
    rw [← h.1, Function.update_same]
    exact hlohi
  · rw [if_neg h1] at h
    by_cases h2 : (P qi).x > XEPS * (P ql).x + (1 - XEPS) * (P qr).x
    · rw [if_pos h2] at h
      simp only [Except.ok.injEq, Prod.mk.injEq] at h
      rw [← h.1, Function.update_same]
    · rw [if_neg h2] at h
      simp only [Except.ok.injEq, Prod.mk.injEq] at h
      rw [← h.1]
      exact not_lt.mp h2

end AdjustUpper

section SegmentReach2
variable {α : Type} [LinearOrderedField α]

/-- A call of `update` that returns 0 keeps `SegmentInv`: the chain ends with
`cumulate`, and a point inserted into the last piece is moved by the adjustment
of `update` to the left of the right bound. -/
theorem update_segment_inv (m : Libm α) (hmono : Monotone m.exp) (hpos : ∀ t, 0 ≤ m.exp t)
    (fuel : Nat) (env env1 : arms_state α) (p : POINT α)
    (params params1 : apop_arms_settings α) (l1 l2 : List Nat) (a b : Nat)
    (hseg : SegmentInv env (l1 ++ a :: b :: l2))
    (hal : Alternating env.p (l1 ++ a :: b :: l2))
    (hx : XSorted env.p (l1 ++ a :: b :: l2))
    (hlt : ∀ s, s ∈ l1 ++ a :: b :: l2 → s < env.cpoint)
    (hpl : p.pl = some a) (hpr : p.pr = some b)
    (hfuel : (l1 ++ a :: b :: l2).length + 2 ≤ fuel)
    (h : update m fuel env p params = .ok (0, env1, params1)) :
    ∃ l, (l = l1 ++ a :: b :: l2 ∨
        l = l1 ++ a :: (env.cpoint + 1) :: env.cpoint :: b :: l2 ∨
        l = l1 ++ a :: env.cpoint :: (env.cpoint + 1) :: b :: l2) ∧
      SegmentInv env1 l ∧ Alternating env1.p l ∧ XSorted env1.p l ∧
      (∀ s, s ∈ l → s < env1.cpoint) := by
  by_cases hne : ¬ (p.f ≠ 0) ∨ ((env.cpoint : Int) > (env.npoint : Int) - 2)
  · unfold update at h
    rw [if_pos hne] at h
    simp only [Except.ok.injEq, Prod.mk.injEq, true_and] at h
    rw [← h.1]
    exact ⟨_, Or.inl rfl, hseg, hal, hx, hlt⟩
  obtain ⟨hc, h0, hcum0, hcum, z, lz, hz, hlz, hpos1⟩ := hseg
  have ha : a < env.cpoint := hlt a (by simp)
  have hb : b < env.cpoint := hlt b (by simp)
  have hab : a ≠ b := by
    have := hc.2.1
    rw [List.nodup_append] at this
    have h2 := this.2.1
    simp only [List.nodup_cons, List.mem_cons, not_or] at h2
    exact h2.1.1
  obtain ⟨P3, P4, env2, bb, hs, hadj, hm, hcase⟩ :=
    update_ok m fuel env env1 p params params1 0 hne h
  have hcu : bb = false ∧ cumulate m fuel env2 = .ok env1 := by
    rcases hcase with ⟨-, h1, -⟩ | ⟨h1, -, h3⟩
    · exact absurd h1 (by decide)
    · exact ⟨h1, h3⟩
  obtain ⟨hbb, hcu⟩ := hcu
  subst hbb
  obtain ⟨s1, s2, hcs, hf, hfr, e1, e2, e3, e4, e5, e6, e7, e8⟩ :=
    update_arena_shape env p params params1 P3 P4 a b hpl hpr ha hb hab hs hadj
  have hxs := update_arena_x env p params params1 P3 P4 a b hpl hpr ha hb hab hs hadj
  obtain ⟨-, -, hmf⟩ := update_meets_frame _ _ _ _ _ hm
  obtain ⟨-, hcf⟩ := cumulate_frame _ _ _ _ hcu
  have hs1 : s1 ∉ l1 ++ a :: b :: l2 := by
    intro hc1
    have := hlt s1 hc1
    rcases hcs with ⟨k, -⟩ | ⟨k, -⟩ <;> omega
  have hs2 : s2 ∉ l1 ++ a :: b :: l2 := by
    intro hc1
    have := hlt s2 hc1
    rcases hcs with ⟨-, k, -⟩ | ⟨-, k, -⟩ <;> omega
  -- pointers and abscissae of the old points in the new arena
  have hp1 : ∀ i, (env1.p i).pl = (P4 i).pl ∧ (env1.p i).pr = (P4 i).pr := by
    intro i
    exact ⟨(hcf i).2.2.2.1.trans (hmf i).2.2.2.1, (hcf i).2.2.2.2.trans (hmf i).2.2.2.2.1⟩
  have hxon : ∀ i, (P4 i).f ≠ 0 → (env1.p i).x = (P4 i).x := by
    intro i hi
    rw [(hcf i).1]
    exact ((hmf i).2.2.2.2.2.1 hi).1
  have hxend : ∀ i, (P4 i).pl = none ∨ (P4 i).pr = none → (env1.p i).x = (P4 i).x := by
    intro i hi
    rw [(hcf i).1]
    exact (hmf i).2.2.2.2.2.2 hi
  obtain ⟨l, hl, hc', hal', hx', hlt', -⟩ :=
    update_sorted m fuel env env1 p params params1 l1 l2 a b hc hal hx hlt hpl hpr h
  -- the chain has grown
  have hl2 : l = l1 ++ a :: (env.cpoint + 1) :: env.cpoint :: b :: l2 ∨
      l = l1 ++ a :: env.cpoint :: (env.cpoint + 1) :: b :: l2 := by
    rcases hl with hl | hl | hl
    · exfalso
      have hpr1 := (linked_pr env1.p a (b :: l2) l1 none (by rw [← hl]; exact hc'.2.2)).1
      rw [(hp1 a).2, e2] at hpr1
      simp only [List.head?_cons, Option.some.injEq] at hpr1
      exact hs1 (by rw [hpr1]; simp)
    · exact Or.inl hl
    · exact Or.inr hl
  have hzb : (b :: l2).getLast? = some z := by
    have e : l1 ++ a :: b :: l2 = (l1 ++ [a]) ++ (b :: l2) := by simp
    rw [e, List.getLast?_append_of_ne_nil _ (by simp)] at hz
    exact hz
  have hzl : l.getLast? = some z := by
    rcases hl2 with hl | hl
    · have e : l1 ++ a :: (env.cpoint + 1) :: env.cpoint :: b :: l2
          = (l1 ++ [a, env.cpoint + 1, env.cpoint]) ++ (b :: l2) := by simp
      rw [hl, e, List.getLast?_append_of_ne_nil _ (by simp)]
      exact hzb
    · have e : l1 ++ a :: env.cpoint :: (env.cpoint + 1) :: b :: l2
          = (l1 ++ [a, env.cpoint, env.cpoint + 1]) ++ (b :: l2) := by simp
      rw [hl, e, List.getLast?_append_of_ne_nil _ (by simp)]
      exact hzb
  have hzmem : z ∈ l1 ++ a :: b :: l2 := List.mem_of_mem_getLast? hz
  have hzf : (env.p z).f = 0 := hal.2.1 z hz
  have hzpr : (env.p z).pr = none := by
    obtain ⟨k, hk⟩ : ∃ k, l1 ++ a :: b :: l2 = k ++ [z] := by
      rcases List.eq_nil_or_concat (l1 ++ a :: b :: l2) with h1 | ⟨k, z1, h1⟩
      · simp at h1
      · rw [h1] at hz
        have hz1 : z1 = z := by simpa using hz
        subst hz1
        exact ⟨k, by rw [h1]; simp⟩
    have := (linked_pr env.p z [] k none (by rw [← hk]; exact hc.2.2)).1
    simpa using this
  obtain ⟨hlzmem, hflag⟩ := alt_pl_flag env.p _ z lz hc hal hzmem hlz
  have hlzf : (env.p lz).f ≠ 0 := by
    rcases hflag with ⟨k, -⟩ | ⟨-, k⟩
    · exact k
    · exact absurd hzf k
  have h0l : 0 ∈ l := by
    simp only [List.mem_append, List.mem_cons] at h0
    rcases hl2 with hl | hl <;>
    · rw [hl]
      simp only [List.mem_append, List.mem_cons]
      rcases h0 with k | k | k | k
      · exact Or.inl k
      · exact Or.inr (Or.inl k)
      · exact Or.inr (Or.inr (Or.inr (Or.inr (Or.inl k))))
      · exact Or.inr (Or.inr (Or.inr (Or.inr (Or.inr k))))
  have hlen : l.length ≤ fuel := by
    rcases hl2 with hl | hl <;>
    · rw [hl]
      simp only [List.length_append, List.length_cons] at hfuel ⊢
      omega
  obtain ⟨c0, cch⟩ := cumulate_segment m hmono hpos fuel env2 env1 l hcu hc' h0l hx' hlen
  have hzs1 : z ≠ s1 := fun hh => hs1 (hh ▸ hzmem)
  have hzs2 : z ≠ s2 := fun hh => hs2 (hh ▸ hzmem)
  have hza : z ≠ a := by
    intro hh
    rw [hh, (linked_pr env.p a (b :: l2) l1 none hc.2.2).1] at hzpr
    simp at hzpr
  have hzq : z ≠ env.cpoint := fun hh => absurd (hlt z hzmem) (by omega)
  have hxz : (env1.p z).x = (env.p z).x := by
    rw [hxend z, hxs z hzq]
    by_cases hzb1 : z = b
    · right
      rw [hzb1, e8, ← hzb1]
      exact hzpr
    · right
      rw [(hfr z hza hzb1 hzs1 hzs2).2]
      exact hzpr
  refine ⟨l, Or.inr hl2, ⟨hc', h0l, c0, cch, ?_⟩, hal', hx', hlt'⟩
  by_cases hzb1 : z = b
  · -- the new point lies in the last piece
    subst hzb1
    have hlza : lz = a := by
      have := linked_pl env.p a z l2 l1 none hc.2.2
      rw [hlz] at this
      simpa using this
    subst hlza
    rcases hcs with ⟨k1, k2, k3, k4, k5, k6⟩ | ⟨-, -, -, k4, -⟩
    swap
    · exact absurd hzf k4
    subst k1
    subst k2
    refine ⟨z, env.cpoint, hzl, ?_, ?_⟩
    · rw [(hp1 z).1, e7]
    · rw [hxz, hxon _ k6]
      have hqm : env.cpoint ≠ env.cpoint + 1 := by omega
      have hsp := update_splice_ok _ _ p _ _ lz z hpl hpr hqm (by omega) (by omega) (by omega)
        (by omega) hab hs
      have hP3 : (P3 env.cpoint).pl = some (env.cpoint + 1) ∧ (P3 env.cpoint).pr = some z ∧
          (P3 (env.cpoint + 1)).pl = some lz ∧ (P3 z).pr = none ∧
          (P3 lz).x = (env.p lz).x ∧ (P3 z).x = (env.p z).x := by
        have n1 : lz ≠ env.cpoint := by omega
        have n2 : lz ≠ env.cpoint + 1 := by omega
        have n3 : z ≠ env.cpoint := by omega
        have n4 : z ≠ env.cpoint + 1 := by omega
        rcases hsp with ⟨-, -, hP3⟩ | ⟨-, c2, -⟩
        · rw [hP3]
          simp [Function.update_apply, n1, n2, n3, n4, n1.symm, n2.symm, n3.symm, n4.symm,
            hab, hab.symm, hqm, hqm.symm, hzpr]
        · exfalso
          apply c2
          simp only [Function.update_apply, if_neg n3, if_neg n4]
          exact hzf
      obtain ⟨g1, g2, g3, g4, g5, g6⟩ := hP3
      have hub := update_adjust_upper P3 P4 params params1 env.cpoint (env.cpoint + 1) z lz z
        g1 g2 (by rw [g3]) (by rw [g4]) (by rw [g5, g6]; exact hpos1.le) hadj
      rw [g5, g6] at hub
      have hX : (0 : α) < XEPS := by
        unfold XEPS
        norm_num
      have : XEPS * (env.p lz).x + (1 - XEPS) * (env.p z).x < (env.p z).x := by
        nlinarith
      exact lt_of_le_of_lt hub this
  · -- the last piece is untouched
    have hlzq : lz ≠ env.cpoint := fun hh => absurd (hlt lz hlzmem) (by omega)
    have hlzs1 : lz ≠ s1 := fun hh => hs1 (hh ▸ hlzmem)
    have hlzs2 : lz ≠ s2 := fun hh => hs2 (hh ▸ hlzmem)
    refine ⟨z, lz, hzl, ?_, ?_⟩
    · rw [(hp1 z).1, (hfr z hza hzb1 hzs1 hzs2).1]
      exact hlz
    · rw [hxz, hxon lz (by rw [hf lz hlzs1 hlzs2]; exact hlzf), hxs lz hlzq]
      exact hpos1

end SegmentReach2

section Nondegenerate2
variable {α : Type} [LinearOrderedField α]

end Nondegenerate2

end Arms
